import Mathlib

/-!
# String-Matching: single-pattern searches (Q1), divide-and-conquer longest common
substring (Q2), Aho-Corasick (Q3)

A shallow embedding of `Q2_23I-0782.cpp`, of the `struct Aho` of `Q3_23I-0782.cpp` and of
the three searches of `Q1_23I-0782.cpp`.

* `std::string` is a list of bytes (`Str`); `A[i]` is `charAt A i`, `A.substr(p, n)` is
  `substr A p n`.
* C++ `int` indices and `long long` hash values are mathematical integers (`Int`).  For
  inputs shorter than `2^30` bytes no index expression of the program leaves the 32-bit
  range, and the hash arithmetic of tables produced by `build` stays below `2^61`.
* `for` loops over an index range are folds over `intRange lo hi`; `while` loops are
  structural recursions over an iteration bound computed from the loop variables
  (the bound is shown to be sufficient by `matchLen_exit`, `crossSearch_fuel_irrel`,
  `bothSearch_fuel_irrel`, for the queue loop of `build_links` by `linkLoop_inv`, and for
  the loops of `computeLPS` and `KMPsearch` by `lpsLoop_spec` and `kmpLoop_spec`).
* `unordered_map<uint64_t, vector<int>>` is an association list from keys to buckets.
-/

set_option autoImplicit false

namespace StringMatching

/-! ## Data model -/

/-- One byte of a `std::string`. -/
abbrev Byte := Fin 256

/-- The contents of a `std::string`. -/
abbrev Str := List Byte

/-- The read `A[i]`.  Reads outside `0 .. |A|-1` are undefined in the source and yield `0`
here; every theorem that depends on a read carries the in-bounds hypotheses. -/
def charAt (A : Str) (i : Int) : Byte :=
  if 0 ≤ i then A.getD i.toNat 0 else 0

/-- The call `A.substr(pos, len)` for `0 ≤ pos ≤ |A|`: at most `len` bytes from `pos`. -/
def substr (A : Str) (pos len : Int) : Str :=
  (A.drop pos.toNat).take len.toNat

/-- The index values `lo, lo+1, ..., hi` visited by `for (x = lo; x <= hi; ++x)`. -/
def intRange (lo hi : Int) : List Int :=
  (List.range (hi + 1 - lo).toNat).map (fun (k : Nat) => lo + (k : Int))

/-- The read `v[i]` of a `vector<long long>` (`0` outside the vector, where the source is
undefined). -/
def vecAt (v : List Int) (i : Int) : Int :=
  if 0 ≤ i then v.getD i.toNat 0 else 0

/-! ## RollingHash -/

/-- The constant `RollingHash::MOD1`. -/
def MOD1 : Int := 1000000007

/-- The constant `RollingHash::MOD2`. -/
def MOD2 : Int := 1000000009

/-- The four vectors of `struct RollingHash`. -/
structure RollingHash where
  h1 : List Int
  h2 : List Int
  p1 : List Int
  p2 : List Int
deriving DecidableEq, Repr

/-- The local `b1 = 911382323 % MOD1` of `build`. -/
def b1 : Int := Int.tmod 911382323 MOD1

/-- The local `b2 = 972663749 % MOD2` of `build`. -/
def b2 : Int := Int.tmod 972663749 MOD2

/-- One iteration of the `for` loop of `build` (the four assignments at index `i + 1`). -/
def buildStep (s : Str) (T : RollingHash) (i : Nat) : RollingHash :=
  { h1 := T.h1.set (i + 1)
      (Int.tmod (vecAt T.h1 i * b1 + ((charAt s i).val : Int) + 1) MOD1)
    h2 := T.h2.set (i + 1)
      (Int.tmod (vecAt T.h2 i * b2 + ((charAt s i).val : Int) + 1) MOD2)
    p1 := T.p1.set (i + 1) (Int.tmod (vecAt T.p1 i * b1) MOD1)
    p2 := T.p2.set (i + 1) (Int.tmod (vecAt T.p2 i * b2) MOD2) }

/-- The vectors of `build` before its loop: `assign(n + 1, 0)` on all four, then
`p1[0] = p2[0] = 1`. -/
def buildInit (n : Nat) : RollingHash :=
  { h1 := List.replicate (n + 1) 0
    h2 := List.replicate (n + 1) 0
    p1 := (List.replicate (n + 1) 0).set 0 1
    p2 := (List.replicate (n + 1) 0).set 0 1 }

/-- The method `RollingHash::build(s)`: the loop fills the entries `1 .. n` of the
initialised vectors (the `baseIn` argument is never read). -/
def build (s : Str) : RollingHash :=
  (List.range s.length).foldl (buildStep s) (buildInit s.length)

/-- The method `RollingHash::getHash(l, r)`, with its two clamping guards. -/
def getHash (T : RollingHash) (l r : Int) : Int × Int :=
  if l > r then (0, 0) else
  let l := if l < 0 then 0 else l
  let r := if r + 1 > (T.h1.length : Int) - 1 then (T.h1.length : Int) - 2 else r
  let x1 := vecAt T.h1 (r + 1)
  let y1 := Int.tmod (vecAt T.h1 l * vecAt T.p1 (r - l + 1)) MOD1
  let res1 := Int.tmod (x1 + MOD1 - y1) MOD1
  let x2 := vecAt T.h2 (r + 1)
  let y2 := Int.tmod (vecAt T.h2 l * vecAt T.p2 (r - l + 1)) MOD2
  let res2 := Int.tmod (x2 + MOD2 - y2) MOD2
  (res1, res2)

/-- The helper `packHash`: both components are cast to `uint32_t` and packed into 64 bits. -/
def packHash (h : Int × Int) : Nat :=
  (((h.1 % 4294967296).toNat) <<< 32) ||| (h.2 % 4294967296).toNat

/-! ## Exact matcher -/

/-- The loop `while (i + k <= aR && j + k <= bR && A[i + k] == B[j + k]) ++k;` started at
`k`, run for at most `fuel` iterations. -/
def matchLen (A : Str) (i aR : Int) (B : Str) (j bR : Int) : Nat → Int → Int
  | 0, k => k
  | fuel + 1, k =>
    if i + k ≤ aR ∧ j + k ≤ bR ∧ charAt A (i + k) = charAt B (j + k) then
      matchLen A i aR B j bR fuel (k + 1)
    else k

/-- The body of the two nested loops of `bruteLCS` at `(i, j)`: extend the match from
`k = 0` (the loop stops after at most `aR - i + 1` steps) and keep it when strictly longer. -/
def bruteStep (A : Str) (aR : Int) (B : Str) (bR : Int) (i : Int) (best : Str) (j : Int) :
    Str :=
  let k := matchLen A i aR B j bR (aR + 1 - i).toNat 0
  if k > (best.length : Int) then substr A i k else best

/-- The function `bruteLCS(A, aL, aR, B, bL, bR)`. -/
def bruteLCS (A : Str) (aL aR : Int) (B : Str) (bL bR : Int) : Str :=
  let la := aR - aL + 1
  let lb := bR - bL + 1
  if la ≤ 0 ∨ lb ≤ 0 then [] else
  (intRange aL aR).foldl
    (fun best i => (intRange bL bR).foldl (bruteStep A aR B bR i) best) []

/-- The loop `while (i + k < |A| && j + k < |B| && A[i + k] == B[j + k]) k++;` of
`verifyLCS`. -/
def verifyLen (A B : Str) (i j : Int) : Nat → Int → Int
  | 0, k => k
  | fuel + 1, k =>
    if i + k < (A.length : Int) ∧ j + k < (B.length : Int) ∧
        charAt A (i + k) = charAt B (j + k) then
      verifyLen A B i j fuel (k + 1)
    else k

/-- The body of the two nested loops of `verifyLCS` at `(i, j)`. -/
def verifyStep (A B : Str) (i : Int) (best : Str) (j : Int) : Str :=
  let k := verifyLen A B i j ((A.length : Int) - i).toNat 0
  if k > (best.length : Int) then substr A i k else best

/-- The function `verifyLCS(A, B)`, the brute-force oracle. -/
def verifyLCS (A B : Str) : Str :=
  (intRange 0 ((A.length : Int) - 1)).foldl
    (fun best i => (intRange 0 ((B.length : Int) - 1)).foldl (verifyStep A B i) best) []

/-! ## Boundary crosser -/

/-- The statement `mp[key].push_back(j)` on the bucket map. -/
def mpPush : List (Nat × List Int) → Nat → Int → List (Nat × List Int)
  | [], key, j => [(key, [j])]
  | (k, v) :: rest, key, j =>
    if k = key then (k, v ++ [j]) :: rest else (k, v) :: mpPush rest key j

/-- The lookup `mp.find(key)`: the bucket of `key`, or `none` for `mp.end()`. -/
def mpFind : List (Nat × List Int) → Nat → Option (List Int)
  | [], _ => none
  | (k, v) :: rest, key => if k = key then some v else mpFind rest key

/-- The loop `for (k = 0; k < L; ++k) if (A[s + k] != B[t + k]) { ok = false; break; }`:
the final value of `ok`. -/
def bytesEqual (A : Str) (s : Int) (B : Str) (t : Int) (L : Int) : Bool :=
  (List.range L.toNat).all
    (fun (k : Nat) => charAt A (s + (k : Int)) == charAt B (t + (k : Int)))

/-- The first loop of `crossCheckA`: the map from the packed fingerprint of every
length-`L` window of `B[bL..bR]` to the list of its start positions. -/
def windowMap (hashB : RollingHash) (bL bR L : Int) : List (Nat × List Int) :=
  (intRange bL (bR - L + 1)).foldl
    (fun mp j => mpPush mp (packHash (getHash hashB j (j + L - 1))) j) []

/-- The function `crossCheckA(A, aL, aR, midA, B, bL, bR, hashA, hashB, L)`. -/
def crossCheckA (A : Str) (aL aR midA : Int) (B : Str) (bL bR : Int)
    (hashA hashB : RollingHash) (L : Int) : Str :=
  if L ≤ 0 then [] else
  let la := aR - aL + 1
  let lb := bR - bL + 1
  if L > la ∨ L > lb then [] else
  let mp := windowMap hashB bL bR L
  let s_min := max aL (midA - L + 1)
  let s_max := min midA (aR - L + 1)
  let found := (intRange s_min s_max).findSome? (fun s =>
    let e := s + L - 1
    if e > aR then none
    else if ¬ (s ≤ midA ∧ e ≥ midA + 1) then none
    else
      match mpFind mp (packHash (getHash hashA s e)) with
      | none => none
      | some bucket =>
        bucket.findSome? (fun posB =>
          if bytesEqual A s B posB L then some (substr A s L) else none))
  match found with
  | some r => r
  | none => []

/-- The function `crossCheckB(A, aL, aR, B, bL, bR, midB, hashA, hashB, L)`. -/
def crossCheckB (A : Str) (aL aR : Int) (B : Str) (bL bR midB : Int)
    (hashA hashB : RollingHash) (L : Int) : Str :=
  if L ≤ 0 then [] else
  let la := aR - aL + 1
  let lb := bR - bL + 1
  if L > la ∨ L > lb then [] else
  let mp := windowMap hashA aL aR L
  let s_min := max bL (midB - L + 1)
  let s_max := min midB (bR - L + 1)
  let found := (intRange s_min s_max).findSome? (fun s =>
    let e := s + L - 1
    if e > bR then none
    else if ¬ (s ≤ midB ∧ e ≥ midB + 1) then none
    else
      match mpFind mp (packHash (getHash hashB s e)) with
      | none => none
      | some bucket =>
        bucket.findSome? (fun posA =>
          if bytesEqual A posA B s L then some (substr B s L) else none))
  match found with
  | some r => r
  | none => []

/-- The binary-search loop shared by `maxCrossA` and `maxCrossB`
(`while (lo <= hi) { mid = (lo + hi) >> 1; cand = check(mid); ... }`), for at most `fuel`
iterations; `check` is the call to `crossCheckA` resp. `crossCheckB` at length `mid`. -/
def crossSearch (check : Int → Str) : Nat → Int → Int → Str → Str
  | 0, _, _, best => best
  | fuel + 1, lo, hi, best =>
    if lo ≤ hi then
      let mid := (lo + hi) / 2
      let cand := check mid
      if cand ≠ [] then
        crossSearch check fuel (mid + 1) hi
          (if (cand.length : Int) > (best.length : Int) then cand else best)
      else
        crossSearch check fuel lo (mid - 1) best
    else best

/-- The function `maxCrossA`; the interval `[lo, hi]` shrinks in every iteration, so
`hi` iterations suffice. -/
def maxCrossA (A : Str) (aL aR midA : Int) (B : Str) (bL bR : Int)
    (hashA hashB : RollingHash) : Str :=
  let la := aR - aL + 1
  let lb := bR - bL + 1
  if la ≤ 0 ∨ lb ≤ 0 then [] else
  crossSearch (fun mid => crossCheckA A aL aR midA B bL bR hashA hashB mid)
    (min la lb).toNat 1 (min la lb) []

/-- The function `maxCrossB`. -/
def maxCrossB (A : Str) (aL aR : Int) (B : Str) (bL bR midB : Int)
    (hashA hashB : RollingHash) : Str :=
  let la := aR - aL + 1
  let lb := bR - bL + 1
  if la ≤ 0 ∨ lb ≤ 0 then [] else
  crossSearch (fun mid => crossCheckB A aL aR B bL bR midB hashA hashB mid)
    (min la lb).toNat 1 (min la lb) []

/-! ## Dual-midpoint refiner -/

/-- The inner `while (lo <= hi)` loop of `crossCheckBothMidpoints` for one pair
`(startA, startB)`: the final value of `len`. -/
def bothSearch (A : Str) (aL : Int) (B : Str) (bL : Int) (hashA hashB : RollingHash)
    (startA startB : Int) : Nat → Int → Int → Int → Int
  | 0, _, _, len => len
  | fuel + 1, lo, hi, len =>
    if lo ≤ hi then
      let mid_len := (lo + hi) / 2
      let relA_l := startA - aL
      let relA_r := relA_l + mid_len - 1
      let relB_l := startB - bL
      let relB_r := relB_l + mid_len - 1
      if relA_l < 0 ∨ relA_r ≥ (hashA.h1.length : Int) - 1 ∨
          relB_l < 0 ∨ relB_r ≥ (hashB.h1.length : Int) - 1 then
        bothSearch A aL B bL hashA hashB startA startB fuel lo (mid_len - 1) len
      else if getHash hashA relA_l relA_r = getHash hashB relB_l relB_r then
        if bytesEqual A startA B startB mid_len then
          bothSearch A aL B bL hashA hashB startA startB fuel (mid_len + 1) hi mid_len
        else
          bothSearch A aL B bL hashA hashB startA startB fuel lo (mid_len - 1) len
      else
        bothSearch A aL B bL hashA hashB startA startB fuel lo (mid_len - 1) len
    else len

/-- The body of the two nested loops of `crossCheckBothMidpoints` at `(startA, startB)`. -/
def bothStep (A : Str) (aL aR midA : Int) (B : Str) (bL bR midB : Int)
    (hashA hashB : RollingHash) (startA : Int) (best : Str) (startB : Int) : Str :=
  let max_len := min (aR - startA + 1) (bR - startB + 1)
  let len := bothSearch A aL B bL hashA hashB startA startB max_len.toNat 1 max_len 0
  if len > (best.length : Int) ∧ startA ≤ midA ∧ startA + len - 1 ≥ midA ∧
      startB ≤ midB ∧ startB + len - 1 ≥ midB then
    substr A startA len
  else best

/-- The function `crossCheckBothMidpoints` (its local `max_possible_len` is never read). -/
def crossCheckBothMidpoints (A : Str) (aL aR midA : Int) (B : Str) (bL bR midB : Int)
    (hashA hashB : RollingHash) : Str :=
  let search_range := min 100 (min (midA - aL + 1) (midB - bL + 1))
  (intRange (max aL (midA - search_range)) midA).foldl
    (fun best startA =>
      (intRange (max bL (midB - search_range)) midB).foldl
        (bothStep A aL aR midA B bL bR midB hashA hashB startA) best) []

/-! ## Recursive orchestrator -/

/-- The constant `BRUTE_THRESHOLD`. -/
def BRUTE_THRESHOLD : Int := 120

/-- The merge at the end of `lcs_divide_conquer`: a later candidate replaces the running
answer only when strictly longer. -/
def mergeFive (left right crossA crossB crossBoth : Str) : Str :=
  let ans := left
  let ans := if (right.length : Int) > (ans.length : Int) then right else ans
  let ans := if (crossA.length : Int) > (ans.length : Int) then crossA else ans
  let ans := if (crossB.length : Int) > (ans.length : Int) then crossB else ans
  let ans := if (crossBoth.length : Int) > (ans.length : Int) then crossBoth else ans
  ans

/-- The function `lcs_divide_conquer(A, aL, aR, B, bL, bR)` (the unused `depth` argument is
dropped).  `>> 1` on an `int` is the floor division by two. -/
def lcs_divide_conquer (A : Str) (aL aR : Int) (B : Str) (bL bR : Int) : Str :=
  if aR - aL + 1 ≤ 0 ∨ bR - bL + 1 ≤ 0 then [] else
  if aR - aL + 1 ≤ BRUTE_THRESHOLD ∨ bR - bL + 1 ≤ BRUTE_THRESHOLD then
    bruteLCS A aL aR B bL bR
  else
    let la := aR - aL + 1
    let lb := bR - bL + 1
    let subA := substr A aL la
    let subB := substr B bL lb
    let absHashA := build subA
    let absHashB := build subB
    let midA := (aL + aR) / 2
    let midB := (bL + bR) / 2
    let left := lcs_divide_conquer A aL midA B bL midB
    let right := lcs_divide_conquer A (midA + 1) aR B (midB + 1) bR
    let midA_rel := midA - aL
    let midB_rel := midB - bL
    let crossA := maxCrossA subA 0 (la - 1) midA_rel subB 0 (lb - 1) absHashA absHashB
    let crossB := maxCrossB subA 0 (la - 1) subB 0 (lb - 1) midB_rel absHashA absHashB
    let crossBoth := crossCheckBothMidpoints A aL aR midA B bL bR midB absHashA absHashB
    mergeFive left right crossA crossB crossBoth
termination_by (aR - aL + 1).toNat
decreasing_by
  all_goals simp_wf
  all_goals simp only [BRUTE_THRESHOLD] at *
  all_goals omega

/-- The function `longestCommonSubstring(A, B)`. -/
def longestCommonSubstring (A B : Str) : Str :=
  if A = [] ∨ B = [] then [] else
  lcs_divide_conquer A 0 ((A.length : Int) - 1) B 0 ((B.length : Int) - 1)

/-! ## Specification predicates -/

/-- The string `S` occurs inside `A[lo..hi]`: there is a start `i` with `lo ≤ i`,
`i + |S| - 1 ≤ hi` and `A[i .. i+|S|) = S`. -/
def OccursIn (S A : Str) (lo hi : Int) : Prop :=
  ∃ i : Int, lo ≤ i ∧ i + S.length ≤ hi + 1 ∧ substr A i S.length = S

/-- The predicate kept by the loops of `crossCheckBothMidpoints`: the running best is
empty or a common window that contains both midpoints. -/
def StraddlesBoth (A : Str) (aL aR midA : Int) (B : Str) (bL bR midB : Int) (R : Str) :
    Prop :=
  R = [] ∨ ∃ a b : Int, aL ≤ a ∧ a ≤ midA ∧ midA ≤ a + R.length - 1 ∧ a + R.length - 1 ≤ aR ∧
    bL ≤ b ∧ b ≤ midB ∧ midB ≤ b + R.length - 1 ∧ b + R.length - 1 ≤ bR ∧
    R = substr A a R.length ∧ R = substr B b R.length

/-- The byte contents of a string literal. -/
def bytes (s : String) : Str := s.toList.map (fun c => Fin.ofNat c.toNat)

/-- A 121-byte input whose only byte shared with `farB` is its first one. -/
def farA : Str := 120 :: List.replicate 120 97

/-- A 121-byte input whose only byte shared with `farA` is its last one. -/
def farB : Str := List.replicate 120 98 ++ [120]

/-- Specification of a fingerprint, not taken from the code: the polynomial
`Σ_i (t[i] + 1) * b^(|t| - 1 - i)` over the integers. -/
def polySum (b : Int) (t : Str) : Int :=
  ((List.range t.length).map
    (fun (i : Nat) => (((t.getD i 0).val : Int) + 1) * b ^ (t.length - 1 - i))).sum

/-- Specification of a fingerprint component, `Hk(t) = Σ_i (t[i] + 1) * bk^(|t| - 1 - i)
mod MODk`; `build` and `getHash` are compared against it. -/
def polyHash (b M : Int) (t : Str) : Int := polySum b t % M

/-- The candidate `left` of the Split state. -/
def candLeft (A : Str) (aL aR : Int) (B : Str) (bL bR : Int) : Str :=
  lcs_divide_conquer A aL ((aL + aR) / 2) B bL ((bL + bR) / 2)

/-- The candidate `right` of the Split state. -/
def candRight (A : Str) (aL aR : Int) (B : Str) (bL bR : Int) : Str :=
  lcs_divide_conquer A ((aL + aR) / 2 + 1) aR B ((bL + bR) / 2 + 1) bR

/-- The candidate `crossA` of the Split state. -/
def candCrossA (A : Str) (aL aR : Int) (B : Str) (bL bR : Int) : Str :=
  maxCrossA (substr A aL (aR - aL + 1)) 0 (aR - aL + 1 - 1) ((aL + aR) / 2 - aL)
    (substr B bL (bR - bL + 1)) 0 (bR - bL + 1 - 1)
    (build (substr A aL (aR - aL + 1))) (build (substr B bL (bR - bL + 1)))

/-- The candidate `crossB` of the Split state. -/
def candCrossB (A : Str) (aL aR : Int) (B : Str) (bL bR : Int) : Str :=
  maxCrossB (substr A aL (aR - aL + 1)) 0 (aR - aL + 1 - 1)
    (substr B bL (bR - bL + 1)) 0 (bR - bL + 1 - 1) ((bL + bR) / 2 - bL)
    (build (substr A aL (aR - aL + 1))) (build (substr B bL (bR - bL + 1)))

/-- The candidate `crossBoth` of the Split state. -/
def candCrossBoth (A : Str) (aL aR : Int) (B : Str) (bL bR : Int) : Str :=
  crossCheckBothMidpoints A aL aR ((aL + aR) / 2) B bL bR ((bL + bR) / 2)
    (build (substr A aL (aR - aL + 1))) (build (substr B bL (bR - bL + 1)))

/-- A table of the size built for a slice of four bytes (five entries per vector) in which
every entry is `0`: every query `0 ≤ l ≤ r ≤ 3` is in range and returns the fingerprint
`(0, 0)`, so all windows collide. -/
def collidingTable : RollingHash :=
  { h1 := [0, 0, 0, 0, 0], h2 := [0, 0, 0, 0, 0], p1 := [0, 0, 0, 0, 0],
    p2 := [0, 0, 0, 0, 0] }

/-- A 121-byte input: `x`, 119 times `a`, `y`. -/
def tieA : Str := [120] ++ List.replicate 119 97 ++ [121]

/-- A 121-byte input: `x`, 119 times `b`, `y`; it shares with `tieA` the first byte, in
the left halves, and the last byte, in the right halves. -/
def tieB : Str := [120] ++ List.replicate 119 98 ++ [121]

/-- The body of the anchor loop of `crossCheckA` for one start `s`: `none` stands for
`continue`, `some r` for `return r`. -/
def anchorBody (A : Str) (aR midA : Int) (B : Str) (mp : List (Nat × List Int))
    (hashA : RollingHash) (L : Int) (s : Int) : Option Str :=
  let e := s + L - 1
  if e > aR then none
  else if ¬ (s ≤ midA ∧ e ≥ midA + 1) then none
  else
    match mpFind mp (packHash (getHash hashA s e)) with
    | none => none
    | some bucket =>
      bucket.findSome? (fun posB =>
        if bytesEqual A s B posB L then some (substr A s L) else none)

/-- The window `A[s .. s+L)` lies in `A[aL..aR]`, has its first byte at or before `midA` and
its last byte after `midA`, and equals the window `B[j .. j+L)` of `B[bL..bR]`. -/
def CrossMatch (A : Str) (aL aR midA : Int) (B : Str) (bL bR : Int) (L s j : Int) : Prop :=
  aL ≤ s ∧ s ≤ midA ∧ midA + 1 ≤ s + L - 1 ∧ s + L - 1 ≤ aR ∧
    bL ≤ j ∧ j ≤ bR - L + 1 ∧ substr A s L = substr B j L

/-- A 121-byte input with `"xy"` on the two bytes around its midpoint (offsets 60, 61). -/
def twoA : Str := List.replicate 60 97 ++ [120, 121] ++ List.replicate 59 97

/-- A 121-byte input that starts with `"xy"` and shares no other byte with `twoA`. -/
def twoB : Str := [120, 121] ++ List.replicate 119 98

/-- The bytes `A[i .. i+len)` and `B[j .. j+len)` lie inside `A[..aR]`, `B[..bR]` and are
equal: `(i, j)` has a common extension of length `len`. -/
def CommonAt (A : Str) (aR : Int) (B : Str) (bR : Int) (i j len : Int) : Prop :=
  0 ≤ len ∧ i + len ≤ aR + 1 ∧ j + len ≤ bR + 1 ∧
    ∀ m : Int, 0 ≤ m → m < len → charAt A (i + m) = charAt B (j + m)

/-- The value of `k` after the extension loop of `bruteLCS` at the start pair `(i, j)`. -/
def commonExt (A : Str) (aR : Int) (B : Str) (bR : Int) (i j : Int) : Int :=
  matchLen A i aR B j bR (aR + 1 - i).toNat 0

/-- The invariant of the double scan of `bruteLCS` over the set `V` of start pairs visited
so far: `best` is at least as long as every visited extension, and when non-empty it is the
window of the visited pair with the smallest `i` among those of that length. -/
def ScanInv (A : Str) (aR : Int) (B : Str) (bR : Int) (V : Int → Int → Prop) (best : Str) :
    Prop :=
  (∀ i j, V i j → commonExt A aR B bR i j ≤ (best.length : Int)) ∧
  (best = [] ∨ ∃ i0 j0, V i0 j0 ∧ commonExt A aR B bR i0 j0 = (best.length : Int) ∧
    best = substr A i0 (best.length : Int) ∧
    ∀ i j, V i j → commonExt A aR B bR i j = (best.length : Int) → i0 ≤ i)

/-- The length `ext` is the largest `len` with `A[a .. a+len) = B[b .. b+len)` inside
`A[..aR]` and `B[..bR]`. -/
def IsExt (A : Str) (aR : Int) (B : Str) (bR : Int) (a b ext : Int) : Prop :=
  CommonAt A aR B bR a b ext ∧ ∀ len, CommonAt A aR B bR a b len → len ≤ ext

/-- The value of `len` after the inner binary search of `crossCheckBothMidpoints` at the
start pair `(a, b)`. -/
def bothLen (A : Str) (aL aR : Int) (B : Str) (bL bR : Int) (hashA hashB : RollingHash)
    (a b : Int) : Int :=
  bothSearch A aL B bL hashA hashB a b (min (aR - a + 1) (bR - b + 1)).toNat 1
    (min (aR - a + 1) (bR - b + 1)) 0

/-- The start pair `(a, b)` lies in the window probed by `crossCheckBothMidpoints`, with
`w = min(100, midA - aL + 1, midB - bL + 1)`. -/
def InProbeWindow (aL midA bL midB a b : Int) : Prop :=
  max aL (midA - min 100 (min (midA - aL + 1) (midB - bL + 1))) ≤ a ∧ a ≤ midA ∧
    max bL (midB - min 100 (min (midA - aL + 1) (midB - bL + 1))) ≤ b ∧ b ≤ midB

/-- The running best of `crossCheckBothMidpoints` is empty or the longest common extension
of a probed start pair, containing both midpoints. -/
def RefinerInv (A : Str) (aL aR midA : Int) (B : Str) (bL bR midB : Int) (R : Str) : Prop :=
  R = [] ∨ ∃ a b : Int, InProbeWindow aL midA bL midB a b ∧
    IsExt A aR B bR a b (R.length : Int) ∧
    a + (R.length : Int) - 1 ≥ midA ∧ b + (R.length : Int) - 1 ≥ midB ∧
    R = substr A a (R.length : Int) ∧ R = substr B b (R.length : Int)

/-! ## The program with a fingerprint query that fails outside the table -/

/-- A variant of `getHash` that fails (`none`) unless `0 ≤ l ≤ r ≤ n - 1` for the length
`n = h1.size() - 1` of the slice the table was built from. -/
def getHashStrict (T : RollingHash) (l r : Int) : Option (Int × Int) :=
  if l < 0 ∨ l > r ∨ r + 1 > (T.h1.length : Int) - 1 then none else some (getHash T l r)

/-- The first loop of `crossCheckA` over the failing query. -/
def windowMapStrict (hashB : RollingHash) (bL bR L : Int) : Option (List (Nat × List Int)) :=
  (intRange bL (bR - L + 1)).foldlM
    (fun mp j =>
      match getHashStrict hashB j (j + L - 1) with
      | none => none
      | some h => some (mpPush mp (packHash h) j)) []

/-- The body of the anchor loop of `crossCheckA` over the failing query: the outer `none`
is a failed query, `some none` is `continue`, `some (some r)` is `return r`. -/
def anchorBodyStrict (A : Str) (aR midA : Int) (B : Str) (mp : List (Nat × List Int))
    (hashA : RollingHash) (L : Int) (s : Int) : Option (Option Str) :=
  let e := s + L - 1
  if e > aR then some none
  else if ¬ (s ≤ midA ∧ e ≥ midA + 1) then some none
  else
    match getHashStrict hashA s e with
    | none => none
    | some h =>
      match mpFind mp (packHash h) with
      | none => some none
      | some bucket =>
        some (bucket.findSome? (fun posB =>
          if bytesEqual A s B posB L then some (substr A s L) else none))

/-- The anchor loop with its early `return`, stopping at the first failed query. -/
def anchorLoopStrict (body : Int → Option (Option Str)) : List Int → Option (Option Str)
  | [] => some none
  | s :: rest =>
    match body s with
    | none => none
    | some (some r) => some (some r)
    | some none => anchorLoopStrict body rest

/-- The function `crossCheckA` over the failing query. -/
def crossCheckAStrict (A : Str) (aL aR midA : Int) (B : Str) (bL bR : Int)
    (hashA hashB : RollingHash) (L : Int) : Option Str :=
  if L ≤ 0 then some [] else
  let la := aR - aL + 1
  let lb := bR - bL + 1
  if L > la ∨ L > lb then some [] else
  match windowMapStrict hashB bL bR L with
  | none => none
  | some mp =>
    let s_min := max aL (midA - L + 1)
    let s_max := min midA (aR - L + 1)
    match anchorLoopStrict (anchorBodyStrict A aR midA B mp hashA L) (intRange s_min s_max) with
    | none => none
    | some (some r) => some r
    | some none => some []

/-- The body of the anchor loop of `crossCheckB` over the failing query. -/
def anchorBodyStrictB (A : Str) (B : Str) (bR midB : Int) (mp : List (Nat × List Int))
    (hashB : RollingHash) (L : Int) (s : Int) : Option (Option Str) :=
  let e := s + L - 1
  if e > bR then some none
  else if ¬ (s ≤ midB ∧ e ≥ midB + 1) then some none
  else
    match getHashStrict hashB s e with
    | none => none
    | some h =>
      match mpFind mp (packHash h) with
      | none => some none
      | some bucket =>
        some (bucket.findSome? (fun posA =>
          if bytesEqual A posA B s L then some (substr B s L) else none))

/-- The function `crossCheckB` over the failing query. -/
def crossCheckBStrict (A : Str) (aL aR : Int) (B : Str) (bL bR midB : Int)
    (hashA hashB : RollingHash) (L : Int) : Option Str :=
  if L ≤ 0 then some [] else
  let la := aR - aL + 1
  let lb := bR - bL + 1
  if L > la ∨ L > lb then some [] else
  match windowMapStrict hashA aL aR L with
  | none => none
  | some mp =>
    let s_min := max bL (midB - L + 1)
    let s_max := min midB (bR - L + 1)
    match anchorLoopStrict (anchorBodyStrictB A B bR midB mp hashB L) (intRange s_min s_max) with
    | none => none
    | some (some r) => some r
    | some none => some []

/-- The binary search of `maxCrossA` / `maxCrossB` over a check that may fail. -/
def crossSearchStrict (check : Int → Option Str) : Nat → Int → Int → Str → Option Str
  | 0, _, _, best => some best
  | fuel + 1, lo, hi, best =>
    if lo ≤ hi then
      let mid := (lo + hi) / 2
      match check mid with
      | none => none
      | some cand =>
        if cand ≠ [] then
          crossSearchStrict check fuel (mid + 1) hi
            (if (cand.length : Int) > (best.length : Int) then cand else best)
        else
          crossSearchStrict check fuel lo (mid - 1) best
    else some best

/-- The function `maxCrossA` over the failing query. -/
def maxCrossAStrict (A : Str) (aL aR midA : Int) (B : Str) (bL bR : Int)
    (hashA hashB : RollingHash) : Option Str :=
  let la := aR - aL + 1
  let lb := bR - bL + 1
  if la ≤ 0 ∨ lb ≤ 0 then some [] else
  crossSearchStrict (fun mid => crossCheckAStrict A aL aR midA B bL bR hashA hashB mid)
    (min la lb).toNat 1 (min la lb) []

/-- The function `maxCrossB` over the failing query. -/
def maxCrossBStrict (A : Str) (aL aR : Int) (B : Str) (bL bR midB : Int)
    (hashA hashB : RollingHash) : Option Str :=
  let la := aR - aL + 1
  let lb := bR - bL + 1
  if la ≤ 0 ∨ lb ≤ 0 then some [] else
  crossSearchStrict (fun mid => crossCheckBStrict A aL aR B bL bR midB hashA hashB mid)
    (min la lb).toNat 1 (min la lb) []

/-- The inner binary search of `crossCheckBothMidpoints` over the failing query. -/
def bothSearchStrict (A : Str) (aL : Int) (B : Str) (bL : Int) (hashA hashB : RollingHash)
    (startA startB : Int) : Nat → Int → Int → Int → Option Int
  | 0, _, _, len => some len
  | fuel + 1, lo, hi, len =>
    if lo ≤ hi then
      let mid_len := (lo + hi) / 2
      let relA_l := startA - aL
      let relA_r := relA_l + mid_len - 1
      let relB_l := startB - bL
      let relB_r := relB_l + mid_len - 1
      if relA_l < 0 ∨ relA_r ≥ (hashA.h1.length : Int) - 1 ∨
          relB_l < 0 ∨ relB_r ≥ (hashB.h1.length : Int) - 1 then
        bothSearchStrict A aL B bL hashA hashB startA startB fuel lo (mid_len - 1) len
      else
        match getHashStrict hashA relA_l relA_r, getHashStrict hashB relB_l relB_r with
        | some hash1, some hash2 =>
          if hash1 = hash2 then
            if bytesEqual A startA B startB mid_len then
              bothSearchStrict A aL B bL hashA hashB startA startB fuel (mid_len + 1) hi mid_len
            else
              bothSearchStrict A aL B bL hashA hashB startA startB fuel lo (mid_len - 1) len
          else
            bothSearchStrict A aL B bL hashA hashB startA startB fuel lo (mid_len - 1) len
        | _, _ => none
    else some len

/-- The body of the two nested loops of `crossCheckBothMidpoints` over the failing query. -/
def bothStepStrict (A : Str) (aL aR midA : Int) (B : Str) (bL bR midB : Int)
    (hashA hashB : RollingHash) (startA : Int) (best : Str) (startB : Int) : Option Str :=
  let max_len := min (aR - startA + 1) (bR - startB + 1)
  match bothSearchStrict A aL B bL hashA hashB startA startB max_len.toNat 1 max_len 0 with
  | none => none
  | some len =>
    if len > (best.length : Int) ∧ startA ≤ midA ∧ startA + len - 1 ≥ midA ∧
        startB ≤ midB ∧ startB + len - 1 ≥ midB then
      some (substr A startA len)
    else some best

/-- The function `crossCheckBothMidpoints` over the failing query. -/
def crossCheckBothMidpointsStrict (A : Str) (aL aR midA : Int) (B : Str) (bL bR midB : Int)
    (hashA hashB : RollingHash) : Option Str :=
  let search_range := min 100 (min (midA - aL + 1) (midB - bL + 1))
  (intRange (max aL (midA - search_range)) midA).foldlM
    (fun best startA =>
      (intRange (max bL (midB - search_range)) midB).foldlM
        (bothStepStrict A aL aR midA B bL bR midB hashA hashB startA) best) []

/-- The function `lcs_divide_conquer` over the failing query: a failed query in any of the
five candidates makes the whole call fail. -/
def lcs_divide_conquer_strict (A : Str) (aL aR : Int) (B : Str) (bL bR : Int) : Option Str :=
  if aR - aL + 1 ≤ 0 ∨ bR - bL + 1 ≤ 0 then some [] else
  if aR - aL + 1 ≤ BRUTE_THRESHOLD ∨ bR - bL + 1 ≤ BRUTE_THRESHOLD then
    some (bruteLCS A aL aR B bL bR)
  else
    let la := aR - aL + 1
    let lb := bR - bL + 1
    let subA := substr A aL la
    let subB := substr B bL lb
    let absHashA := build subA
    let absHashB := build subB
    let midA := (aL + aR) / 2
    let midB := (bL + bR) / 2
    match lcs_divide_conquer_strict A aL midA B bL midB with
    | none => none
    | some left =>
      match lcs_divide_conquer_strict A (midA + 1) aR B (midB + 1) bR with
      | none => none
      | some right =>
        let midA_rel := midA - aL
        let midB_rel := midB - bL
        match maxCrossAStrict subA 0 (la - 1) midA_rel subB 0 (lb - 1) absHashA absHashB,
          maxCrossBStrict subA 0 (la - 1) subB 0 (lb - 1) midB_rel absHashA absHashB,
          crossCheckBothMidpointsStrict A aL aR midA B bL bR midB absHashA absHashB with
        | some crossA, some crossB , some crossBoth =>
          some (mergeFive left right crossA crossB crossBoth)
        | _, _, _ => none
termination_by (aR - aL + 1).toNat
decreasing_by
  all_goals simp_wf
  all_goals simp only [BRUTE_THRESHOLD] at *
  all_goals omega

/-- The function `longestCommonSubstring` over the failing query. -/
def longestCommonSubstringStrict (A B : Str) : Option Str :=
  if A = [] ∨ B = [] then some [] else
  lcs_divide_conquer_strict A 0 ((A.length : Int) - 1) B 0 ((B.length : Int) - 1)

/-- The body of the anchor loop of `crossCheckB` for one start `s`. -/
def anchorBodyB (A : Str) (B : Str) (bR midB : Int) (mp : List (Nat × List Int))
    (hashB : RollingHash) (L : Int) (s : Int) : Option Str :=
  let e := s + L - 1
  if e > bR then none
  else if ¬ (s ≤ midB ∧ e ≥ midB + 1) then none
  else
    match mpFind mp (packHash (getHash hashB s e)) with
    | none => none
    | some bucket =>
      bucket.findSome? (fun posA =>
        if bytesEqual A posA B s L then some (substr B s L) else none)

/-! ## Aho-Corasick automaton (`Q3_23I-0782.cpp`)

Node indices, character ids and pattern ids are C++ `int`s, modelled as integers; `-1`
is the "absent" value of `next` and `link`, as in the source. -/

/-- The constant `CH_L`. -/
def CH_L : Int := 32

/-- The constant `CH_R`. -/
def CH_R : Int := 126

/-- The constant `ALPH`. -/
def ALPH : Int := CH_R - CH_L + 1

/-- The function `ch_id`. -/
def ch_id (c : Byte) : Int :=
  if (c.val : Int) < CH_L ∨ (c.val : Int) > CH_R then -1 else (c.val : Int) - CH_L

/-- The function `norm_char`: ASCII upper-case letters are mapped to lower case. -/
def norm_char (c : Byte) : Byte :=
  if 65 ≤ c.val ∧ c.val ≤ 90 then c - 65 + 97 else c

/-- The `struct Node`. -/
structure Node where
  next : List Int
  link : Int
  out : List Int
deriving DecidableEq, Repr

/-- The constructor `Node()`. -/
def Node.fresh : Node := { next := List.replicate ALPH.toNat (-1), link := -1, out := [] }

/-- The member `trie` of `struct Aho`. -/
abbrev Trie := List Node

/-- The constructor `Aho()`: a trie with the root only. -/
def Aho.init : Trie := [Node.fresh]

/-- The read `trie[v]` (a fresh node outside the vector, where the source is undefined). -/
def nodeAt (t : Trie) (v : Int) : Node := t.getD v.toNat Node.fresh

/-- The read `trie[v].next[c]`. -/
def nextAt (t : Trie) (v c : Int) : Int := (nodeAt t v).next.getD c.toNat (-1)

/-- An in-place update of the node `trie[v]`. -/
def modifyNode (t : Trie) (v : Int) (f : Node → Node) : Trie :=
  t.set v.toNat (f (nodeAt t v))

/-- The assignment `trie[v].next[c] = x`. -/
def setNext (t : Trie) (v c x : Int) : Trie :=
  modifyNode t v (fun n => { n with next := n.next.set c.toNat x })

/-- The assignment `trie[v].link = x`. -/
def setLink (t : Trie) (v x : Int) : Trie :=
  modifyNode t v (fun n => { n with link := x })

/-- The statement `trie[v].out.push_back(pid)`. -/
def pushOut (t : Trie) (v pid : Int) : Trie :=
  modifyNode t v (fun n => { n with out := n.out ++ [pid] })

/-- The common body of the expansion loops of `insert_pattern` for one node and one
character id: follow the edge, creating the child when it is absent, and push the child
on `next_nodes`.  The state is `(trie, next_nodes)`. -/
def insertEdge (id : Int) (st : Trie × List Int) (node : Int) : Trie × List Int :=
  let nxt := nextAt st.1 node id
  if nxt = -1 then
    let nxt := (st.1.length : Int)
    ((setNext st.1 node id nxt) ++ [Node.fresh], st.2 ++ [nxt])
  else (st.1, st.2 ++ [nxt])

/-- The call `unique` on a sorted vector: consecutive duplicates are removed. -/
def uniqueAdj : List Int → List Int
  | [] => []
  | [x] => [x]
  | x :: y :: rest => if x = y then uniqueAdj (y :: rest) else x :: uniqueAdj (y :: rest)

/-- One iteration of the loop over the characters of the pattern in `insert_pattern`; the
state is `(trie, cur_nodes)`. -/
def insertChar (st : Trie × List Int) (cc : Byte) : Trie × List Int :=
  let c := norm_char cc
  let r : Trie × List Int :=
    if c.val = 63 then
      st.2.foldl (fun s node =>
        (intRange CH_L CH_R).foldl (fun s2 ch => insertEdge (ch - CH_L) s2 node) s) (st.1, [])
    else
      let cid := ch_id c
      if cid = -1 then (st.1, st.2.foldl (fun nn node => nn ++ [node]) [])
      else st.2.foldl (insertEdge cid) (st.1, [])
  (r.1, uniqueAdj (r.2.insertionSort (· ≤ ·)))

/-- The method `insert_pattern(pat, pid)`. -/
def insert_pattern (t : Trie) (pat : Str) (pid : Int) : Trie :=
  let st := pat.foldl insertChar (t, [0])
  st.2.foldl (fun t node => pushOut t node pid) st.1

/-- The body of the first loop of `build_links` (children of the root); the state is
`(trie, q)`. -/
def rootStep (st : Trie × List Int) (c : Int) : Trie × List Int :=
  let v := nextAt st.1 0 c
  if v ≠ -1 then (setLink st.1 v 0, st.2 ++ [v])
  else (setNext st.1 0 c 0, st.2)

/-- The body of the `for` loop inside the `while` loop of `build_links` for the node `v`;
the pattern ids of the link target are read before `trie[u].out` grows. -/
def linkStep (v : Int) (st : Trie × List Int) (c : Int) : Trie × List Int :=
  let u := nextAt st.1 v c
  if u ≠ -1 then
    let j := (nodeAt st.1 v).link
    let t1 := setLink st.1 u (nextAt st.1 j c)
    let t2 := (nodeAt t1 (nodeAt t1 u).link).out.foldl (fun t pid => pushOut t u pid) t1
    (t2, st.2 ++ [u])
  else (setNext st.1 v c (nextAt st.1 (nodeAt st.1 v).link c), st.2)

/-- The `while (!q.empty())` loop of `build_links`, for at most `fuel` dequeued nodes. -/
def linkLoop : Nat → Trie × List Int → Trie
  | 0, st => st.1
  | fuel + 1, (t, q) =>
    match q with
    | [] => t
    | v :: rest => linkLoop fuel ((intRange 0 (ALPH - 1)).foldl (linkStep v) (t, rest))

/-- The method `build_links()`; on a trie every node is enqueued at most once, so
`trie.size()` iterations of the `while` loop suffice. -/
def build_links (t : Trie) : Trie :=
  linkLoop t.length ((intRange 0 (ALPH - 1)).foldl rootStep (setLink t 0 0, []))

/-- The body of the loop of `search_all` at position `i`; the state is `(v, res)`. -/
def searchStep (t : Trie) (text : Str) (st : Int × List (Int × Int)) (i : Int) :
    Int × List (Int × Int) :=
  let c := norm_char (charAt text i)
  let cid := ch_id c
  if cid = -1 then (0, st.2)
  else
    let v := nextAt t st.1 cid
    (v, (nodeAt t v).out.foldl (fun res pid => res ++ [(i, pid)]) st.2)

/-- The method `search_all(text)`: the pairs `(end index, pattern id)`. -/
def search_all (t : Trie) (text : Str) : List (Int × Int) :=
  ((intRange 0 ((text.length : Int) - 1)).foldl (searchStep t text) (0, [])).2

/-- The loop `for (i = 0; i < patterns.size(); ++i) aho.insert_pattern(patterns[i], i)`,
started at pattern id `k`. -/
def insertAll : Trie → List Str → Int → Trie
  | t, [], _ => t
  | t, p :: ps, k => insertAll (insert_pattern t p k) ps (k + 1)

/-- The automaton for the patterns `p_0 .. p_{m-1}`: all inserts, then `build_links()`. -/
def automaton (pats : List Str) : Trie :=
  build_links (insertAll Aho.init pats 0)

/-- Specification: the pattern byte `p` matches the text byte `c`: a `?` (63) matches any
printable byte (32 .. 126); any other byte matches itself, an upper-case ASCII letter
(65 .. 90) also matches its lower-case form (32 higher), and a lower-case ASCII letter
(97 .. 122) also matches its upper-case form (32 lower). -/
def byteMatches (p c : Byte) : Prop :=
  if p.val = 63 then 32 ≤ c.val ∧ c.val ≤ 126
  else p = c ∨ (65 ≤ p.val ∧ p.val ≤ 90 ∧ c.val = p.val + 32) ∨
    (97 ≤ p.val ∧ p.val ≤ 122 ∧ c.val + 32 = p.val)

/-- Specification: the window `text[i - |pat| + 1 .. i]` exists and matches `pat` position
by position. -/
def MatchesAt (pat text : Str) (i : Int) : Prop :=
  0 ≤ i - pat.length + 1 ∧ i < text.length ∧
    ∀ r : Nat, r < pat.length →
      byteMatches (pat.getD r 0) (charAt text (i - pat.length + 1 + r))

/-- The byte `c` is printable ASCII. -/
def Printable (c : Byte) : Prop := 32 ≤ c.val ∧ c.val ≤ 126

/-- The integer `c` is a character id of the alphabet, `0 ≤ c < ALPH`. -/
def InAlph (c : Int) : Prop := 0 ≤ c ∧ c < 95

/-- Specification: the pattern byte `p` admits the character id `c`: a `?` admits every
id, any other byte the id of its lower-case form. -/
def SymMatches (p : Byte) (c : Int) : Prop :=
  InAlph c ∧ ((norm_char p).val = 63 ∨ c = ch_id (norm_char p))

/-- Specification: the word `w` of character ids is an expansion of the pattern `pat`. -/
def WordMatches (pat : Str) (w : List Int) : Prop := List.Forall₂ SymMatches pat w

/-- The vector `t` represents a trie: `word n` is the string spelled on the path from the
root to the node `n`, distinct nodes spell distinct strings, and every node but the root
hangs on an edge. -/
structure TrieRep (t : Trie) (word : Int → List Int) : Prop where
  root : word 0 = []
  pos : 0 < t.length
  nextLen : ∀ n : Int, 0 ≤ n → n < t.length → (nodeAt t n).next.length = 95
  edge : ∀ n c : Int, 0 ≤ n → n < t.length → InAlph c → nextAt t n c ≠ -1 →
    0 < nextAt t n c ∧ nextAt t n c < t.length ∧ word (nextAt t n c) = word n ++ [c]
  inj : ∀ n m : Int, 0 ≤ n → n < t.length → 0 ≤ m → m < t.length → word n = word m → n = m
  parent : ∀ m : Int, 0 < m → m < t.length →
    ∃ p c : Int, 0 ≤ p ∧ p < t.length ∧ InAlph c ∧ nextAt t p c = m

/-- The `out` list of every node holds, once each, the ids of the inserted patterns that
the word of the node is an expansion of. -/
def OutSpec (t : Trie) (word : Int → List Int) (pats : List (Str × Int)) : Prop :=
  ∀ n : Int, 0 ≤ n → n < t.length → (nodeAt t n).out.Nodup ∧
    ∀ k, k ∈ (nodeAt t n).out ↔ ∃ pat, (pat, k) ∈ pats ∧ WordMatches pat (word n)

/-- Every expansion of every inserted pattern is the word of a node. -/
def CompleteFor (t : Trie) (word : Int → List Int) (pats : List (Str × Int)) : Prop :=
  ∀ pat k, (pat, k) ∈ pats → ∀ w, WordMatches pat w →
    ∃ n : Int, 0 ≤ n ∧ n < t.length ∧ word n = w

/-- The invariant of `cur_nodes` after the prefix `pre` of the pattern: it lists, once
each, the nodes whose word is an expansion of `pre`, and every expansion has a node. -/
def CurInv (t : Trie) (word : Int → List Int) (pre : Str) (cur : List Int) : Prop :=
  (∀ n : Int, n ∈ cur ↔ 0 ≤ n ∧ n < t.length ∧ WordMatches pre (word n)) ∧
  (∀ w, WordMatches pre w → ∃ n : Int, 0 ≤ n ∧ n < t.length ∧ word n = w) ∧ cur.Nodup

/-- The patterns paired with the ids they are inserted under, starting at `k`. -/
def indexed : List Str → Int → List (Str × Int)
  | [], _ => []
  | p :: ps, k => (p, k) :: indexed ps (k + 1)

/-- Specification: the node `m` spells the longest suffix of `x` that is the word of a
node of the trie `t`. -/
def IsLsuf (t : Trie) (word : Int → List Int) (x : List Int) (m : Int) : Prop :=
  0 ≤ m ∧ m < t.length ∧ word m <:+ x ∧
    ∀ m' : Int, 0 ≤ m' → m' < t.length → word m' <:+ x →
      (word m').length ≤ (word m).length

/-- Specification: the node `m` is the failure target of the node `n`: the root for the
root, else the node of the longest proper suffix of the word of `n` that is the word of a
node. -/
def IsFail (t : Trie) (word : Int → List Int) (n m : Int) : Prop :=
  0 ≤ m ∧ m < t.length ∧ (n = 0 → m = 0) ∧
    (n ≠ 0 → word m <:+ word n ∧ (word m).length < (word n).length ∧
      ∀ m' : Int, 0 ≤ m' → m' < t.length → word m' <:+ word n →
        (word m').length < (word n).length → (word m').length ≤ (word m).length)

/-- Specification: `o` lists, once each, the ids of the patterns that have an expansion
which is a suffix of the word of the node `n`. -/
def OutFull (word : Int → List Int) (pats : List (Str × Int)) (n : Int) (o : List Int) :
    Prop :=
  o.Nodup ∧ ∀ k, k ∈ o ↔ ∃ pat s, (pat, k) ∈ pats ∧ s <:+ word n ∧ WordMatches pat s

/-- The facts about the trie `t` left by the inserts of the patterns `pats` that the
analysis of `build_links` starts from. -/
structure Ctx (t : Trie) (word : Int → List Int) (pats : List (Str × Int)) : Prop where
  rep : TrieRep t word
  outs : OutSpec t word pats
  compl : CompleteFor t word pats
  func : ∀ p q k, (p, k) ∈ pats → (q, k) ∈ pats → p = q
  nonempty : ∀ p k, (p, k) ∈ pats → p ≠ []

/-- The invariant of the queue of `build_links` while the edges `0 .. c - 1` of the
dequeued node `v` have been handled: `done` lists the nodes handled before `v`; the queue
is in breadth-first order and holds exactly the children found so far that wait. -/
structure QInv (t0 : Trie) (word : Int → List Int) (q done : List Int) (v c : Int) :
    Prop where
  vValid : 0 ≤ v ∧ v < t0.length
  vFresh : v ∉ done ∧ v ∉ q
  doneValid : ∀ n ∈ done, 0 ≤ n ∧ n < t0.length
  doneNodup : done.Nodup
  rootDone : v = 0 ∨ 0 ∈ done
  qValid : ∀ n ∈ q, 0 < n ∧ n < t0.length ∧ n ∉ done
  qNodup : q.Nodup
  qSorted : q.Pairwise (fun a b => (word a).length ≤ (word b).length)
  qSpread : ∀ x ∈ q, (word v).length ≤ (word x).length ∧
    (word x).length ≤ (word v).length + 1
  reach : ∀ n : Int, 0 < n → n < t0.length →
    ((n ∈ done ∨ n = v ∨ n ∈ q) ↔
      ((∃ p ∈ done, ∃ c' : Int, InAlph c' ∧ nextAt t0 p c' = n) ∨
        (∃ c' : Int, InAlph c' ∧ c' < c ∧ nextAt t0 v c' = n)))

/-- The invariant of the trie during `build_links` while the edges `0 .. c - 1` of the
dequeued node `v` have been handled; `t0` is the trie before `build_links`.  Handled nodes
have all their transitions; the nodes that are handled, dequeued or waiting have their
failure link and their full `out` list; everything else is as in `t0`. -/
structure DInv (t0 : Trie) (word : Int → List Int) (pats : List (Str × Int)) (t : Trie)
    (q done : List Int) (v c : Int) : Prop where
  len : t.length = t0.length
  nextDone : ∀ n ∈ done, ∀ c' : Int, InAlph c' →
    IsLsuf t0 word (word n ++ [c']) (nextAt t n c')
  nextLo : ∀ c' : Int, InAlph c' → c' < c → IsLsuf t0 word (word v ++ [c']) (nextAt t v c')
  nextHi : ∀ c' : Int, InAlph c' → c ≤ c' → nextAt t v c' = nextAt t0 v c'
  nextLen : (nodeAt t v).next.length = 95
  nextRaw : ∀ n : Int, 0 ≤ n → n < t0.length → n ∉ done → n ≠ v →
    (nodeAt t n).next = (nodeAt t0 n).next
  linkOk : ∀ n : Int, (n ∈ done ∨ n = v ∨ n ∈ q) → IsFail t0 word n (nodeAt t n).link
  outOk : ∀ n : Int, (n ∈ done ∨ n = v ∨ n ∈ q) → OutFull word pats n (nodeAt t n).out
  outRaw : ∀ n : Int, 0 ≤ n → n < t0.length → ¬ (n ∈ done ∨ n = v ∨ n ∈ q) →
    (nodeAt t n).out = (nodeAt t0 n).out

/-- Specification of the automaton `t` that `build_links` makes of the trie `t0`: every
transition leads to the node of the longest suffix that is a word of the trie, and every
`out` list holds the patterns with an expansion that is a suffix of the word of the node. -/
def LinksOk (t0 : Trie) (word : Int → List Int) (pats : List (Str × Int)) (t : Trie) :
    Prop :=
  t.length = t0.length ∧
    ∀ n : Int, 0 ≤ n → n < t0.length →
      (∀ c : Int, InAlph c → IsLsuf t0 word (word n ++ [c]) (nextAt t n c)) ∧
      OutFull word pats n (nodeAt t n).out

/-- The character id that `search_all` computes for the text byte `b`. -/
def idOf (b : Byte) : Int := ch_id (norm_char b)

/-- Specification: the character ids of the longest run of printable bytes that ends just
before position `k` of the text. -/
def runIds (text : Str) : Nat → List Int
  | 0 => []
  | k + 1 =>
    if idOf (charAt text k) = -1 then [] else runIds text k ++ [idOf (charAt text k)]

/-- The invariant of the loop of `search_all` before position `i`: the state is the node
of the longest suffix of the current run that is a word of the trie, and `res` holds, once
each, the occurrences that end before `i`. -/
def SearchInv (t0 : Trie) (word : Int → List Int) (pats : List (Str × Int)) (text : Str)
    (i : Int) (st : Int × List (Int × Int)) : Prop :=
  IsLsuf t0 word (runIds text i.toNat) st.1 ∧
  (∀ j k : Int, (j, k) ∈ st.2 ↔
    0 ≤ j ∧ j < i ∧ ∃ pat, (pat, k) ∈ pats ∧ MatchesAt pat text j) ∧
  st.2.Nodup

/-! ## Machine arithmetic of the Fingerprint Engine -/

/-- The result `x` of one `long long` operation: `none` when `x` leaves the signed 64-bit
range (where the source is undefined). -/
def i64 (x : Int) : Option Int :=
  if -9223372036854775808 ≤ x ∧ x ≤ 9223372036854775807 then some x else none

/-- One iteration of the loop of `build` with every product and sum of `long long` values
checked against the signed 64-bit range (`%` cannot overflow). -/
def buildStepChecked (s : Str) (T : RollingHash) (i : Nat) : Option RollingHash :=
  (i64 (vecAt T.h1 i * b1)).bind fun m1 =>
  (i64 (m1 + ((charAt s i).val : Int))).bind fun a1 =>
  (i64 (a1 + 1)).bind fun c1 =>
  (i64 (vecAt T.h2 i * b2)).bind fun m2 =>
  (i64 (m2 + ((charAt s i).val : Int))).bind fun a2 =>
  (i64 (a2 + 1)).bind fun c2 =>
  (i64 (vecAt T.p1 i * b1)).bind fun q1 =>
  (i64 (vecAt T.p2 i * b2)).bind fun q2 =>
  some { h1 := T.h1.set (i + 1) (Int.tmod c1 MOD1)
         h2 := T.h2.set (i + 1) (Int.tmod c2 MOD2)
         p1 := T.p1.set (i + 1) (Int.tmod q1 MOD1)
         p2 := T.p2.set (i + 1) (Int.tmod q2 MOD2) }

/-- The method `build` with checked `long long` arithmetic. -/
def buildChecked (s : Str) : Option RollingHash :=
  (List.range s.length).foldlM (buildStepChecked s) (buildInit s.length)

/-- The method `getHash` with checked `long long` arithmetic. -/
def getHashChecked (T : RollingHash) (l r : Int) : Option (Int × Int) :=
  if l > r then some (0, 0) else
  let l := if l < 0 then 0 else l
  let r := if r + 1 > (T.h1.length : Int) - 1 then (T.h1.length : Int) - 2 else r
  let x1 := vecAt T.h1 (r + 1)
  (i64 (vecAt T.h1 l * vecAt T.p1 (r - l + 1))).bind fun m1 =>
  let y1 := Int.tmod m1 MOD1
  (i64 (x1 + MOD1)).bind fun s1 =>
  (i64 (s1 - y1)).bind fun d1 =>
  let res1 := Int.tmod d1 MOD1
  let x2 := vecAt T.h2 (r + 1)
  (i64 (vecAt T.h2 l * vecAt T.p2 (r - l + 1))).bind fun m2 =>
  let y2 := Int.tmod m2 MOD2
  (i64 (x2 + MOD2)).bind fun s2 =>
  (i64 (s2 - y2)).bind fun d2 =>
  let res2 := Int.tmod d2 MOD2
  some (res1, res2)

/-- Every entry of the four vectors is a residue of its modulus. -/
def TableOk (T : RollingHash) : Prop :=
  (∀ x ∈ T.h1, 0 ≤ x ∧ x < MOD1) ∧ (∀ x ∈ T.h2, 0 ≤ x ∧ x < MOD2) ∧
  (∀ x ∈ T.p1, 0 ≤ x ∧ x < MOD1) ∧ (∀ x ∈ T.p2, 0 ≤ x ∧ x < MOD2)

/-! ## Depth of the recursion of `lcs_divide_conquer` -/

/-- The number of frames of `lcs_divide_conquer` nested below the call on the ranges
`[aL, aR]`, `[bL, bR]`: the guards and the two recursive calls are those of
`lcs_divide_conquer`; a call that returns without recursing has depth `0`. -/
def lcsDepth (aL aR bL bR : Int) : Nat :=
  if aR - aL + 1 ≤ 0 ∨ bR - bL + 1 ≤ 0 then 0 else
  if aR - aL + 1 ≤ BRUTE_THRESHOLD ∨ bR - bL + 1 ≤ BRUTE_THRESHOLD then 0
  else
    let midA := (aL + aR) / 2
    let midB := (bL + bR) / 2
    1 + max (lcsDepth aL midA bL midB) (lcsDepth (midA + 1) aR (midB + 1) bR)
termination_by (aR - aL + 1).toNat
decreasing_by
  all_goals simp_wf
  all_goals simp only [BRUTE_THRESHOLD] at *
  all_goals omega

/-- The function `lcs_divide_conquer` run on a call stack of at most `fuel` frames: `none`
when a call would need one more frame. -/
def lcs_divide_conquer_bounded : Nat → Str → Int → Int → Str → Int → Int → Option Str
  | 0, _, _, _, _, _, _ => none
  | fuel + 1, A, aL, aR, B, bL, bR =>
    if aR - aL + 1 ≤ 0 ∨ bR - bL + 1 ≤ 0 then some [] else
    if aR - aL + 1 ≤ BRUTE_THRESHOLD ∨ bR - bL + 1 ≤ BRUTE_THRESHOLD then
      some (bruteLCS A aL aR B bL bR)
    else
      let la := aR - aL + 1
      let lb := bR - bL + 1
      let subA := substr A aL la
      let subB := substr B bL lb
      let absHashA := build subA
      let absHashB := build subB
      let midA := (aL + aR) / 2
      let midB := (bL + bR) / 2
      (lcs_divide_conquer_bounded fuel A aL midA B bL midB).bind fun left =>
      (lcs_divide_conquer_bounded fuel A (midA + 1) aR B (midB + 1) bR).bind fun right =>
      let midA_rel := midA - aL
      let midB_rel := midB - bL
      let crossA := maxCrossA subA 0 (la - 1) midA_rel subB 0 (lb - 1) absHashA absHashB
      let crossB := maxCrossB subA 0 (la - 1) subB 0 (lb - 1) midB_rel absHashA absHashB
      let crossBoth := crossCheckBothMidpoints A aL aR midA B bL bR midB absHashA absHashB
      some (mergeFive left right crossA crossB crossBoth)

/-! ## Single-pattern searches (`Q1_23I-0782.cpp`)

The output of a search is the list of the indices it prints, in the order of printing,
paired with the final value of `found` (the line `Pattern not found` is printed exactly
when `found` is `false`). -/

/-- The loop `while (j < m && text[i + j] == pattern[j]) j++;` of `naiveSearch`, started
at `j`, for at most `fuel` iterations. -/
def naiveInner (text pattern : Str) (i m : Int) : Nat → Int → Int
  | 0, j => j
  | fuel + 1, j =>
    if j < m ∧ charAt text (i + j) = charAt pattern j then
      naiveInner text pattern i m fuel (j + 1)
    else j

/-- The body of the `for` loop of `naiveSearch`; the state is `(printed, found)` and the
inner loop stops after at most `m` iterations. -/
def naiveStep (text pattern : Str) (st : List Int × Bool) (i : Int) : List Int × Bool :=
  let m : Int := pattern.length
  let j := naiveInner text pattern i m pattern.length 0
  if j = m then (st.1 ++ [i], true) else st

/-- The function `naiveSearch(text, pattern)`. -/
def naiveSearch (text pattern : Str) : List Int × Bool :=
  let n : Int := text.length
  let m : Int := pattern.length
  (intRange 0 (n - m)).foldl (naiveStep text pattern) ([], false)

/-- The `while (i < m)` loop of `computeLPS` for at most `fuel` iterations; the state is
`(lps, len, i)`. -/
def lpsLoop (pattern : Str) (m : Int) : Nat → List Int × Int × Int → List Int
  | 0, st => st.1
  | fuel + 1, (lps, len, i) =>
    if i < m then
      if charAt pattern i = charAt pattern len then
        lpsLoop pattern m fuel (lps.set i.toNat (len + 1), len + 1, i + 1)
      else if len ≠ 0 then lpsLoop pattern m fuel (lps, vecAt lps (len - 1), i)
      else lpsLoop pattern m fuel (lps.set i.toNat 0, 0, i + 1)
    else lps

/-- The function `computeLPS(pattern)`; every iteration of the loop advances `i` or
shortens `len`, so `2 * m` iterations suffice. -/
def computeLPS (pattern : Str) : List Int :=
  lpsLoop pattern pattern.length (2 * pattern.length) (List.replicate pattern.length 0, 0, 1)

/-- The `while (i < n)` loop of `KMPsearch` for at most `fuel` iterations; the state is
`(i, j, printed, found)`. -/
def kmpLoop (text pattern : Str) (lps : List Int) (n m : Int) :
    Nat → Int × Int × List Int × Bool → List Int × Bool
  | 0, st => st.2.2
  | fuel + 1, (i, j, res, found) =>
    if i < n then
      let i1 := if charAt text i = charAt pattern j then i + 1 else i
      let j1 := if charAt text i = charAt pattern j then j + 1 else j
      if j1 = m then
        kmpLoop text pattern lps n m fuel (i1, vecAt lps (j1 - 1), res ++ [i1 - j1], true)
      else if i1 < n ∧ charAt text i1 ≠ charAt pattern j1 then
        if j1 ≠ 0 then kmpLoop text pattern lps n m fuel (i1, vecAt lps (j1 - 1), res, found)
        else kmpLoop text pattern lps n m fuel (i1 + 1, j1, res, found)
      else kmpLoop text pattern lps n m fuel (i1, j1, res, found)
    else (res, found)

/-- The function `KMPsearch(text, pattern)`; every iteration of the loop advances `i` or
shortens `j`, so `2 * n` iterations suffice. -/
def KMPsearch (text pattern : Str) : List Int × Bool :=
  kmpLoop text pattern (computeLPS pattern) text.length pattern.length (2 * text.length)
    (0, 0, [], false)

/-- Specification: the first `k` bytes of `pattern` are the `k` bytes of `w` that end just
before position `i`. -/
def Suf (w pattern : Str) (k i : Int) : Prop :=
  0 ≤ k ∧ k ≤ i ∧ ∀ x : Int, 0 ≤ x → x < k → charAt w (i - k + x) = charAt pattern x

/-- Specification: `b` is the length of the longest proper prefix of `pattern[0..q)` that
is also a suffix of it. -/
def IsLps (pattern : Str) (q b : Int) : Prop :=
  Suf pattern pattern b q ∧ b < q ∧ ∀ b' : Int, Suf pattern pattern b' q → b' < q → b' ≤ b

/-- Specification: no prefix of `pattern` longer than `j` and shorter than `lim` that ends
before position `i` of `w` is continued by `w[i]`. -/
def NoExt (w pattern : Str) (lim i j : Int) : Prop :=
  ∀ k : Int, j < k → k < lim → Suf w pattern k i → charAt w i ≠ charAt pattern k

/-- Specification: `pattern` occurs in `text` at the start index `i`. -/
def OccursAt (text pattern : Str) (i : Int) : Prop :=
  0 ≤ i ∧ i + pattern.length ≤ text.length ∧ substr text i pattern.length = pattern

/-- The invariant of the loop of `computeLPS`: the entries below `i` are final, `len` is a
border of `pattern[0..i)`, and no longer border is continued by `pattern[i]`. -/
def LpsInv (pattern : Str) (st : List Int × Int × Int) : Prop :=
  st.1.length = pattern.length ∧ 1 ≤ st.2.2 ∧ st.2.2 ≤ pattern.length ∧ st.2.1 < st.2.2 ∧
  (∀ q : Int, 1 ≤ q → q ≤ st.2.2 → IsLps pattern q (vecAt st.1 (q - 1))) ∧
  Suf pattern pattern st.2.1 st.2.2 ∧ NoExt pattern pattern st.2.2 st.2.2 st.2.1

/-- Specification of the table of `computeLPS`: entry `q - 1` is the length of the longest
proper prefix of `pattern[0..q)` that is also a suffix of it. -/
def LpsOk (pattern : Str) (lps : List Int) : Prop :=
  lps.length = pattern.length ∧
  ∀ q : Int, 1 ≤ q → q ≤ pattern.length → IsLps pattern q (vecAt lps (q - 1))

/-- Specification: the start indices `0 .. hi` at which `pattern` occurs in `text`, in
ascending order. -/
def occList (text pattern : Str) (hi : Int) : List Int :=
  (intRange 0 hi).filter (fun s => decide (substr text s pattern.length = pattern))

/-- The invariant of the loop of `KMPsearch`: `pattern[0..j)` ends before position `i` of
the text, no longer proper prefix that ends there is continued by `text[i]`, and the
occurrences that end before `i` have been printed. -/
def KmpInv (text pattern : Str) (st : Int × Int × List Int × Bool) : Prop :=
  st.1 ≤ text.length ∧ st.2.1 < pattern.length ∧
  Suf text pattern st.2.1 st.1 ∧ NoExt text pattern pattern.length st.1 st.2.1 ∧
  st.2.2.1 = occList text pattern (st.1 - pattern.length) ∧
  (st.2.2.2 = true ↔ st.2.2.1 ≠ [])

/-! ### Rabin-Karp

Reads of `text` and `pattern` are checked: a read past the terminator is undefined.  All
`int` values of
`rabinKarpSearch` are below `2^23` in absolute value (`p`, `t`, `h` lie strictly between
`-101` and `101`, a `char` between `-128` and `255`), so `int` arithmetic is exact; `%` is
the truncating remainder of C++. -/

/-- The read `s[i]` of a `const std::string`: the byte at `0 .. |s| - 1`, the terminator
`0` at `|s|`, and `none` elsewhere, where the read is undefined. -/
def readAt (s : Str) (i : Int) : Option Byte :=
  if 0 ≤ i ∧ i ≤ s.length then some (charAt s i) else none

/-- The `int` value of a plain `char` that holds the byte `b`; `sc` tells whether plain
`char` is a signed type (it is implementation-defined). -/
def charInt (sc : Bool) (b : Byte) : Int :=
  if sc = true ∧ 128 ≤ b.val then (b.val : Int) - 256 else (b.val : Int)

/-- The loop `for (i = 0; i < m - 1; i++) h = (h * d) % q;` of `rabinKarpSearch`. -/
def rkH (m : Int) : Int :=
  (intRange 0 (m - 2)).foldl (fun h _ => Int.tmod (h * 256) 101) 1

/-- The body of the loop that computes the hashes `p` and `t` of the pattern and of the
first window; the state is `(p, t)`. -/
def rkInit (sc : Bool) (text pattern : Str) (st : Int × Int) (i : Int) : Option (Int × Int) :=
  (readAt pattern i).bind fun pc =>
  (readAt text i).bind fun tc =>
  some (Int.tmod (256 * st.1 + charInt sc pc) 101, Int.tmod (256 * st.2 + charInt sc tc) 101)

/-- The loop `for (j = 0; j < m; j++) if (text[i + j] != pattern[j]) { match = false;
break; }` over the remaining values of `j`: the final value of `match`. -/
def rkVerify (text pattern : Str) (i : Int) : List Int → Option Bool
  | [] => some true
  | j :: js =>
    (readAt text (i + j)).bind fun a =>
    (readAt pattern j).bind fun b =>
    if a ≠ b then some false else rkVerify text pattern i js

/-- The body of the main loop of `rabinKarpSearch`; the state is `(t, printed, found)`. -/
def rkStep (sc : Bool) (text pattern : Str) (n m p h : Int) (st : Int × List Int × Bool)
    (i : Int) : Option (Int × List Int × Bool) :=
  (if p = st.1 then
      (rkVerify text pattern i (intRange 0 (m - 1))).bind fun mt =>
        if mt = true then some (st.2.1 ++ [i], true) else some st.2
    else some st.2).bind fun out =>
  if i < n - m then
    (readAt text i).bind fun a =>
    (readAt text (i + m)).bind fun b =>
    let t := Int.tmod (256 * (st.1 - charInt sc a * h) + charInt sc b) 101
    let t := if t < 0 then t + 101 else t
    some (t, out)
  else some (st.1, out)

/-- The function `rabinKarpSearch(text, pattern)`: the printed indices and `found`, or
`none` when a read goes past the terminator of `text` or `pattern`. -/
def rabinKarpSearch (sc : Bool) (text pattern : Str) : Option (List Int × Bool) :=
  let n : Int := text.length
  let m : Int := pattern.length
  let h := rkH m
  ((intRange 0 (m - 1)).foldlM (rkInit sc text pattern) (0, 0)).bind fun pt =>
  ((intRange 0 (n - m)).foldlM (rkStep sc text pattern n m pt.1 h) (pt.2, [], false)).map
    fun st => st.2

/-- Specification: the exact polynomial `sum c_k * 256^(|l| - 1 - k)` of the `int` values
of the bytes of `l`. -/
def rkSum (sc : Bool) (l : Str) : Int :=
  l.foldl (fun acc b => 256 * acc + charInt sc b) 0

/-- The value that the hashing loop of `rabinKarpSearch` computes for the bytes `l`. -/
def rkHash (sc : Bool) (l : Str) : Int :=
  l.foldl (fun acc b => Int.tmod (256 * acc + charInt sc b) 101) 0

/-- The invariant of the rolling value `t` of `rabinKarpSearch` before window `c`: it is
congruent to the exact hash of the window, it is the value of the hashing loop for the
first window, and it has been normalised into `0 .. 100` for every later window. -/
def TInv (sc : Bool) (text pattern : Str) (c t : Int) : Prop :=
  t ≡ rkSum sc (substr text c pattern.length) [ZMOD 101] ∧
  (c = 0 → t = rkHash sc (substr text 0 pattern.length)) ∧
  (1 ≤ c → 0 ≤ t ∧ t < 101)

/-! # Theorems -/

/-! ## Basic facts about ranges, reads and substrings -/

theorem mem_intRange (lo hi x : Int) : x ∈ intRange lo hi ↔ lo ≤ x ∧ x ≤ hi := by
  unfold intRange
  simp only [List.mem_map, List.mem_range]
  constructor
  · rintro ⟨k, hk, rfl⟩
    omega
  · intro h
    exact ⟨(x - lo).toNat, by omega, by omega⟩

theorem charAt_of_inBounds (A : Str) (i : Int) (h0 : 0 ≤ i) (h1 : i < A.length) :
    A[i.toNat]? = some (charAt A i) := by
  have hlt : i.toNat < A.length := by omega
  simp [charAt, h0, List.getD_eq_getElem?_getD, List.getElem?_eq_getElem hlt]

theorem length_substr (A : Str) (p n : Int) (hp : 0 ≤ p) (hn : 0 ≤ n)
    (h : p + n ≤ A.length) : ((substr A p n).length : Int) = n := by
  unfold substr
  simp only [List.length_take, List.length_drop]
  omega

theorem substr_sub (A : Str) (p n : Int) : substr A p n <:+: A := by
  unfold substr
  exact ( List.take_prefix _ _).isInfix.trans (List.drop_suffix _ _).isInfix

theorem getElem?_substr (A : Str) (p n : Int) (hp : 0 ≤ p) (k : Nat) (hk : (k : Int) < n) :
    (substr A p n)[k]? = A[(p + k).toNat]? := by
  unfold substr
  have h1 : k < n.toNat := by omega
  rw [List.getElem?_take_of_lt h1, List.getElem?_drop]
  congr 1
  omega

theorem substr_eq_of_bytes (A B : Str) (s t L : Int) (hs : 0 ≤ s) (ht : 0 ≤ t)
    (hA : s + L ≤ A.length) (hB : t + L ≤ B.length)
    (h : ∀ k : Nat, (k : Int) < L → charAt A (s + k) = charAt B (t + k)) :
    substr A s L = substr B t L := by
  by_cases hL : 0 ≤ L
  · apply List.ext_getElem?
    intro k
    by_cases hk : (k : Int) < L
    · rw [getElem?_substr A s L hs k hk, getElem?_substr B t L ht k hk]
      rw [charAt_of_inBounds A (s + k) (by omega) (by omega),
        charAt_of_inBounds B (t + k) (by omega) (by omega), h k hk]
    · have e1 := length_substr A s L hs hL hA
      have e2 := length_substr B t L ht hL hB
      rw [List.getElem?_eq_none (by omega), List.getElem?_eq_none (by omega)]
  · unfold substr
    have : L.toNat = 0 := by omega
    simp [this]

theorem bytes_of_substr_eq (A B : Str) (s t L : Int) (hs : 0 ≤ s) (ht : 0 ≤ t)
    (hA : s + L ≤ A.length) (hB : t + L ≤ B.length)
    (h : substr A s L = substr B t L) (k : Nat) (hk : (k : Int) < L) :
    charAt A (s + k) = charAt B (t + k) := by
  have e1 := getElem?_substr A s L hs k hk
  have e2 := getElem?_substr B t L ht k hk
  rw [h, e2, charAt_of_inBounds A (s + k) (by omega) (by omega),
    charAt_of_inBounds B (t + k) (by omega) (by omega)] at e1
  exact (Option.some.inj e1).symm

theorem bytesEqual_iff (A : Str) (s : Int) (B : Str) (t L : Int) :
    bytesEqual A s B t L = true ↔
      ∀ k : Nat, (k : Int) < L → charAt A (s + k) = charAt B (t + k) := by
  unfold bytesEqual
  simp only [List.all_eq_true, List.mem_range, beq_iff_eq]
  constructor
  · intro h k hk
    exact h k (by omega)
  · intro h k hk
    exact h k (by omega)

/-! ## Loops as folds: a generic invariant rule -/

theorem foldl_ge {α β : Type} (f : β → α → β) (μ : β → Int) (P : β → Prop) (g : α → Int)
    (l : List α) (init : β) (h0 : P init)
    (hstep : ∀ b a, a ∈ l → P b → P (f b a) ∧ μ b ≤ μ (f b a) ∧ g a ≤ μ (f b a)) :
    P (l.foldl f init) ∧ μ init ≤ μ (l.foldl f init) ∧
      ∀ a ∈ l, g a ≤ μ (l.foldl f init) := by
  induction l generalizing init with
  | nil => simp [h0]
  | cons x xs ih =>
    obtain ⟨hP, hmono, hg⟩ := hstep init x (List.mem_cons_self _ _) h0
    obtain ⟨iP, imono, ig⟩ := ih (f init x) hP
      (fun b a ha hb => hstep b a (List.mem_cons_of_mem _ ha) hb)
    refine ⟨iP, le_trans hmono imono, ?_⟩
    intro a ha
    rcases List.mem_cons.1 ha with rfl | ha
    · exact le_trans hg imono
    · exact ig a ha

/-! ## The extension loop of the exact matcher -/

theorem matchLen_spec (A : Str) (i aR : Int) (B : Str) (j bR : Int) (fuel : Nat) (k : Int) :
    k ≤ matchLen A i aR B j bR fuel k ∧
    matchLen A i aR B j bR fuel k ≤ k + fuel ∧
    (∀ m : Int, k ≤ m → m < matchLen A i aR B j bR fuel k →
      i + m ≤ aR ∧ j + m ≤ bR ∧ charAt A (i + m) = charAt B (j + m)) ∧
    (matchLen A i aR B j bR fuel k < k + fuel →
      ¬ (i + matchLen A i aR B j bR fuel k ≤ aR ∧ j + matchLen A i aR B j bR fuel k ≤ bR ∧
        charAt A (i + matchLen A i aR B j bR fuel k) =
          charAt B (j + matchLen A i aR B j bR fuel k))) := by
  induction fuel generalizing k with
  | zero =>
    simp only [matchLen]
    refine ⟨le_refl _, by simp, ?_, by simp⟩
    intro m h1 h2
    omega
  | succ n ih =>
    simp only [matchLen]
    split
    · rename_i hc
      obtain ⟨h1, h2, h3, h4⟩ := ih (k + 1)
      refine ⟨by omega, by push_cast; omega, ?_, ?_⟩
      · intro m hm1 hm2
        by_cases hmk : m = k
        · subst hmk
          exact hc
        · exact h3 m (by omega) hm2
      · intro hlt
        exact h4 (by push_cast at hlt; omega)
    · rename_i hc
      refine ⟨le_refl _, by push_cast; omega, ?_, fun _ => hc⟩
      intro m h1 h2
      omega

/-- The extension loop of `bruteLCS` leaves through its condition: the iteration bound
`aR + 1 - i` is never what stops it. -/
theorem matchLen_exit (A : Str) (i aR : Int) (B : Str) (j bR : Int) :
    ¬ (i + matchLen A i aR B j bR (aR + 1 - i).toNat 0 ≤ aR ∧
      j + matchLen A i aR B j bR (aR + 1 - i).toNat 0 ≤ bR ∧
      charAt A (i + matchLen A i aR B j bR (aR + 1 - i).toNat 0) =
        charAt B (j + matchLen A i aR B j bR (aR + 1 - i).toNat 0)) := by
  obtain ⟨h1, h2, _, h4⟩ := matchLen_spec A i aR B j bR (aR + 1 - i).toNat 0
  by_cases hlt : matchLen A i aR B j bR (aR + 1 - i).toNat 0 < 0 + ((aR + 1 - i).toNat : Int)
  · exact h4 hlt
  · intro hc
    omega

theorem matchLen_ge (A : Str) (i aR : Int) (B : Str) (j bR : Int) (t : Int)
    (h : ∀ m : Int, 0 ≤ m → m < t →
      i + m ≤ aR ∧ j + m ≤ bR ∧ charAt A (i + m) = charAt B (j + m)) :
    t ≤ matchLen A i aR B j bR (aR + 1 - i).toNat 0 := by
  by_contra hlt
  have h1 := (matchLen_spec A i aR B j bR (aR + 1 - i).toNat 0).1
  exact matchLen_exit A i aR B j bR (h _ h1 (by omega))

/-! ## The exact matcher -/

theorem bruteStep_spec (A : Str) (aL aR : Int) (B : Str) (bL bR : Int) (i j : Int)
    (ha0 : 0 ≤ aL) (ha2 : aR < A.length) (hb0 : 0 ≤ bL) (hb2 : bR < B.length)
    (hi : aL ≤ i) (hj : bL ≤ j) (best : Str)
    (hP : OccursIn best A aL aR ∧ OccursIn best B bL bR) :
    (OccursIn (bruteStep A aR B bR i best j) A aL aR ∧
      OccursIn (bruteStep A aR B bR i best j) B bL bR) ∧
    (best.length : Int) ≤ ((bruteStep A aR B bR i best j).length : Int) ∧
    matchLen A i aR B j bR (aR + 1 - i).toNat 0 ≤
      ((bruteStep A aR B bR i best j).length : Int) := by
  obtain ⟨h1, h2, h3, _⟩ := matchLen_spec A i aR B j bR (aR + 1 - i).toNat 0
  unfold bruteStep
  simp only []
  split
  · rename_i hgt
    have hk1 : 0 < matchLen A i aR B j bR (aR + 1 - i).toNat 0 := by omega
    have hlast := h3 (matchLen A i aR B j bR (aR + 1 - i).toNat 0 - 1) (by omega) (by omega)
    have hlen := length_substr A i (matchLen A i aR B j bR (aR + 1 - i).toNat 0)
      (by omega) (by omega) (by omega)
    have heq := substr_eq_of_bytes A B i j (matchLen A i aR B j bR (aR + 1 - i).toNat 0)
      (by omega) (by omega) (by omega) (by omega)
      (fun k hk => (h3 k (by omega) hk).2.2)
    refine ⟨⟨⟨i, hi, by omega, ?_⟩, ⟨j, hj, by omega, ?_⟩⟩, by omega, by omega⟩
    · rw [hlen]
    · rw [hlen, heq]
  · rename_i hgt
    exact ⟨hP, le_refl _, by omega⟩

theorem occursIn_nil (A : Str) (lo hi : Int) (h : lo ≤ hi + 1) : OccursIn [] A lo hi :=
  ⟨lo, le_refl _, by simpa using h, by simp [substr]⟩

theorem bruteLCS_fold_spec (A : Str) (aL aR : Int) (B : Str) (bL bR : Int)
    (ha0 : 0 ≤ aL) (ha1 : aL ≤ aR) (ha2 : aR < A.length)
    (hb0 : 0 ≤ bL) (hb1 : bL ≤ bR) (hb2 : bR < B.length) :
    (OccursIn (bruteLCS A aL aR B bL bR) A aL aR ∧
      OccursIn (bruteLCS A aL aR B bL bR) B bL bR) ∧
    ∀ i j : Int, aL ≤ i → i ≤ aR → bL ≤ j → j ≤ bR →
      matchLen A i aR B j bR (aR + 1 - i).toNat 0 ≤
        ((bruteLCS A aL aR B bL bR).length : Int) := by
  have hguard : ¬ (aR - aL + 1 ≤ 0 ∨ bR - bL + 1 ≤ 0) := by omega
  have key : ∀ j0 : Int, bL ≤ j0 → j0 ≤ bR →
      (OccursIn (bruteLCS A aL aR B bL bR) A aL aR ∧
        OccursIn (bruteLCS A aL aR B bL bR) B bL bR) ∧
      ∀ i ∈ intRange aL aR, matchLen A i aR B j0 bR (aR + 1 - i).toNat 0 ≤
        ((bruteLCS A aL aR B bL bR).length : Int) := by
    intro j0 hj0 hj1
    unfold bruteLCS
    simp only [if_neg hguard]
    have := foldl_ge
      (fun best i => (intRange bL bR).foldl (bruteStep A aR B bR i) best)
      (fun b : Str => (b.length : Int))
      (fun b => OccursIn b A aL aR ∧ OccursIn b B bL bR)
      (fun i => matchLen A i aR B j0 bR (aR + 1 - i).toNat 0)
      (intRange aL aR) []
      ⟨occursIn_nil A aL aR (by omega), occursIn_nil B bL bR (by omega)⟩
      (by
        intro b i hi hb
        have hi2 := (mem_intRange aL aR i).1 hi
        have inner := foldl_ge (bruteStep A aR B bR i)
          (fun b : Str => (b.length : Int))
          (fun b => OccursIn b A aL aR ∧ OccursIn b B bL bR)
          (fun j => matchLen A i aR B j bR (aR + 1 - i).toNat 0)
          (intRange bL bR) b hb
          (by
            intro b2 j hj hb2'
            have hj2 := (mem_intRange bL bR j).1 hj
            exact bruteStep_spec A aL aR B bL bR i j ha0 ha2 hb0 hb2 hi2.1 hj2.1 b2 hb2')
        exact ⟨inner.1, inner.2.1, inner.2.2 j0 ((mem_intRange bL bR j0).2 ⟨hj0, hj1⟩)⟩)
    exact ⟨this.1, this.2.2⟩
  refine ⟨(key bL (le_refl _) hb1).1, ?_⟩
  intro i j hi0 hi1 hj0 hj1
  exact (key j hj0 hj1).2 i ((mem_intRange aL aR i).2 ⟨hi0, hi1⟩)

theorem bruteLCS_maximal (A : Str) (aL aR : Int) (B : Str) (bL bR : Int)
    (ha0 : 0 ≤ aL) (ha1 : aL ≤ aR) (ha2 : aR < A.length)
    (hb0 : 0 ≤ bL) (hb1 : bL ≤ bR) (hb2 : bR < B.length)
    (T : Str) (hA : OccursIn T A aL aR) (hB : OccursIn T B bL bR) :
    T.length ≤ (bruteLCS A aL aR B bL bR).length := by
  obtain ⟨i, hi0, hi1, hiT⟩ := hA
  obtain ⟨j, hj0, hj1, hjT⟩ := hB
  by_cases hT : T.length = 0
  · omega
  · have hfold := (bruteLCS_fold_spec A aL aR B bL bR ha0 ha1 ha2 hb0 hb1 hb2).2 i j hi0
      (by omega) hj0 (by omega)
    have hge := matchLen_ge A i aR B j bR (T.length : Int) (by
      intro m hm0 hm1
      refine ⟨by omega, by omega, ?_⟩
      have := bytes_of_substr_eq A B i j (T.length : Int) (by omega) (by omega) (by omega)
        (by omega) (by rw [hiT, hjT]) m.toNat (by omega)
      simpa [Int.toNat_of_nonneg hm0] using this)
    omega

theorem verifyLen_eq_matchLen (A B : Str) (i j : Int) (fuel : Nat) (k : Int) :
    verifyLen A B i j fuel k =
      matchLen A i ((A.length : Int) - 1) B j ((B.length : Int) - 1) fuel k := by
  induction fuel generalizing k with
  | zero => rfl
  | succ n ih =>
    simp only [verifyLen, matchLen, ih]
    have e : (i + k < (A.length : Int) ∧ j + k < (B.length : Int) ∧
        charAt A (i + k) = charAt B (j + k)) ↔
        (i + k ≤ (A.length : Int) - 1 ∧ j + k ≤ (B.length : Int) - 1 ∧
        charAt A (i + k) = charAt B (j + k)) := by
      constructor
      · rintro ⟨h1, h2, h3⟩
        exact ⟨by omega, by omega, h3⟩
      · rintro ⟨h1, h2, h3⟩
        exact ⟨by omega, by omega, h3⟩
    simp only [e]

theorem verifyStep_eq_bruteStep (A B : Str) (i : Int) :
    verifyStep A B i = bruteStep A ((A.length : Int) - 1) B ((B.length : Int) - 1) i := by
  funext best j
  unfold verifyStep bruteStep
  have e : ((A.length : Int) - 1 + 1 - i) = (A.length : Int) - i := by ring
  rw [verifyLen_eq_matchLen, e]

/-- The oracle runs the same double scan as the exact matcher on the whole strings. -/
theorem verifyLCS_eq_bruteLCS (A B : Str) (hA : A ≠ []) (hB : B ≠ []) :
    verifyLCS A B = bruteLCS A 0 ((A.length : Int) - 1) B 0 ((B.length : Int) - 1) := by
  have h1 : 0 < A.length := List.length_pos.2 hA
  have h2 : 0 < B.length := List.length_pos.2 hB
  have hguard : ¬ ((A.length : Int) - 1 - 0 + 1 ≤ 0 ∨ (B.length : Int) - 1 - 0 + 1 ≤ 0) := by
    omega
  unfold verifyLCS bruteLCS
  simp only [if_neg hguard, verifyStep_eq_bruteStep]

theorem intRange_empty (lo hi : Int) (h : hi < lo) : intRange lo hi = [] := by
  unfold intRange
  have : (hi + 1 - lo).toNat = 0 := by omega
  simp [this]

theorem verifyLCS_nil_left (B : Str) : verifyLCS [] B = [] := by
  unfold verifyLCS
  rw [intRange_empty 0 (((([] : Str).length : Int)) - 1) (by simp)]
  rfl

theorem verifyLCS_nil_right (A : Str) : verifyLCS A [] = [] := by
  unfold verifyLCS
  rw [intRange_empty 0 (((([] : Str).length : Int)) - 1) (by simp)]
  induction (intRange 0 ((A.length : Int) - 1)) with
  | nil => rfl
  | cons x xs ih => simp [ih]

/-! ## Unfolding the orchestrator -/

theorem lcs_invalid (A : Str) (aL aR : Int) (B : Str) (bL bR : Int)
    (h : aR - aL + 1 ≤ 0 ∨ bR - bL + 1 ≤ 0) :
    lcs_divide_conquer A aL aR B bL bR = [] := by
  rw [lcs_divide_conquer]
  simp only [if_pos h]

theorem lcs_base (A : Str) (aL aR : Int) (B : Str) (bL bR : Int)
    (h0 : ¬ (aR - aL + 1 ≤ 0 ∨ bR - bL + 1 ≤ 0))
    (h1 : aR - aL + 1 ≤ 120 ∨ bR - bL + 1 ≤ 120) :
    lcs_divide_conquer A aL aR B bL bR = bruteLCS A aL aR B bL bR := by
  rw [lcs_divide_conquer]
  simp only [BRUTE_THRESHOLD, if_neg h0, if_pos h1]

theorem lcs_split (A : Str) (aL aR : Int) (B : Str) (bL bR : Int)
    (h1 : 120 < aR - aL + 1) (h2 : 120 < bR - bL + 1) :
    lcs_divide_conquer A aL aR B bL bR =
      mergeFive
        (lcs_divide_conquer A aL ((aL + aR) / 2) B bL ((bL + bR) / 2))
        (lcs_divide_conquer A ((aL + aR) / 2 + 1) aR B ((bL + bR) / 2 + 1) bR)
        (maxCrossA (substr A aL (aR - aL + 1)) 0 (aR - aL + 1 - 1) ((aL + aR) / 2 - aL)
          (substr B bL (bR - bL + 1)) 0 (bR - bL + 1 - 1)
          (build (substr A aL (aR - aL + 1))) (build (substr B bL (bR - bL + 1))))
        (maxCrossB (substr A aL (aR - aL + 1)) 0 (aR - aL + 1 - 1)
          (substr B bL (bR - bL + 1)) 0 (bR - bL + 1 - 1) ((bL + bR) / 2 - bL)
          (build (substr A aL (aR - aL + 1))) (build (substr B bL (bR - bL + 1))))
        (crossCheckBothMidpoints A aL aR ((aL + aR) / 2) B bL bR ((bL + bR) / 2)
          (build (substr A aL (aR - aL + 1))) (build (substr B bL (bR - bL + 1)))) := by
  rw [lcs_divide_conquer]
  have h0 : ¬ (aR - aL + 1 ≤ 0 ∨ bR - bL + 1 ≤ 0) := by omega
  have h3 : ¬ (aR - aL + 1 ≤ 120 ∨ bR - bL + 1 ≤ 120) := by omega
  simp only [BRUTE_THRESHOLD, if_neg h0, if_neg h3]

/-! ## The bucket map -/

theorem mpPush_buckets (P : Int → Prop) (mp : List (Nat × List Int)) (key : Nat) (j : Int)
    (hj : P j) (h : ∀ kv ∈ mp, ∀ p ∈ kv.2, P p) :
    ∀ kv ∈ mpPush mp key j, ∀ p ∈ kv.2, P p := by
  induction mp with
  | nil =>
    intro kv hkv p hp
    simp only [mpPush, List.mem_singleton] at hkv
    subst hkv
    simp only [List.mem_singleton] at hp
    subst hp
    exact hj
  | cons x xs ih =>
    obtain ⟨k, v⟩ := x
    intro kv hkv p hp
    simp only [mpPush] at hkv
    split at hkv
    · rcases List.mem_cons.1 hkv with rfl | hkv
      · simp only [List.mem_append, List.mem_singleton] at hp
        rcases hp with hp | rfl
        · exact h (k, v) (List.mem_cons_self _ _) p hp
        · exact hj
      · exact h kv (List.mem_cons_of_mem _ hkv) p hp
    · rcases List.mem_cons.1 hkv with rfl | hkv
      · exact h (k, v) (List.mem_cons_self _ _) p hp
      · exact ih (fun kv hkv => h kv (List.mem_cons_of_mem _ hkv)) kv hkv p hp

theorem mpFind_mem (mp : List (Nat × List Int)) (key : Nat) (b : List Int)
    (h : mpFind mp key = some b) : ∃ kv ∈ mp, kv.2 = b := by
  induction mp with
  | nil => simp [mpFind] at h
  | cons x xs ih =>
    obtain ⟨k, v⟩ := x
    simp only [mpFind] at h
    split at h
    · exact ⟨(k, v), List.mem_cons_self _ _, Option.some.inj h⟩
    · obtain ⟨kv, hkv, e⟩ := ih h
      exact ⟨kv, List.mem_cons_of_mem _ hkv, e⟩

/-- Every position stored in the window map is the start of a length-`L` window of
`B[bL..bR]`, whatever the fingerprints are. -/
theorem windowMap_positions (hashB : RollingHash) (bL bR L : Int) (key : Nat)
    (bucket : List Int) (h : mpFind (windowMap hashB bL bR L) key = some bucket) :
    ∀ p ∈ bucket, bL ≤ p ∧ p ≤ bR - L + 1 := by
  have inv := (foldl_ge
    (fun mp j => mpPush mp (packHash (getHash hashB j (j + L - 1))) j)
    (fun _ => (0 : Int))
    (fun mp => ∀ kv ∈ mp, ∀ p ∈ kv.2, bL ≤ p ∧ p ≤ bR - L + 1)
    (fun _ => (0 : Int))
    (intRange bL (bR - L + 1)) []
    (by simp)
    (by
      intro b a ha hb
      refine ⟨?_, le_refl _, le_refl _⟩
      exact mpPush_buckets (fun p => bL ≤ p ∧ p ≤ bR - L + 1) b _ a
        ((mem_intRange _ _ a).1 ha) hb)).1
  obtain ⟨kv, hkv, e⟩ := mpFind_mem _ _ _ h
  intro p hp
  exact inv kv hkv p (e ▸ hp)

/-! ## The boundary crosser -/

/-- Whatever the two tables contain, a non-empty result of `crossCheckA` is a length-`L`
window of `A[aL..aR]` that crosses `midA` and equals, byte for byte, a window of
`B[bL..bR]`. -/
theorem crossCheckA_sound (A : Str) (aL aR midA : Int) (B : Str) (bL bR : Int)
    (hashA hashB : RollingHash) (L : Int)
    (ha0 : 0 ≤ aL) (ha2 : aR < A.length) (hb0 : 0 ≤ bL) (hb2 : bR < B.length) :
    crossCheckA A aL aR midA B bL bR hashA hashB L = [] ∨
    ∃ s j : Int, aL ≤ s ∧ s ≤ midA ∧ midA + 1 ≤ s + L - 1 ∧ s + L - 1 ≤ aR ∧
      bL ≤ j ∧ j ≤ bR - L + 1 ∧
      crossCheckA A aL aR midA B bL bR hashA hashB L = substr A s L ∧
      substr A s L = substr B j L ∧
      ((crossCheckA A aL aR midA B bL bR hashA hashB L).length : Int) = L := by
  unfold crossCheckA
  by_cases hL : L ≤ 0
  · simp [hL]
  simp only [if_neg hL]
  by_cases hg : L > aR - aL + 1 ∨ L > bR - bL + 1
  · simp [hg]
  simp only [if_neg hg]
  split
  · rename_i r hfound
    right
    obtain ⟨s, hs, hfs⟩ := List.exists_of_findSome?_eq_some hfound
    have hs2 := (mem_intRange _ _ s).1 hs
    split at hfs
    · exact absurd hfs (by simp)
    split at hfs
    · exact absurd hfs (by simp)
    rename_i he hcross
    simp only [not_not] at hcross
    split at hfs
    · exact absurd hfs (by simp)
    rename_i bucket hbucket
    obtain ⟨posB, hpos, hf2⟩ := List.exists_of_findSome?_eq_some hfs
    have hp2 := windowMap_positions hashB bL bR L _ bucket hbucket posB hpos
    split at hf2
    · rename_i hbytes
      have hr : substr A s L = r := Option.some.inj hf2
      have hbe := (bytesEqual_iff A s B posB L).1 hbytes
      have heq := substr_eq_of_bytes A B s posB L (by omega) (by omega) (by omega) (by omega) hbe
      have hlen := length_substr A s L (by omega) (by omega) (by omega)
      refine ⟨s, posB, by omega, hcross.1, hcross.2, by omega, hp2.1, hp2.2, hr.symm, heq, ?_⟩
      rw [← hr, hlen]
    · exact absurd hf2 (by simp)
  · left
    rfl

theorem bytesEqual_comm (A : Str) (s : Int) (B : Str) (t L : Int) :
    bytesEqual A s B t L = bytesEqual B t A s L := by
  unfold bytesEqual
  congr 1
  funext k
  exact Bool.beq_comm

/-- The two crosser variants are mirror images of each other. -/
theorem crossCheckB_swap (A : Str) (aL aR : Int) (B : Str) (bL bR midB : Int)
    (hashA hashB : RollingHash) (L : Int) :
    crossCheckB A aL aR B bL bR midB hashA hashB L =
      crossCheckA B bL bR midB A aL aR hashB hashA L := by
  unfold crossCheckB crossCheckA
  simp only [bytesEqual_comm A _ B _ L, Or.comm (a := L > aR - aL + 1)]

theorem maxCrossB_swap (A : Str) (aL aR : Int) (B : Str) (bL bR midB : Int)
    (hashA hashB : RollingHash) :
    maxCrossB A aL aR B bL bR midB hashA hashB =
      maxCrossA B bL bR midB A aL aR hashB hashA := by
  unfold maxCrossB maxCrossA
  simp only [crossCheckB_swap, Or.comm (a := aR - aL + 1 ≤ 0), min_comm (aR - aL + 1)]

theorem crossSearch_inv (P : Str → Prop) (check : Int → Str) (hcheck : ∀ m, P (check m))
    (fuel : Nat) (lo hi : Int) (best : Str) (hbest : P best) :
    P (crossSearch check fuel lo hi best) := by
  induction fuel generalizing lo hi best with
  | zero => exact hbest
  | succ n ih =>
    simp only [crossSearch]
    split
    · split
      · apply ih
        split
        · exact hcheck _
        · exact hbest
      · exact ih _ _ _ hbest
    · exact hbest

/-- A non-empty result of `maxCrossA` is a window of `A[aL..aR]` crossing `midA` that
equals a window of `B[bL..bR]`, for any two tables. -/
theorem maxCrossA_sound (A : Str) (aL aR midA : Int) (B : Str) (bL bR : Int)
    (hashA hashB : RollingHash)
    (ha0 : 0 ≤ aL) (ha2 : aR < A.length) (hb0 : 0 ≤ bL) (hb2 : bR < B.length) :
    maxCrossA A aL aR midA B bL bR hashA hashB = [] ∨
    ∃ s j : Int, aL ≤ s ∧ s ≤ midA ∧
      midA + 1 ≤ s + (maxCrossA A aL aR midA B bL bR hashA hashB).length - 1 ∧
      s + (maxCrossA A aL aR midA B bL bR hashA hashB).length - 1 ≤ aR ∧
      bL ≤ j ∧ j + (maxCrossA A aL aR midA B bL bR hashA hashB).length - 1 ≤ bR ∧
      maxCrossA A aL aR midA B bL bR hashA hashB =
        substr A s (maxCrossA A aL aR midA B bL bR hashA hashB).length ∧
      maxCrossA A aL aR midA B bL bR hashA hashB =
        substr B j (maxCrossA A aL aR midA B bL bR hashA hashB).length := by
  unfold maxCrossA
  simp only []
  split
  · left
    rfl
  · apply crossSearch_inv (fun R => R = [] ∨
      ∃ s j : Int, aL ≤ s ∧ s ≤ midA ∧ midA + 1 ≤ s + R.length - 1 ∧ s + R.length - 1 ≤ aR ∧
        bL ≤ j ∧ j + R.length - 1 ≤ bR ∧ R = substr A s R.length ∧ R = substr B j R.length)
    · intro m
      rcases crossCheckA_sound A aL aR midA B bL bR hashA hashB m ha0 ha2 hb0 hb2 with h | h
      · exact Or.inl h
      · obtain ⟨s, j, h1, h2, h3, h4, h5, h6, h7, h8, h9⟩ := h
        right
        refine ⟨s, j, h1, h2, by omega, by omega, h5, by omega, ?_, ?_⟩
        · rw [h9]
          exact h7
        · rw [h9, ← h8]
          exact h7
    · exact Or.inl rfl

/-! ## The dual-midpoint refiner -/

theorem bothSearch_sound (A : Str) (aL : Int) (B : Str) (bL : Int)
    (hashA hashB : RollingHash) (startA startB M : Int) (fuel : Nat) (lo hi len : Int)
    (hlo : 1 ≤ lo) (hhi : hi ≤ M)
    (hlen : len = 0 ∨ (1 ≤ len ∧ len ≤ M ∧ bytesEqual A startA B startB len = true)) :
    bothSearch A aL B bL hashA hashB startA startB fuel lo hi len = 0 ∨
    (1 ≤ bothSearch A aL B bL hashA hashB startA startB fuel lo hi len ∧
      bothSearch A aL B bL hashA hashB startA startB fuel lo hi len ≤ M ∧
      bytesEqual A startA B startB
        (bothSearch A aL B bL hashA hashB startA startB fuel lo hi len) = true) := by
  induction fuel generalizing lo hi len with
  | zero => exact hlen
  | succ n ih =>
    simp only [bothSearch]
    split
    · rename_i hle
      split
      · exact ih _ _ _ hlo (by omega) hlen
      · split
        · split
          · rename_i hb
            exact ih _ _ _ (by omega) hhi (Or.inr ⟨by omega, by omega, hb⟩)
          · exact ih _ _ _ hlo (by omega) hlen
        · exact ih _ _ _ hlo (by omega) hlen
    · exact hlen

theorem bothStep_sound (A : Str) (aL aR midA : Int) (B : Str) (bL bR midB : Int)
    (hashA hashB : RollingHash) (startA startB : Int) (best : Str)
    (ha0 : 0 ≤ aL) (ha2 : aR < A.length) (hb0 : 0 ≤ bL) (hb2 : bR < B.length)
    (hsa : aL ≤ startA) (hsb : bL ≤ startB)
    (hbest : StraddlesBoth A aL aR midA B bL bR midB best) :
    StraddlesBoth A aL aR midA B bL bR midB
      (bothStep A aL aR midA B bL bR midB hashA hashB startA best startB) := by
  unfold bothStep
  simp only []
  split
  · rename_i hc
    obtain ⟨h1, h2, h3, h4, h5⟩ := hc
    rcases bothSearch_sound A aL B bL hashA hashB startA startB
      (min (aR - startA + 1) (bR - startB + 1))
      (min (aR - startA + 1) (bR - startB + 1)).toNat 1
      (min (aR - startA + 1) (bR - startB + 1)) 0 (le_refl _) (le_refl _) (Or.inl rfl)
      with h | ⟨g1, g2, g3⟩
    · omega
    · have hbe := (bytesEqual_iff _ _ _ _ _).1 g3
      have hm1 := min_le_left (aR - startA + 1) (bR - startB + 1)
      have hm2 := min_le_right (aR - startA + 1) (bR - startB + 1)
      have heq := substr_eq_of_bytes A B startA startB _ (by omega) (by omega) (by omega)
        (by omega) hbe
      have hl := length_substr A startA _ (by omega) (by omega : (0:Int) ≤ _)
        (by omega : startA + bothSearch A aL B bL hashA hashB startA startB
          (min (aR - startA + 1) (bR - startB + 1)).toNat 1
          (min (aR - startA + 1) (bR - startB + 1)) 0 ≤ A.length)
      right
      refine ⟨startA, startB, hsa, h2, by omega, by omega, hsb, h4, by omega, by omega, ?_, ?_⟩
      · rw [hl]
      · rw [hl, heq]
  · exact hbest

theorem crossCheckBothMidpoints_sound (A : Str) (aL aR midA : Int) (B : Str)
    (bL bR midB : Int) (hashA hashB : RollingHash)
    (ha0 : 0 ≤ aL) (ha2 : aR < A.length) (hb0 : 0 ≤ bL) (hb2 : bR < B.length) :
    StraddlesBoth A aL aR midA B bL bR midB
      (crossCheckBothMidpoints A aL aR midA B bL bR midB hashA hashB) := by
  unfold crossCheckBothMidpoints
  simp only []
  refine (foldl_ge _ (fun _ => (0 : Int)) (StraddlesBoth A aL aR midA B bL bR midB)
    (fun _ => (0 : Int)) _ [] (Or.inl rfl) ?_).1
  intro b sa hsa hb
  refine ⟨?_, le_refl _, le_refl _⟩
  refine (foldl_ge _ (fun _ => (0 : Int)) (StraddlesBoth A aL aR midA B bL bR midB)
    (fun _ => (0 : Int)) _ b hb ?_).1
  intro b2 sb hsb hb2'
  refine ⟨?_, le_refl _, le_refl _⟩
  have h1 := (mem_intRange _ _ sa).1 hsa
  have h2 := (mem_intRange _ _ sb).1 hsb
  exact bothStep_sound A aL aR midA B bL bR midB hashA hashB sa sb b2 ha0 ha2 hb0 hb2
    (le_trans (le_max_left _ _) h1.1) (le_trans (le_max_left _ _) h2.1) hb2'

/-! ## Containment -/

theorem mergeFive_inv (P : Str → Prop) (l r ca cb cc : Str)
    (hl : P l) (hr : P r) (ha : P ca) (hb : P cb) (hc : P cc) :
    P (mergeFive l r ca cb cc) := by
  unfold mergeFive
  simp only []
  split_ifs <;> assumption

theorem occursIn_sub (S A : Str) (lo hi : Int) (h : OccursIn S A lo hi) : S <:+: A := by
  obtain ⟨i, _, _, e⟩ := h
  rw [← e]
  exact substr_sub A i _

theorem infix_occurs (S A : Str) (h : S <:+: A) :
    ∃ i : Nat, i + S.length ≤ A.length ∧ substr A i S.length = S := by
  obtain ⟨s, t, rfl⟩ := h
  refine ⟨s.length, by simp, ?_⟩
  unfold substr
  simp

/-- Every string returned by the orchestrator on in-bounds ranges is a contiguous part of
`A` and of `B`. -/
theorem lcs_divide_conquer_common (A B : Str) (n : Nat) :
    ∀ aL aR bL bR : Int, (aR - aL + 1).toNat = n →
      0 ≤ aL → aR < A.length → 0 ≤ bL → bR < B.length →
      lcs_divide_conquer A aL aR B bL bR <:+: A ∧
        lcs_divide_conquer A aL aR B bL bR <:+: B := by
  induction n using Nat.strong_induction_on with
  | _ n ih =>
    intro aL aR bL bR hn ha0 ha2 hb0 hb2
    by_cases h0 : aR - aL + 1 ≤ 0 ∨ bR - bL + 1 ≤ 0
    · rw [lcs_invalid A aL aR B bL bR h0]
      exact ⟨ List.nil_infix, List.nil_infix⟩
    by_cases h1 : aR - aL + 1 ≤ 120 ∨ bR - bL + 1 ≤ 120
    · rw [lcs_base A aL aR B bL bR h0 h1]
      have := (bruteLCS_fold_spec A aL aR B bL bR ha0 (by omega) ha2 hb0 (by omega) hb2).1
      exact ⟨occursIn_sub _ _ _ _ this.1, occursIn_sub _ _ _ _ this.2⟩
    rw [lcs_split A aL aR B bL bR (by omega) (by omega)]
    have hsA := length_substr A aL (aR - aL + 1) ha0 (by omega) (by omega)
    have hsB := length_substr B bL (bR - bL + 1) hb0 (by omega) (by omega)
    apply mergeFive_inv (fun S => S <:+: A ∧ S <:+: B)
    · exact ih _ (by omega) aL ((aL + aR) / 2) bL ((bL + bR) / 2) rfl ha0 (by omega) hb0
        (by omega)
    · exact ih _ (by omega) ((aL + aR) / 2 + 1) aR ((bL + bR) / 2 + 1) bR rfl (by omega) ha2
        (by omega) hb2
    · rcases maxCrossA_sound (substr A aL (aR - aL + 1)) 0 (aR - aL + 1 - 1)
        ((aL + aR) / 2 - aL) (substr B bL (bR - bL + 1)) 0 (bR - bL + 1 - 1)
        (build (substr A aL (aR - aL + 1))) (build (substr B bL (bR - bL + 1)))
        (le_refl _) (by omega) (le_refl _) (by omega) with h | ⟨s, j, _, _, _, _, _, _, e1, e2⟩
      · rw [h]
        exact ⟨ List.nil_infix, List.nil_infix⟩
      · constructor
        · rw [e1]
          exact (substr_sub _ _ _).trans (substr_sub _ _ _)
        · rw [e2]
          exact (substr_sub _ _ _).trans (substr_sub _ _ _)
    · rw [maxCrossB_swap]
      rcases maxCrossA_sound (substr B bL (bR - bL + 1)) 0 (bR - bL + 1 - 1)
        ((bL + bR) / 2 - bL) (substr A aL (aR - aL + 1)) 0 (aR - aL + 1 - 1)
        (build (substr B bL (bR - bL + 1))) (build (substr A aL (aR - aL + 1)))
        (le_refl _) (by omega) (le_refl _) (by omega) with h | ⟨s, j, _, _, _, _, _, _, e1, e2⟩
      · rw [h]
        exact ⟨ List.nil_infix, List.nil_infix⟩
      · constructor
        · rw [e2]
          exact (substr_sub _ _ _).trans (substr_sub _ _ _)
        · rw [e1]
          exact (substr_sub _ _ _).trans (substr_sub _ _ _)
    · rcases crossCheckBothMidpoints_sound A aL aR ((aL + aR) / 2) B bL bR ((bL + bR) / 2)
        (build (substr A aL (aR - aL + 1))) (build (substr B bL (bR - bL + 1)))
        ha0 ha2 hb0 hb2 with h | ⟨a, b, _, _, _, _, _, _, _, _, e1, e2⟩
      · rw [h]
        exact ⟨ List.nil_infix, List.nil_infix⟩
      · constructor
        · rw [e1]
          exact substr_sub _ _ _
        · rw [e2]
          exact substr_sub _ _ _

theorem longestCommonSubstring_common (A B : Str) :
    longestCommonSubstring A B <:+: A ∧ longestCommonSubstring A B <:+: B := by
  unfold longestCommonSubstring
  split
  · exact ⟨ List.nil_infix, List.nil_infix⟩
  · exact lcs_divide_conquer_common A B _ 0 _ 0 _ rfl (le_refl _) (by omega) (le_refl _)
      (by omega)

/-- C1 (containment): the string `S` returned by `longestCommonSubstring A B` occurs as a
contiguous sub-range of `A` and of `B`: there are offsets `i`, `j` with
`A[i .. i+|S|) = S = B[j .. j+|S|)`, on the Base path and on the Split path alike. -/
theorem longestCommonSubstring_contained (A B : Str) :
    ∃ i j : Nat,
      i + (longestCommonSubstring A B).length ≤ A.length ∧
      j + (longestCommonSubstring A B).length ≤ B.length ∧
      substr A i (longestCommonSubstring A B).length = longestCommonSubstring A B ∧
      substr B j (longestCommonSubstring A B).length = longestCommonSubstring A B := by
  obtain ⟨hA, hB⟩ := longestCommonSubstring_common A B
  obtain ⟨i, hi, ei⟩ := infix_occurs _ _ hA
  obtain ⟨j, hj, ej⟩ := infix_occurs _ _ hB
  exact ⟨i, j, hi, hj, ei, ej⟩

/-- C7 (no overlap): when no byte value occurs in both `A` and `B`, the result of
`longestCommonSubstring A B` is the empty string, whichever path is taken. -/
theorem longestCommonSubstring_disjoint (A B : Str) (h : ∀ c : Byte, c ∈ A → c ∉ B) :
    longestCommonSubstring A B = [] := by
  obtain ⟨hA, hB⟩ := longestCommonSubstring_common A B
  cases hS : longestCommonSubstring A B with
  | nil => rfl
  | cons c cs =>
    rw [hS] at hA hB
    exact absurd (hB.subset (List.mem_cons_self _ _)) (h c (hA.subset (List.mem_cons_self _ _)))

/-! ## The base path and the oracle -/

theorem longestCommonSubstring_base (A B : Str) (h : A.length ≤ 120 ∨ B.length ≤ 120)
    (hA : A ≠ []) (hB : B ≠ []) :
    longestCommonSubstring A B =
      bruteLCS A 0 ((A.length : Int) - 1) B 0 ((B.length : Int) - 1) := by
  have h1 : 0 < A.length := List.length_pos.2 hA
  have h2 : 0 < B.length := List.length_pos.2 hB
  unfold longestCommonSubstring
  rw [if_neg (by simp [hA, hB])]
  exact lcs_base A 0 _ B 0 _ (by omega) (by omega)

theorem longestCommonSubstring_eq_verifyLCS (A B : Str)
    (h : A.length ≤ 120 ∨ B.length ≤ 120) :
    longestCommonSubstring A B = verifyLCS A B := by
  by_cases hA : A = []
  · subst hA
    rw [verifyLCS_nil_left]
    simp [longestCommonSubstring]
  by_cases hB : B = []
  · subst hB
    rw [verifyLCS_nil_right]
    simp [longestCommonSubstring]
  rw [longestCommonSubstring_base A B h hA hB, verifyLCS_eq_bruteLCS A B hA hB]

theorem verifyLCS_spec (A B : Str) :
    OccursIn (verifyLCS A B) A 0 ((A.length : Int) - 1) ∧
    OccursIn (verifyLCS A B) B 0 ((B.length : Int) - 1) ∧
    ∀ T : Str, OccursIn T A 0 ((A.length : Int) - 1) → OccursIn T B 0 ((B.length : Int) - 1) →
      T.length ≤ (verifyLCS A B).length := by
  by_cases hA : A = []
  · subst hA
    rw [verifyLCS_nil_left]
    refine ⟨occursIn_nil _ _ _ (by simp), occursIn_nil _ _ _ (by omega), ?_⟩
    rintro T ⟨i, h1, h2, _⟩ _
    simp only [List.length_nil, Nat.cast_zero] at h2 ⊢
    omega
  by_cases hB : B = []
  · subst hB
    rw [verifyLCS_nil_right]
    refine ⟨occursIn_nil _ _ _ (by omega), occursIn_nil _ _ _ (by simp), ?_⟩
    rintro T _ ⟨i, h1, h2, _⟩
    simp only [List.length_nil, Nat.cast_zero] at h2 ⊢
    omega
  have h1 : 0 < A.length := List.length_pos.2 hA
  have h2 : 0 < B.length := List.length_pos.2 hB
  rw [verifyLCS_eq_bruteLCS A B hA hB]
  have hs := bruteLCS_fold_spec A 0 ((A.length : Int) - 1) B 0 ((B.length : Int) - 1)
    (le_refl _) (by omega) (by omega) (le_refl _) (by omega) (by omega)
  refine ⟨hs.1.1, hs.1.2, ?_⟩
  intro T hTA hTB
  exact bruteLCS_maximal A 0 _ B 0 _ (le_refl _) (by omega) (by omega) (le_refl _) (by omega)
    (by omega) T hTA hTB

/-- C3 (base path): when `|A| ≤ 120` or `|B| ≤ 120`, `longestCommonSubstring A B` is the
same string as `verifyLCS A B`, and for non-empty inputs the same string as
`bruteLCS A 0 (|A|-1) B 0 (|B|-1)`. -/
theorem base_path_agrees_with_oracle (A B : Str) (h : A.length ≤ 120 ∨ B.length ≤ 120) :
    longestCommonSubstring A B = verifyLCS A B ∧
    (A ≠ [] → B ≠ [] →
      longestCommonSubstring A B =
        bruteLCS A 0 ((A.length : Int) - 1) B 0 ((B.length : Int) - 1)) :=
  ⟨longestCommonSubstring_eq_verifyLCS A B h, longestCommonSubstring_base A B h⟩

theorem base_path_agrees_with_oracle_witness :
    ((bytes "abcab").length ≤ 120 ∨ (bytes "cab").length ≤ 120) ∧
    longestCommonSubstring (bytes "abcab") (bytes "cab") =
      verifyLCS (bytes "abcab") (bytes "cab") ∧
    (bytes "abcab" ≠ [] → bytes "cab" ≠ [] →
      longestCommonSubstring (bytes "abcab") (bytes "cab") =
        bruteLCS (bytes "abcab") 0 (((bytes "abcab").length : Int) - 1)
          (bytes "cab") 0 (((bytes "cab").length : Int) - 1)) :=
  ⟨by decide, base_path_agrees_with_oracle (bytes "abcab") (bytes "cab") (by decide)⟩

/-- C4 (exact matcher): for in-bounds ranges the string returned by `bruteLCS` occurs
inside `A[aL..aR]` and inside `B[bL..bR]`, and every string occurring inside both ranges is
at most as long; `verifyLCS A B` has the same property for the whole strings. -/
theorem bruteLCS_is_longest_common (A B : Str) :
    (∀ aL aR bL bR : Int, 0 ≤ aL → aL ≤ aR → aR < A.length →
      0 ≤ bL → bL ≤ bR → bR < B.length →
      OccursIn (bruteLCS A aL aR B bL bR) A aL aR ∧
      OccursIn (bruteLCS A aL aR B bL bR) B bL bR ∧
      ∀ T : Str, OccursIn T A aL aR → OccursIn T B bL bR →
        T.length ≤ (bruteLCS A aL aR B bL bR).length) ∧
    (OccursIn (verifyLCS A B) A 0 ((A.length : Int) - 1) ∧
      OccursIn (verifyLCS A B) B 0 ((B.length : Int) - 1) ∧
      ∀ T : Str, OccursIn T A 0 ((A.length : Int) - 1) →
        OccursIn T B 0 ((B.length : Int) - 1) → T.length ≤ (verifyLCS A B).length) := by
  refine ⟨?_, verifyLCS_spec A B⟩
  intro aL aR bL bR ha0 ha1 ha2 hb0 hb1 hb2
  have hs := bruteLCS_fold_spec A aL aR B bL bR ha0 ha1 ha2 hb0 hb1 hb2
  exact ⟨hs.1.1, hs.1.2, bruteLCS_maximal A aL aR B bL bR ha0 ha1 ha2 hb0 hb1 hb2⟩

theorem bruteLCS_is_longest_common_witness :
    ((0 : Int) ≤ 1 ∧ (1 : Int) ≤ 4 ∧ (4 : Int) < (bytes "xabcy").length ∧
      (0 : Int) ≤ 0 ∧ (0 : Int) ≤ 4 ∧ (4 : Int) < (bytes "abcabc").length) ∧
    OccursIn (bruteLCS (bytes "xabcy") 1 4 (bytes "abcabc") 0 4) (bytes "xabcy") 1 4 ∧
    OccursIn (bruteLCS (bytes "xabcy") 1 4 (bytes "abcabc") 0 4) (bytes "abcabc") 0 4 ∧
    ∀ T : Str, OccursIn T (bytes "xabcy") 1 4 → OccursIn T (bytes "abcabc") 0 4 →
      T.length ≤ (bruteLCS (bytes "xabcy") 1 4 (bytes "abcabc") 0 4).length :=
  ⟨by decide, (bruteLCS_is_longest_common (bytes "xabcy") (bytes "abcabc")).1 1 4 0 4
    (by decide) (by decide) (by decide) (by decide) (by decide) (by decide)⟩

/-- C5 (concrete scenario): `longestCommonSubstring "abcXYZdefabc" "qqXYZdefrr"` is exactly
`"XYZdef"`, of length 6, the sub-range of `A` at offset 3 and of `B` at offset 2. -/
theorem concrete_scenario :
    longestCommonSubstring (bytes "abcXYZdefabc") (bytes "qqXYZdefrr") = bytes "XYZdef" ∧
    (longestCommonSubstring (bytes "abcXYZdefabc") (bytes "qqXYZdefrr")).length = 6 ∧
    substr (bytes "abcXYZdefabc") 3 6 = bytes "XYZdef" ∧
    substr (bytes "qqXYZdefrr") 2 6 = bytes "XYZdef" := by
  have e : longestCommonSubstring (bytes "abcXYZdefabc") (bytes "qqXYZdefrr") =
      bytes "XYZdef" := by
    rw [longestCommonSubstring_eq_verifyLCS _ _ (by decide)]
    decide!
  refine ⟨e, ?_, by decide!, by decide!⟩
  rw [e]
  decide

/-- C6 (empty input): `longestCommonSubstring "" B` and `longestCommonSubstring A ""` are
the empty string for every `A` and `B`; the first guard returns before the orchestrator,
and with it any table construction or indexed read, is reached. -/
theorem empty_input :
    (∀ B : Str, longestCommonSubstring [] B = [] ∧
      (longestCommonSubstring [] B).length = 0) ∧
    (∀ A : Str, longestCommonSubstring A [] = [] ∧
      (longestCommonSubstring A []).length = 0) := by
  constructor <;> intro X <;> simp [longestCommonSubstring]

/-- C10 (range-invalid recovery): for an inverted or empty range on either side,
`lcs_divide_conquer` returns the empty string; the result is the same for every `A` and
`B`, so it depends on no byte of either. -/
theorem range_invalid_recovery (A B : Str) (aL aR bL bR : Int)
    (h : aR < aL ∨ bR < bL) :
    lcs_divide_conquer A aL aR B bL bR = [] ∧
    ∀ A2 B2 : Str, lcs_divide_conquer A2 aL aR B2 bL bR = lcs_divide_conquer A aL aR B bL bR := by
  have hg : aR - aL + 1 ≤ 0 ∨ bR - bL + 1 ≤ 0 := by omega
  refine ⟨lcs_invalid A aL aR B bL bR hg, ?_⟩
  intro A2 B2
  rw [lcs_invalid A aL aR B bL bR hg, lcs_invalid A2 aL aR B2 bL bR hg]

theorem range_invalid_recovery_witness :
    ((2 : Int) < 5 ∨ (7 : Int) < 0) ∧
    (lcs_divide_conquer (bytes "abcdefgh") 5 2 (bytes "abcdefgh") 0 7 = [] ∧
      ∀ A2 B2 : Str, lcs_divide_conquer A2 5 2 B2 0 7 =
        lcs_divide_conquer (bytes "abcdefgh") 5 2 (bytes "abcdefgh") 0 7) :=
  ⟨by decide, range_invalid_recovery (bytes "abcdefgh") (bytes "abcdefgh") 5 2 0 7 (by decide)⟩

/-! ## A common byte that the split never compares -/

theorem charAt_mem_substr (A : Str) (i n k : Int) (h0 : 0 ≤ i) (h1 : i ≤ k)
    (h2 : k < i + n) (h3 : k < A.length) : charAt A k ∈ substr A i n := by
  have e := getElem?_substr A i n h0 (k - i).toNat (by omega)
  have e2 : (i + ((k - i).toNat : Int)).toNat = k.toNat := by omega
  rw [e2, charAt_of_inBounds A k (by omega) h3] at e
  exact List.getElem?_mem e

theorem window_byte_shared (A B R : Str) (hA : R <:+: A) (j k : Int)
    (hR : substr B j R.length = R) (h0 : 0 ≤ j) (h1 : j ≤ k) (h2 : k < j + R.length)
    (h3 : k < B.length) : charAt B k ∈ A := by
  have := charAt_mem_substr B j R.length k h0 h1 h2 h3
  rw [hR] at this
  exact hA.subset this

theorem farA_tail (k : Int) (h1 : 1 ≤ k) (h2 : k ≤ 120) : charAt farA k = 97 := by
  have h : ∀ x ∈ intRange 1 120, charAt farA x = 97 := by decide!
  exact h k ((mem_intRange 1 120 k).2 ⟨h1, h2⟩)

theorem farB_init (k : Int) (h1 : 0 ≤ k) (h2 : k ≤ 119) : charAt farB k = 98 := by
  have h : ∀ x ∈ intRange 0 119, charAt farB x = 98 := by decide!
  exact h k ((mem_intRange 0 119 k).2 ⟨h1, h2⟩)

theorem farA_no_98 : (98 : Byte) ∉ farA := by decide!

theorem farB_no_97 : (97 : Byte) ∉ farB := by decide!

theorem farA_length : (farA.length : Int) = 121 := by decide

theorem farB_length : (farB.length : Int) = 121 := by decide

theorem far_left : lcs_divide_conquer farA 0 60 farB 0 60 = [] := by
  rw [lcs_base farA 0 60 farB 0 60 (by decide) (by decide)]
  have hs := (bruteLCS_fold_spec farA 0 60 farB 0 60 (by decide) (by decide)
    (by rw [farA_length]; decide) (by decide) (by decide) (by rw [farB_length]; decide)).1
  obtain ⟨⟨i, hi0, hi1, hiR⟩, ⟨j, hj0, hj1, hjR⟩⟩ := hs
  by_contra hne
  have hpos : 0 < (bruteLCS farA 0 60 farB 0 60).length := List.length_pos.2 hne
  have := window_byte_shared farA farB _ (occursIn_sub _ _ _ _ ⟨i, hi0, hi1, hiR⟩) j j hjR
    hj0 (le_refl _) (by omega) (by rw [farB_length]; omega)
  rw [farB_init j hj0 (by omega)] at this
  exact farA_no_98 this

theorem far_right : lcs_divide_conquer farA 61 120 farB 61 120 = [] := by
  rw [lcs_base farA 61 120 farB 61 120 (by decide) (by decide)]
  have hs := (bruteLCS_fold_spec farA 61 120 farB 61 120 (by decide) (by decide)
    (by rw [farA_length]; decide) (by decide) (by decide) (by rw [farB_length]; decide)).1
  obtain ⟨⟨i, hi0, hi1, hiR⟩, ⟨j, hj0, hj1, hjR⟩⟩ := hs
  by_contra hne
  have hpos : 0 < (bruteLCS farA 61 120 farB 61 120).length := List.length_pos.2 hne
  have := window_byte_shared farB farA _ (occursIn_sub _ _ _ _ ⟨j, hj0, hj1, hjR⟩) i i hiR
    (by omega) (le_refl _) (by omega) (by rw [farA_length]; omega)
  rw [farA_tail i (by omega) (by omega)] at this
  exact farB_no_97 this

theorem far_crossA (hashA hashB : RollingHash) :
    maxCrossA farA 0 120 60 farB 0 120 hashA hashB = [] := by
  rcases maxCrossA_sound farA 0 120 60 farB 0 120 hashA hashB (le_refl _)
    (by rw [farA_length]; decide) (le_refl _) (by rw [farB_length]; decide)
    with h | ⟨s, j, h1, h2, h3, h4, h5, h6, e1, e2⟩
  · exact h
  · exfalso
    have := window_byte_shared farB farA _ (e2 ▸ substr_sub farB j _) s 60 e1.symm h1 h2
      (by omega) (by rw [farA_length]; decide)
    rw [farA_tail 60 (by decide) (by decide)] at this
    exact farB_no_97 this

theorem far_crossB (hashA hashB : RollingHash) :
    maxCrossB farA 0 120 farB 0 120 60 hashA hashB = [] := by
  rw [maxCrossB_swap]
  rcases maxCrossA_sound farB 0 120 60 farA 0 120 hashB hashA (le_refl _)
    (by rw [farB_length]; decide) (le_refl _) (by rw [farA_length]; decide)
    with h | ⟨s, j, h1, h2, h3, h4, h5, h6, e1, e2⟩
  · exact h
  · exfalso
    have := window_byte_shared farA farB _ (e2 ▸ substr_sub farA j _) s 60 e1.symm h1 h2
      (by omega) (by rw [farB_length]; decide)
    rw [farB_init 60 (by decide) (by decide)] at this
    exact farA_no_98 this

theorem far_crossBoth (hashA hashB : RollingHash) :
    crossCheckBothMidpoints farA 0 120 60 farB 0 120 60 hashA hashB = [] := by
  rcases crossCheckBothMidpoints_sound farA 0 120 60 farB 0 120 60 hashA hashB (le_refl _)
    (by rw [farA_length]; decide) (le_refl _) (by rw [farB_length]; decide)
    with h | ⟨a, b, h1, h2, h3, h4, h5, h6, h7, h8, e1, e2⟩
  · exact h
  · exfalso
    have := window_byte_shared farA farB _ (e1 ▸ substr_sub farA a _) b 60 e2.symm h5 h6
      (by omega) (by rw [farB_length]; decide)
    rw [farB_init 60 (by decide) (by decide)] at this
    exact farA_no_98 this

theorem far_oracle : verifyLCS farA farB = [120] := by
  obtain ⟨⟨i, hi0, hi1, hiR⟩, ⟨j, hj0, hj1, hjR⟩, hmax⟩ := verifyLCS_spec farA farB
  rw [farA_length] at hi1
  rw [farB_length] at hj1
  have h1 : 1 ≤ (verifyLCS farA farB).length :=
    hmax [120] ⟨0, le_refl _, by rw [farA_length]; decide, by decide⟩
      ⟨120, by decide, by rw [farB_length]; decide, by decide!⟩
  have hB : verifyLCS farA farB <:+: farB := hjR ▸ substr_sub farB j _
  have hi : i = 0 := by
    by_contra hne
    have := window_byte_shared farB farA _ hB i i hiR hi0 (le_refl _) (by omega)
      (by rw [farA_length]; omega)
    rw [farA_tail i (by omega) (by omega)] at this
    exact farB_no_97 this
  subst hi
  have hlen : (verifyLCS farA farB).length = 1 := by
    by_contra hne
    have := window_byte_shared farB farA _ hB 0 1 hiR (le_refl _) (by decide) (by omega)
      (by rw [farA_length]; decide)
    rw [farA_tail 1 (by decide) (by decide)] at this
    exact farB_no_97 this
  rw [hlen] at hiR
  rw [← hiR]
  decide

/-- C2 (maximality) fails on the split path: for the 121-byte inputs `farA` and `farB` the
orchestrator returns the empty string although the oracle finds the common byte `x`
(`A[0] = B[120]`); the occurrence lies in the left half of `A` and the right half of `B`,
a pair of halves the split never compares. -/
theorem maximality_fails_on_split :
    farA.length = 121 ∧ farB.length = 121 ∧
    longestCommonSubstring farA farB = [] ∧ verifyLCS farA farB = [120] ∧
    (longestCommonSubstring farA farB).length ≠ (verifyLCS farA farB).length := by
  have hl : longestCommonSubstring farA farB = [] := by
    unfold longestCommonSubstring
    rw [if_neg (by decide)]
    have e1 : (farA.length : Int) - 1 = 120 := by rw [farA_length]; decide
    have e2 : (farB.length : Int) - 1 = 120 := by rw [farB_length]; decide
    rw [e1, e2, lcs_split farA 0 120 farB 0 120 (by decide) (by decide)]
    have m : ((0 : Int) + 120) / 2 = 60 := by decide
    have s1 : substr farA 0 (120 - 0 + 1) = farA := by decide!
    have s2 : substr farB 0 (120 - 0 + 1) = farB := by decide!
    have n1 : (120 : Int) - 0 + 1 - 1 = 120 := by decide
    have n2 : (60 : Int) + 1 = 61 := by decide
    have n3 : (60 : Int) - 0 = 60 := by decide
    rw [m, s1, s2, n1, n2, n3, far_left, far_right, far_crossA, far_crossB, far_crossBoth]
    rfl
  refine ⟨by decide, by decide, hl, far_oracle, ?_⟩
  rw [hl, far_oracle]
  decide

/-! ## The polynomial fingerprint -/

theorem polySum_snoc (b : Int) (t : Str) (c : Byte) :
    polySum b (t ++ [c]) = polySum b t * b + ((c.val : Int) + 1) := by
  unfold polySum
  rw [List.length_append, List.length_singleton, List.sum_range_succ]
  congr 1
  · rw [← List.sum_map_mul_right]
    congr 1
    apply List.map_congr_left
    intro i hi
    have hi2 : i < t.length := List.mem_range.1 hi
    rw [List.getD_append _ _ _ _ hi2]
    have e : t.length + 1 - 1 - i = (t.length - 1 - i) + 1 := by omega
    rw [e, pow_succ]
    ring
  · have e : t.length + 1 - 1 - t.length = 0 := by omega
    rw [e, List.getD_append_right _ _ _ _ (le_refl _)]
    simp

theorem polySum_nil (b : Int) : polySum b [] = 0 := by
  simp [polySum]

theorem polySum_append (b : Int) (p t : Str) :
    polySum b (p ++ t) = polySum b p * b ^ t.length + polySum b t := by
  induction t using List.reverseRecOn with
  | nil => simp [polySum_nil]
  | append_singleton t c ih =>
    rw [← List.append_assoc, polySum_snoc, ih, polySum_snoc, List.length_append,
      List.length_singleton, pow_succ]
    ring


/-! ## The fingerprint tables -/

theorem vecAt_of_getElem? (v : List Int) (i : Nat) (x : Int) (h : v[i]? = some x) :
    vecAt v (i : Int) = x := by
  simp [vecAt, List.getD_eq_getElem?_getD, h]

theorem b1_eq : b1 = 911382323 := by decide

theorem b2_eq : b2 = 972663749 := by decide

theorem polyHash_nonneg1 (b : Int) (t : Str) : 0 ≤ polyHash b MOD1 t :=
  Int.emod_nonneg _ (by decide)

theorem polyHash_nonneg2 (b : Int) (t : Str) : 0 ≤ polyHash b MOD2 t :=
  Int.emod_nonneg _ (by decide)

/-- One step of the prefix-hash recurrence of `build` computes the fingerprint of the
prefix that is one byte longer. -/
theorem hash_step (b M : Int) (hb : 0 ≤ b) (hM : 0 < M) (s : Str) (k : Nat)
    (hk : k < s.length) :
    Int.tmod (polyHash b M (s.take k) * b + ((charAt s (k : Int)).val : Int) + 1) M =
      polyHash b M (s.take (k + 1)) := by
  have hnn : 0 ≤ polyHash b M (s.take k) := Int.emod_nonneg _ (by omega)
  have hc : charAt s (k : Int) = s[k] := by
    simp [charAt, List.getD_eq_getElem?_getD, List.getElem?_eq_getElem hk]
  rw [Int.tmod_eq_emod (by positivity) (by omega)]
  rw [List.take_succ, List.getElem?_eq_getElem hk, Option.toList_some]
  unfold polyHash
  rw [polySum_snoc, hc]
  have h1 : polySum b (List.take k s) % M * b + ((s[k].val : Int)) + 1 ≡
      polySum b (List.take k s) * b + ((s[k].val : Int) + 1) [ZMOD M] := by
    rw [add_assoc]
    exact ((Int.mod_modEq _ _).mul_right _).add_right _
  exact h1

theorem pow_step (b M : Int) (hb : 0 ≤ b) (hM : 0 < M) (k : Nat) :
    Int.tmod (b ^ k % M * b) M = b ^ (k + 1) % M := by
  have hnn : 0 ≤ b ^ k % M := Int.emod_nonneg _ (by omega)
  rw [Int.tmod_eq_emod (by positivity) (by omega), pow_succ]
  exact (Int.mod_modEq _ _).mul_right _

/-- The state of the four vectors after `k` iterations of the loop of `build`. -/
theorem build_loop_inv (s : Str) (k : Nat) (hk : k ≤ s.length) :
    (((List.range k).foldl (buildStep s) (buildInit s.length)).h1.length = s.length + 1 ∧
      ((List.range k).foldl (buildStep s) (buildInit s.length)).h2.length = s.length + 1 ∧
      ((List.range k).foldl (buildStep s) (buildInit s.length)).p1.length = s.length + 1 ∧
      ((List.range k).foldl (buildStep s) (buildInit s.length)).p2.length = s.length + 1) ∧
    ∀ i : Nat, i ≤ k →
      ((List.range k).foldl (buildStep s) (buildInit s.length)).h1[i]? =
        some (polyHash b1 MOD1 (s.take i)) ∧
      ((List.range k).foldl (buildStep s) (buildInit s.length)).h2[i]? =
        some (polyHash b2 MOD2 (s.take i)) ∧
      ((List.range k).foldl (buildStep s) (buildInit s.length)).p1[i]? =
        some (b1 ^ i % MOD1) ∧
      ((List.range k).foldl (buildStep s) (buildInit s.length)).p2[i]? =
        some (b2 ^ i % MOD2) := by
  induction k with
  | zero =>
    refine ⟨by simp [buildInit], ?_⟩
    intro i hi
    have : i = 0 := by omega
    subst this
    simp [buildInit, polyHash, polySum_nil, MOD1, MOD2]
  | succ k ih =>
    obtain ⟨⟨hl1, hl2, hl3, hl4⟩, hinv⟩ := ih (by omega)
    obtain ⟨e1, e2, e3, e4⟩ := hinv k (le_refl _)
    rw [List.range_succ, List.foldl_append]
    simp only [List.foldl_cons, List.foldl_nil]
    generalize ((List.range k).foldl (buildStep s) _) = T at hl1 hl2 hl3 hl4 hinv e1 e2 e3 e4
    refine ⟨by simp [buildStep, hl1, hl2, hl3, hl4], ?_⟩
    intro i hi
    simp only [buildStep, List.getElem?_set]
    rw [vecAt_of_getElem? _ _ _ e1, vecAt_of_getElem? _ _ _ e2, vecAt_of_getElem? _ _ _ e3,
      vecAt_of_getElem? _ _ _ e4]
    by_cases hik : k + 1 = i
    · subst hik
      have g1 : k + 1 < T.h1.length := by omega
      have g2 : k + 1 < T.h2.length := by omega
      have g3 : k + 1 < T.p1.length := by omega
      have g4 : k + 1 < T.p2.length := by omega
      simp only [if_true, if_pos g1, if_pos g2, if_pos g3, if_pos g4]
      rw [hash_step b1 MOD1 (by decide) (by decide) s k (by omega),
        hash_step b2 MOD2 (by decide) (by decide) s k (by omega),
        pow_step b1 MOD1 (by decide) (by decide) k, pow_step b2 MOD2 (by decide) (by decide) k]
      exact ⟨rfl, rfl, rfl, rfl⟩
    · simp only [if_neg hik]
      exact hinv i (by omega)

theorem build_spec (s : Str) :
    ((build s).h1.length = s.length + 1 ∧ (build s).h2.length = s.length + 1 ∧
      (build s).p1.length = s.length + 1 ∧ (build s).p2.length = s.length + 1) ∧
    ∀ i : Nat, i ≤ s.length →
      (build s).h1[i]? = some (polyHash b1 MOD1 (s.take i)) ∧
      (build s).h2[i]? = some (polyHash b2 MOD2 (s.take i)) ∧
      (build s).p1[i]? = some (b1 ^ i % MOD1) ∧
      (build s).p2[i]? = some (b2 ^ i % MOD2) :=
  build_loop_inv s s.length (le_refl _)

/-- The modular subtraction of `getHash` recovers the fingerprint of the suffix `t` of a
prefix `p ++ t` from the fingerprints of `p ++ t` and `p`. -/
theorem hash_subtract (b M : Int) (hM : 0 < M) (p t : Str) :
    Int.tmod (polyHash b M (p ++ t) + M -
      Int.tmod (polyHash b M p * (b ^ t.length % M)) M) M = polyHash b M t := by
  have h1 : 0 ≤ polyHash b M p := Int.emod_nonneg _ (by omega)
  have h2 : 0 ≤ b ^ t.length % M := Int.emod_nonneg _ (by omega)
  have h3 : 0 ≤ polyHash b M (p ++ t) := Int.emod_nonneg _ (by omega)
  rw [Int.tmod_eq_emod (mul_nonneg h1 h2) (by omega)]
  have h4 : polyHash b M p * (b ^ t.length % M) % M < M := Int.emod_lt_of_pos _ hM
  rw [Int.tmod_eq_emod (by omega) (by omega)]
  unfold polyHash
  rw [polySum_append]
  have e1 : polySum b p % M * (b ^ t.length % M) % M ≡ polySum b p * b ^ t.length [ZMOD M] :=
    (Int.mod_modEq _ _).trans ((Int.mod_modEq _ _).mul (Int.mod_modEq _ _))
  have e2 : (polySum b p * b ^ t.length + polySum b t) % M ≡
      polySum b p * b ^ t.length + polySum b t [ZMOD M] := Int.mod_modEq _ _
  have e3 : M ≡ 0 [ZMOD M] := by simp [Int.ModEq]
  have := (e2.add e3).sub e1
  simpa using this


theorem vecAt_of_nonneg (v : List Int) (z : Int) (hz : 0 ≤ z) (x : Int)
    (h : v[z.toNat]? = some x) : vecAt v z = x := by
  have := vecAt_of_getElem? v z.toNat x h
  rwa [Int.toNat_of_nonneg hz] at this

theorem take_append_substr (s : Str) (l r : Int) (h0 : 0 ≤ l) (h1 : l ≤ r) :
    s.take (r + 1).toNat = s.take l.toNat ++ substr s l (r - l + 1) := by
  have e : (r + 1).toNat = l.toNat + (r - l + 1).toNat := by omega
  rw [e, List.take_add]
  rfl

/-- For an in-range query, `getHash` on the table of `s` is the pair of polynomial
fingerprints of the queried bytes. -/
theorem getHash_build (s : Str) (l r : Int) (h0 : 0 ≤ l) (h1 : l ≤ r)
    (h2 : r < s.length) :
    getHash (build s) l r =
      (polyHash b1 MOD1 (substr s l (r - l + 1)), polyHash b2 MOD2 (substr s l (r - l + 1))) := by
  obtain ⟨⟨hl1, _, _, _⟩, hinv⟩ := build_spec s
  obtain ⟨x1, x2, _, _⟩ := hinv (r + 1).toNat (by omega)
  obtain ⟨y1, y2, _, _⟩ := hinv l.toNat (by omega)
  obtain ⟨_, _, q1, q2⟩ := hinv (r - l + 1).toNat (by omega)
  have hlen : (substr s l (r - l + 1)).length = (r - l + 1).toNat := by
    have := length_substr s l (r - l + 1) h0 (by omega) (by omega)
    omega
  unfold getHash
  rw [if_neg (by omega), if_neg (by omega), if_neg (by rw [hl1]; push_cast; omega)]
  simp only []
  rw [vecAt_of_nonneg _ (r + 1) (by omega) _ x1, vecAt_of_nonneg _ (r + 1) (by omega) _ x2,
    vecAt_of_nonneg _ l h0 _ y1, vecAt_of_nonneg _ l h0 _ y2,
    vecAt_of_nonneg _ (r - l + 1) (by omega) _ q1,
    vecAt_of_nonneg _ (r - l + 1) (by omega) _ q2,
    take_append_substr s l r h0 h1, ← hlen,
    hash_subtract b1 MOD1 (by decide), hash_subtract b2 MOD2 (by decide)]

theorem build_last (t : Str) :
    vecAt (build t).h1 (t.length : Int) = polyHash b1 MOD1 t ∧
    vecAt (build t).h2 (t.length : Int) = polyHash b2 MOD2 t := by
  obtain ⟨e1, e2, _, _⟩ := (build_spec t).2 t.length (le_refl _)
  rw [List.take_length] at e1 e2
  exact ⟨vecAt_of_getElem? _ _ _ e1, vecAt_of_getElem? _ _ _ e2⟩

/-- C8 (fingerprint query): for `0 ≤ l ≤ r < |s|`, `getHash (build s) l r` is the pair
`(H1 t, H2 t)` of polynomial fingerprints of `t = s[l..r]` with the two bases and moduli of
the source; it equals the last prefix-hash entries of the table built from `t` alone, so
ranges with identical bytes have identical fingerprints, in one table or across two. -/
theorem fingerprint_query_correct (s : Str) (l r : Int) (h0 : 0 ≤ l) (h1 : l ≤ r)
    (h2 : r < s.length) :
    getHash (build s) l r =
      (polyHash 911382323 1000000007 (substr s l (r - l + 1)),
        polyHash 972663749 1000000009 (substr s l (r - l + 1))) ∧
    getHash (build s) l r =
      (vecAt (build (substr s l (r - l + 1))).h1 ((substr s l (r - l + 1)).length : Int),
        vecAt (build (substr s l (r - l + 1))).h2 ((substr s l (r - l + 1)).length : Int)) ∧
    ∀ (s2 : Str) (l2 r2 : Int), 0 ≤ l2 → l2 ≤ r2 → r2 < s2.length →
      substr s2 l2 (r2 - l2 + 1) = substr s l (r - l + 1) →
      getHash (build s2) l2 r2 = getHash (build s) l r := by
  have e := getHash_build s l r h0 h1 h2
  refine ⟨?_, ?_, ?_⟩
  · rw [e, b1_eq, b2_eq]
    rfl
  · rw [e, (build_last _).1, (build_last _).2]
  · intro s2 l2 r2 g0 g1 g2 hsame
    rw [e, getHash_build s2 l2 r2 g0 g1 g2, hsame]

theorem fingerprint_query_correct_witness :
    ((0 : Int) ≤ 1 ∧ (1 : Int) ≤ 3 ∧ (3 : Int) < (bytes "hello").length) ∧
    (getHash (build (bytes "hello")) 1 3 =
      (polyHash 911382323 1000000007 (substr (bytes "hello") 1 (3 - 1 + 1)),
        polyHash 972663749 1000000009 (substr (bytes "hello") 1 (3 - 1 + 1))) ∧
    getHash (build (bytes "hello")) 1 3 =
      (vecAt (build (substr (bytes "hello") 1 (3 - 1 + 1))).h1
          ((substr (bytes "hello") 1 (3 - 1 + 1)).length : Int),
        vecAt (build (substr (bytes "hello") 1 (3 - 1 + 1))).h2
          ((substr (bytes "hello") 1 (3 - 1 + 1)).length : Int)) ∧
    ∀ (s2 : Str) (l2 r2 : Int), 0 ≤ l2 → l2 ≤ r2 → r2 < s2.length →
      substr s2 l2 (r2 - l2 + 1) = substr (bytes "hello") 1 (3 - 1 + 1) →
      getHash (build s2) l2 r2 = getHash (build (bytes "hello")) 1 3) :=
  ⟨by decide, fingerprint_query_correct (bytes "hello") 1 3 (by decide) (by decide)
    (by decide)⟩

/-! ## Out-of-range queries -/

/-- The second guard of `getHash` on any table: an upper bound beyond the last entry is
replaced by the last valid index before any vector is read. -/
theorem getHash_clamp (T : RollingHash) (l r : Int) (h1 : l ≤ r)
    (h2 : (T.h1.length : Int) - 2 < r) (h3 : l ≤ (T.h1.length : Int) - 2) :
    getHash T l r = getHash T l ((T.h1.length : Int) - 2) := by
  have c1 : ¬ l > r := by omega
  have c2 : ¬ l > (T.h1.length : Int) - 2 := by omega
  have c3 : r + 1 > (T.h1.length : Int) - 1 := by omega
  unfold getHash
  simp only [if_neg c1, if_neg c2, if_pos c3, ite_self]

theorem getHash_clamp_build (s : Str) (l r : Int) (h0 : 0 ≤ l) (h1 : l ≤ r)
    (h2 : (s.length : Int) ≤ r) (h3 : l ≤ s.length) :
    getHash (build s) l r = getHash (build s) l ((s.length : Int) - 1) ∧
    getHash (build s) l r =
      (polyHash b1 MOD1 (substr s l ((s.length : Int) - l)),
        polyHash b2 MOD2 (substr s l ((s.length : Int) - l))) := by
  obtain ⟨⟨hl1, _, _, _⟩, hinv⟩ := build_spec s
  by_cases hl : l < s.length
  · have e := getHash_clamp (build s) l r h1 (by rw [hl1]; push_cast; omega)
      (by rw [hl1]; push_cast; omega)
    have e2 : ((build s).h1.length : Int) - 2 = (s.length : Int) - 1 := by
      rw [hl1]; push_cast; omega
    rw [e2] at e
    refine ⟨e, ?_⟩
    rw [e, getHash_build s l ((s.length : Int) - 1) h0 (by omega) (by omega)]
    have e3 : (s.length : Int) - 1 - l + 1 = (s.length : Int) - l := by ring
    rw [e3]
  · have hln : l = s.length := by omega
    subst hln
    obtain ⟨x1, x2, _, _⟩ := hinv s.length (le_refl _)
    obtain ⟨_, _, q1, q2⟩ := hinv 0 (Nat.zero_le _)
    have hs : substr s (s.length : Int) ((s.length : Int) - (s.length : Int)) = [] := by
      simp [substr]
    have hp : ∀ b M : Int, polyHash b M [] = 0 := by
      intro b M
      simp [polyHash, polySum_nil]
    have hrhs : getHash (build s) (s.length : Int) ((s.length : Int) - 1) = (0, 0) := by
      unfold getHash
      rw [if_pos (by omega)]
    rw [hrhs, hs, hp, hp]
    refine ⟨?_, ?_⟩ <;>
    · unfold getHash
      rw [if_neg (by omega), if_neg (by omega), if_pos (by rw [hl1]; push_cast; omega)]
      simp only []
      have i1 : ((build s).h1.length : Int) - 2 + 1 = ((s.length : Nat) : Int) := by
        rw [hl1]; push_cast; omega
      have i2 : ((build s).h1.length : Int) - 2 - (s.length : Int) + 1 = ((0 : Nat) : Int) := by
        rw [hl1]; push_cast; omega
      rw [i1, i2, vecAt_of_getElem? _ _ _ x1, vecAt_of_getElem? _ _ _ x2,
        vecAt_of_getElem? _ _ _ q1, vecAt_of_getElem? _ _ _ q2]
      have n1 := polyHash_nonneg1 b1 (List.take s.length s)
      have n2 := polyHash_nonneg2 b2 (List.take s.length s)
      have u1 : polyHash b1 MOD1 (List.take s.length s) < MOD1 :=
        Int.emod_lt_of_pos _ (by decide)
      have u2 : polyHash b2 MOD2 (List.take s.length s) < MOD2 :=
        Int.emod_lt_of_pos _ (by decide)
      have o1 : b1 ^ 0 % MOD1 = 1 := by decide
      have o2 : b2 ^ 0 % MOD2 = 1 := by decide
      rw [o1, o2, mul_one, mul_one, Int.tmod_eq_emod n1 (by decide),
        Int.tmod_eq_emod n2 (by decide), Int.emod_eq_of_lt n1 u1, Int.emod_eq_of_lt n2 u2]
      have z1 : polyHash b1 MOD1 (List.take s.length s) + MOD1 -
          polyHash b1 MOD1 (List.take s.length s) = MOD1 := by ring
      have z2 : polyHash b2 MOD2 (List.take s.length s) + MOD2 -
          polyHash b2 MOD2 (List.take s.length s) = MOD2 := by ring
      rw [z1, z2]
      decide

/-- C9 as stated fails: on the table of the 3-byte slice `"abc"` the query `(1, 7)` is not
rejected; it returns the fingerprint of the shorter range `(1, 2)`, i.e. of `"bc"`. -/
theorem getHash_out_of_range_not_rejected :
    getHash (build (bytes "abc")) 1 7 = getHash (build (bytes "abc")) 1 2 ∧
    getHash (build (bytes "abc")) 1 7 =
      (polyHash 911382323 1000000007 (bytes "bc"),
        polyHash 972663749 1000000009 (bytes "bc")) := by
  decide!

/-- C9, amended: for a table built from a slice of length `n` and a query `(l, r)` with
`0 ≤ l ≤ r`, `r ≥ n` and `l ≤ n`, `getHash` signals nothing: it clamps `r` to `n - 1` and
returns the fingerprint of the shorter range `(l, n - 1)`, that is of the bytes
`s[l .. n-1]` (the pair `(0, 0)` of the empty range when `l = n`). -/
theorem getHash_clamps_out_of_range (s : Str) (l r : Int) (h0 : 0 ≤ l) (h1 : l ≤ r)
    (h2 : (s.length : Int) ≤ r) (h3 : l ≤ s.length) :
    getHash (build s) l r = getHash (build s) l ((s.length : Int) - 1) ∧
    getHash (build s) l r =
      (polyHash 911382323 1000000007 (substr s l ((s.length : Int) - l)),
        polyHash 972663749 1000000009 (substr s l ((s.length : Int) - l))) := by
  have e := getHash_clamp_build s l r h0 h1 h2 h3
  rw [b1_eq, b2_eq] at e
  exact e

theorem getHash_clamps_out_of_range_witness :
    ((0 : Int) ≤ 1 ∧ (1 : Int) ≤ 7 ∧ ((bytes "abc").length : Int) ≤ 7 ∧
      (1 : Int) ≤ (bytes "abc").length) ∧
    (getHash (build (bytes "abc")) 1 7 =
      getHash (build (bytes "abc")) 1 (((bytes "abc").length : Int) - 1) ∧
    getHash (build (bytes "abc")) 1 7 =
      (polyHash 911382323 1000000007
          (substr (bytes "abc") 1 (((bytes "abc").length : Int) - 1)),
        polyHash 972663749 1000000009
          (substr (bytes "abc") 1 (((bytes "abc").length : Int) - 1)))) :=
  ⟨by decide, getHash_clamps_out_of_range (bytes "abc") 1 7 (by decide) (by decide)
    (by decide) (by decide)⟩

theorem longestCommonSubstring_disjoint_witness :
    (∀ c : Byte, c ∈ List.replicate 121 (97 : Byte) → c ∉ List.replicate 121 (98 : Byte)) ∧
    longestCommonSubstring (List.replicate 121 (97 : Byte)) (List.replicate 121 (98 : Byte)) =
      [] :=
  ⟨fun c hA hB => absurd ((List.mem_replicate.1 hA).2.symm.trans (List.mem_replicate.1 hB).2)
      (by decide),
    longestCommonSubstring_disjoint (List.replicate 121 (97 : Byte))
      (List.replicate 121 (98 : Byte))
      (fun c hA hB => absurd ((List.mem_replicate.1 hA).2.symm.trans
        (List.mem_replicate.1 hB).2) (by decide))⟩

/-! ## The iteration bounds of the `while` loops are sufficient -/

/-- Once the bound covers the interval `[lo, hi]`, further iterations of the binary search
of `maxCrossA` / `maxCrossB` change nothing: the loop has left through `lo > hi`. -/
theorem crossSearch_fuel_irrel (check : Int → Str) (fuel extra : Nat) (lo hi : Int)
    (best : Str) (h : hi + 1 - lo ≤ fuel) :
    crossSearch check (fuel + extra) lo hi best = crossSearch check fuel lo hi best := by
  induction fuel generalizing lo hi best with
  | zero =>
    cases extra with
    | zero => rfl
    | succ e =>
      have hlt : ¬ lo ≤ hi := by
        simp only [Nat.cast_zero] at h
        omega
      simp only [Nat.zero_add, crossSearch, if_neg hlt]
  | succ n ih =>
    have e : n + 1 + extra = (n + extra) + 1 := by omega
    rw [e]
    simp only [crossSearch]
    push_cast at h
    split
    · split
      · exact ih _ _ _ (by omega)
      · exact ih _ _ _ (by omega)
    · rfl

/-- The same for the inner binary search of `crossCheckBothMidpoints`. -/
theorem bothSearch_fuel_irrel (A : Str) (aL : Int) (B : Str) (bL : Int)
    (hashA hashB : RollingHash) (startA startB : Int) (fuel extra : Nat) (lo hi len : Int)
    (h : hi + 1 - lo ≤ fuel) :
    bothSearch A aL B bL hashA hashB startA startB (fuel + extra) lo hi len =
      bothSearch A aL B bL hashA hashB startA startB fuel lo hi len := by
  induction fuel generalizing lo hi len with
  | zero =>
    cases extra with
    | zero => rfl
    | succ e =>
      have hlt : ¬ lo ≤ hi := by
        simp only [Nat.cast_zero] at h
        omega
      simp only [Nat.zero_add, bothSearch, if_neg hlt]
  | succ n ih =>
    have e : n + 1 + extra = (n + extra) + 1 := by omega
    rw [e]
    simp only [bothSearch]
    push_cast at h
    split
    · split
      · exact ih _ _ _ (by omega)
      · split
        · split
          · exact ih _ _ _ (by omega)
          · exact ih _ _ _ (by omega)
        · exact ih _ _ _ (by omega)
    · rfl

/-! ## The merge of the Split state -/

theorem lcs_split_cands (A : Str) (aL aR : Int) (B : Str) (bL bR : Int)
    (h1 : 120 < aR - aL + 1) (h2 : 120 < bR - bL + 1) :
    lcs_divide_conquer A aL aR B bL bR =
      mergeFive (candLeft A aL aR B bL bR) (candRight A aL aR B bL bR)
        (candCrossA A aL aR B bL bR) (candCrossB A aL aR B bL bR)
        (candCrossBoth A aL aR B bL bR) :=
  lcs_split A aL aR B bL bR h1 h2

theorem mergeFive_length (l r a b c : Str) :
    (mergeFive l r a b c).length =
      max l.length (max r.length (max a.length (max b.length c.length))) := by
  unfold mergeFive
  simp only [gt_iff_lt, Nat.cast_lt]
  split_ifs <;> omega

theorem mergeFive_first (l r a b c : Str) :
    (l.length = (mergeFive l r a b c).length → mergeFive l r a b c = l) ∧
    (l.length < (mergeFive l r a b c).length → r.length = (mergeFive l r a b c).length →
      mergeFive l r a b c = r) ∧
    (l.length < (mergeFive l r a b c).length → r.length < (mergeFive l r a b c).length →
      a.length = (mergeFive l r a b c).length → mergeFive l r a b c = a) ∧
    (l.length < (mergeFive l r a b c).length → r.length < (mergeFive l r a b c).length →
      a.length < (mergeFive l r a b c).length → b.length = (mergeFive l r a b c).length →
      mergeFive l r a b c = b) ∧
    (l.length < (mergeFive l r a b c).length → r.length < (mergeFive l r a b c).length →
      a.length < (mergeFive l r a b c).length → b.length < (mergeFive l r a b c).length →
      mergeFive l r a b c = c) := by
  unfold mergeFive
  simp only [gt_iff_lt, Nat.cast_lt]
  split_ifs <;> refine ⟨?_, ?_, ?_, ?_, ?_⟩ <;> intros <;> first | rfl | omega

/-- C11 (merge rule): when both ranges are longer than 120, the result of
`lcs_divide_conquer` has the length `max(|Left|, |Right|, |CrossA|, |CrossB|, |CrossBoth|)`
and is the first candidate, in the order Left, Right, CrossA, CrossB, CrossBoth, that
attains this maximum. -/
theorem merge_rule (A : Str) (aL aR : Int) (B : Str) (bL bR : Int)
    (h1 : 120 < aR - aL + 1) (h2 : 120 < bR - bL + 1) :
    (lcs_divide_conquer A aL aR B bL bR).length =
      max (candLeft A aL aR B bL bR).length (max (candRight A aL aR B bL bR).length
        (max (candCrossA A aL aR B bL bR).length (max (candCrossB A aL aR B bL bR).length
          (candCrossBoth A aL aR B bL bR).length))) ∧
    ((candLeft A aL aR B bL bR).length = (lcs_divide_conquer A aL aR B bL bR).length →
      lcs_divide_conquer A aL aR B bL bR = candLeft A aL aR B bL bR) ∧
    ((candLeft A aL aR B bL bR).length < (lcs_divide_conquer A aL aR B bL bR).length →
      (candRight A aL aR B bL bR).length = (lcs_divide_conquer A aL aR B bL bR).length →
      lcs_divide_conquer A aL aR B bL bR = candRight A aL aR B bL bR) ∧
    ((candLeft A aL aR B bL bR).length < (lcs_divide_conquer A aL aR B bL bR).length →
      (candRight A aL aR B bL bR).length < (lcs_divide_conquer A aL aR B bL bR).length →
      (candCrossA A aL aR B bL bR).length = (lcs_divide_conquer A aL aR B bL bR).length →
      lcs_divide_conquer A aL aR B bL bR = candCrossA A aL aR B bL bR) ∧
    ((candLeft A aL aR B bL bR).length < (lcs_divide_conquer A aL aR B bL bR).length →
      (candRight A aL aR B bL bR).length < (lcs_divide_conquer A aL aR B bL bR).length →
      (candCrossA A aL aR B bL bR).length < (lcs_divide_conquer A aL aR B bL bR).length →
      (candCrossB A aL aR B bL bR).length = (lcs_divide_conquer A aL aR B bL bR).length →
      lcs_divide_conquer A aL aR B bL bR = candCrossB A aL aR B bL bR) ∧
    ((candLeft A aL aR B bL bR).length < (lcs_divide_conquer A aL aR B bL bR).length →
      (candRight A aL aR B bL bR).length < (lcs_divide_conquer A aL aR B bL bR).length →
      (candCrossA A aL aR B bL bR).length < (lcs_divide_conquer A aL aR B bL bR).length →
      (candCrossB A aL aR B bL bR).length < (lcs_divide_conquer A aL aR B bL bR).length →
      lcs_divide_conquer A aL aR B bL bR = candCrossBoth A aL aR B bL bR) := by
  rw [lcs_split_cands A aL aR B bL bR h1 h2]
  exact ⟨mergeFive_length _ _ _ _ _, mergeFive_first _ _ _ _ _⟩

/-- C18 (mirror variants): `crossCheckB` is `crossCheckA` with the roles of the two
sequences and of their tables exchanged, for all arguments. -/
theorem crossCheck_variants_mirror (A : Str) (aL aR : Int) (B : Str) (bL bR midB : Int)
    (hashA hashB : RollingHash) (L : Int) :
    crossCheckB A aL aR B bL bR midB hashA hashB L =
      crossCheckA B bL bR midB A aL aR hashB hashA L :=
  crossCheckB_swap A aL aR B bL bR midB hashA hashB L

/-- C14 (collisions absorbed): for in-bounds ranges and any two tables, a non-empty result
`R` of `crossCheckA` at length `L` has `|R| = L` and is a window `A[s .. s+L)` with
`aL ≤ s ≤ midA`, `midA + 1 ≤ s + L - 1 ≤ aR` that equals a window `B[j .. j+L)` with
`bL ≤ j ≤ bR - L + 1`. -/
theorem crossCheckA_absorbs_collisions (A : Str) (aL aR midA : Int) (B : Str) (bL bR : Int)
    (hashA hashB : RollingHash) (L : Int)
    (ha0 : 0 ≤ aL) (ha2 : aR < A.length) (hb0 : 0 ≤ bL) (hb2 : bR < B.length)
    (hne : crossCheckA A aL aR midA B bL bR hashA hashB L ≠ []) :
    ((crossCheckA A aL aR midA B bL bR hashA hashB L).length : Int) = L ∧
    ∃ s j : Int, aL ≤ s ∧ s ≤ midA ∧ midA + 1 ≤ s + L - 1 ∧ s + L - 1 ≤ aR ∧
      bL ≤ j ∧ j ≤ bR - L + 1 ∧
      crossCheckA A aL aR midA B bL bR hashA hashB L = substr A s L ∧
      crossCheckA A aL aR midA B bL bR hashA hashB L = substr B j L := by
  rcases crossCheckA_sound A aL aR midA B bL bR hashA hashB L ha0 ha2 hb0 hb2 with h | h
  · exact absurd h hne
  · obtain ⟨s, j, h1, h2, h3, h4, h5, h6, h7, h8, h9⟩ := h
    exact ⟨h9, s, j, h1, h2, h3, h4, h5, h6, h7, h7.trans h8⟩

theorem crossCheckA_absorbs_collisions_witness :
    ((0 : Int) ≤ 0 ∧ (3 : Int) < (bytes "abcd").length ∧ (0 : Int) ≤ 0 ∧
      (3 : Int) < (bytes "xbcy").length ∧
      crossCheckA (bytes "abcd") 0 3 1 (bytes "xbcy") 0 3 collidingTable collidingTable 2
        ≠ []) ∧
    (((crossCheckA (bytes "abcd") 0 3 1 (bytes "xbcy") 0 3 collidingTable collidingTable
        2).length : Int) = 2 ∧
    ∃ s j : Int, 0 ≤ s ∧ s ≤ 1 ∧ 1 + 1 ≤ s + 2 - 1 ∧ s + 2 - 1 ≤ 3 ∧
      0 ≤ j ∧ j ≤ 3 - 2 + 1 ∧
      crossCheckA (bytes "abcd") 0 3 1 (bytes "xbcy") 0 3 collidingTable collidingTable 2 =
        substr (bytes "abcd") s 2 ∧
      crossCheckA (bytes "abcd") 0 3 1 (bytes "xbcy") 0 3 collidingTable collidingTable 2 =
        substr (bytes "xbcy") j 2) ∧
    (∀ l ∈ intRange 0 3, ∀ r ∈ intRange l 3, getHash collidingTable l r = (0, 0)) :=
  ⟨by decide!, crossCheckA_absorbs_collisions (bytes "abcd") 0 3 1 (bytes "xbcy") 0 3
    collidingTable collidingTable 2 (by decide) (by decide) (by decide) (by decide)
    (by decide!), by decide⟩

theorem tieA_mid (k : Int) (h1 : 1 ≤ k) (h2 : k ≤ 119) : charAt tieA k = 97 := by
  have h : ∀ x ∈ intRange 1 119, charAt tieA x = 97 := by decide!
  exact h k ((mem_intRange 1 119 k).2 ⟨h1, h2⟩)

theorem tieB_mid (k : Int) (h1 : 1 ≤ k) (h2 : k ≤ 119) : charAt tieB k = 98 := by
  have h : ∀ x ∈ intRange 1 119, charAt tieB x = 98 := by decide!
  exact h k ((mem_intRange 1 119 k).2 ⟨h1, h2⟩)

theorem tieA_no_98 : (98 : Byte) ∉ tieA := by decide!

theorem tieB_no_97 : (97 : Byte) ∉ tieB := by decide!

theorem tieA_length : (tieA.length : Int) = 121 := by decide

theorem tieB_length : (tieB.length : Int) = 121 := by decide

/-- The candidate Left on `tieA`, `tieB` is the common first byte `x`. -/
theorem tie_left : lcs_divide_conquer tieA 0 60 tieB 0 60 = [120] := by
  rw [lcs_base tieA 0 60 tieB 0 60 (by decide) (by decide)]
  obtain ⟨⟨i, hi0, hi1, hiR⟩, ⟨j, hj0, hj1, hjR⟩⟩ :=
    (bruteLCS_fold_spec tieA 0 60 tieB 0 60 (by decide) (by decide)
      (by rw [tieA_length]; decide) (by decide) (by decide) (by rw [tieB_length]; decide)).1
  have h1 : 1 ≤ (bruteLCS tieA 0 60 tieB 0 60).length :=
    bruteLCS_maximal tieA 0 60 tieB 0 60 (by decide) (by decide)
      (by rw [tieA_length]; decide) (by decide) (by decide) (by rw [tieB_length]; decide)
      [120] ⟨0, by decide, by decide, by decide!⟩ ⟨0, by decide, by decide, by decide!⟩
  have hB : bruteLCS tieA 0 60 tieB 0 60 <:+: tieB := hjR ▸ substr_sub tieB j _
  have hi : i = 0 := by
    by_contra hne
    have := window_byte_shared tieB tieA _ hB i i hiR hi0 (le_refl _) (by omega)
      (by rw [tieA_length]; omega)
    rw [tieA_mid i (by omega) (by omega)] at this
    exact tieB_no_97 this
  subst hi
  have hlen : (bruteLCS tieA 0 60 tieB 0 60).length = 1 := by
    by_contra hne
    have := window_byte_shared tieB tieA _ hB 0 1 hiR (le_refl _) (by decide) (by omega)
      (by rw [tieA_length]; decide)
    rw [tieA_mid 1 (by decide) (by decide)] at this
    exact tieB_no_97 this
  rw [hlen] at hiR
  rw [← hiR]
  decide!

/-- The candidate Right on `tieA`, `tieB` is the common last byte `y`. -/
theorem tie_right : lcs_divide_conquer tieA 61 120 tieB 61 120 = [121] := by
  rw [lcs_base tieA 61 120 tieB 61 120 (by decide) (by decide)]
  obtain ⟨⟨i, hi0, hi1, hiR⟩, ⟨j, hj0, hj1, hjR⟩⟩ :=
    (bruteLCS_fold_spec tieA 61 120 tieB 61 120 (by decide) (by decide)
      (by rw [tieA_length]; decide) (by decide) (by decide) (by rw [tieB_length]; decide)).1
  have h1 : 1 ≤ (bruteLCS tieA 61 120 tieB 61 120).length :=
    bruteLCS_maximal tieA 61 120 tieB 61 120 (by decide) (by decide)
      (by rw [tieA_length]; decide) (by decide) (by decide) (by rw [tieB_length]; decide)
      [121] ⟨120, by decide, by decide, by decide!⟩ ⟨120, by decide, by decide, by decide!⟩
  have hB : bruteLCS tieA 61 120 tieB 61 120 <:+: tieB := hjR ▸ substr_sub tieB j _
  have hi : i = 120 := by
    by_contra hne
    have := window_byte_shared tieB tieA _ hB i i hiR (by omega) (le_refl _) (by omega)
      (by rw [tieA_length]; omega)
    rw [tieA_mid i (by omega) (by omega)] at this
    exact tieB_no_97 this
  subst hi
  have hlen : (bruteLCS tieA 61 120 tieB 61 120).length = 1 := by omega
  rw [hlen] at hiR
  rw [← hiR]
  decide!

theorem tie_crossA (hashA hashB : RollingHash) :
    maxCrossA tieA 0 120 60 tieB 0 120 hashA hashB = [] := by
  rcases maxCrossA_sound tieA 0 120 60 tieB 0 120 hashA hashB (le_refl _)
    (by rw [tieA_length]; decide) (le_refl _) (by rw [tieB_length]; decide)
    with h | ⟨s, j, h1, h2, h3, h4, h5, h6, e1, e2⟩
  · exact h
  · exfalso
    have := window_byte_shared tieB tieA _ (e2 ▸ substr_sub tieB j _) s 60 e1.symm h1 h2
      (by omega) (by rw [tieA_length]; decide)
    rw [tieA_mid 60 (by decide) (by decide)] at this
    exact tieB_no_97 this

theorem tie_crossB (hashA hashB : RollingHash) :
    maxCrossB tieA 0 120 tieB 0 120 60 hashA hashB = [] := by
  rw [maxCrossB_swap]
  rcases maxCrossA_sound tieB 0 120 60 tieA 0 120 hashB hashA (le_refl _)
    (by rw [tieB_length]; decide) (le_refl _) (by rw [tieA_length]; decide)
    with h | ⟨s, j, h1, h2, h3, h4, h5, h6, e1, e2⟩
  · exact h
  · exfalso
    have := window_byte_shared tieA tieB _ (e2 ▸ substr_sub tieA j _) s 60 e1.symm h1 h2
      (by omega) (by rw [tieB_length]; decide)
    rw [tieB_mid 60 (by decide) (by decide)] at this
    exact tieA_no_98 this

theorem tie_crossBoth (hashA hashB : RollingHash) :
    crossCheckBothMidpoints tieA 0 120 60 tieB 0 120 60 hashA hashB = [] := by
  rcases crossCheckBothMidpoints_sound tieA 0 120 60 tieB 0 120 60 hashA hashB (le_refl _)
    (by rw [tieA_length]; decide) (le_refl _) (by rw [tieB_length]; decide)
    with h | ⟨a, b, h1, h2, h3, h4, h5, h6, h7, h8, e1, e2⟩
  · exact h
  · exfalso
    have := window_byte_shared tieA tieB _ (e1 ▸ substr_sub tieA a _) b 60 e2.symm h5 h6
      (by omega) (by rw [tieB_length]; decide)
    rw [tieB_mid 60 (by decide) (by decide)] at this
    exact tieA_no_98 this

/-- The five candidates of the Split state on `tieA`, `tieB`: Left and Right tie at
length 1 with different strings, the three crossing candidates are empty. -/
theorem tie_candidates :
    candLeft tieA 0 120 tieB 0 120 = [120] ∧ candRight tieA 0 120 tieB 0 120 = [121] ∧
    candCrossA tieA 0 120 tieB 0 120 = [] ∧ candCrossB tieA 0 120 tieB 0 120 = [] ∧
    candCrossBoth tieA 0 120 tieB 0 120 = [] := by
  have m : ((0 : Int) + 120) / 2 = 60 := by decide
  have s1 : substr tieA 0 (120 - 0 + 1) = tieA := by decide!
  have s2 : substr tieB 0 (120 - 0 + 1) = tieB := by decide!
  have n1 : (120 : Int) - 0 + 1 - 1 = 120 := by decide
  have n2 : (60 : Int) + 1 = 61 := by decide
  have n3 : (60 : Int) - 0 = 60 := by decide
  unfold candLeft candRight candCrossA candCrossB candCrossBoth
  rw [m, s1, s2, n1, n2, n3]
  exact ⟨tie_left, tie_right, tie_crossA _ _, tie_crossB _ _, tie_crossBoth _ _⟩

theorem merge_rule_witness :
    ((120 : Int) < 120 - 0 + 1 ∧ (120 : Int) < 120 - 0 + 1) ∧
    (candLeft tieA 0 120 tieB 0 120 = [120] ∧ candRight tieA 0 120 tieB 0 120 = [121] ∧
      candCrossA tieA 0 120 tieB 0 120 = [] ∧ candCrossB tieA 0 120 tieB 0 120 = [] ∧
      candCrossBoth tieA 0 120 tieB 0 120 = []) ∧
    (lcs_divide_conquer tieA 0 120 tieB 0 120).length = 1 ∧
    lcs_divide_conquer tieA 0 120 tieB 0 120 = [120] :=
  ⟨by decide, tie_candidates,
    by
      rw [(merge_rule tieA 0 120 tieB 0 120 (by decide) (by decide)).1,
        tie_candidates.1, tie_candidates.2.1, tie_candidates.2.2.1, tie_candidates.2.2.2.1,
        tie_candidates.2.2.2.2]
      rfl,
    by
      have h := merge_rule tieA 0 120 tieB 0 120 (by decide) (by decide)
      have hlen : (lcs_divide_conquer tieA 0 120 tieB 0 120).length = 1 := by
        rw [h.1, tie_candidates.1, tie_candidates.2.1, tie_candidates.2.2.1,
          tie_candidates.2.2.2.1, tie_candidates.2.2.2.2]
        rfl
      have := h.2.1 (by rw [hlen, tie_candidates.1]; rfl)
      rw [this, tie_candidates.1]⟩

/-! ## Completeness of the boundary crosser -/

theorem crossCheckA_unfold (A : Str) (aL aR midA : Int) (B : Str) (bL bR : Int)
    (hashA hashB : RollingHash) (L : Int) :
    crossCheckA A aL aR midA B bL bR hashA hashB L =
      if L ≤ 0 then [] else
      if L > aR - aL + 1 ∨ L > bR - bL + 1 then [] else
      match (intRange (max aL (midA - L + 1)) (min midA (aR - L + 1))).findSome?
          (anchorBody A aR midA B (windowMap hashB bL bR L) hashA L) with
      | some r => r
      | none => [] := rfl

theorem foldl_mem_inv {α β : Type} (f : β → α → β) (Q : α → β → Prop) (l : List α)
    (init : β) (hself : ∀ b a, a ∈ l → Q a (f b a))
    (hmono : ∀ b a x, Q x b → Q x (f b a)) :
    ∀ a ∈ l, Q a (l.foldl f init) := by
  induction l generalizing init with
  | nil => intro a ha; simp at ha
  | cons x xs ih =>
    intro a ha
    simp only [List.foldl_cons]
    have keep : ∀ (ys : List α) (b : β), Q a b → Q a (ys.foldl f b) := by
      intro ys
      induction ys with
      | nil => intro b hb; exact hb
      | cons y ys ihy => intro b hb; exact ihy _ (hmono b y a hb)
    rcases List.mem_cons.1 ha with rfl | ha
    · exact keep xs _ (hself init a (List.mem_cons_self _ _))
    · exact ih (f init x) (fun b a ha => hself b a (List.mem_cons_of_mem _ ha)) a ha

theorem mpPush_find_self (mp : List (Nat × List Int)) (key : Nat) (j : Int) :
    ∃ b, mpFind (mpPush mp key j) key = some b ∧ j ∈ b := by
  induction mp with
  | nil => exact ⟨[j], by simp [mpPush, mpFind], by simp⟩
  | cons x xs ih =>
    obtain ⟨k, v⟩ := x
    by_cases hk : k = key
    · exact ⟨v ++ [j], by simp [mpPush, mpFind, hk], by simp⟩
    · obtain ⟨b, hb, hj⟩ := ih
      exact ⟨b, by simp [mpPush, mpFind, hk, hb], hj⟩

theorem mpPush_find_mono (mp : List (Nat × List Int)) (key : Nat) (j : Int) (key2 : Nat)
    (x : Int) (h : ∃ b, mpFind mp key2 = some b ∧ x ∈ b) :
    ∃ b, mpFind (mpPush mp key j) key2 = some b ∧ x ∈ b := by
  induction mp with
  | nil =>
    obtain ⟨b, hb, _⟩ := h
    simp [mpFind] at hb
  | cons y ys ih =>
    obtain ⟨k, v⟩ := y
    obtain ⟨b, hb, hx⟩ := h
    by_cases hk : k = key
    · subst hk
      by_cases hk2 : k = key2
      · subst hk2
        simp only [mpFind, if_true] at hb
        have : v = b := Option.some.inj hb
        subst this
        exact ⟨v ++ [j], by simp [mpPush, mpFind], by simp [hx]⟩
      · simp only [mpFind, if_neg hk2] at hb
        exact ⟨b, by simp [mpPush, mpFind, hk2, hb], hx⟩
    · by_cases hk2 : k = key2
      · subst hk2
        simp only [mpFind, if_true] at hb
        have : v = b := Option.some.inj hb
        subst this
        exact ⟨v, by simp [mpPush, mpFind, hk], hx⟩
      · simp only [mpFind, if_neg hk2] at hb
        obtain ⟨b2, hb2, hx2⟩ := ih ⟨b, hb, hx⟩
        exact ⟨b2, by simp [mpPush, mpFind, hk, hk2, hb2], hx2⟩

/-- Every start of a length-`L` window of `B[bL..bR]` is stored in the bucket of its own
fingerprint. -/
theorem windowMap_complete (hashB : RollingHash) (bL bR L : Int) (j : Int)
    (h1 : bL ≤ j) (h2 : j ≤ bR - L + 1) :
    ∃ b, mpFind (windowMap hashB bL bR L) (packHash (getHash hashB j (j + L - 1))) = some b ∧
      j ∈ b := by
  unfold windowMap
  exact foldl_mem_inv
    (fun mp j => mpPush mp (packHash (getHash hashB j (j + L - 1))) j)
    (fun j mp => ∃ b, mpFind mp (packHash (getHash hashB j (j + L - 1))) = some b ∧ j ∈ b)
    (intRange bL (bR - L + 1)) []
    (fun b a _ => mpPush_find_self b _ a)
    (fun b a x hx => mpPush_find_mono b _ a _ x hx)
    j ((mem_intRange _ _ j).2 ⟨h1, h2⟩)

theorem anchorBody_sound (A : Str) (aL aR midA : Int) (B : Str) (bL bR : Int)
    (hashA hashB : RollingHash) (L s : Int) (r : Str)
    (ha0 : 0 ≤ aL) (ha2 : aR < A.length) (hb0 : 0 ≤ bL) (hb2 : bR < B.length)
    (hs : aL ≤ s)
    (h : anchorBody A aR midA B (windowMap hashB bL bR L) hashA L s = some r) :
    (∃ j, CrossMatch A aL aR midA B bL bR L s j) ∧ r = substr A s L := by
  unfold anchorBody at h
  simp only [] at h
  split at h
  · exact absurd h (by simp)
  split at h
  · exact absurd h (by simp)
  rename_i he hcross
  simp only [not_not] at hcross
  split at h
  · exact absurd h (by simp)
  rename_i bucket hbucket
  obtain ⟨posB, hpos, hf2⟩ := List.exists_of_findSome?_eq_some h
  have hp2 := windowMap_positions hashB bL bR L _ bucket hbucket posB hpos
  split at hf2
  · rename_i hbytes
    have hbe := (bytesEqual_iff A s B posB L).1 hbytes
    have heq := substr_eq_of_bytes A B s posB L (by omega) (by omega) (by omega) (by omega) hbe
    exact ⟨⟨posB, hs, hcross.1, hcross.2, by omega, hp2.1, hp2.2, heq⟩,
      (Option.some.inj hf2).symm⟩
  · exact absurd hf2 (by simp)

theorem anchorBody_complete (A : Str) (aL aR midA : Int) (B : Str) (bL bR : Int)
    (hashA hashB : RollingHash) (L s j : Int)
    (ha0 : 0 ≤ aL) (ha2 : aR < A.length) (hb0 : 0 ≤ bL) (hb2 : bR < B.length)
    (hm : CrossMatch A aL aR midA B bL bR L s j)
    (hkey : getHash hashA s (s + L - 1) = getHash hashB j (j + L - 1)) :
    anchorBody A aR midA B (windowMap hashB bL bR L) hashA L s ≠ none := by
  obtain ⟨h1, h2, h3, h4, h5, h6, h7⟩ := hm
  obtain ⟨b, hb, hj⟩ := windowMap_complete hashB bL bR L j h5 h6
  unfold anchorBody
  simp only []
  rw [if_neg (by omega), if_neg (by simp only [not_not]; exact ⟨h2, by omega⟩), hkey, hb]
  simp only []
  intro hnone
  have := (List.findSome?_eq_none_iff.1 hnone) j hj
  have hbe : bytesEqual A s B j L = true := by
    rw [bytesEqual_iff]
    intro k hk
    exact bytes_of_substr_eq A B s j L (by omega) (by omega) (by omega) (by omega) h7 k hk
  simp [hbe] at this

theorem intRange_pairwise (lo hi : Int) : (intRange lo hi).Pairwise (· < ·) := by
  unfold intRange
  rw [List.pairwise_map]
  exact (List.pairwise_lt_range _).imp (fun h => by omega)

theorem getHash_build_window (A B : Str) (L s j : Int) (hL : 0 < L)
    (hs : 0 ≤ s) (hsA : s + L ≤ A.length) (hj : 0 ≤ j) (hjB : j + L ≤ B.length)
    (h : substr A s L = substr B j L) :
    getHash (build A) s (s + L - 1) = getHash (build B) j (j + L - 1) := by
  rw [getHash_build A s (s + L - 1) hs (by omega) (by omega),
    getHash_build B j (j + L - 1) hj (by omega) (by omega)]
  have e1 : s + L - 1 - s + 1 = L := by ring
  have e2 : j + L - 1 - j + 1 = L := by ring
  rw [e1, e2, h]

/-- With tables built from the two strings, `crossCheckA` returns the window at the least
start `s` that has a crossing match, whenever one exists. -/
theorem crossCheckA_least (A : Str) (aL aR midA : Int) (B : Str) (bL bR : Int) (L : Int)
    (ha0 : 0 ≤ aL) (ha2 : aR < A.length) (hb0 : 0 ≤ bL) (hb2 : bR < B.length)
    (hL : 1 ≤ L) (hLa : L ≤ aR - aL + 1) (hLb : L ≤ bR - bL + 1)
    (hex : ∃ s j, CrossMatch A aL aR midA B bL bR L s j) :
    ∃ s0 j0, CrossMatch A aL aR midA B bL bR L s0 j0 ∧
      crossCheckA A aL aR midA B bL bR (build A) (build B) L = substr A s0 L ∧
      ((crossCheckA A aL aR midA B bL bR (build A) (build B) L).length : Int) = L ∧
      ∀ s j, CrossMatch A aL aR midA B bL bR L s j → s0 ≤ s := by
  have complete : ∀ s j, CrossMatch A aL aR midA B bL bR L s j →
      s ∈ intRange (max aL (midA - L + 1)) (min midA (aR - L + 1)) ∧
      anchorBody A aR midA B (windowMap (build B) bL bR L) (build A) L s ≠ none := by
    intro s j hm
    have hm' := hm
    obtain ⟨h1, h2, h3, h4, h5, h6, h7⟩ := hm
    refine ⟨(mem_intRange _ _ s).2 ⟨max_le h1 (by omega), le_min h2 (by omega)⟩, ?_⟩
    exact anchorBody_complete A aL aR midA B bL bR (build A) (build B) L s j ha0 ha2 hb0 hb2
      hm' (getHash_build_window A B L s j (by omega) (by omega) (by omega) (by omega)
        (by omega) h7)
  rw [crossCheckA_unfold, if_neg (by omega), if_neg (by omega)]
  split
  · rename_i r hfound
    obtain ⟨l1, a, l2, hl, hfa, hbefore⟩ := List.findSome?_eq_some_iff.1 hfound
    have ha : a ∈ intRange (max aL (midA - L + 1)) (min midA (aR - L + 1)) := by
      rw [hl]; simp
    have ha2' := (mem_intRange _ _ a).1 ha
    obtain ⟨⟨j0, hm0⟩, hr⟩ := anchorBody_sound A aL aR midA B bL bR (build A) (build B) L a r
      ha0 ha2 hb0 hb2 (le_trans (le_max_left _ _) ha2'.1) hfa
    have hlen := length_substr A a L (by omega) (by omega)
      (by obtain ⟨_, _, _, h4, _⟩ := hm0; omega)
    refine ⟨a, j0, hm0, hr, by rw [hr, hlen], ?_⟩
    intro s j hm
    obtain ⟨hmem, hne⟩ := complete s j hm
    have hsort := intRange_pairwise (max aL (midA - L + 1)) (min midA (aR - L + 1))
    rw [hl] at hmem hsort
    rcases List.mem_append.1 hmem with h | h
    · exact absurd (hbefore s h) hne
    · rcases List.mem_cons.1 h with rfl | h
      · exact le_refl _
      · have := (List.pairwise_cons.1 (List.pairwise_append.1 hsort).2.1).1 s h
        omega
  · rename_i hnone
    obtain ⟨s, j, hm⟩ := hex
    obtain ⟨hmem, hne⟩ := complete s j hm
    exact absurd (List.findSome?_eq_none_iff.1 hnone s hmem) hne

/-- C15 as stated fails: the window `A[0..2) = "ab"` of `"abc"` ends exactly on the midpoint
`midA = 1` and equals `B[0..2)` of `"ab"`, so it meets `aL ≤ s ≤ midA ≤ s + L - 1 ≤ aR`, yet
`crossCheckA` at `L = 2` returns the empty string. -/
theorem crossCheckA_misses_window_ending_at_mid :
    ((1 : Int) ≤ 2 ∧ (2 : Int) ≤ min (2 - 0 + 1) (1 - 0 + 1)) ∧
    ((0 : Int) ≤ 0 ∧ (0 : Int) ≤ 1 ∧ (1 : Int) ≤ 0 + 2 - 1 ∧ (0 : Int) + 2 - 1 ≤ 2 ∧
      (0 : Int) ≤ 0 ∧ (0 : Int) ≤ 1 - 2 + 1 ∧
      substr (bytes "abc") 0 2 = substr (bytes "ab") 0 2) ∧
    crossCheckA (bytes "abc") 0 2 1 (bytes "ab") 0 1 (build (bytes "abc"))
      (build (bytes "ab")) 2 = [] := by
  decide!

/-- C15, amended: for in-bounds ranges, tables built from `A` and `B` and
`1 ≤ L ≤ min(la, lb)`, `crossCheckA` returns a non-empty string whenever some window
`A[s .. s+L)` with `aL ≤ s ≤ midA` and `midA + 1 ≤ s + L - 1 ≤ aR` equals a window
`B[j .. j+L)` with `bL ≤ j ≤ bR - L + 1`; the string returned is the window at the least
such `s`. -/
theorem crossCheckA_complete_on_crossing_windows (A : Str) (aL aR midA : Int) (B : Str)
    (bL bR : Int) (L : Int)
    (ha0 : 0 ≤ aL) (ha2 : aR < A.length) (hb0 : 0 ≤ bL) (hb2 : bR < B.length)
    (hL : 1 ≤ L) (hLm : L ≤ min (aR - aL + 1) (bR - bL + 1))
    (s j : Int) (hm : CrossMatch A aL aR midA B bL bR L s j) :
    crossCheckA A aL aR midA B bL bR (build A) (build B) L ≠ [] ∧
    ∃ s0 j0, CrossMatch A aL aR midA B bL bR L s0 j0 ∧
      crossCheckA A aL aR midA B bL bR (build A) (build B) L = substr A s0 L ∧
      ∀ s1 j1, CrossMatch A aL aR midA B bL bR L s1 j1 → s0 ≤ s1 := by
  have hLa : L ≤ aR - aL + 1 := le_trans hLm (min_le_left _ _)
  have hLb : L ≤ bR - bL + 1 := le_trans hLm (min_le_right _ _)
  obtain ⟨s0, j0, hm0, hr, hlen, hleast⟩ :=
    crossCheckA_least A aL aR midA B bL bR L ha0 ha2 hb0 hb2 hL hLa hLb ⟨s, j, hm⟩
  refine ⟨?_, s0, j0, hm0, hr, hleast⟩
  intro hnil
  rw [hnil] at hlen
  simp at hlen
  omega

theorem crossCheckA_complete_on_crossing_windows_witness :
    ((0 : Int) ≤ 0 ∧ (3 : Int) < (bytes "abcd").length ∧ (0 : Int) ≤ 0 ∧
      (3 : Int) < (bytes "xbcy").length ∧ (1 : Int) ≤ 2 ∧
      (2 : Int) ≤ min (3 - 0 + 1) (3 - 0 + 1) ∧
      CrossMatch (bytes "abcd") 0 3 1 (bytes "xbcy") 0 3 2 1 1) ∧
    (crossCheckA (bytes "abcd") 0 3 1 (bytes "xbcy") 0 3 (build (bytes "abcd"))
        (build (bytes "xbcy")) 2 ≠ [] ∧
    ∃ s0 j0, CrossMatch (bytes "abcd") 0 3 1 (bytes "xbcy") 0 3 2 s0 j0 ∧
      crossCheckA (bytes "abcd") 0 3 1 (bytes "xbcy") 0 3 (build (bytes "abcd"))
        (build (bytes "xbcy")) 2 = substr (bytes "abcd") s0 2 ∧
      ∀ s1 j1, CrossMatch (bytes "abcd") 0 3 1 (bytes "xbcy") 0 3 2 s1 j1 → s0 ≤ s1) :=
  ⟨⟨by decide, by decide, by decide, by decide, by decide, by decide,
      by unfold CrossMatch; decide!⟩,
    crossCheckA_complete_on_crossing_windows (bytes "abcd") 0 3 1 (bytes "xbcy") 0 3 2
      (by decide) (by decide) (by decide) (by decide) (by decide) (by decide) 1 1
      (by unfold CrossMatch; decide!)⟩

/-- C16 as stated fails at `L' = 1`: on `A = B = "xy"` with `midA = 0` the crosser finds the
match of length 2 but none of length 1, because no window of length 1 has
`s ≤ midA` and `s + L - 1 ≥ midA + 1`. -/
theorem crossing_not_monotone_at_one :
    ((1 : Int) ≤ 1 ∧ (1 : Int) ≤ 2) ∧
    crossCheckA (bytes "xy") 0 1 0 (bytes "xy") 0 1 (build (bytes "xy")) (build (bytes "xy")) 2
      ≠ [] ∧
    crossCheckA (bytes "xy") 0 1 0 (bytes "xy") 0 1 (build (bytes "xy")) (build (bytes "xy")) 1
      = [] := by
  decide!

/-- C16, amended: for in-bounds ranges and tables built from `A` and `B`, if `crossCheckA`
is non-empty at `L` and `2 ≤ L' ≤ L`, it is non-empty at `L'`: existence of a crossing
match is monotone non-increasing on the lengths `2 .. min(la, lb)`. -/
theorem crossing_monotone_from_two (A : Str) (aL aR midA : Int) (B : Str) (bL bR : Int)
    (L L' : Int) (ha0 : 0 ≤ aL) (ha2 : aR < A.length) (hb0 : 0 ≤ bL) (hb2 : bR < B.length)
    (h2 : 2 ≤ L') (hle : L' ≤ L)
    (hne : crossCheckA A aL aR midA B bL bR (build A) (build B) L ≠ []) :
    crossCheckA A aL aR midA B bL bR (build A) (build B) L' ≠ [] := by
  rcases crossCheckA_sound A aL aR midA B bL bR (build A) (build B) L ha0 ha2 hb0 hb2
    with h | ⟨s, j, g1, g2, g3, g4, g5, g6, _, g8, _⟩
  · exact absurd h hne
  have hbytes : ∀ k : Nat, (k : Int) < L → charAt A (s + k) = charAt B (j + k) :=
    fun k hk => bytes_of_substr_eq A B s j L (by omega) (by omega) (by omega) (by omega) g8 k hk
  have hm : CrossMatch A aL aR midA B bL bR L' (max s (midA + 2 - L'))
      (j + (max s (midA + 2 - L') - s)) := by
    have hmax1 := le_max_left s (midA + 2 - L')
    have hmax2 := le_max_right s (midA + 2 - L')
    have hmax3 : max s (midA + 2 - L') ≤ midA := max_le g2 (by omega)
    have hmax4 : max s (midA + 2 - L') + L' ≤ s + L := by
      rcases max_choice s (midA + 2 - L') with e | e <;> rw [e] <;> omega
    refine ⟨by omega, hmax3, by omega, by omega, by omega, by omega, ?_⟩
    apply substr_eq_of_bytes A B _ _ L' (by omega) (by omega) (by omega) (by omega)
    intro k hk
    have := hbytes ((max s (midA + 2 - L') - s).toNat + k) (by push_cast; omega)
    have e1 : s + (((max s (midA + 2 - L') - s).toNat + k : Nat) : Int) =
        max s (midA + 2 - L') + k := by push_cast; omega
    have e2 : j + (((max s (midA + 2 - L') - s).toNat + k : Nat) : Int) =
        j + (max s (midA + 2 - L') - s) + k := by push_cast; omega
    rw [e1, e2] at this
    exact this
  obtain ⟨s0, j0, _, hr, hlen, _⟩ :=
    crossCheckA_least A aL aR midA B bL bR L' ha0 ha2 hb0 hb2 (by omega)
      (by obtain ⟨q1, _, _, q4, _⟩ := hm; omega)
      (by obtain ⟨_, _, _, _, q5, q6, _⟩ := hm; omega) ⟨_, _, hm⟩
  intro hnil
  rw [hnil] at hlen
  simp at hlen
  omega

theorem crossing_monotone_from_two_witness :
    ((0 : Int) ≤ 0 ∧ (4 : Int) < (bytes "abcde").length ∧ (0 : Int) ≤ 0 ∧
      (4 : Int) < (bytes "xbcdy").length ∧ (2 : Int) ≤ 2 ∧ (2 : Int) ≤ 3 ∧
      crossCheckA (bytes "abcde") 0 4 2 (bytes "xbcdy") 0 4 (build (bytes "abcde"))
        (build (bytes "xbcdy")) 3 ≠ []) ∧
    crossCheckA (bytes "abcde") 0 4 2 (bytes "xbcdy") 0 4 (build (bytes "abcde"))
      (build (bytes "xbcdy")) 2 ≠ [] :=
  ⟨by decide!, crossing_monotone_from_two (bytes "abcde") 0 4 2 (bytes "xbcdy") 0 4 3 2
    (by decide) (by decide) (by decide) (by decide) (by decide) (by decide) (by decide!)⟩


/-! ## The binary search of `maxCrossA` skips the length 2 -/

theorem crossSearch_step_empty (check : Int → Str) (fuel : Nat) (lo hi : Int) (best : Str)
    (mid hi2 : Int) (h1 : lo ≤ hi) (hmid : (lo + hi) / 2 = mid) (hhi : mid - 1 = hi2)
    (h2 : check mid = []) :
    crossSearch check (fuel + 1) lo hi best = crossSearch check fuel lo hi2 best := by
  simp only [crossSearch, if_pos h1, hmid, h2, hhi, ne_eq, not_true_eq_false, if_false]

theorem twoA_filler (k : Int) (h1 : 0 ≤ k) (h2 : k ≤ 120) (h3 : k ≠ 60) (h4 : k ≠ 61) :
    charAt twoA k = 97 := by
  have h : ∀ x ∈ intRange 0 59 ++ intRange 62 120, charAt twoA x = 97 := by decide!
  apply h
  rw [List.mem_append, mem_intRange, mem_intRange]
  omega

theorem twoB_no_97 : (97 : Byte) ∉ twoB := by decide!

theorem twoA_length : (twoA.length : Int) = 121 := by decide

theorem twoB_length : (twoB.length : Int) = 121 := by decide

theorem two_cross_empty (L : Int) (hL : L ≠ 2) :
    crossCheckA twoA 0 120 60 twoB 0 120 (build twoA) (build twoB) L = [] := by
  rcases crossCheckA_sound twoA 0 120 60 twoB 0 120 (build twoA) (build twoB) L (le_refl _)
    (by rw [twoA_length]; decide) (le_refl _) (by rw [twoB_length]; decide)
    with h | ⟨s, j, g1, g2, g3, g4, g5, g6, g7, g8, g9⟩
  · exact h
  · exfalso
    have hsub : substr twoA s L <:+: twoB := g8 ▸ substr_sub twoB j L
    have hlen := length_substr twoA s L (by omega) (by omega) (by rw [twoA_length]; omega)
    have key : ∀ k : Int, s ≤ k → k < s + L → k ≠ 60 → k ≠ 61 → False := by
      intro k k1 k2 k3 k4
      have := window_byte_shared twoB twoA (substr twoA s L) hsub s k
        (by rw [hlen]) g1 k1 (by omega) (by rw [twoA_length]; omega)
      rw [twoA_filler k (by omega) (by omega) k3 k4] at this
      exact twoB_no_97 this
    by_cases hs : s ≤ 59
    · exact key 59 hs (by omega) (by decide) (by decide)
    · exact key 62 (by omega) (by omega) (by decide) (by decide)

/-- C17 fails on an input of the production call shape (`la = lb = 121`, `midA = 60`,
tables built from the slices): a crossing match of length 2 exists (`"xy"` at `A[60..61]`
and `B[0..1]`), so the largest `L` with a non-empty `crossCheckA` is 2, but the binary search
probes 61, 30, 15, 7, 3, 1 and `maxCrossA` returns the empty string. -/
theorem maxCrossA_misses_length_two :
    crossCheckA twoA 0 120 60 twoB 0 120 (build twoA) (build twoB) 2 ≠ [] ∧
    (∀ L : Int, 2 < L → crossCheckA twoA 0 120 60 twoB 0 120 (build twoA) (build twoB) L = []) ∧
    maxCrossA twoA 0 120 60 twoB 0 120 (build twoA) (build twoB) = [] := by
  refine ⟨?_, fun L hL => two_cross_empty L (by omega), ?_⟩
  · obtain ⟨_, _, _, _, hlen, _⟩ := crossCheckA_least twoA 0 120 60 twoB 0 120 2 (le_refl _)
      (by rw [twoA_length]; decide) (le_refl _) (by rw [twoB_length]; decide) (by decide)
      (by decide) (by decide) ⟨60, 0, by unfold CrossMatch; decide!⟩
    intro hnil
    rw [hnil] at hlen
    simp at hlen
  · unfold maxCrossA
    simp only []
    rw [if_neg (by decide)]
    have hmin : min ((120 : Int) - 0 + 1) (120 - 0 + 1) = 121 := by decide
    have hfuel : (121 : Int).toNat = 121 := by decide
    rw [hmin, hfuel]
    rw [crossSearch_step_empty _ 120 1 121 [] 61 60 (by decide) (by decide) (by decide)
        (two_cross_empty 61 (by decide)),
      crossSearch_step_empty _ 119 1 60 [] 30 29 (by decide) (by decide) (by decide)
        (two_cross_empty 30 (by decide)),
      crossSearch_step_empty _ 118 1 29 [] 15 14 (by decide) (by decide) (by decide)
        (two_cross_empty 15 (by decide)),
      crossSearch_step_empty _ 117 1 14 [] 7 6 (by decide) (by decide) (by decide)
        (two_cross_empty 7 (by decide)),
      crossSearch_step_empty _ 116 1 6 [] 3 2 (by decide) (by decide) (by decide)
        (two_cross_empty 3 (by decide)),
      crossSearch_step_empty _ 115 1 2 [] 1 0 (by decide) (by decide) (by decide)
        (two_cross_empty 1 (by decide))]
    simp [crossSearch]

/-! ## Tie-breaking of the exact matcher -/

theorem commonExt_spec (A : Str) (aR : Int) (B : Str) (bR : Int) (i j : Int)
    (hi : i ≤ aR + 1) (hj : j ≤ bR + 1) :
    CommonAt A aR B bR i j (commonExt A aR B bR i j) ∧
    ∀ len, CommonAt A aR B bR i j len → len ≤ commonExt A aR B bR i j := by
  have hs : 0 ≤ commonExt A aR B bR i j ∧
      ∀ m : Int, 0 ≤ m → m < commonExt A aR B bR i j →
        i + m ≤ aR ∧ j + m ≤ bR ∧ charAt A (i + m) = charAt B (j + m) := by
    obtain ⟨h1, _, h3, _⟩ := matchLen_spec A i aR B j bR (aR + 1 - i).toNat 0
    exact ⟨h1, h3⟩
  obtain ⟨h1, h3⟩ := hs
  constructor
  · refine ⟨h1, ?_, ?_, fun m hm0 hm1 => (h3 m hm0 hm1).2.2⟩
    · by_cases hz : commonExt A aR B bR i j = 0
      · omega
      · have := h3 (commonExt A aR B bR i j - 1) (by omega) (by omega)
        omega
    · by_cases hz : commonExt A aR B bR i j = 0
      · omega
      · have := h3 (commonExt A aR B bR i j - 1) (by omega) (by omega)
        omega
  · rintro len ⟨g0, g1, g2, g3⟩
    exact matchLen_ge A i aR B j bR len (fun m hm0 hm1 => ⟨by omega, by omega, g3 m hm0 hm1⟩)

theorem scanInv_congr (A : Str) (aR : Int) (B : Str) (bR : Int) (V W : Int → Int → Prop)
    (best : Str) (h : ∀ i j, V i j ↔ W i j) (hV : ScanInv A aR B bR V best) :
    ScanInv A aR B bR W best := by
  obtain ⟨h1, h2⟩ := hV
  refine ⟨fun i j hw => h1 i j ((h i j).2 hw), ?_⟩
  rcases h2 with h2 | ⟨i0, j0, g1, g2, g3, g4⟩
  · exact Or.inl h2
  · exact Or.inr ⟨i0, j0, (h i0 j0).1 g1, g2, g3, fun i j hw => g4 i j ((h i j).2 hw)⟩

/-- One iteration of the inner loop keeps the scan invariant, provided no visited pair has
a larger `i` than the current one. -/
theorem bruteStep_scanInv (A : Str) (aR : Int) (B : Str) (bR : Int)
    (V : Int → Int → Prop) (best : Str) (i j : Int)
    (hi0 : 0 ≤ i) (hi1 : i ≤ aR + 1) (hj1 : j ≤ bR + 1) (ha2 : aR < A.length)
    (hord : ∀ i2 j2, V i2 j2 → i2 ≤ i) (hV : ScanInv A aR B bR V best) :
    ScanInv A aR B bR (fun i2 j2 => V i2 j2 ∨ (i2 = i ∧ j2 = j))
      (bruteStep A aR B bR i best j) := by
  obtain ⟨h1, h2⟩ := hV
  obtain ⟨⟨c0, c1, _, _⟩, _⟩ := commonExt_spec A aR B bR i j hi1 hj1
  have hstep : bruteStep A aR B bR i best j =
      if commonExt A aR B bR i j > (best.length : Int) then
        substr A i (commonExt A aR B bR i j) else best := rfl
  rw [hstep]
  split
  · rename_i hgt
    have hlen := length_substr A i (commonExt A aR B bR i j) hi0 c0 (by omega)
    refine ⟨?_, Or.inr ⟨i, j, Or.inr ⟨rfl, rfl⟩, hlen.symm, by rw [hlen], ?_⟩⟩
    · rintro i2 j2 (hv | ⟨rfl, rfl⟩)
      · have := h1 i2 j2 hv
        omega
      · omega
    · rintro i2 j2 (hv | ⟨rfl, rfl⟩) he
      · have := h1 i2 j2 hv
        omega
      · exact le_refl _
  · rename_i hle
    refine ⟨?_, ?_⟩
    · rintro i2 j2 (hv | ⟨rfl, rfl⟩)
      · exact h1 i2 j2 hv
      · omega
    · rcases h2 with h2 | ⟨i0, j0, g1, g2, g3, g4⟩
      · exact Or.inl h2
      · refine Or.inr ⟨i0, j0, Or.inl g1, g2, g3, ?_⟩
        rintro i2 j2 (hv | ⟨rfl, rfl⟩) he
        · exact g4 i2 j2 hv he
        · exact hord i0 j0 g1

theorem bruteInner_scanInv (A : Str) (aR : Int) (B : Str) (bR : Int) (i : Int)
    (hi0 : 0 ≤ i) (hi1 : i ≤ aR + 1) (ha2 : aR < A.length) (js : List Int)
    (hjs : ∀ j ∈ js, j ≤ bR + 1) :
    ∀ (V : Int → Int → Prop) (best : Str), (∀ i2 j2, V i2 j2 → i2 ≤ i) →
      ScanInv A aR B bR V best →
      ScanInv A aR B bR (fun i2 j2 => V i2 j2 ∨ (i2 = i ∧ j2 ∈ js))
        (js.foldl (bruteStep A aR B bR i) best) := by
  induction js with
  | nil =>
    intro V best _ hV
    exact scanInv_congr A aR B bR V _ best (fun i2 j2 => by simp) hV
  | cons j js ih =>
    intro V best hord hV
    have h1 := bruteStep_scanInv A aR B bR V best i j hi0 hi1
      (hjs j (List.mem_cons_self _ _)) ha2 hord hV
    have h2 := ih (fun j2 hj2 => hjs j2 (List.mem_cons_of_mem _ hj2)) _ _
      (by
        rintro i2 j2 (hv | ⟨rfl, _⟩)
        · exact hord i2 j2 hv
        · exact le_refl _) h1
    simp only [List.foldl_cons]
    refine scanInv_congr A aR B bR _ _ _ (fun i2 j2 => ?_) h2
    simp only [List.mem_cons]
    tauto

theorem bruteOuter_scanInv (A : Str) (aR : Int) (B : Str) (bR : Int) (ha2 : aR < A.length)
    (js : List Int) (hjs : ∀ j ∈ js, j ≤ bR + 1) (is : List Int)
    (his : ∀ i ∈ is, 0 ≤ i ∧ i ≤ aR + 1) (hsorted : is.Pairwise (· < ·)) :
    ∀ (V : Int → Int → Prop) (best : Str), (∀ i2 j2, V i2 j2 → ∀ i ∈ is, i2 ≤ i) →
      ScanInv A aR B bR V best →
      ScanInv A aR B bR (fun i2 j2 => V i2 j2 ∨ (i2 ∈ is ∧ j2 ∈ js))
        (is.foldl (fun best i => js.foldl (bruteStep A aR B bR i) best) best) := by
  induction is with
  | nil =>
    intro V best _ hV
    exact scanInv_congr A aR B bR V _ best (fun i2 j2 => by simp) hV
  | cons i is ih =>
    intro V best hord hV
    obtain ⟨hlt, hsorted'⟩ := List.pairwise_cons.1 hsorted
    have hi := his i (List.mem_cons_self _ _)
    have h1 := bruteInner_scanInv A aR B bR i hi.1 hi.2 ha2 js hjs V best
      (fun i2 j2 hv => hord i2 j2 hv i (List.mem_cons_self _ _)) hV
    have h2 := ih (fun i2 hi2 => his i2 (List.mem_cons_of_mem _ hi2)) hsorted' _ _
      (by
        rintro i2 j2 (hv | ⟨rfl, _⟩) x hx
        · exact hord i2 j2 hv x (List.mem_cons_of_mem _ hx)
        · exact le_of_lt (hlt x hx)) h1
    simp only [List.foldl_cons]
    refine scanInv_congr A aR B bR _ _ _ (fun i2 j2 => ?_) h2
    simp only [List.mem_cons]
    tauto

/-- C12 (tie-breaking): for in-bounds non-empty ranges, `bruteLCS` returns `A[i0 .. i0+k)`
where `k` is the largest length of a common extension over all start pairs of the two
ranges and `i0` is the smallest start `i` in `[aL, aR]` for which some `j` in `[bL, bR]`
has a common extension of length `k`. -/
theorem bruteLCS_first_occurrence (A : Str) (aL aR : Int) (B : Str) (bL bR : Int)
    (ha0 : 0 ≤ aL) (ha1 : aL ≤ aR) (ha2 : aR < A.length)
    (_hb0 : 0 ≤ bL) (hb1 : bL ≤ bR) (_hb2 : bR < B.length) :
    ∃ i0 j0 : Int, aL ≤ i0 ∧ i0 ≤ aR ∧ bL ≤ j0 ∧ j0 ≤ bR ∧
      CommonAt A aR B bR i0 j0 ((bruteLCS A aL aR B bL bR).length : Int) ∧
      bruteLCS A aL aR B bL bR = substr A i0 ((bruteLCS A aL aR B bL bR).length : Int) ∧
      (∀ i j len : Int, aL ≤ i → i ≤ aR → bL ≤ j → j ≤ bR → CommonAt A aR B bR i j len →
        len ≤ ((bruteLCS A aL aR B bL bR).length : Int)) ∧
      (∀ i j : Int, aL ≤ i → i ≤ aR → bL ≤ j → j ≤ bR →
        CommonAt A aR B bR i j ((bruteLCS A aL aR B bL bR).length : Int) → i0 ≤ i) := by
  have hguard : ¬ (aR - aL + 1 ≤ 0 ∨ bR - bL + 1 ≤ 0) := by omega
  have hinv := bruteOuter_scanInv A aR B bR ha2 (intRange bL bR)
    (fun j hj => by have := (mem_intRange _ _ j).1 hj; omega) (intRange aL aR)
    (fun i hi => by have := (mem_intRange _ _ i).1 hi; omega) (intRange_pairwise aL aR)
    (fun _ _ => False) [] (fun _ _ h => absurd h id)
    ⟨fun _ _ h => absurd h id, Or.inl rfl⟩
  have hb : bruteLCS A aL aR B bL bR = (intRange aL aR).foldl
      (fun best i => (intRange bL bR).foldl (bruteStep A aR B bR i) best) [] := by
    unfold bruteLCS
    simp only [if_neg hguard]
  rw [← hb] at hinv
  obtain ⟨h1, h2⟩ := hinv
  have hmax : ∀ i j len : Int, aL ≤ i → i ≤ aR → bL ≤ j → j ≤ bR →
      CommonAt A aR B bR i j len → len ≤ ((bruteLCS A aL aR B bL bR).length : Int) := by
    intro i j len q1 q2 q3 q4 hc
    have e1 := (commonExt_spec A aR B bR i j (by omega) (by omega)).2 len hc
    have e2 := h1 i j (Or.inr ⟨(mem_intRange _ _ i).2 ⟨q1, q2⟩, (mem_intRange _ _ j).2 ⟨q3, q4⟩⟩)
    omega
  rcases h2 with h2 | ⟨i0, j0, g1, g2, g3, g4⟩
  · refine ⟨aL, bL, le_refl _, ha1, le_refl _, hb1, ?_, ?_, hmax, fun i _ q1 _ _ _ _ => q1⟩
    · rw [h2]
      exact ⟨le_refl _, by simp; omega, by simp; omega, fun m h0 h1 => by simp at h1; omega⟩
    · rw [h2]
      simp [substr]
  · rcases g1 with g1 | ⟨gi, gj⟩
    · exact absurd g1 id
    have gi' := (mem_intRange _ _ i0).1 gi
    have gj' := (mem_intRange _ _ j0).1 gj
    refine ⟨i0, j0, gi'.1, gi'.2, gj'.1, gj'.2, ?_, g3, hmax, ?_⟩
    · rw [← g2]
      exact (commonExt_spec A aR B bR i0 j0 (by omega) (by omega)).1
    · intro i j q1 q2 q3 q4 hc
      have e1 := (commonExt_spec A aR B bR i j (by omega) (by omega)).2 _ hc
      have e2 := h1 i j (Or.inr ⟨(mem_intRange _ _ i).2 ⟨q1, q2⟩, (mem_intRange _ _ j).2 ⟨q3, q4⟩⟩)
      exact g4 i j (Or.inr ⟨(mem_intRange _ _ i).2 ⟨q1, q2⟩, (mem_intRange _ _ j).2 ⟨q3, q4⟩⟩)
        (by omega)


theorem bruteLCS_first_occurrence_witness :
    ((0 : Int) ≤ 0 ∧ (0 : Int) ≤ 4 ∧ (4 : Int) < (bytes "abxab").length ∧
      (0 : Int) ≤ 0 ∧ (0 : Int) ≤ 1 ∧ (1 : Int) < (bytes "ab").length) ∧
    ∃ i0 j0 : Int, 0 ≤ i0 ∧ i0 ≤ 4 ∧ 0 ≤ j0 ∧ j0 ≤ 1 ∧
      CommonAt (bytes "abxab") 4 (bytes "ab") 1 i0 j0
        ((bruteLCS (bytes "abxab") 0 4 (bytes "ab") 0 1).length : Int) ∧
      bruteLCS (bytes "abxab") 0 4 (bytes "ab") 0 1 =
        substr (bytes "abxab") i0 ((bruteLCS (bytes "abxab") 0 4 (bytes "ab") 0 1).length : Int) ∧
      (∀ i j len : Int, 0 ≤ i → i ≤ 4 → 0 ≤ j → j ≤ 1 →
        CommonAt (bytes "abxab") 4 (bytes "ab") 1 i j len →
        len ≤ ((bruteLCS (bytes "abxab") 0 4 (bytes "ab") 0 1).length : Int)) ∧
      (∀ i j : Int, 0 ≤ i → i ≤ 4 → 0 ≤ j → j ≤ 1 →
        CommonAt (bytes "abxab") 4 (bytes "ab") 1 i j
          ((bruteLCS (bytes "abxab") 0 4 (bytes "ab") 0 1).length : Int) → i0 ≤ i) :=
  ⟨by decide, bruteLCS_first_occurrence (bytes "abxab") 0 4 (bytes "ab") 0 1
    (by decide) (by decide) (by decide) (by decide) (by decide) (by decide)⟩

/-! ## The dual-midpoint refiner computes the longest straddling extension -/

theorem substr_substr (A : Str) (p n i m : Int) (hp : 0 ≤ p) (hi : 0 ≤ i) (_hm : 0 ≤ m)
    (h : i + m ≤ n) : substr (substr A p n) i m = substr A (p + i) m := by
  unfold substr
  rw [List.drop_take, List.take_take, List.drop_drop]
  have e1 : min m.toNat (n.toNat - i.toNat) = m.toNat := by omega
  have e2 : p.toNat + i.toNat = (p + i).toNat := by omega
  rw [e1, e2]

theorem bytesEqual_mono (A : Str) (s : Int) (B : Str) (t : Int) (L L' : Int) (h : L' ≤ L)
    (hL : bytesEqual A s B t L = true) : bytesEqual A s B t L' = true := by
  rw [bytesEqual_iff] at *
  intro k hk
  exact hL k (by omega)

/-- Tables built from the slices give equal fingerprints to equal windows. -/
theorem getHash_slices_of_bytesEqual (A : Str) (aL aR : Int) (B : Str) (bL bR : Int)
    (a b m : Int) (ha0 : 0 ≤ aL) (ha2 : aR < A.length) (hb0 : 0 ≤ bL) (hb2 : bR < B.length)
    (ha : aL ≤ a) (hb : bL ≤ b) (hm : 1 ≤ m) (hma : a + m ≤ aR + 1) (hmb : b + m ≤ bR + 1)
    (h : bytesEqual A a B b m = true) :
    getHash (build (substr A aL (aR - aL + 1))) (a - aL) (a - aL + m - 1) =
      getHash (build (substr B bL (bR - bL + 1))) (b - bL) (b - bL + m - 1) := by
  have hlA := length_substr A aL (aR - aL + 1) ha0 (by omega) (by omega)
  have hlB := length_substr B bL (bR - bL + 1) hb0 (by omega) (by omega)
  apply getHash_build_window _ _ m _ _ (by omega) (by omega) (by omega) (by omega) (by omega)
  rw [substr_substr A aL _ (a - aL) m ha0 (by omega) (by omega) (by omega),
    substr_substr B bL _ (b - bL) m hb0 (by omega) (by omega) (by omega)]
  have e1 : aL + (a - aL) = a := by ring
  have e2 : bL + (b - bL) = b := by ring
  rw [e1, e2]
  exact substr_eq_of_bytes A B a b m (by omega) (by omega) (by omega) (by omega)
    ((bytesEqual_iff A a B b m).1 h)

/-- The inner binary search returns the largest length `r ≤ M` at which the two windows are
equal, when equal windows have equal fingerprints and no probe is out of the tables. -/
theorem bothSearch_correct (A : Str) (aL : Int) (B : Str) (bL : Int)
    (hashA hashB : RollingHash) (startA startB M : Int)
    (hguard : ∀ m, 1 ≤ m → m ≤ M →
      ¬ (startA - aL < 0 ∨ startA - aL + m - 1 ≥ (hashA.h1.length : Int) - 1 ∨
        startB - bL < 0 ∨ startB - bL + m - 1 ≥ (hashB.h1.length : Int) - 1))
    (hhash : ∀ m, 1 ≤ m → m ≤ M → bytesEqual A startA B startB m = true →
      getHash hashA (startA - aL) (startA - aL + m - 1) =
        getHash hashB (startB - bL) (startB - bL + m - 1))
    (fuel : Nat) (lo hi len : Int) (hfuel : hi + 1 - lo ≤ fuel) (hlo : 1 ≤ lo)
    (hlohi : lo ≤ hi + 1) (hhi : hi ≤ M) (hlen : len = lo - 1)
    (hgood : bytesEqual A startA B startB len = true)
    (hbad : ∀ m, hi < m → m ≤ M → bytesEqual A startA B startB m = false) :
    0 ≤ bothSearch A aL B bL hashA hashB startA startB fuel lo hi len ∧
    bothSearch A aL B bL hashA hashB startA startB fuel lo hi len ≤ M ∧
    bytesEqual A startA B startB
      (bothSearch A aL B bL hashA hashB startA startB fuel lo hi len) = true ∧
    ∀ m, bothSearch A aL B bL hashA hashB startA startB fuel lo hi len < m → m ≤ M →
      bytesEqual A startA B startB m = false := by
  induction fuel generalizing lo hi len with
  | zero =>
    simp only [Nat.cast_zero] at hfuel
    simp only [bothSearch]
    exact ⟨by omega, by omega, hgood, fun m h1 h2 => hbad m (by omega) h2⟩
  | succ n ih =>
    push_cast at hfuel
    simp only [bothSearch]
    split
    · rename_i hle
      have hmid1 : lo ≤ (lo + hi) / 2 := by omega
      have hmid2 : (lo + hi) / 2 ≤ hi := by omega
      have hfail : bytesEqual A startA B startB ((lo + hi) / 2) = false →
          ∀ m, (lo + hi) / 2 - 1 < m → m ≤ M → bytesEqual A startA B startB m = false := by
        intro hf m h1 h2
        by_contra hc
        have hc' : bytesEqual A startA B startB m = true := by
          cases hb : bytesEqual A startA B startB m
          · exact absurd hb hc
          · rfl
        have := bytesEqual_mono A startA B startB m ((lo + hi) / 2) (by omega) hc'
        rw [hf] at this
        exact absurd this (by simp)
      split
      · rename_i hg
        exact absurd hg (hguard _ (by omega) (by omega))
      · split
        · rename_i hh
          split
          · rename_i hb
            exact ih _ _ _ (by omega) (by omega) (by omega) hhi (by omega) hb hbad
          · rename_i hb
            exact ih _ _ _ (by omega) hlo (by omega) (by omega) hlen hgood
              (hfail (by simpa using hb))
        · rename_i hh
          have hb : bytesEqual A startA B startB ((lo + hi) / 2) = false := by
            cases hb : bytesEqual A startA B startB ((lo + hi) / 2)
            · rfl
            · exact absurd (hhash _ (by omega) (by omega) hb) hh
          exact ih _ _ _ (by omega) hlo (by omega) (by omega) hlen hgood (hfail hb)
    · exact ⟨by omega, by omega, hgood, fun m h1 h2 => hbad m (by omega) h2⟩


theorem isExt_unique (A : Str) (aR : Int) (B : Str) (bR : Int) (a b e1 e2 : Int)
    (h1 : IsExt A aR B bR a b e1) (h2 : IsExt A aR B bR a b e2) : e1 = e2 :=
  le_antisymm (h2.2 e1 h1.1) (h1.2 e2 h2.1)

theorem bothLen_isExt (A : Str) (aL aR : Int) (B : Str) (bL bR : Int) (a b : Int)
    (ha0 : 0 ≤ aL) (ha2 : aR < A.length) (hb0 : 0 ≤ bL) (hb2 : bR < B.length)
    (ha : aL ≤ a) (ha' : a ≤ aR) (hb : bL ≤ b) (hb' : b ≤ bR) :
    IsExt A aR B bR a b
      (bothLen A aL aR B bL bR (build (substr A aL (aR - aL + 1)))
        (build (substr B bL (bR - bL + 1))) a b) := by
  have hlA := length_substr A aL (aR - aL + 1) ha0 (by omega) (by omega)
  have hlB := length_substr B bL (bR - bL + 1) hb0 (by omega) (by omega)
  have hm1 := min_le_left (aR - a + 1) (bR - b + 1)
  have hm2 := min_le_right (aR - a + 1) (bR - b + 1)
  have hm3 : 1 ≤ min (aR - a + 1) (bR - b + 1) := le_min (by omega) (by omega)
  obtain ⟨r0, r1, r2, r3⟩ := bothSearch_correct A aL B bL
    (build (substr A aL (aR - aL + 1))) (build (substr B bL (bR - bL + 1))) a b
    (min (aR - a + 1) (bR - b + 1))
    (by
      intro m g1 g2
      rw [(build_spec (substr A aL (aR - aL + 1))).1.1,
        (build_spec (substr B bL (bR - bL + 1))).1.1]
      push_cast
      omega)
    (by
      intro m g1 g2 hbe
      exact getHash_slices_of_bytesEqual A aL aR B bL bR a b m ha0 ha2 hb0 hb2 ha hb g1
        (by omega) (by omega) hbe)
    (min (aR - a + 1) (bR - b + 1)).toNat 1 (min (aR - a + 1) (bR - b + 1)) 0
    (by omega) (le_refl _) (by omega) (le_refl _) (by norm_num)
    (by rw [bytesEqual_iff]; intro k hk; omega)
    (by intro m g1 g2; omega)
  have hbe := (bytesEqual_iff _ _ _ _ _).1 r2
  refine ⟨⟨r0, by unfold bothLen; omega, by unfold bothLen; omega, ?_⟩, ?_⟩
  · intro m g0 g1
    have := hbe m.toNat (by rw [Int.toNat_of_nonneg g0]; exact g1)
    rwa [Int.toNat_of_nonneg g0] at this
  · rintro len ⟨q0, q1, q2, q3⟩
    by_contra hlt
    have hf := r3 len (by unfold bothLen at hlt; omega) (le_min (by omega) (by omega))
    have ht : bytesEqual A a B b len = true := by
      rw [bytesEqual_iff]
      intro k hk
      exact q3 k (by omega) hk
    rw [ht] at hf
    exact absurd hf (by simp)

theorem bothStep_spec (A : Str) (aL aR midA : Int) (B : Str) (bL bR midB : Int)
    (a b : Int) (best : Str)
    (ha0 : 0 ≤ aL) (ha2 : aR < A.length) (hb0 : 0 ≤ bL) (hb2 : bR < B.length)
    (hmA : midA ≤ aR) (hmB : midB ≤ bR)
    (hw : InProbeWindow aL midA bL midB a b)
    (hbest : RefinerInv A aL aR midA B bL bR midB best) :
    RefinerInv A aL aR midA B bL bR midB
      (bothStep A aL aR midA B bL bR midB (build (substr A aL (aR - aL + 1)))
        (build (substr B bL (bR - bL + 1))) a best b) ∧
    (best.length : Int) ≤
      ((bothStep A aL aR midA B bL bR midB (build (substr A aL (aR - aL + 1)))
        (build (substr B bL (bR - bL + 1))) a best b).length : Int) ∧
    (if a + bothLen A aL aR B bL bR (build (substr A aL (aR - aL + 1)))
          (build (substr B bL (bR - bL + 1))) a b - 1 ≥ midA ∧
        b + bothLen A aL aR B bL bR (build (substr A aL (aR - aL + 1)))
          (build (substr B bL (bR - bL + 1))) a b - 1 ≥ midB
      then bothLen A aL aR B bL bR (build (substr A aL (aR - aL + 1)))
          (build (substr B bL (bR - bL + 1))) a b else 0) ≤
      ((bothStep A aL aR midA B bL bR midB (build (substr A aL (aR - aL + 1)))
        (build (substr B bL (bR - bL + 1))) a best b).length : Int) := by
  obtain ⟨w1, w2, w3, w4⟩ := hw
  have wa : aL ≤ a := le_trans (le_max_left _ _) w1
  have wb : bL ≤ b := le_trans (le_max_left _ _) w3
  have hext := bothLen_isExt A aL aR B bL bR a b ha0 ha2 hb0 hb2 wa (by omega) wb (by omega)
  have hstep : bothStep A aL aR midA B bL bR midB (build (substr A aL (aR - aL + 1)))
      (build (substr B bL (bR - bL + 1))) a best b =
      if bothLen A aL aR B bL bR (build (substr A aL (aR - aL + 1)))
            (build (substr B bL (bR - bL + 1))) a b > (best.length : Int) ∧ a ≤ midA ∧
          a + bothLen A aL aR B bL bR (build (substr A aL (aR - aL + 1)))
            (build (substr B bL (bR - bL + 1))) a b - 1 ≥ midA ∧ b ≤ midB ∧
          b + bothLen A aL aR B bL bR (build (substr A aL (aR - aL + 1)))
            (build (substr B bL (bR - bL + 1))) a b - 1 ≥ midB
      then substr A a (bothLen A aL aR B bL bR (build (substr A aL (aR - aL + 1)))
            (build (substr B bL (bR - bL + 1))) a b)
      else best := rfl
  rw [hstep]
  generalize bothLen A aL aR B bL bR (build (substr A aL (aR - aL + 1)))
    (build (substr B bL (bR - bL + 1))) a b = len at hext
  obtain ⟨⟨c0, c1, c2, c3⟩, cmax⟩ := hext
  split
  · rename_i hc
    obtain ⟨q1, _, q3, _, q5⟩ := hc
    have hl := length_substr A a len (by omega) c0 (by omega)
    have heq := substr_eq_of_bytes A B a b len (by omega) (by omega) (by omega) (by omega)
      (fun k hk => c3 k (by omega) hk)
    refine ⟨Or.inr ⟨a, b, ⟨w1, w2, w3, w4⟩, ?_, ?_, ?_, ?_, ?_⟩, by omega, ?_⟩
    · rw [hl]
      exact ⟨⟨c0, c1, c2, c3⟩, cmax⟩
    · rw [hl]; exact q3
    · rw [hl]; exact q5
    · rw [hl]
    · rw [hl, heq]
    · rw [hl]
      split <;> omega
  · rename_i hc
    refine ⟨hbest, le_refl _, ?_⟩
    split
    · rename_i hq
      by_contra hlt
      exact hc ⟨by omega, w2, hq.1, w4, hq.2⟩
    · omega

/-- C19 (dual-midpoint refiner): for in-bounds ranges with `aL ≤ midA ≤ aR`,
`bL ≤ midB ≤ bR` and tables built from the two slices, the result `R` of
`crossCheckBothMidpoints` is at least as long as `ext(a, b)` for every probed start pair
whose extension reaches both midpoints, and `R` is empty or equal to
`A[a .. a+ext) = B[b .. b+ext)` for such a pair with `ext = |R|`; so `|R|` is the maximum of
`ext` over the qualifying pairs and `R` is empty when none qualifies. -/
theorem crossCheckBothMidpoints_characterised (A : Str) (aL aR midA : Int) (B : Str)
    (bL bR midB : Int)
    (ha0 : 0 ≤ aL) (ha1 : aL ≤ midA) (hmA : midA ≤ aR) (ha2 : aR < A.length)
    (hb0 : 0 ≤ bL) (hb1 : bL ≤ midB) (hmB : midB ≤ bR) (hb2 : bR < B.length) :
    (∀ a b ext : Int, InProbeWindow aL midA bL midB a b → IsExt A aR B bR a b ext →
      a + ext - 1 ≥ midA → b + ext - 1 ≥ midB →
      ext ≤ ((crossCheckBothMidpoints A aL aR midA B bL bR midB
        (build (substr A aL (aR - aL + 1))) (build (substr B bL (bR - bL + 1)))).length : Int)) ∧
    RefinerInv A aL aR midA B bL bR midB
      (crossCheckBothMidpoints A aL aR midA B bL bR midB
        (build (substr A aL (aR - aL + 1))) (build (substr B bL (bR - bL + 1)))) := by
  have key : ∀ b0 : Int,
      max bL (midB - min 100 (min (midA - aL + 1) (midB - bL + 1))) ≤ b0 → b0 ≤ midB →
      RefinerInv A aL aR midA B bL bR midB
        (crossCheckBothMidpoints A aL aR midA B bL bR midB
          (build (substr A aL (aR - aL + 1))) (build (substr B bL (bR - bL + 1)))) ∧
      ∀ a ∈ intRange (max aL (midA - min 100 (min (midA - aL + 1) (midB - bL + 1)))) midA,
        (if a + bothLen A aL aR B bL bR (build (substr A aL (aR - aL + 1)))
              (build (substr B bL (bR - bL + 1))) a b0 - 1 ≥ midA ∧
            b0 + bothLen A aL aR B bL bR (build (substr A aL (aR - aL + 1)))
              (build (substr B bL (bR - bL + 1))) a b0 - 1 ≥ midB
          then bothLen A aL aR B bL bR (build (substr A aL (aR - aL + 1)))
              (build (substr B bL (bR - bL + 1))) a b0 else 0) ≤
        ((crossCheckBothMidpoints A aL aR midA B bL bR midB
          (build (substr A aL (aR - aL + 1))) (build (substr B bL (bR - bL + 1)))).length : Int) := by
    intro b0 hb0l hb0u
    unfold crossCheckBothMidpoints
    simp only []
    have := foldl_ge
      (fun best startA =>
        (intRange (max bL (midB - min 100 (min (midA - aL + 1) (midB - bL + 1)))) midB).foldl
          (bothStep A aL aR midA B bL bR midB (build (substr A aL (aR - aL + 1)))
            (build (substr B bL (bR - bL + 1))) startA) best)
      (fun b : Str => (b.length : Int))
      (RefinerInv A aL aR midA B bL bR midB)
      (fun a => if a + bothLen A aL aR B bL bR (build (substr A aL (aR - aL + 1)))
              (build (substr B bL (bR - bL + 1))) a b0 - 1 ≥ midA ∧
            b0 + bothLen A aL aR B bL bR (build (substr A aL (aR - aL + 1)))
              (build (substr B bL (bR - bL + 1))) a b0 - 1 ≥ midB
          then bothLen A aL aR B bL bR (build (substr A aL (aR - aL + 1)))
              (build (substr B bL (bR - bL + 1))) a b0 else 0)
      (intRange (max aL (midA - min 100 (min (midA - aL + 1) (midB - bL + 1)))) midA) []
      (Or.inl rfl)
      (by
        intro best a hamem hbest
        have ha' := (mem_intRange _ _ a).1 hamem
        have inner := foldl_ge
          (bothStep A aL aR midA B bL bR midB (build (substr A aL (aR - aL + 1)))
            (build (substr B bL (bR - bL + 1))) a)
          (fun b : Str => (b.length : Int))
          (RefinerInv A aL aR midA B bL bR midB)
          (fun b => if a + bothLen A aL aR B bL bR (build (substr A aL (aR - aL + 1)))
                (build (substr B bL (bR - bL + 1))) a b - 1 ≥ midA ∧
              b + bothLen A aL aR B bL bR (build (substr A aL (aR - aL + 1)))
                (build (substr B bL (bR - bL + 1))) a b - 1 ≥ midB
            then bothLen A aL aR B bL bR (build (substr A aL (aR - aL + 1)))
                (build (substr B bL (bR - bL + 1))) a b else 0)
          (intRange (max bL (midB - min 100 (min (midA - aL + 1) (midB - bL + 1)))) midB)
          best hbest
          (by
            intro best2 b hbmem hbest2
            have hb' := (mem_intRange _ _ b).1 hbmem
            exact bothStep_spec A aL aR midA B bL bR midB a b best2 ha0 ha2 hb0 hb2 hmA hmB
              ⟨ha'.1, ha'.2, hb'.1, hb'.2⟩ hbest2)
        exact ⟨inner.1, inner.2.1, inner.2.2 b0 ((mem_intRange _ _ b0).2 ⟨hb0l, hb0u⟩)⟩)
    exact ⟨this.1, this.2.2⟩
  refine ⟨?_, (key midB (max_le hb1 (by omega)) (le_refl _)).1⟩
  intro a b ext hw hext q1 q2
  obtain ⟨w1, w2, w3, w4⟩ := hw
  have wa : aL ≤ a := le_trans (le_max_left _ _) w1
  have wb : bL ≤ b := le_trans (le_max_left _ _) w3
  have hlen := bothLen_isExt A aL aR B bL bR a b ha0 ha2 hb0 hb2 wa (by omega) wb (by omega)
  have he := isExt_unique A aR B bR a b _ _ hext hlen
  have := (key b w3 w4).2 a ((mem_intRange _ _ a).2 ⟨w1, w2⟩)
  rw [← he, if_pos ⟨q1, q2⟩] at this
  exact this


theorem crossCheckBothMidpoints_characterised_witness :
    ((0 : Int) ≤ 0 ∧ (0 : Int) ≤ 2 ∧ (2 : Int) ≤ 4 ∧ (4 : Int) < (bytes "xabcy").length ∧
      (0 : Int) ≤ 0 ∧ (0 : Int) ≤ 2 ∧ (2 : Int) ≤ 4 ∧ (4 : Int) < (bytes "zabcw").length) ∧
    ((∀ a b ext : Int, InProbeWindow 0 2 0 2 a b →
      IsExt (bytes "xabcy") 4 (bytes "zabcw") 4 a b ext →
      a + ext - 1 ≥ 2 → b + ext - 1 ≥ 2 →
      ext ≤ ((crossCheckBothMidpoints (bytes "xabcy") 0 4 2 (bytes "zabcw") 0 4 2
        (build (substr (bytes "xabcy") 0 (4 - 0 + 1)))
        (build (substr (bytes "zabcw") 0 (4 - 0 + 1)))).length : Int)) ∧
    RefinerInv (bytes "xabcy") 0 4 2 (bytes "zabcw") 0 4 2
      (crossCheckBothMidpoints (bytes "xabcy") 0 4 2 (bytes "zabcw") 0 4 2
        (build (substr (bytes "xabcy") 0 (4 - 0 + 1)))
        (build (substr (bytes "zabcw") 0 (4 - 0 + 1))))) :=
  ⟨by decide, crossCheckBothMidpoints_characterised (bytes "xabcy") 0 4 2 (bytes "zabcw") 0 4 2
    (by decide) (by decide) (by decide) (by decide) (by decide) (by decide) (by decide)
    (by decide)⟩

/-! ## No call site relies on clamping -/

theorem getHashStrict_inRange (T : RollingHash) (l r : Int) (h0 : 0 ≤ l) (h1 : l ≤ r)
    (h2 : r + 1 ≤ (T.h1.length : Int) - 1) : getHashStrict T l r = some (getHash T l r) := by
  unfold getHashStrict
  rw [if_neg (by omega)]

theorem foldlM_eq_some {α β : Type} (fS : β → α → Option β) (f : β → α → β) (l : List α)
    (init : β) (h : ∀ b a, a ∈ l → fS b a = some (f b a)) :
    l.foldlM fS init = some (l.foldl f init) := by
  induction l generalizing init with
  | nil => rfl
  | cons x xs ih =>
    rw [List.foldlM_cons, h init x (List.mem_cons_self _ _)]
    exact ih (f init x) (fun b a ha => h b a (List.mem_cons_of_mem _ ha))

theorem windowMapStrict_eq (hashB : RollingHash) (bL bR L : Int) (hL : 1 ≤ L) (hb0 : 0 ≤ bL)
    (hb2 : bR + 1 ≤ (hashB.h1.length : Int) - 1) :
    windowMapStrict hashB bL bR L = some (windowMap hashB bL bR L) := by
  unfold windowMapStrict windowMap
  apply foldlM_eq_some
  intro mp j hj
  have hj' := (mem_intRange _ _ j).1 hj
  rw [getHashStrict_inRange hashB j (j + L - 1) (by omega) (by omega) (by omega)]

theorem anchorLoopStrict_eq (bodyS : Int → Option (Option Str)) (body : Int → Option Str)
    (l : List Int) (h : ∀ s ∈ l, bodyS s = some (body s)) :
    anchorLoopStrict bodyS l = some (l.findSome? body) := by
  induction l with
  | nil => rfl
  | cons x xs ih =>
    simp only [anchorLoopStrict, h x (List.mem_cons_self _ _), List.findSome?_cons]
    cases hb : body x with
    | none => exact ih (fun s hs => h s (List.mem_cons_of_mem _ hs))
    | some r => rfl

theorem anchorBodyStrict_eq (A : Str) (aR midA : Int) (B : Str) (mp : List (Nat × List Int))
    (hashA : RollingHash) (L s : Int) (hs : 0 ≤ s)
    (ha2 : aR + 1 ≤ (hashA.h1.length : Int) - 1) :
    anchorBodyStrict A aR midA B mp hashA L s = some (anchorBody A aR midA B mp hashA L s) := by
  unfold anchorBodyStrict anchorBody
  simp only []
  split
  · rfl
  split
  · rfl
  rename_i he hc
  simp only [not_not] at hc
  rw [getHashStrict_inRange hashA s (s + L - 1) hs (by omega) (by omega)]
  simp only []
  cases mpFind mp (packHash (getHash hashA s (s + L - 1))) <;> rfl

theorem crossCheckAStrict_eq (A : Str) (aL aR midA : Int) (B : Str) (bL bR : Int)
    (hashA hashB : RollingHash) (L : Int) (ha0 : 0 ≤ aL)
    (ha2 : aR + 1 ≤ (hashA.h1.length : Int) - 1) (hb0 : 0 ≤ bL)
    (hb2 : bR + 1 ≤ (hashB.h1.length : Int) - 1) :
    crossCheckAStrict A aL aR midA B bL bR hashA hashB L =
      some (crossCheckA A aL aR midA B bL bR hashA hashB L) := by
  rw [crossCheckA_unfold]
  unfold crossCheckAStrict
  by_cases hL : L ≤ 0
  · simp only [if_pos hL]
  simp only [if_neg hL]
  by_cases hg : L > aR - aL + 1 ∨ L > bR - bL + 1
  · simp only [if_pos hg]
  simp only [if_neg hg]
  rw [windowMapStrict_eq hashB bL bR L (by omega) hb0 hb2]
  simp only []
  rw [anchorLoopStrict_eq _ (anchorBody A aR midA B (windowMap hashB bL bR L) hashA L)]
  · cases (intRange (max aL (midA - L + 1)) (min midA (aR - L + 1))).findSome?
      (anchorBody A aR midA B (windowMap hashB bL bR L) hashA L) <;> rfl
  · intro s hs
    have hs' := (mem_intRange _ _ s).1 hs
    exact anchorBodyStrict_eq A aR midA B _ hashA L s
      (le_trans ha0 (le_trans (le_max_left _ _) hs'.1)) ha2

theorem crossCheckB_unfold (A : Str) (aL aR : Int) (B : Str) (bL bR midB : Int)
    (hashA hashB : RollingHash) (L : Int) :
    crossCheckB A aL aR B bL bR midB hashA hashB L =
      if L ≤ 0 then [] else
      if L > aR - aL + 1 ∨ L > bR - bL + 1 then [] else
      match (intRange (max bL (midB - L + 1)) (min midB (bR - L + 1))).findSome?
          (anchorBodyB A B bR midB (windowMap hashA aL aR L) hashB L) with
      | some r => r
      | none => [] := rfl

theorem anchorBodyStrictB_eq (A : Str) (B : Str) (bR midB : Int)
    (mp : List (Nat × List Int)) (hashB : RollingHash) (L s : Int) (hs : 0 ≤ s)
    (hb2 : bR + 1 ≤ (hashB.h1.length : Int) - 1) :
    anchorBodyStrictB A B bR midB mp hashB L s =
      some (anchorBodyB A B bR midB mp hashB L s) := by
  unfold anchorBodyStrictB anchorBodyB
  simp only []
  split
  · rfl
  split
  · rfl
  rename_i he hc
  simp only [not_not] at hc
  rw [getHashStrict_inRange hashB s (s + L - 1) hs (by omega) (by omega)]
  simp only []
  cases mpFind mp (packHash (getHash hashB s (s + L - 1))) <;> rfl

theorem crossCheckBStrict_eq (A : Str) (aL aR : Int) (B : Str) (bL bR midB : Int)
    (hashA hashB : RollingHash) (L : Int) (ha0 : 0 ≤ aL)
    (ha2 : aR + 1 ≤ (hashA.h1.length : Int) - 1) (hb0 : 0 ≤ bL)
    (hb2 : bR + 1 ≤ (hashB.h1.length : Int) - 1) :
    crossCheckBStrict A aL aR B bL bR midB hashA hashB L =
      some (crossCheckB A aL aR B bL bR midB hashA hashB L) := by
  rw [crossCheckB_unfold]
  unfold crossCheckBStrict
  by_cases hL : L ≤ 0
  · simp only [if_pos hL]
  simp only [if_neg hL]
  by_cases hg : L > aR - aL + 1 ∨ L > bR - bL + 1
  · simp only [if_pos hg]
  simp only [if_neg hg]
  rw [windowMapStrict_eq hashA aL aR L (by omega) ha0 ha2]
  simp only []
  rw [anchorLoopStrict_eq _ (anchorBodyB A B bR midB (windowMap hashA aL aR L) hashB L)]
  · cases (intRange (max bL (midB - L + 1)) (min midB (bR - L + 1))).findSome?
      (anchorBodyB A B bR midB (windowMap hashA aL aR L) hashB L) <;> rfl
  · intro s hs
    have hs' := (mem_intRange _ _ s).1 hs
    exact anchorBodyStrictB_eq A B bR midB _ hashB L s
      (le_trans hb0 (le_trans (le_max_left _ _) hs'.1)) hb2

theorem crossSearchStrict_eq (checkS : Int → Option Str) (check : Int → Str)
    (h : ∀ m, checkS m = some (check m)) (fuel : Nat) (lo hi : Int) (best : Str) :
    crossSearchStrict checkS fuel lo hi best = some (crossSearch check fuel lo hi best) := by
  induction fuel generalizing lo hi best with
  | zero => rfl
  | succ n ih =>
    simp only [crossSearchStrict, crossSearch, h]
    split
    · split
      · exact ih _ _ _
      · exact ih _ _ _
    · rfl

theorem maxCrossAStrict_eq (A : Str) (aL aR midA : Int) (B : Str) (bL bR : Int)
    (hashA hashB : RollingHash) (ha0 : 0 ≤ aL)
    (ha2 : aR + 1 ≤ (hashA.h1.length : Int) - 1) (hb0 : 0 ≤ bL)
    (hb2 : bR + 1 ≤ (hashB.h1.length : Int) - 1) :
    maxCrossAStrict A aL aR midA B bL bR hashA hashB =
      some (maxCrossA A aL aR midA B bL bR hashA hashB) := by
  unfold maxCrossAStrict maxCrossA
  simp only []
  split
  · rfl
  · exact crossSearchStrict_eq _ _
      (fun m => crossCheckAStrict_eq A aL aR midA B bL bR hashA hashB m ha0 ha2 hb0 hb2) _ _ _ _

theorem maxCrossBStrict_eq (A : Str) (aL aR : Int) (B : Str) (bL bR midB : Int)
    (hashA hashB : RollingHash) (ha0 : 0 ≤ aL)
    (ha2 : aR + 1 ≤ (hashA.h1.length : Int) - 1) (hb0 : 0 ≤ bL)
    (hb2 : bR + 1 ≤ (hashB.h1.length : Int) - 1) :
    maxCrossBStrict A aL aR B bL bR midB hashA hashB =
      some (maxCrossB A aL aR B bL bR midB hashA hashB) := by
  unfold maxCrossBStrict maxCrossB
  simp only []
  split
  · rfl
  · exact crossSearchStrict_eq _ _
      (fun m => crossCheckBStrict_eq A aL aR B bL bR midB hashA hashB m ha0 ha2 hb0 hb2) _ _ _ _

/-- The refiner checks its probe against the table sizes before it queries, so its
queries are in range for any two tables. -/
theorem bothSearchStrict_eq (A : Str) (aL : Int) (B : Str) (bL : Int)
    (hashA hashB : RollingHash) (startA startB : Int) (fuel : Nat) (lo hi len : Int)
    (hlo : 1 ≤ lo) :
    bothSearchStrict A aL B bL hashA hashB startA startB fuel lo hi len =
      some (bothSearch A aL B bL hashA hashB startA startB fuel lo hi len) := by
  induction fuel generalizing lo hi len with
  | zero => rfl
  | succ n ih =>
    simp only [bothSearchStrict, bothSearch]
    split
    · rename_i hle
      split
      · exact ih _ _ _ hlo
      · rename_i hg
        rw [getHashStrict_inRange hashA _ _ (by omega) (by omega) (by omega),
          getHashStrict_inRange hashB _ _ (by omega) (by omega) (by omega)]
        simp only []
        split
        · split
          · exact ih _ _ _ (by omega)
          · exact ih _ _ _ hlo
        · exact ih _ _ _ hlo
    · rfl

theorem bothStepStrict_eq (A : Str) (aL aR midA : Int) (B : Str) (bL bR midB : Int)
    (hashA hashB : RollingHash) (startA : Int) (best : Str) (startB : Int) :
    bothStepStrict A aL aR midA B bL bR midB hashA hashB startA best startB =
      some (bothStep A aL aR midA B bL bR midB hashA hashB startA best startB) := by
  unfold bothStepStrict bothStep
  simp only []
  rw [bothSearchStrict_eq A aL B bL hashA hashB startA startB _ 1 _ 0 (le_refl _)]
  simp only []
  split <;> rfl

theorem crossCheckBothMidpointsStrict_eq (A : Str) (aL aR midA : Int) (B : Str)
    (bL bR midB : Int) (hashA hashB : RollingHash) :
    crossCheckBothMidpointsStrict A aL aR midA B bL bR midB hashA hashB =
      some (crossCheckBothMidpoints A aL aR midA B bL bR midB hashA hashB) := by
  unfold crossCheckBothMidpointsStrict crossCheckBothMidpoints
  simp only []
  apply foldlM_eq_some
  intro best startA _
  apply foldlM_eq_some
  intro best2 startB _
  exact bothStepStrict_eq A aL aR midA B bL bR midB hashA hashB startA best2 startB

theorem lcs_divide_conquer_strict_eq (A B : Str) (n : Nat) :
    ∀ aL aR bL bR : Int, (aR - aL + 1).toNat = n →
      0 ≤ aL → aR < A.length → 0 ≤ bL → bR < B.length →
      lcs_divide_conquer_strict A aL aR B bL bR =
        some (lcs_divide_conquer A aL aR B bL bR) := by
  induction n using Nat.strong_induction_on with
  | _ n ih =>
    intro aL aR bL bR hn ha0 ha2 hb0 hb2
    rw [lcs_divide_conquer_strict]
    by_cases h0 : aR - aL + 1 ≤ 0 ∨ bR - bL + 1 ≤ 0
    · rw [lcs_invalid A aL aR B bL bR h0, if_pos h0]
    by_cases h1 : aR - aL + 1 ≤ 120 ∨ bR - bL + 1 ≤ 120
    · rw [lcs_base A aL aR B bL bR h0 h1]
      simp only [BRUTE_THRESHOLD, if_neg h0, if_pos h1]
    rw [lcs_split A aL aR B bL bR (by omega) (by omega)]
    simp only [BRUTE_THRESHOLD, if_neg h0, if_neg h1]
    have hsA := length_substr A aL (aR - aL + 1) ha0 (by omega) (by omega)
    have hsB := length_substr B bL (bR - bL + 1) hb0 (by omega) (by omega)
    have tA := (build_spec (substr A aL (aR - aL + 1))).1.1
    have tB := (build_spec (substr B bL (bR - bL + 1))).1.1
    rw [ih _ (by omega) aL ((aL + aR) / 2) bL ((bL + bR) / 2) rfl ha0 (by omega) hb0
        (by omega),
      ih _ (by omega) ((aL + aR) / 2 + 1) aR ((bL + bR) / 2 + 1) bR rfl (by omega) ha2
        (by omega) hb2,
      maxCrossAStrict_eq _ 0 _ _ _ 0 _ _ _ (le_refl _) (by rw [tA]; push_cast; omega)
        (le_refl _) (by rw [tB]; push_cast; omega),
      maxCrossBStrict_eq _ 0 _ _ 0 _ _ _ _ (le_refl _) (by rw [tA]; push_cast; omega)
        (le_refl _) (by rw [tB]; push_cast; omega),
      crossCheckBothMidpointsStrict_eq]

/-- C20 (no reliance on clamping): running `longestCommonSubstring` with a `getHash` that
fails unless `0 ≤ l ≤ r ≤ n - 1` never fails and returns the same string, for all `A`
and `B`: every query made by `crossCheckA`, `crossCheckB` and `crossCheckBothMidpoints`
is inside the slice its table was built from, so neither guard of `getHash` fires. -/
theorem no_call_relies_on_clamping (A B : Str) :
    longestCommonSubstringStrict A B = some (longestCommonSubstring A B) := by
  unfold longestCommonSubstringStrict longestCommonSubstring
  split
  · rfl
  · exact lcs_divide_conquer_strict_eq A B _ 0 _ 0 _ rfl (le_refl _) (by omega) (le_refl _)
      (by omega)

/-! ## Reads and updates of the trie vector -/

theorem length_modifyNode (t : Trie) (v : Int) (f : Node → Node) :
    (modifyNode t v f).length = t.length := by
  simp [modifyNode]

theorem nodeAt_modifyNode_same (t : Trie) (v : Int) (f : Node → Node) (h0 : 0 ≤ v)
    (h1 : v < t.length) : nodeAt (modifyNode t v f) v = f (nodeAt t v) := by
  have hlt : v.toNat < t.length := by omega
  simp [modifyNode, nodeAt, List.getD_eq_getElem?_getD, List.getElem?_set, hlt]

theorem nodeAt_modifyNode_ne (t : Trie) (v w : Int) (f : Node → Node) (h0 : 0 ≤ v)
    (hw : 0 ≤ w) (hne : w ≠ v) : nodeAt (modifyNode t v f) w = nodeAt t w := by
  have hne' : v.toNat ≠ w.toNat := by omega
  simp [modifyNode, nodeAt, List.getD_eq_getElem?_getD, List.getElem?_set, hne']

theorem nodeAt_append_old (t : Trie) (x : Node) (w : Int) (hw : 0 ≤ w) (h : w < t.length) :
    nodeAt (t ++ [x]) w = nodeAt t w := by
  have hlt : w.toNat < t.length := by omega
  simp [nodeAt, List.getD_eq_getElem?_getD, List.getElem?_append_left hlt]

theorem nodeAt_append_new (t : Trie) (x : Node) :
    nodeAt (t ++ [x]) (t.length : Int) = x := by
  simp [nodeAt, List.getD_eq_getElem?_getD]

theorem nextAt_fresh (c : Int) : Node.fresh.next.getD c.toNat (-1) = -1 := by
  simp only [Node.fresh, List.getD_eq_getElem?_getD, List.getElem?_replicate]
  split <;> rfl

theorem nextAt_setNext_same (t : Trie) (v c x : Int) (h0 : 0 ≤ v) (h1 : v < t.length)
    (hc : c.toNat < (nodeAt t v).next.length) : nextAt (setNext t v c x) v c = x := by
  simp [nextAt, setNext, nodeAt_modifyNode_same t v _ h0 h1, List.getD_eq_getElem?_getD,
    List.getElem?_set, hc]

theorem nextAt_setNext_ne (t : Trie) (v c x w d : Int) (h0 : 0 ≤ v) (hw : 0 ≤ w)
    (hc : 0 ≤ c) (hd : 0 ≤ d) (h1 : v < t.length) (hne : w ≠ v ∨ d ≠ c) :
    nextAt (setNext t v c x) w d = nextAt t w d := by
  by_cases hwv : w = v
  · subst hwv
    have hdc : c.toNat ≠ d.toNat := by
      rcases hne with h | h
      · exact absurd rfl h
      · omega
    simp [nextAt, setNext, nodeAt_modifyNode_same t w _ h0 h1, List.getD_eq_getElem?_getD,
      List.getElem?_set, hdc]
  · simp [nextAt, setNext, nodeAt_modifyNode_ne t v w _ h0 hw hwv]

theorem nextLen_setNext (t : Trie) (v c x w : Int) (h0 : 0 ≤ v) (hw : 0 ≤ w) :
    (nodeAt (setNext t v c x) w).next.length = (nodeAt t w).next.length := by
  by_cases h1 : v < t.length
  · by_cases hwv : w = v
    · subst hwv
      simp [setNext, nodeAt_modifyNode_same t w _ h0 h1]
    · simp [setNext, nodeAt_modifyNode_ne t v w _ h0 hw hwv]
  · have : t.length ≤ v.toNat := by omega
    simp [setNext, modifyNode, List.set_eq_of_length_le this]

theorem out_setNext (t : Trie) (v c x w : Int) (h0 : 0 ≤ v) (hw : 0 ≤ w) :
    (nodeAt (setNext t v c x) w).out = (nodeAt t w).out := by
  by_cases h1 : v < t.length
  · by_cases hwv : w = v
    · subst hwv
      simp [setNext, nodeAt_modifyNode_same t w _ h0 h1]
    · simp [setNext, nodeAt_modifyNode_ne t v w _ h0 hw hwv]
  · have : t.length ≤ v.toNat := by omega
    simp [setNext, modifyNode, List.set_eq_of_length_le this]

theorem link_setNext (t : Trie) (v c x w : Int) (h0 : 0 ≤ v) (hw : 0 ≤ w) :
    (nodeAt (setNext t v c x) w).link = (nodeAt t w).link := by
  by_cases h1 : v < t.length
  · by_cases hwv : w = v
    · subst hwv
      simp [setNext, nodeAt_modifyNode_same t w _ h0 h1]
    · simp [setNext, nodeAt_modifyNode_ne t v w _ h0 hw hwv]
  · have : t.length ≤ v.toNat := by omega
    simp [setNext, modifyNode, List.set_eq_of_length_le this]

/-! ## Inserting patterns keeps the trie well formed -/

theorem alph_toNat : ALPH.toNat = 95 := by decide

theorem trieRep_no_node (t : Trie) (word : Int → List Int) (hT : TrieRep t word)
    (node id : Int) (hn0 : 0 ≤ node) (hn1 : node < t.length) (hid : InAlph id)
    (habs : nextAt t node id = -1) (m : Int) (hm0 : 0 ≤ m) (hm1 : m < t.length) :
    word m ≠ word node ++ [id] := by
  intro he
  have hm : 0 < m := by
    rcases lt_or_eq_of_le hm0 with h | h
    · exact h
    · rw [← h, hT.root] at he
      simp at he
  obtain ⟨p, c, hp0, hp1, hc, hpc⟩ := hT.parent m hm hm1
  have hedge := hT.edge p c hp0 hp1 hc (by rw [hpc]; omega)
  rw [hpc] at hedge
  rw [hedge.2.2] at he
  have h1 := List.append_inj' he rfl
  have hpn := hT.inj p node hp0 hp1 hn0 hn1 h1.1
  have hcid : c = id := by simpa using h1.2
  subst hpn hcid
  omega

theorem insertEdge_spec (t : Trie) (word : Int → List Int) (pats : List (Str × Int))
    (id node : Int) (nn : List Int) (hT : TrieRep t word) (hO : OutSpec t word pats)
    (hC : CompleteFor t word pats) (hid : InAlph id) (hn0 : 0 ≤ node)
    (hn1 : node < t.length) :
    ∃ (word' : Int → List Int) (m : Int),
      (insertEdge id (t, nn) node).2 = nn ++ [m] ∧
      TrieRep (insertEdge id (t, nn) node).1 word' ∧
      OutSpec (insertEdge id (t, nn) node).1 word' pats ∧
      CompleteFor (insertEdge id (t, nn) node).1 word' pats ∧
      t.length ≤ (insertEdge id (t, nn) node).1.length ∧
      (∀ n : Int, 0 ≤ n → n < t.length → word' n = word n) ∧
      0 ≤ m ∧ m < (insertEdge id (t, nn) node).1.length ∧ word' m = word node ++ [id] := by
  unfold insertEdge
  simp only []
  split
  · rename_i habs
    have hlen : ((setNext t node id (t.length : Int)) ++ [Node.fresh]).length = t.length + 1 := by
      simp [setNext, length_modifyNode]
    have hlen' : (setNext t node id (t.length : Int)).length = t.length := by
      simp [setNext, length_modifyNode]
    have hpos := hT.pos
    have hfresh : ∀ n : Int, 0 ≤ n → n < t.length → ¬ word n = word node ++ [id] :=
      fun n h0 h1 => trieRep_no_node t word hT node id hn0 hn1 hid habs n h0 h1
    have hnode : ∀ n : Int, 0 ≤ n → n < t.length →
        nodeAt ((setNext t node id (t.length : Int)) ++ [Node.fresh]) n =
          nodeAt (setNext t node id (t.length : Int)) n :=
      fun n h0 h1 => nodeAt_append_old _ _ n h0 (by rw [hlen']; exact h1)
    have hnew : nodeAt ((setNext t node id (t.length : Int)) ++ [Node.fresh]) (t.length : Int) =
        Node.fresh := by
      have := nodeAt_append_new (setNext t node id (t.length : Int)) Node.fresh
      rwa [hlen'] at this
    have hnext : ∀ n c : Int, 0 ≤ n → n < t.length → 0 ≤ c →
        nextAt ((setNext t node id (t.length : Int)) ++ [Node.fresh]) n c =
          if n = node ∧ c = id then (t.length : Int) else nextAt t n c := by
      intro n c h0 h1 hc
      have e : nextAt ((setNext t node id (t.length : Int)) ++ [Node.fresh]) n c =
          nextAt (setNext t node id (t.length : Int)) n c := by
        unfold nextAt
        rw [hnode n h0 h1]
      rw [e]
      split
      · rename_i h
        obtain ⟨rfl, rfl⟩ := h
        exact nextAt_setNext_same t n c _ hn0 hn1
          (by rw [hT.nextLen n hn0 hn1]; have := hid.2; omega)
      · rename_i h
        exact nextAt_setNext_ne t node id _ n c hn0 h0 hid.1 hc hn1 (by tauto)
    have hw : ∀ n : Int, 0 ≤ n → n < t.length →
        Function.update word (t.length : Int) (word node ++ [id]) n = word n := by
      intro n h0 h1
      exact Function.update_noteq (by omega) _ _
    have hwnew : Function.update word (t.length : Int) (word node ++ [id]) (t.length : Int) =
        word node ++ [id] := Function.update_same _ _ _
    refine ⟨Function.update word (t.length : Int) (word node ++ [id]), (t.length : Int), rfl,
      ?_, ?_, ?_, by rw [hlen]; omega, hw, by omega, by rw [hlen]; push_cast; omega, hwnew⟩
    · constructor
      · rw [hw 0 (le_refl _) (by omega)]
        exact hT.root
      · rw [hlen]; omega
      · intro n h0 h1
        rw [hlen] at h1
        push_cast at h1
        by_cases hn : n = t.length
        · rw [hn, hnew]
          simp [Node.fresh, alph_toNat]
        · rw [hnode n h0 (by omega), nextLen_setNext t node id _ n hn0 h0]
          exact hT.nextLen n h0 (by omega)
      · intro n c h0 h1 hc hne
        rw [hlen] at h1 ⊢
        push_cast at h1 ⊢
        by_cases hn : n = t.length
        · exfalso
          apply hne
          unfold nextAt
          rw [hn, hnew]
          exact nextAt_fresh c
        · have hn1' : n < t.length := by omega
          rw [hnext n c h0 hn1' hc.1] at hne ⊢
          by_cases h : n = node ∧ c = id
          · rw [if_pos h]
            obtain ⟨rfl, rfl⟩ := h
            exact ⟨by omega, by omega, by rw [hwnew, hw n h0 hn1']⟩
          · rw [if_neg h] at hne ⊢
            obtain ⟨e1, e2, e3⟩ := hT.edge n c h0 hn1' hc hne
            exact ⟨e1, by omega, by rw [hw _ (by omega) e2, hw n h0 hn1', e3]⟩
      · intro n m h0 h1 g0 g1 he
        rw [hlen] at h1 g1
        push_cast at h1 g1
        by_cases hn : n = t.length
        · by_cases hm : m = t.length
          · omega
          · exfalso
            rw [hn, hwnew, hw m g0 (by omega)] at he
            exact hfresh m g0 (by omega) he.symm
        · by_cases hm : m = t.length
          · exfalso
            rw [hm, hwnew, hw n h0 (by omega)] at he
            exact hfresh n h0 (by omega) he
          · rw [hw n h0 (by omega), hw m g0 (by omega)] at he
            exact hT.inj n m h0 (by omega) g0 (by omega) he
      · intro m g0 g1
        rw [hlen] at g1 ⊢
        push_cast at g1 ⊢
        by_cases hm : m = t.length
        · refine ⟨node, id, hn0, by omega, hid, ?_⟩
          rw [hnext node id hn0 hn1 hid.1, if_pos ⟨rfl, rfl⟩, hm]
        · obtain ⟨p, c, hp0, hp1, hc, hpc⟩ := hT.parent m g0 (by omega)
          refine ⟨p, c, hp0, by omega, hc, ?_⟩
          rw [hnext p c hp0 hp1 hc.1, if_neg]
          · exact hpc
          · rintro ⟨rfl, rfl⟩
            omega
    · intro n h0 h1
      rw [hlen] at h1
      push_cast at h1
      by_cases hn : n = t.length
      · rw [hn, hnew, hwnew]
        refine ⟨by simp [Node.fresh], fun k => ⟨fun h => by simp [Node.fresh] at h, ?_⟩⟩
        rintro ⟨pat, hp, hm⟩
        obtain ⟨m, m0, m1, me⟩ := hC pat k hp _ hm
        exact absurd me (hfresh m m0 m1)
      · rw [hnode n h0 (by omega), out_setNext t node id _ n hn0 h0, hw n h0 (by omega)]
        exact hO n h0 (by omega)
    · intro pat k hp w hm
      obtain ⟨m, m0, m1, me⟩ := hC pat k hp w hm
      exact ⟨m, m0, by rw [hlen]; push_cast; omega, by rw [hw m m0 m1]; exact me⟩
  · rename_i hpres
    obtain ⟨e1, e2, e3⟩ := hT.edge node id hn0 hn1 hid hpres
    exact ⟨word, nextAt t node id, rfl, hT, hO, hC, le_refl _, fun _ _ _ => rfl, by omega, e2, e3⟩

theorem wordMatches_snoc (pre : Str) (cc : Byte) (w : List Int) :
    WordMatches (pre ++ [cc]) w ↔
      ∃ w0 c, w = w0 ++ [c] ∧ WordMatches pre w0 ∧ SymMatches cc c := by
  unfold WordMatches
  constructor
  · intro h
    induction pre generalizing w with
    | nil =>
      cases h with
      | cons h1 h2 =>
        cases h2
        exact ⟨[], _, rfl, List.Forall₂.nil, h1⟩
    | cons p ps ih =>
      cases h with
      | cons h1 h2 =>
        obtain ⟨w0, c, e, g1, g2⟩ := ih _ h2
        exact ⟨_ :: w0, c, by rw [e]; rfl, List.Forall₂.cons h1 g1, g2⟩
  · rintro ⟨w0, c, rfl, g1, g2⟩
    exact List.rel_append g1 (List.Forall₂.cons g2 List.Forall₂.nil)

theorem mem_uniqueAdj (l : List Int) (x : Int) : x ∈ uniqueAdj l ↔ x ∈ l := by
  induction l using uniqueAdj.induct with
  | case1 => simp [uniqueAdj]
  | case2 y => simp [uniqueAdj]
  | case3 y rest ih =>
    simp only [uniqueAdj, if_true, ih]
    simp
  | case4 y z rest h ih =>
    simp only [uniqueAdj, if_neg h, List.mem_cons, ih]

theorem uniqueAdj_pairwise (l : List Int) (h : l.Pairwise (· ≤ ·)) :
    (uniqueAdj l).Pairwise (· < ·) := by
  induction l using uniqueAdj.induct with
  | case1 => simp [uniqueAdj]
  | case2 y => simp [uniqueAdj]
  | case3 y rest ih =>
    simp only [uniqueAdj, if_true]
    exact ih (List.pairwise_cons.1 h).2
  | case4 y z rest hyz ih =>
    simp only [uniqueAdj, if_neg hyz]
    obtain ⟨h1, h2⟩ := List.pairwise_cons.1 h
    refine List.pairwise_cons.2 ⟨?_, ih h2⟩
    intro a ha
    rw [mem_uniqueAdj] at ha
    have hz := h1 z (List.mem_cons_self _ _)
    rcases List.mem_cons.1 ha with rfl | ha
    · omega
    · have := (List.pairwise_cons.1 h2).1 a ha
      omega

theorem nodup_sort_unique (l : List Int) :
    (uniqueAdj (l.insertionSort (· ≤ ·))).Nodup ∧
    ∀ x, x ∈ uniqueAdj (l.insertionSort (· ≤ ·)) ↔ x ∈ l := by
  constructor
  · have hs : (l.insertionSort (· ≤ ·)).Pairwise (· ≤ ·) := List.sorted_insertionSort _ l
    exact (uniqueAdj_pairwise _ hs).imp (fun h => ne_of_lt h)
  · intro x
    rw [mem_uniqueAdj]
    exact (List.perm_insertionSort _ l).mem_iff

theorem foldl_nested_eq {σ : Type} (f : Int → σ → Int → σ) (g : Int → Int)
    (cur ids : List Int) (init : σ) :
    cur.foldl (fun s node => ids.foldl (fun s2 ch => f (g ch) s2 node) s) init =
      (cur.flatMap (fun node => ids.map (fun ch => (node, g ch)))).foldl
        (fun s r => f r.2 s r.1) init := by
  induction cur generalizing init with
  | nil => rfl
  | cons x xs ih =>
    rw [List.foldl_cons, List.flatMap_cons, List.foldl_append, List.foldl_map, ih]

/-- A run of `insertEdge` over a list of requests `(node, id)` on old nodes: the trie stays
well formed, and `next_nodes` receives exactly the children asked for. -/
theorem insertEdges_spec (pats : List (Str × Int)) (reqs : List (Int × Int)) :
    ∀ (t : Trie) (word : Int → List Int) (nn : List Int), TrieRep t word →
      OutSpec t word pats → CompleteFor t word pats →
      (∀ r ∈ reqs, 0 ≤ r.1 ∧ r.1 < t.length ∧ InAlph r.2) →
      ∃ word' : Int → List Int,
        TrieRep (reqs.foldl (fun s r => insertEdge r.2 s r.1) (t, nn)).1 word' ∧
        OutSpec (reqs.foldl (fun s r => insertEdge r.2 s r.1) (t, nn)).1 word' pats ∧
        CompleteFor (reqs.foldl (fun s r => insertEdge r.2 s r.1) (t, nn)).1 word' pats ∧
        t.length ≤ (reqs.foldl (fun s r => insertEdge r.2 s r.1) (t, nn)).1.length ∧
        (∀ n : Int, 0 ≤ n → n < t.length → word' n = word n) ∧
        (∀ x ∈ (reqs.foldl (fun s r => insertEdge r.2 s r.1) (t, nn)).2, x ∈ nn ∨
          (0 ≤ x ∧ x < (reqs.foldl (fun s r => insertEdge r.2 s r.1) (t, nn)).1.length ∧
            ∃ r ∈ reqs, word' x = word r.1 ++ [r.2])) ∧
        (∀ r ∈ reqs, ∃ x ∈ (reqs.foldl (fun s r => insertEdge r.2 s r.1) (t, nn)).2,
          0 ≤ x ∧ x < (reqs.foldl (fun s r => insertEdge r.2 s r.1) (t, nn)).1.length ∧
            word' x = word r.1 ++ [r.2]) ∧
        (∀ x ∈ nn, x ∈ (reqs.foldl (fun s r => insertEdge r.2 s r.1) (t, nn)).2) := by
  induction reqs with
  | nil =>
    intro t word nn hT hO hC _
    exact ⟨word, hT, hO, hC, le_refl _, fun _ _ _ => rfl, fun x hx => Or.inl hx,
      fun r hr => absurd hr (List.not_mem_nil _), fun x hx => hx⟩
  | cons r rs ih =>
    intro t word nn hT hO hC hreq
    obtain ⟨hr0, hr1, hr2⟩ := hreq r (List.mem_cons_self _ _)
    obtain ⟨word1, m, e1, hT1, hO1, hC1, hlen1, hext1, hm0, hm1, hmw⟩ :=
      insertEdge_spec t word pats r.2 r.1 nn hT hO hC hr2 hr0 hr1
    have hst : insertEdge r.2 (t, nn) r.1 =
        ((insertEdge r.2 (t, nn) r.1).1, nn ++ [m]) := by
      rw [← e1]
    obtain ⟨word2, hT2, hO2, hC2, hlen2, hext2, hin, hreqs, hkeep⟩ :=
      ih (insertEdge r.2 (t, nn) r.1).1 word1 (nn ++ [m]) hT1 hO1 hC1
        (fun r' hr' => by
          obtain ⟨a, b, c⟩ := hreq r' (List.mem_cons_of_mem _ hr')
          exact ⟨a, by omega, c⟩)
    rw [List.foldl_cons, hst]
    have hlenT : (t.length : Int) ≤ ((insertEdge r.2 (t, nn) r.1).1.length : Int) := by
      exact_mod_cast hlen1
    refine ⟨word2, hT2, hO2, hC2, le_trans hlen1 hlen2, ?_, ?_, ?_, ?_⟩
    · intro n h0 h1
      rw [hext2 n h0 (by omega), hext1 n h0 h1]
    · intro x hx
      rcases hin x hx with h | ⟨h0, h1, r', hr', hw⟩
      · rcases List.mem_append.1 h with h | h
        · exact Or.inl h
        · right
          have hxm : x = m := by simpa using h
          subst hxm
          have hl2 : ((insertEdge r.2 (t, nn) r.1).1.length : Int) ≤
              ((rs.foldl (fun s r => insertEdge r.2 s r.1)
                ((insertEdge r.2 (t, nn) r.1).1, nn ++ [x])).1.length : Int) := by
            exact_mod_cast hlen2
          exact ⟨hm0, by omega, r, List.mem_cons_self _ _, by rw [hext2 x hm0 hm1, hmw]⟩
      · obtain ⟨a, b, c⟩ := hreq r' (List.mem_cons_of_mem _ hr')
        exact Or.inr ⟨h0, h1, r', List.mem_cons_of_mem _ hr', by rw [hw, hext1 r'.1 a b]⟩
    · intro r' hr'
      rcases List.mem_cons.1 hr' with rfl | hr'
      · have hl2 : ((insertEdge r'.2 (t, nn) r'.1).1.length : Int) ≤
            ((rs.foldl (fun s r => insertEdge r.2 s r.1)
              ((insertEdge r'.2 (t, nn) r'.1).1, nn ++ [m])).1.length : Int) := by
          exact_mod_cast hlen2
        exact ⟨m, hkeep m (by simp), hm0, by omega, by rw [hext2 m hm0 hm1, hmw]⟩
      · obtain ⟨x, hx, h0, h1, hw⟩ := hreqs r' hr'
        obtain ⟨a, b, c⟩ := hreq r' (List.mem_cons_of_mem _ hr')
        exact ⟨x, hx, h0, h1, by rw [hw, hext1 r'.1 a b]⟩
    · intro x hx
      exact hkeep x (List.mem_append_left _ hx)

theorem norm_char_val (c : Byte) :
    (norm_char c).val = if 65 ≤ c.val ∧ c.val ≤ 90 then c.val + 32 else c.val := by
  revert c
  decide!

theorem insertChar_core (pats : List (Str × Int)) (t : Trie) (word : Int → List Int)
    (pre : Str) (cur : List Int) (cc : Byte) (reqs : List (Int × Int))
    (hT : TrieRep t word) (hO : OutSpec t word pats) (hC : CompleteFor t word pats)
    (hcur : CurInv t word pre cur)
    (hreqs : ∀ n id, (n, id) ∈ reqs ↔ n ∈ cur ∧ SymMatches cc id) :
    ∃ word' : Int → List Int,
      TrieRep (reqs.foldl (fun s r => insertEdge r.2 s r.1) (t, [])).1 word' ∧
      OutSpec (reqs.foldl (fun s r => insertEdge r.2 s r.1) (t, [])).1 word' pats ∧
      CompleteFor (reqs.foldl (fun s r => insertEdge r.2 s r.1) (t, [])).1 word' pats ∧
      t.length ≤ (reqs.foldl (fun s r => insertEdge r.2 s r.1) (t, [])).1.length ∧
      (∀ n : Int, 0 ≤ n → n < t.length → word' n = word n) ∧
      CurInv (reqs.foldl (fun s r => insertEdge r.2 s r.1) (t, [])).1 word' (pre ++ [cc])
        (uniqueAdj ((reqs.foldl (fun s r => insertEdge r.2 s r.1) (t, [])).2.insertionSort
          (· ≤ ·))) := by
  obtain ⟨hc1, hc2, _⟩ := hcur
  obtain ⟨word', hT', hO', hC', hlen, hext, hin, hreq, _⟩ :=
    insertEdges_spec pats reqs t word [] hT hO hC (by
      rintro ⟨n, id⟩ hr
      obtain ⟨g1, g2⟩ := (hreqs n id).1 hr
      obtain ⟨a, b, _⟩ := (hc1 n).1 g1
      exact ⟨a, b, g2.1⟩)
  obtain ⟨hnd, hmem⟩ := nodup_sort_unique (reqs.foldl (fun s r => insertEdge r.2 s r.1) (t, [])).2
  have hfind : ∀ w, WordMatches (pre ++ [cc]) w →
      ∃ x ∈ (reqs.foldl (fun s r => insertEdge r.2 s r.1) (t, [])).2, 0 ≤ x ∧
        x < (reqs.foldl (fun s r => insertEdge r.2 s r.1) (t, [])).1.length ∧ word' x = w := by
    intro w hw
    obtain ⟨w0, c, rfl, g1, g2⟩ := (wordMatches_snoc pre cc w).1 hw
    obtain ⟨n, n0, n1, rfl⟩ := hc2 w0 g1
    have hn : n ∈ cur := (hc1 n).2 ⟨n0, n1, g1⟩
    exact hreq (n, c) ((hreqs n c).2 ⟨hn, g2⟩)
  refine ⟨word', hT', hO', hC', hlen, hext, ?_, ?_, hnd⟩
  · intro n
    rw [hmem]
    constructor
    · intro hn
      rcases hin n hn with h | ⟨h0, h1, ⟨m, id⟩, hr, hw⟩
      · exact absurd h (List.not_mem_nil _)
      · obtain ⟨g1, g2⟩ := (hreqs m id).1 hr
        obtain ⟨_, _, g3⟩ := (hc1 m).1 g1
        exact ⟨h0, h1, by rw [hw]; exact (wordMatches_snoc pre cc _).2 ⟨_, _, rfl, g3, g2⟩⟩
    · rintro ⟨h0, h1, hw⟩
      obtain ⟨x, hx, x0, x1, xe⟩ := hfind _ hw
      have := hT'.inj x n x0 x1 h0 h1 xe
      rwa [this] at hx
  · intro w hw
    obtain ⟨x, _, x0, x1, xe⟩ := hfind w hw
    exact ⟨x, x0, x1, xe⟩

theorem insertChar_spec (pats : List (Str × Int)) (t : Trie) (word : Int → List Int)
    (pre : Str) (cur : List Int) (cc : Byte)
    (hT : TrieRep t word) (hO : OutSpec t word pats) (hC : CompleteFor t word pats)
    (hcur : CurInv t word pre cur) (hcc : Printable cc) :
    ∃ word' : Int → List Int,
      TrieRep (insertChar (t, cur) cc).1 word' ∧
      OutSpec (insertChar (t, cur) cc).1 word' pats ∧
      CompleteFor (insertChar (t, cur) cc).1 word' pats ∧
      t.length ≤ (insertChar (t, cur) cc).1.length ∧
      (∀ n : Int, 0 ≤ n → n < t.length → word' n = word n) ∧
      CurInv (insertChar (t, cur) cc).1 word' (pre ++ [cc]) (insertChar (t, cur) cc).2 := by
  have hnv := norm_char_val cc
  obtain ⟨p1, p2⟩ := hcc
  unfold insertChar
  simp only []
  by_cases hq : (norm_char cc).val = 63
  · rw [if_pos hq, foldl_nested_eq (fun id s node => insertEdge id s node) (fun ch => ch - CH_L)]
    apply insertChar_core pats t word pre cur cc _ hT hO hC hcur
    intro n id
    simp only [List.mem_flatMap, List.mem_map, Prod.mk.injEq, mem_intRange, SymMatches, InAlph,
      CH_L, CH_R]
    constructor
    · rintro ⟨a, ha, ch, hch, rfl, rfl⟩
      exact ⟨ha, ⟨by omega, by omega⟩, Or.inl hq⟩
    · rintro ⟨hn, hid, _⟩
      exact ⟨n, hn, id + 32, by omega, rfl, by omega⟩
  · rw [if_neg hq]
    have hcid : ch_id (norm_char cc) = ((norm_char cc).val : Int) - 32 := by
      unfold ch_id
      simp only [CH_L, CH_R]
      rw [if_neg]
      rw [hnv]
      split <;> omega
    have hne : ¬ ch_id (norm_char cc) = -1 := by
      rw [hcid, hnv]
      split <;> omega
    rw [if_neg hne]
    have e : cur.foldl (insertEdge (ch_id (norm_char cc))) (t, []) =
        (cur.map (fun n => (n, ch_id (norm_char cc)))).foldl
          (fun s r => insertEdge r.2 s r.1) (t, []) := by
      rw [List.foldl_map]
    rw [e]
    apply insertChar_core pats t word pre cur cc _ hT hO hC hcur
    intro n id
    simp only [List.mem_map, Prod.mk.injEq, SymMatches, InAlph]
    constructor
    · rintro ⟨a, ha, rfl, rfl⟩
      refine ⟨ha, ⟨?_, ?_⟩, Or.inr rfl⟩
      · rw [hcid, hnv]; split <;> omega
      · rw [hcid, hnv]; split <;> omega
    · rintro ⟨hn, _, h | h⟩
      · exact absurd h hq
      · exact ⟨n, hn, rfl, h.symm⟩

theorem insertChars_spec (pats : List (Str × Int)) (rest : Str) :
    ∀ (t : Trie) (word : Int → List Int) (pre : Str) (cur : List Int),
      TrieRep t word → OutSpec t word pats → CompleteFor t word pats →
      CurInv t word pre cur → (∀ c ∈ rest, Printable c) →
      ∃ word' : Int → List Int,
        TrieRep (rest.foldl insertChar (t, cur)).1 word' ∧
        OutSpec (rest.foldl insertChar (t, cur)).1 word' pats ∧
        CompleteFor (rest.foldl insertChar (t, cur)).1 word' pats ∧
        CurInv (rest.foldl insertChar (t, cur)).1 word' (pre ++ rest)
          (rest.foldl insertChar (t, cur)).2 := by
  induction rest with
  | nil =>
    intro t word pre cur hT hO hC hcur _
    exact ⟨word, hT, hO, hC, by simpa using hcur⟩
  | cons c cs ih =>
    intro t word pre cur hT hO hC hcur hpr
    obtain ⟨word1, hT1, hO1, hC1, _, _, hcur1⟩ :=
      insertChar_spec pats t word pre cur c hT hO hC hcur (hpr c (List.mem_cons_self _ _))
    obtain ⟨word2, hT2, hO2, hC2, hcur2⟩ :=
      ih (insertChar (t, cur) c).1 word1 (pre ++ [c]) (insertChar (t, cur) c).2 hT1 hO1 hC1
        hcur1 (fun x hx => hpr x (List.mem_cons_of_mem _ hx))
    rw [List.foldl_cons]
    refine ⟨word2, hT2, hO2, hC2, ?_⟩
    have e : pre ++ c :: cs = pre ++ [c] ++ cs := by simp
    rw [e]
    exact hcur2

theorem pushOuts_spec (k : Int) (cur : List Int) :
    ∀ (t : Trie), (∀ n ∈ cur, 0 ≤ n ∧ n < t.length) → cur.Nodup →
      (cur.foldl (fun t node => pushOut t node k) t).length = t.length ∧
      ∀ n : Int, 0 ≤ n → n < t.length →
        (nodeAt (cur.foldl (fun t node => pushOut t node k) t) n).next = (nodeAt t n).next ∧
        (nodeAt (cur.foldl (fun t node => pushOut t node k) t) n).link = (nodeAt t n).link ∧
        (nodeAt (cur.foldl (fun t node => pushOut t node k) t) n).out =
          if n ∈ cur then (nodeAt t n).out ++ [k] else (nodeAt t n).out := by
  induction cur with
  | nil =>
    intro t _ _
    exact ⟨rfl, fun n _ _ => ⟨rfl, rfl, by simp⟩⟩
  | cons x xs ih =>
    intro t hv hnd
    obtain ⟨hx, hnd'⟩ := List.nodup_cons.1 hnd
    obtain ⟨x0, x1⟩ := hv x (List.mem_cons_self _ _)
    have hl : (pushOut t x k).length = t.length := length_modifyNode t x _
    obtain ⟨h1, h2⟩ := ih (pushOut t x k)
      (fun n hn => by
        obtain ⟨a, b⟩ := hv n (List.mem_cons_of_mem _ hn)
        exact ⟨a, by rw [hl]; exact b⟩) hnd'
    rw [List.foldl_cons]
    refine ⟨by rw [h1, hl], ?_⟩
    intro n n0 n1
    obtain ⟨g1, g2, g3⟩ := h2 n n0 (by rw [hl]; exact n1)
    by_cases hnx : n = x
    · subst hnx
      rw [g1, g2, g3, if_neg hx, if_pos (List.mem_cons_self _ _)]
      simp [pushOut, nodeAt_modifyNode_same t n _ x0 x1]
    · rw [g1, g2, g3]
      have e : nodeAt (pushOut t x k) n = nodeAt t n :=
        nodeAt_modifyNode_ne t x n _ x0 n0 hnx
      rw [e]
      simp [List.mem_cons, hnx]

theorem trieRep_congr (t t' : Trie) (word : Int → List Int) (hT : TrieRep t word)
    (hlen : t'.length = t.length)
    (hnext : ∀ n : Int, 0 ≤ n → n < t.length → (nodeAt t' n).next = (nodeAt t n).next) :
    TrieRep t' word := by
  have hna : ∀ n c : Int, 0 ≤ n → n < t.length → nextAt t' n c = nextAt t n c := by
    intro n c h0 h1
    unfold nextAt
    rw [hnext n h0 h1]
  constructor
  · exact hT.root
  · rw [hlen]; exact hT.pos
  · intro n h0 h1
    rw [hlen] at h1
    rw [hnext n h0 h1]
    exact hT.nextLen n h0 h1
  · intro n c h0 h1 hc hne
    rw [hlen] at h1 ⊢
    rw [hna n c h0 h1] at hne ⊢
    exact hT.edge n c h0 h1 hc hne
  · intro n m h0 h1 g0 g1 he
    rw [hlen] at h1 g1
    exact hT.inj n m h0 h1 g0 g1 he
  · intro m g0 g1
    rw [hlen] at g1 ⊢
    obtain ⟨p, c, p0, p1, hc, hpc⟩ := hT.parent m g0 g1
    exact ⟨p, c, p0, p1, hc, by rw [hna p c p0 p1]; exact hpc⟩

theorem curInv_nil (t : Trie) (word : Int → List Int) (hT : TrieRep t word) :
    CurInv t word [] [0] := by
  have hpos := hT.pos
  refine ⟨?_, ?_, by simp⟩
  · intro n
    simp only [List.mem_singleton, WordMatches, List.forall₂_nil_left_iff]
    constructor
    · rintro rfl
      exact ⟨le_refl _, by omega, hT.root⟩
    · rintro ⟨h0, h1, hw⟩
      exact hT.inj n 0 h0 h1 (le_refl _) (by omega) (by rw [hw, hT.root])
  · intro w hw
    simp only [WordMatches, List.forall₂_nil_left_iff] at hw
    exact ⟨0, le_refl _, by omega, by rw [hw, hT.root]⟩

theorem insert_pattern_spec (pats : List (Str × Int)) (t : Trie) (word : Int → List Int)
    (pat : Str) (k : Int) (hT : TrieRep t word) (hO : OutSpec t word pats)
    (hC : CompleteFor t word pats) (hpr : ∀ c ∈ pat, Printable c)
    (hfresh : ∀ p, (p, k) ∉ pats) :
    ∃ word' : Int → List Int,
      TrieRep (insert_pattern t pat k) word' ∧
      OutSpec (insert_pattern t pat k) word' (pats ++ [(pat, k)]) ∧
      CompleteFor (insert_pattern t pat k) word' (pats ++ [(pat, k)]) := by
  obtain ⟨word', hT', hO', hC', hcur⟩ :=
    insertChars_spec pats pat t word [] [0] hT hO hC (curInv_nil t word hT) hpr
  simp only [List.nil_append] at hcur
  obtain ⟨hc1, hc2, hc3⟩ := hcur
  obtain ⟨hl, hp⟩ := pushOuts_spec k (pat.foldl insertChar (t, [0])).2
    (pat.foldl insertChar (t, [0])).1
    (fun n hn => by
      obtain ⟨a, b, _⟩ := (hc1 n).1 hn
      exact ⟨a, b⟩) hc3
  have hins : insert_pattern t pat k =
      (pat.foldl insertChar (t, [0])).2.foldl (fun t node => pushOut t node k)
        (pat.foldl insertChar (t, [0])).1 := rfl
  rw [hins]
  refine ⟨word', trieRep_congr _ _ word' hT' hl (fun n h0 h1 => (hp n h0 h1).1), ?_, ?_⟩
  · intro n h0 h1
    rw [hl] at h1
    have h1' : n < ((pat.foldl insertChar (t, [0])).1.length : Int) := h1
    obtain ⟨o1, o2⟩ := hO' n h0 h1'
    rw [(hp n h0 h1').2.2]
    have hk : k ∉ (nodeAt (pat.foldl insertChar (t, [0])).1 n).out := by
      intro hk
      obtain ⟨p, hp', _⟩ := (o2 k).1 hk
      exact hfresh p hp'
    by_cases hn : n ∈ (pat.foldl insertChar (t, [0])).2
    · rw [if_pos hn]
      have hm := ((hc1 n).1 hn).2.2
      refine ⟨List.nodup_append.2 ⟨o1, by simp, by simpa using hk⟩, ?_⟩
      intro k'
      simp only [List.mem_append, List.mem_singleton, Prod.mk.injEq, o2 k']
      constructor
      · rintro (⟨p, g1, g2⟩ | rfl)
        · exact ⟨p, Or.inl g1, g2⟩
        · exact ⟨pat, Or.inr ⟨rfl, rfl⟩, hm⟩
      · rintro ⟨p, g1 | ⟨rfl, rfl⟩, g2⟩
        · exact Or.inl ⟨p, g1, g2⟩
        · exact Or.inr rfl
    · rw [if_neg hn]
      refine ⟨o1, ?_⟩
      intro k'
      simp only [List.mem_append, List.mem_singleton, Prod.mk.injEq, o2 k']
      constructor
      · rintro ⟨p, g1, g2⟩
        exact ⟨p, Or.inl g1, g2⟩
      · rintro ⟨p, g1 | ⟨rfl, rfl⟩, g2⟩
        · exact ⟨p, g1, g2⟩
        · exact absurd ((hc1 n).2 ⟨h0, h1', g2⟩) hn
  · intro p k' hp' w hw
    rw [hl]
    rcases List.mem_append.1 hp' with g | g
    · exact hC' p k' g w hw
    · simp only [List.mem_singleton, Prod.mk.injEq] at g
      obtain ⟨rfl, rfl⟩ := g
      exact hc2 w hw

theorem mem_indexed (ps : List Str) (k0 : Int) (p : Str) (k : Int) :
    (p, k) ∈ indexed ps k0 ↔ k0 ≤ k ∧ ps[(k - k0).toNat]? = some p := by
  induction ps generalizing k0 with
  | nil => simp [indexed]
  | cons q qs ih =>
    simp only [indexed, List.mem_cons, Prod.mk.injEq, ih]
    constructor
    · rintro (⟨rfl, rfl⟩ | ⟨h1, h2⟩)
      · simp
      · refine ⟨by omega, ?_⟩
        have e : (k - k0).toNat = (k - (k0 + 1)).toNat + 1 := by omega
        rw [e, List.getElem?_cons_succ]
        exact h2
    · rintro ⟨h1, h2⟩
      by_cases hk : k = k0
      · subst hk
        simp at h2
        exact Or.inl ⟨h2.symm, rfl⟩
      · right
        refine ⟨by omega, ?_⟩
        have e : (k - k0).toNat = (k - (k0 + 1)).toNat + 1 := by omega
        rw [e, List.getElem?_cons_succ] at h2
        exact h2

theorem insertAll_spec (ps : List Str) :
    ∀ (pats : List (Str × Int)) (t : Trie) (word : Int → List Int) (k0 : Int),
      TrieRep t word → OutSpec t word pats → CompleteFor t word pats →
      (∀ p ∈ ps, ∀ c ∈ p, Printable c) → (∀ p k, (p, k) ∈ pats → k < k0) →
      ∃ word' : Int → List Int,
        TrieRep (insertAll t ps k0) word' ∧
        OutSpec (insertAll t ps k0) word' (pats ++ indexed ps k0) ∧
        CompleteFor (insertAll t ps k0) word' (pats ++ indexed ps k0) := by
  induction ps with
  | nil =>
    intro pats t word k0 hT hO hC _ _
    exact ⟨word, hT, by simpa [indexed] using hO, by simpa [indexed] using hC⟩
  | cons p ps ih =>
    intro pats t word k0 hT hO hC hpr hlt
    obtain ⟨word1, hT1, hO1, hC1⟩ := insert_pattern_spec pats t word p k0 hT hO hC
      (hpr p (List.mem_cons_self _ _))
      (fun q hq => by have := hlt q k0 hq; omega)
    obtain ⟨word2, hT2, hO2, hC2⟩ := ih (pats ++ [(p, k0)]) (insert_pattern t p k0) word1
      (k0 + 1) hT1 hO1 hC1 (fun q hq => hpr q (List.mem_cons_of_mem _ hq))
      (fun q k hq => by
        rcases List.mem_append.1 hq with g | g
        · have := hlt q k g; omega
        · simp only [List.mem_singleton, Prod.mk.injEq] at g
          omega)
    refine ⟨word2, hT2, ?_, ?_⟩
    · simpa [insertAll, indexed] using hO2
    · simpa [insertAll, indexed] using hC2

theorem trieRep_init : TrieRep Aho.init (fun _ => []) := by
  constructor
  · rfl
  · simp [Aho.init]
  · intro n h0 h1
    simp only [Aho.init, List.length_singleton, Nat.cast_one] at h1
    have : n = 0 := by omega
    subst this
    simp [nodeAt, Aho.init, Node.fresh, alph_toNat]
  · intro n c h0 h1 _ hne
    simp only [Aho.init, List.length_singleton, Nat.cast_one] at h1
    have : n = 0 := by omega
    subst this
    exfalso
    apply hne
    simp only [nextAt, nodeAt, Aho.init]
    exact nextAt_fresh c
  · intro n m h0 h1 g0 g1 _
    simp only [Aho.init, List.length_singleton, Nat.cast_one] at h1 g1
    omega
  · intro m g0 g1
    simp only [Aho.init, List.length_singleton, Nat.cast_one] at g1
    omega

/-- After all inserts the vector is a trie that contains every expansion of every pattern,
and each node lists the patterns its word is an expansion of. -/
theorem insertAll_init_spec (ps : List Str) (hpr : ∀ p ∈ ps, ∀ c ∈ p, Printable c) :
    ∃ word : Int → List Int,
      TrieRep (insertAll Aho.init ps 0) word ∧
      OutSpec (insertAll Aho.init ps 0) word (indexed ps 0) ∧
      CompleteFor (insertAll Aho.init ps 0) word (indexed ps 0) := by
  obtain ⟨word, hT, hO, hC⟩ := insertAll_spec ps [] Aho.init (fun _ => []) 0 trieRep_init
    (by
      intro n h0 h1
      simp only [Aho.init, List.length_singleton, Nat.cast_one] at h1
      have : n = 0 := by omega
      subst this
      simp [nodeAt, Aho.init, Node.fresh])
    (by intro p k hp; simp at hp) hpr (by intro p k hp; simp at hp)
  exact ⟨word, hT, by simpa using hO, by simpa using hC⟩

theorem suffix_concat_cases (s r : List Int) (c : Int) (h : s <:+ r ++ [c]) :
    s = [] ∨ ∃ s', s = s' ++ [c] ∧ s' <:+ r := by
  rcases List.eq_nil_or_concat s with rfl | ⟨s', b, hs⟩
  · exact Or.inl rfl
  · right
    rw [List.concat_eq_append] at hs
    subst hs
    obtain ⟨u, hu⟩ := h
    have e : (u ++ s') ++ [b] = r ++ [c] := by simpa using hu
    have e1 := List.append_inj_left' e rfl
    have e2 := List.append_inj_right' e rfl
    have hb : b = c := by simpa using e2
    subst hb
    exact ⟨s', rfl, ⟨u, e1⟩⟩

theorem suffix_concat_mono (s r : List Int) (c : Int) (h : s <:+ r) :
    s ++ [c] <:+ r ++ [c] := by
  obtain ⟨u, hu⟩ := h
  exact ⟨u, by rw [← hu, List.append_assoc]⟩

theorem wordMatches_length (pat : Str) (w : List Int) (h : WordMatches pat w) :
    pat.length = w.length := List.Forall₂.length_eq h

/-- A node whose word ends in `c` hangs on the edge `c` of the node of the rest. -/
theorem trieRep_parent_word (t : Trie) (word : Int → List Int) (hT : TrieRep t word)
    (m : Int) (s : List Int) (c : Int) (h0 : 0 ≤ m) (h1 : m < t.length)
    (hw : word m = s ++ [c]) :
    ∃ p : Int, 0 ≤ p ∧ p < t.length ∧ word p = s ∧ InAlph c ∧ nextAt t p c = m := by
  have hm : m ≠ 0 := by
    rintro rfl
    rw [hT.root] at hw
    simp at hw
  obtain ⟨p, c', p0, p1, hc, hpc⟩ := hT.parent m (by omega) h1
  have he := (hT.edge p c' p0 p1 hc (by rw [hpc]; omega)).2.2
  rw [hpc, hw] at he
  have e1 := List.append_inj_left' he rfl
  have e2 := List.append_inj_right' he rfl
  have hb : c = c' := by simpa using e2
  subst hb
  exact ⟨p, p0, p1, e1.symm, hc, hpc⟩

/-- The child on an edge is the only node that spells the extended word. -/
theorem trieRep_child_unique (t : Trie) (word : Int → List Int) (hT : TrieRep t word)
    (v m c : Int) (v0 : 0 ≤ v) (v1 : v < t.length) (h0 : 0 ≤ m) (h1 : m < t.length)
    (hw : word m = word v ++ [c]) : InAlph c ∧ nextAt t v c = m := by
  obtain ⟨p, p0, p1, hp, hc, hpc⟩ := trieRep_parent_word t word hT m (word v) c h0 h1 hw
  have : p = v := hT.inj p v p0 p1 v0 v1 hp
  subst this
  exact ⟨hc, hpc⟩

theorem trieRep_word_ne_nil (t : Trie) (word : Int → List Int) (hT : TrieRep t word)
    (m : Int) (h0 : 0 < m) (h1 : m < t.length) : word m ≠ [] := by
  intro h
  have := hT.inj m 0 (by omega) h1 (le_refl _) (by have := hT.pos; omega)
    (by rw [h, hT.root])
  omega

/-- The longest suffix after one more character is found from the longest suffix so far. -/
theorem isLsuf_step (t : Trie) (word : Int → List Int) (hT : TrieRep t word)
    (x : List Int) (v c g : Int) (hv : IsLsuf t word x v)
    (hg : IsLsuf t word (word v ++ [c]) g) : IsLsuf t word (x ++ [c]) g := by
  obtain ⟨v0, v1, hvs, hvm⟩ := hv
  obtain ⟨g0, g1, hgs, hgm⟩ := hg
  refine ⟨g0, g1, hgs.trans (suffix_concat_mono _ _ c hvs), ?_⟩
  intro m' m0 m1 hm
  rcases suffix_concat_cases _ _ _ hm with h | ⟨s, hs, hsx⟩
  · rw [h]; simp
  · obtain ⟨p, p0, p1, hp, _, _⟩ := trieRep_parent_word t word hT m' s c m0 m1 hs
    have hle := hvm p p0 p1 (by rw [hp]; exact hsx)
    rw [hp] at hle
    have hsv : s <:+ word v := List.suffix_of_suffix_length_le hsx hvs hle
    have := hgm m' m0 m1 (by rw [hs]; exact suffix_concat_mono _ _ c hsv)
    exact this

/-- The common part of the two uses of the failure target of `v` in `build_links`. -/
theorem isFail_extend (t : Trie) (word : Int → List Int) (hT : TrieRep t word)
    (v j c g : Int) (hv : v ≠ 0) (hj : IsFail t word v j)
    (hg : IsLsuf t word (word j ++ [c]) g) :
    word g <:+ word v ++ [c] ∧ (word g).length < (word v).length + 1 ∧
    ∀ m' : Int, 0 ≤ m' → m' < t.length → word m' <:+ word v ++ [c] →
      (word m').length < (word v).length + 1 → (word m').length ≤ (word g).length := by
  obtain ⟨j0, j1, _, hj2⟩ := hj
  obtain ⟨hjs, hjl, hjm⟩ := hj2 hv
  obtain ⟨g0, g1, hgs, hgm⟩ := hg
  refine ⟨hgs.trans (suffix_concat_mono _ _ c hjs), ?_, ?_⟩
  · have := hgs.length_le
    simp only [List.length_append, List.length_singleton] at this
    omega
  · intro m' m0 m1 hm hlt
    rcases suffix_concat_cases _ _ _ hm with h | ⟨s, hs, hsx⟩
    · rw [h]; simp
    · obtain ⟨p, p0, p1, hp, _, _⟩ := trieRep_parent_word t word hT m' s c m0 m1 hs
      have hsl : s.length < (word v).length := by
        rw [hs] at hlt
        simp only [List.length_append, List.length_singleton] at hlt
        omega
      have hle := hjm p p0 p1 (by rw [hp]; exact hsx) (by rw [hp]; exact hsl)
      rw [hp] at hle
      have hsv : s <:+ word j := List.suffix_of_suffix_length_le hsx hjs hle
      exact hgm m' m0 m1 (by rw [hs]; exact suffix_concat_mono _ _ c hsv)

/-- Where `v` has no child on `c`, the transition of `v` is that of its failure target. -/
theorem isLsuf_via_fail (t : Trie) (word : Int → List Int) (hT : TrieRep t word)
    (v j c g : Int) (hv : v ≠ 0) (hj : IsFail t word v j)
    (hg : IsLsuf t word (word j ++ [c]) g)
    (hno : ∀ m : Int, 0 ≤ m → m < t.length → word m ≠ word v ++ [c]) :
    IsLsuf t word (word v ++ [c]) g := by
  obtain ⟨h1, _, h3⟩ := isFail_extend t word hT v j c g hv hj hg
  refine ⟨hg.1, hg.2.1, h1, ?_⟩
  intro m' m0 m1 hm
  apply h3 m' m0 m1 hm
  have hle := hm.length_le
  simp only [List.length_append, List.length_singleton] at hle
  rcases Nat.lt_or_ge (word m').length ((word v).length + 1) with h | h
  · exact h
  · exfalso
    apply hno m' m0 m1
    exact hm.eq_of_length (by simp only [List.length_append, List.length_singleton]; omega)

/-- The failure target of a child is the transition of the failure target of the parent. -/
theorem isFail_child (t : Trie) (word : Int → List Int) (hT : TrieRep t word)
    (v j c g u : Int) (hv : v ≠ 0) (hj : IsFail t word v j)
    (hg : IsLsuf t word (word j ++ [c]) g) (hu : word u = word v ++ [c]) :
    IsFail t word u g := by
  obtain ⟨h1, h2, h3⟩ := isFail_extend t word hT v j c g hv hj hg
  have hul : (word u).length = (word v).length + 1 := by rw [hu]; simp
  refine ⟨hg.1, hg.2.1, ?_, ?_⟩
  · rintro rfl
    rw [hT.root] at hu
    simp at hu
  · intro _
    refine ⟨by rw [hu]; exact h1, by omega, ?_⟩
    intro m' m0 m1 hm hlt
    exact h3 m' m0 m1 (by rw [← hu]; exact hm) (by omega)

/-- The failure target of a child of the root is the root. -/
theorem isFail_root_child (t : Trie) (word : Int → List Int) (hT : TrieRep t word)
    (c u : Int) (hu : word u = [c]) : IsFail t word u 0 := by
  refine ⟨le_refl _, by have := hT.pos; omega, fun _ => rfl, ?_⟩
  intro _
  rw [hT.root, hu]
  refine ⟨List.nil_suffix, by simp, ?_⟩
  intro m' _ _ _ hlt
  simp only [List.length_singleton] at hlt
  simp only [List.length_nil]
  omega

/-- Where the root has no child on `c`, its transition on `c` is the root. -/
theorem isLsuf_root_loop (t : Trie) (word : Int → List Int) (hT : TrieRep t word)
    (c : Int) (hno : ∀ m : Int, 0 ≤ m → m < t.length → word m ≠ word 0 ++ [c]) :
    IsLsuf t word (word 0 ++ [c]) 0 := by
  refine ⟨le_refl _, by have := hT.pos; omega, ?_, ?_⟩
  · rw [hT.root]; exact List.nil_suffix
  · intro m' m0 m1 hm
    rcases Nat.eq_zero_or_pos (word m').length with h | h
    · omega
    · exfalso
      apply hno m' m0 m1
      apply hm.eq_of_length
      have hle := hm.length_le
      rw [hT.root] at hle ⊢
      simp only [List.nil_append, List.length_singleton] at hle ⊢
      omega

/-- The child on an edge is the transition on that edge. -/
theorem isLsuf_child (t : Trie) (word : Int → List Int)
    (v c u : Int) (u0 : 0 ≤ u) (u1 : u < t.length) (hu : word u = word v ++ [c]) :
    IsLsuf t word (word v ++ [c]) u := by
  refine ⟨u0, u1, by rw [hu], ?_⟩
  intro m' _ _ hm
  rw [hu]
  exact hm.length_le

/-- The `out` list of a child after `build_links`: its own patterns, then those of its
failure target. -/
theorem outFull_child (t : Trie) (word : Int → List Int) (pats : List (Str × Int))
    (hX : Ctx t word pats) (u g : Int) (og : List Int) (u0 : 0 < u) (u1 : u < t.length)
    (hf : IsFail t word u g) (hog : OutFull word pats g og) :
    OutFull word pats u ((nodeAt t u).out ++ og) := by
  obtain ⟨o1, o2⟩ := hX.outs u (by omega) u1
  obtain ⟨g0, g1, _, hf2⟩ := hf
  obtain ⟨hgs, hgl, hgm⟩ := hf2 (by omega)
  obtain ⟨q1, q2⟩ := hog
  constructor
  · refine List.nodup_append.2 ⟨o1, q1, ?_⟩
    intro k hk1 hk2
    obtain ⟨p, hp, hpm⟩ := (o2 k).1 hk1
    obtain ⟨p', s, hp', hs, hsm⟩ := (q2 k).1 hk2
    have e := hX.func p p' k hp hp'
    subst e
    have l1 := wordMatches_length _ _ hpm
    have l2 := wordMatches_length _ _ hsm
    have l3 := hs.length_le
    omega
  · intro k
    rw [List.mem_append, o2 k, q2 k]
    constructor
    · rintro (⟨p, hp, hpm⟩ | ⟨p, s, hp, hs, hsm⟩)
      · exact ⟨p, word u, hp, List.suffix_refl _, hpm⟩
      · exact ⟨p, s, hp, hs.trans hgs, hsm⟩
    · rintro ⟨p, s, hp, hs, hsm⟩
      rcases Nat.lt_or_ge s.length (word u).length with h | h
      · right
        obtain ⟨m, m0, m1, hm⟩ := hX.compl p k hp s hsm
        have hle := hgm m m0 m1 (by rw [hm]; exact hs) (by rw [hm]; exact h)
        rw [hm] at hle
        exact ⟨p, s, hp, List.suffix_of_suffix_length_le hs hgs hle, hsm⟩
      · left
        have e : s = word u := hs.eq_of_length (by have := hs.length_le; omega)
        subst e
        exact ⟨p, hp, hsm⟩

/-- The `out` list of the root needs no addition. -/
theorem outFull_root (t : Trie) (word : Int → List Int) (pats : List (Str × Int))
    (hX : Ctx t word pats) : OutFull word pats 0 (nodeAt t 0).out := by
  obtain ⟨o1, o2⟩ := hX.outs 0 (le_refl _) (by have := hX.rep.pos; omega)
  refine ⟨o1, ?_⟩
  intro k
  rw [o2 k]
  constructor
  · rintro ⟨p, hp, hpm⟩
    exact ⟨p, word 0, hp, List.suffix_refl _, hpm⟩
  · rintro ⟨p, s, hp, hs, hsm⟩
    rw [hX.rep.root] at hs
    have : s = [] := List.eq_nil_of_suffix_nil hs
    subst this
    rw [hX.rep.root]
    exact ⟨p, hp, hsm⟩

/-- No pattern ends at the root. -/
theorem out_root_nil (t : Trie) (word : Int → List Int) (pats : List (Str × Int))
    (hX : Ctx t word pats) : (nodeAt t 0).out = [] := by
  obtain ⟨_, o2⟩ := hX.outs 0 (le_refl _) (by have := hX.rep.pos; omega)
  apply List.eq_nil_iff_forall_not_mem.2
  intro k hk
  obtain ⟨p, hp, hpm⟩ := (o2 k).1 hk
  rw [hX.rep.root] at hpm
  have := wordMatches_length _ _ hpm
  exact hX.nonempty p k hp (List.length_eq_zero.1 (by simpa using this))

theorem qInv_init (t0 : Trie) (word : Int → List Int) (hT : TrieRep t0 word) :
    QInv t0 word [] [] 0 0 := by
  constructor
  · exact ⟨le_refl _, by have := hT.pos; omega⟩
  · simp
  · simp
  · simp
  · exact Or.inl rfl
  · simp
  · simp
  · simp
  · simp
  · intro n h0 _
    constructor
    · rintro (h | h | h)
      · simp at h
      · omega
      · simp at h
    · rintro (⟨p, hp, _⟩ | ⟨c', hc, hlt, _⟩)
      · simp at hp
      · unfold InAlph at hc; omega

theorem qInv_skip (t0 : Trie) (word : Int → List Int) (q done : List Int) (v c : Int)
    (h : QInv t0 word q done v c) (hno : nextAt t0 v c = -1) :
    QInv t0 word q done v (c + 1) := by
  refine { h with reach := ?_ }
  intro n n0 n1
  rw [h.reach n n0 n1]
  constructor
  · rintro (hp | ⟨c', hc, hlt, he⟩)
    · exact Or.inl hp
    · exact Or.inr ⟨c', hc, by omega, he⟩
  · rintro (hp | ⟨c', hc, hlt, he⟩)
    · exact Or.inl hp
    · by_cases hcc : c' = c
      · subst hcc; omega
      · exact Or.inr ⟨c', hc, by omega, he⟩

theorem qInv_push (t0 : Trie) (word : Int → List Int) (hT : TrieRep t0 word)
    (q done : List Int) (v c : Int) (h : QInv t0 word q done v c) (hc : InAlph c)
    (hu : nextAt t0 v c ≠ -1) :
    QInv t0 word (q ++ [nextAt t0 v c]) done v (c + 1) := by
  obtain ⟨v0, v1⟩ := h.vValid
  obtain ⟨u0, u1, huw⟩ := hT.edge v c v0 v1 hc hu
  have hlen : (word (nextAt t0 v c)).length = (word v).length + 1 := by rw [huw]; simp
  have hnew : ¬ (nextAt t0 v c ∈ done ∨ nextAt t0 v c = v ∨ nextAt t0 v c ∈ q) := by
    intro hh
    rcases (h.reach _ u0 u1).1 hh with ⟨p, hp, c', hc', he⟩ | ⟨c', hc', hlt, he⟩
    · obtain ⟨p0, p1⟩ := h.doneValid p hp
      have hw := (hT.edge p c' p0 p1 hc' (by rw [he]; exact hu)).2.2
      rw [he, huw] at hw
      have e1 := List.append_inj_left' hw rfl
      have : v = p := hT.inj v p v0 v1 p0 p1 e1
      subst this
      exact h.vFresh.1 hp
    · have hw := (hT.edge v c' v0 v1 hc' (by rw [he]; exact hu)).2.2
      rw [he, huw] at hw
      have e2 := List.append_inj_right' hw rfl
      have : c = c' := by simpa using e2
      omega
  have hnd : nextAt t0 v c ∉ done := fun x => hnew (Or.inl x)
  have hnv : nextAt t0 v c ≠ v := fun x => hnew (Or.inr (Or.inl x))
  have hnq : nextAt t0 v c ∉ q := fun x => hnew (Or.inr (Or.inr x))
  constructor
  · exact h.vValid
  · refine ⟨h.vFresh.1, ?_⟩
    simp only [List.mem_append, List.mem_singleton, not_or]
    exact ⟨h.vFresh.2, fun e => hnv e.symm⟩
  · exact h.doneValid
  · exact h.doneNodup
  · exact h.rootDone
  · intro n hn
    rcases List.mem_append.1 hn with g | g
    · exact h.qValid n g
    · simp only [List.mem_singleton] at g
      subst g
      exact ⟨u0, u1, hnd⟩
  · exact List.nodup_append.2 ⟨h.qNodup, by simp, by
      intro a ha hb
      simp only [List.mem_singleton] at hb
      subst hb
      exact hnq ha⟩
  · refine List.pairwise_append.2 ⟨h.qSorted, by simp, ?_⟩
    intro a ha b hb
    simp only [List.mem_singleton] at hb
    subst hb
    have := (h.qSpread a ha).2
    omega
  · intro x hx
    rcases List.mem_append.1 hx with g | g
    · exact h.qSpread x g
    · simp only [List.mem_singleton] at g
      subst g
      omega
  · intro n n0 n1
    have hr := h.reach n n0 n1
    constructor
    · rintro (hd | hv | hq)
      · rcases hr.1 (Or.inl hd) with hp | ⟨c', hc', hlt, he⟩
        · exact Or.inl hp
        · exact Or.inr ⟨c', hc', by omega, he⟩
      · rcases hr.1 (Or.inr (Or.inl hv)) with hp | ⟨c', hc', hlt, he⟩
        · exact Or.inl hp
        · exact Or.inr ⟨c', hc', by omega, he⟩
      · rcases List.mem_append.1 hq with g | g
        · rcases hr.1 (Or.inr (Or.inr g)) with hp | ⟨c', hc', hlt, he⟩
          · exact Or.inl hp
          · exact Or.inr ⟨c', hc', by omega, he⟩
        · simp only [List.mem_singleton] at g
          exact Or.inr ⟨c, hc, by omega, g.symm⟩
    · rintro (hp | ⟨c', hc', hlt, he⟩)
      · rcases hr.2 (Or.inl hp) with g | g | g
        · exact Or.inl g
        · exact Or.inr (Or.inl g)
        · exact Or.inr (Or.inr (List.mem_append_left _ g))
      · by_cases hcc : c' = c
        · subst hcc
          exact Or.inr (Or.inr (List.mem_append_right _ (by simp [he])))
        · rcases hr.2 (Or.inr ⟨c', hc', by omega, he⟩) with g | g | g
          · exact Or.inl g
          · exact Or.inr (Or.inl g)
          · exact Or.inr (Or.inr (List.mem_append_left _ g))

theorem qInv_advance (t0 : Trie) (word : Int → List Int) (rest done : List Int)
    (v v' c : Int) (hc : 95 ≤ c) (h : QInv t0 word (v' :: rest) done v c) :
    QInv t0 word rest (v :: done) v' 0 := by
  obtain ⟨w0, w1, w2⟩ := h.qValid v' (List.mem_cons_self _ _)
  have hvv : v' ≠ v := by
    intro e
    exact h.vFresh.2 (by rw [← e]; exact List.mem_cons_self _ _)
  obtain ⟨hnr, hndr⟩ := List.nodup_cons.1 h.qNodup
  obtain ⟨hhead, htail⟩ := List.pairwise_cons.1 h.qSorted
  constructor
  · exact ⟨by omega, w1⟩
  · refine ⟨?_, hnr⟩
    simp only [List.mem_cons, not_or]
    exact ⟨hvv, w2⟩
  · intro n hn
    rcases List.mem_cons.1 hn with g | g
    · subst g; exact h.vValid
    · exact h.doneValid n g
  · exact List.nodup_cons.2 ⟨h.vFresh.1, h.doneNodup⟩
  · right
    rcases h.rootDone with g | g
    · rw [g]; exact List.mem_cons_self _ _
    · exact List.mem_cons_of_mem _ g
  · intro n hn
    obtain ⟨a, b, d⟩ := h.qValid n (List.mem_cons_of_mem _ hn)
    refine ⟨a, b, ?_⟩
    simp only [List.mem_cons, not_or]
    refine ⟨?_, d⟩
    rintro rfl
    exact h.vFresh.2 (List.mem_cons_of_mem _ hn)
  · exact hndr
  · exact htail
  · intro x hx
    have h1 := hhead x hx
    have h2 := (h.qSpread x (List.mem_cons_of_mem _ hx)).2
    have h3 := (h.qSpread v' (List.mem_cons_self _ _)).1
    omega
  · intro n n0 n1
    have hr := h.reach n n0 n1
    constructor
    · intro hh
      have : n ∈ done ∨ n = v ∨ n ∈ v' :: rest := by
        rcases hh with g | g | g
        · rcases List.mem_cons.1 g with g | g
          · exact Or.inr (Or.inl g)
          · exact Or.inl g
        · exact Or.inr (Or.inr (by rw [g]; exact List.mem_cons_self _ _))
        · exact Or.inr (Or.inr (List.mem_cons_of_mem _ g))
      rcases hr.1 this with ⟨p, hp, hx⟩ | ⟨c', hc', _, he⟩
      · exact Or.inl ⟨p, List.mem_cons_of_mem _ hp, hx⟩
      · exact Or.inl ⟨v, List.mem_cons_self _ _, c', hc', he⟩
    · rintro (⟨p, hp, c', hc', he⟩ | ⟨c', hc', hlt, _⟩)
      · have : n ∈ done ∨ n = v ∨ n ∈ v' :: rest := by
          rcases List.mem_cons.1 hp with g | g
          · subst g
            exact hr.2 (Or.inr ⟨c', hc', by unfold InAlph at hc'; omega, he⟩)
          · exact hr.2 (Or.inl ⟨p, g, c', hc', he⟩)
        rcases this with g | g | g
        · exact Or.inl (List.mem_cons_of_mem _ g)
        · exact Or.inl (by rw [g]; exact List.mem_cons_self _ _)
        · rcases List.mem_cons.1 g with g | g
          · exact Or.inr (Or.inl g)
          · exact Or.inr (Or.inr g)
      · unfold InAlph at hc'; omega

/-- Every node nearer to the root than the dequeued node has been handled. -/
theorem qInv_lowDone (t0 : Trie) (word : Int → List Int) (hT : TrieRep t0 word)
    (q done : List Int) (v c : Int) (h : QInv t0 word q done v c) :
    ∀ (d : Nat) (n : Int), (word n).length = d → 0 ≤ n → n < t0.length →
      (word n).length < (word v).length → n ∈ done := by
  intro d
  induction d using Nat.strong_induction_on with
  | _ d ih =>
    intro n hd n0 n1 hlt
    by_cases hn : n = 0
    · subst hn
      rcases h.rootDone with g | g
      · subst g; omega
      · exact g
    · have hne := trieRep_word_ne_nil t0 word hT n (by omega) n1
      rcases List.eq_nil_or_concat (word n) with e | ⟨s, b, e⟩
      · exact absurd e hne
      · rw [List.concat_eq_append] at e
        obtain ⟨p, p0, p1, hp, hb, hpn⟩ := trieRep_parent_word t0 word hT n s b n0 n1 e
        have hl : (word n).length = s.length + 1 := by rw [e]; simp
        have hpd := ih (word p).length (by rw [hp]; omega) p rfl p0 p1 (by rw [hp]; omega)
        rcases (h.reach n (by omega) n1).2 (Or.inl ⟨p, hpd, b, hb, hpn⟩) with g | g | g
        · exact g
        · subst g; omega
        · have := (h.qSpread n g).1; omega

/-- Every node not deeper than the dequeued node is handled, dequeued or waiting. -/
theorem qInv_leSeen (t0 : Trie) (word : Int → List Int) (hT : TrieRep t0 word)
    (q done : List Int) (v c : Int) (h : QInv t0 word q done v c) (n : Int) (n0 : 0 ≤ n)
    (n1 : n < t0.length) (hle : (word n).length ≤ (word v).length) :
    n ∈ done ∨ n = v ∨ n ∈ q := by
  by_cases hn : n = 0
  · subst hn
    rcases h.rootDone with g | g
    · exact Or.inr (Or.inl g.symm)
    · exact Or.inl g
  · have hne := trieRep_word_ne_nil t0 word hT n (by omega) n1
    rcases List.eq_nil_or_concat (word n) with e | ⟨s, b, e⟩
    · exact absurd e hne
    · rw [List.concat_eq_append] at e
      obtain ⟨p, p0, p1, hp, hb, hpn⟩ := trieRep_parent_word t0 word hT n s b n0 n1 e
      have hl : (word n).length = s.length + 1 := by rw [e]; simp
      have hpd := qInv_lowDone t0 word hT q done v c h (word p).length p rfl p0 p1
        (by rw [hp]; omega)
      exact (h.reach n (by omega) n1).2 (Or.inl ⟨p, hpd, b, hb, hpn⟩)

/-- When the queue is empty after the last dequeued node, every node has been handled. -/
theorem qInv_final (t0 : Trie) (word : Int → List Int) (hT : TrieRep t0 word)
    (done : List Int) (v c : Int) (hc : 95 ≤ c) (h : QInv t0 word [] done v c) :
    ∀ (d : Nat) (n : Int), (word n).length = d → 0 ≤ n → n < t0.length →
      n ∈ done ∨ n = v := by
  intro d
  induction d using Nat.strong_induction_on with
  | _ d ih =>
    intro n hd n0 n1
    by_cases hn : n = 0
    · subst hn
      rcases h.rootDone with g | g
      · exact Or.inr g.symm
      · exact Or.inl g
    · have hne := trieRep_word_ne_nil t0 word hT n (by omega) n1
      rcases List.eq_nil_or_concat (word n) with e | ⟨s, b, e⟩
      · exact absurd e hne
      · rw [List.concat_eq_append] at e
        obtain ⟨p, p0, p1, hp, hb, hpn⟩ := trieRep_parent_word t0 word hT n s b n0 n1 e
        have hl : (word n).length = s.length + 1 := by rw [e]; simp
        have hr := (h.reach n (by omega) n1).2
        have : n ∈ done ∨ n = v ∨ n ∈ ([] : List Int) := by
          rcases ih (word p).length (by rw [hp]; omega) p rfl p0 p1 with g | g
          · exact hr (Or.inl ⟨p, g, b, hb, hpn⟩)
          · subst g
            exact hr (Or.inr ⟨b, hb, by unfold InAlph at hb; omega, hpn⟩)
        rcases this with g | g | g
        · exact Or.inl g
        · exact Or.inr g
        · simp at g

theorem nodup_valid_length (l : List Int) (N : Nat) (hnd : l.Nodup)
    (hv : ∀ x ∈ l, 0 ≤ x ∧ x < N) : l.length ≤ N := by
  have h1 : (l.map Int.toNat).Nodup := by
    rw [List.nodup_map_iff_inj_on hnd]
    intro x hx y hy hxy
    have := hv x hx
    have := hv y hy
    omega
  have h2 : l.map Int.toNat ⊆ List.range N := by
    intro a ha
    obtain ⟨x, hx, rfl⟩ := List.mem_map.1 ha
    have := hv x hx
    exact List.mem_range.2 (by omega)
  have := (List.Nodup.subperm h1 h2).length_le
  simpa using this

/-- The handled nodes, the dequeued node and the waiting nodes are distinct nodes. -/
theorem qInv_count (t0 : Trie) (word : Int → List Int) (q done : List Int) (v c : Int)
    (h : QInv t0 word q done v c) : done.length + 1 + q.length ≤ t0.length := by
  have hnd : (v :: (done ++ q)).Nodup := by
    refine List.nodup_cons.2 ⟨?_, List.nodup_append.2 ⟨h.doneNodup, h.qNodup, ?_⟩⟩
    · simp only [List.mem_append, not_or]
      exact h.vFresh
    · intro a ha hb
      exact (h.qValid a hb).2.2 ha
  have := nodup_valid_length _ t0.length hnd (by
    intro x hx
    rcases List.mem_cons.1 hx with g | g
    · subst g; exact h.vValid
    · rcases List.mem_append.1 g with g | g
      · exact h.doneValid x g
      · obtain ⟨a, b, _⟩ := h.qValid x g
        exact ⟨by omega, b⟩)
  simp only [List.length_cons, List.length_append] at this
  omega

theorem nodeAt_setNext_ne (t : Trie) (v c x w : Int) (h0 : 0 ≤ v) (hw : 0 ≤ w)
    (hne : w ≠ v) : nodeAt (setNext t v c x) w = nodeAt t w :=
  nodeAt_modifyNode_ne t v w _ h0 hw hne

theorem nextAt_congr (t t' : Trie) (n : Int) (h : nodeAt t' n = nodeAt t n) (c : Int) :
    nextAt t' n c = nextAt t n c := by
  unfold nextAt
  rw [h]

theorem pushOuts_on (u : Int) (l : List Int) :
    ∀ (t : Trie), 0 ≤ u → u < t.length →
      (l.foldl (fun t pid => pushOut t u pid) t).length = t.length ∧
      (∀ n : Int, 0 ≤ n → n ≠ u →
        nodeAt (l.foldl (fun t pid => pushOut t u pid) t) n = nodeAt t n) ∧
      (nodeAt (l.foldl (fun t pid => pushOut t u pid) t) u).next = (nodeAt t u).next ∧
      (nodeAt (l.foldl (fun t pid => pushOut t u pid) t) u).link = (nodeAt t u).link ∧
      (nodeAt (l.foldl (fun t pid => pushOut t u pid) t) u).out = (nodeAt t u).out ++ l := by
  induction l with
  | nil =>
    intro t _ _
    simp
  | cons x xs ih =>
    intro t u0 u1
    have hl : (pushOut t u x).length = t.length := length_modifyNode t u _
    obtain ⟨h1, h2, h3, h4, h5⟩ := ih (pushOut t u x) u0 (by rw [hl]; exact u1)
    have hs : nodeAt (pushOut t u x) u =
        { nodeAt t u with out := (nodeAt t u).out ++ [x] } :=
      nodeAt_modifyNode_same t u _ u0 u1
    rw [List.foldl_cons]
    refine ⟨by rw [h1, hl], ?_, by rw [h3, hs], by rw [h4, hs], by rw [h5, hs]; simp⟩
    intro n n0 hn
    rw [h2 n n0 hn]
    exact nodeAt_modifyNode_ne t u n _ u0 n0 hn

/-- Filling a missing transition of the dequeued node keeps the invariant. -/
theorem dInv_setNext (t0 : Trie) (word : Int → List Int) (pats : List (Str × Int))
    (t : Trie) (q done : List Int) (v c g : Int) (hQ : QInv t0 word q done v c)
    (hD : DInv t0 word pats t q done v c) (hc : InAlph c)
    (hg : IsLsuf t0 word (word v ++ [c]) g) :
    DInv t0 word pats (setNext t v c g) q done v (c + 1) := by
  obtain ⟨v0, v1⟩ := hQ.vValid
  have v1' : v < t.length := by rw [hD.len]; exact v1
  have hc' := hc
  unfold InAlph at hc'
  constructor
  · rw [← hD.len]; exact length_modifyNode t v _
  · intro n hn c' hcc
    have hnv : n ≠ v := by rintro rfl; exact hQ.vFresh.1 hn
    have n0 := (hQ.doneValid n hn).1
    rw [nextAt_congr _ _ n (nodeAt_setNext_ne t v c g n v0 n0 hnv)]
    exact hD.nextDone n hn c' hcc
  · intro c' hcc hlt
    by_cases e : c' = c
    · subst e
      rw [nextAt_setNext_same t v c' g v0 v1' (by rw [hD.nextLen]; omega)]
      exact hg
    · unfold InAlph at hcc
      rw [nextAt_setNext_ne t v c g v c' v0 v0 hc'.1 hcc.1 v1' (Or.inr e)]
      exact hD.nextLo c' hcc (by omega)
  · intro c' hcc hle
    have hcc' := hcc
    unfold InAlph at hcc'
    rw [nextAt_setNext_ne t v c g v c' v0 v0 hc'.1 hcc'.1 v1' (Or.inr (by omega))]
    exact hD.nextHi c' hcc (by omega)
  · rw [nextLen_setNext t v c g v v0 v0]; exact hD.nextLen
  · intro n n0 n1 hnd hnv
    rw [nodeAt_setNext_ne t v c g n v0 n0 hnv]
    exact hD.nextRaw n n0 n1 hnd hnv
  · intro n hn
    have n0 : 0 ≤ n := by
      rcases hn with h | h | h
      · exact (hQ.doneValid n h).1
      · omega
      · have := (hQ.qValid n h).1; omega
    rw [link_setNext t v c g n v0 n0]
    exact hD.linkOk n hn
  · intro n hn
    have n0 : 0 ≤ n := by
      rcases hn with h | h | h
      · exact (hQ.doneValid n h).1
      · omega
      · have := (hQ.qValid n h).1; omega
    rw [out_setNext t v c g n v0 n0]
    exact hD.outOk n hn
  · intro n n0 n1 hn
    rw [out_setNext t v c g n v0 n0]
    exact hD.outRaw n n0 n1 hn

/-- Setting the link and the `out` list of a child and enqueueing it keeps the invariant. -/
theorem dInv_push (t0 : Trie) (word : Int → List Int) (pats : List (Str × Int))
    (hT : TrieRep t0 word) (t t' : Trie) (q done : List Int) (v c : Int)
    (hQ : QInv t0 word q done v c) (hD : DInv t0 word pats t q done v c) (hc : InAlph c)
    (hu : nextAt t0 v c ≠ -1)
    (hlen : t'.length = t.length)
    (hframe : ∀ n : Int, 0 ≤ n → n ≠ nextAt t0 v c → nodeAt t' n = nodeAt t n)
    (hnext : (nodeAt t' (nextAt t0 v c)).next = (nodeAt t (nextAt t0 v c)).next)
    (hlink : IsFail t0 word (nextAt t0 v c) (nodeAt t' (nextAt t0 v c)).link)
    (hout : OutFull word pats (nextAt t0 v c) (nodeAt t' (nextAt t0 v c)).out) :
    DInv t0 word pats t' (q ++ [nextAt t0 v c]) done v (c + 1) := by
  obtain ⟨v0, v1⟩ := hQ.vValid
  obtain ⟨u0, u1, huw⟩ := hT.edge v c v0 v1 hc hu
  have hQ' := qInv_push t0 word hT q done v c hQ hc hu
  have hvu : v ≠ nextAt t0 v c := by
    intro e
    exact hQ'.vFresh.2 (by rw [← e]; simp)
  have hfv : nodeAt t' v = nodeAt t v := hframe v v0 hvu
  constructor
  · rw [hlen]; exact hD.len
  · intro n hn c' hcc
    have hne : n ≠ nextAt t0 v c := by
      rintro rfl
      exact (hQ'.qValid _ (by simp)).2.2 hn
    rw [nextAt_congr _ _ n (hframe n (hQ.doneValid n hn).1 hne)]
    exact hD.nextDone n hn c' hcc
  · intro c' hcc hlt
    rw [nextAt_congr _ _ v hfv]
    by_cases e : c' = c
    · subst e
      rw [hD.nextHi c' hcc (le_refl _)]
      exact isLsuf_child t0 word v c' _ (by omega) u1 huw
    · exact hD.nextLo c' hcc (by omega)
  · intro c' hcc hle
    rw [nextAt_congr _ _ v hfv]
    exact hD.nextHi c' hcc (by omega)
  · rw [hfv]; exact hD.nextLen
  · intro n n0 n1 hnd hnv
    by_cases hne : n = nextAt t0 v c
    · subst hne
      rw [hnext]
      exact hD.nextRaw _ n0 n1 hnd hnv
    · rw [hframe n n0 hne]
      exact hD.nextRaw n n0 n1 hnd hnv
  · intro n hn
    by_cases hne : n = nextAt t0 v c
    · subst hne; exact hlink
    · have n0 : 0 ≤ n := by
        rcases hn with h | h | h
        · exact (hQ.doneValid n h).1
        · omega
        · have := (hQ'.qValid n h).1; omega
      rw [hframe n n0 hne]
      apply hD.linkOk n
      rcases hn with h | h | h
      · exact Or.inl h
      · exact Or.inr (Or.inl h)
      · rcases List.mem_append.1 h with g | g
        · exact Or.inr (Or.inr g)
        · exact absurd (by simpa using g) hne
  · intro n hn
    by_cases hne : n = nextAt t0 v c
    · subst hne; exact hout
    · have n0 : 0 ≤ n := by
        rcases hn with h | h | h
        · exact (hQ.doneValid n h).1
        · omega
        · have := (hQ'.qValid n h).1; omega
      rw [hframe n n0 hne]
      apply hD.outOk n
      rcases hn with h | h | h
      · exact Or.inl h
      · exact Or.inr (Or.inl h)
      · rcases List.mem_append.1 h with g | g
        · exact Or.inr (Or.inr g)
        · exact absurd (by simpa using g) hne
  · intro n n0 n1 hn
    have hne : n ≠ nextAt t0 v c := by
      rintro rfl
      exact hn (Or.inr (Or.inr (by simp)))
    rw [hframe n n0 hne]
    apply hD.outRaw n n0 n1
    rintro (h | h | h)
    · exact hn (Or.inl h)
    · exact hn (Or.inr (Or.inl h))
    · exact hn (Or.inr (Or.inr (List.mem_append_left _ h)))

theorem link_modifyNode_setLink (t : Trie) (u x : Int) (u0 : 0 ≤ u) (u1 : u < t.length) :
    nodeAt (setLink t u x) u = { nodeAt t u with link := x } :=
  nodeAt_modifyNode_same t u _ u0 u1

/-- One iteration of the loop over the children of the root keeps the invariants. -/
theorem rootStep_inv (t0 : Trie) (word : Int → List Int) (pats : List (Str × Int))
    (hX : Ctx t0 word pats) (t : Trie) (q done : List Int) (c : Int)
    (hQ : QInv t0 word q done 0 c) (hD : DInv t0 word pats t q done 0 c) (hc : InAlph c) :
    QInv t0 word (rootStep (t, q) c).2 done 0 (c + 1) ∧
      DInv t0 word pats (rootStep (t, q) c).1 (rootStep (t, q) c).2 done 0 (c + 1) := by
  have hT := hX.rep
  have hpos := hT.pos
  have e : nextAt t 0 c = nextAt t0 0 c := hD.nextHi c hc (le_refl _)
  by_cases hu : nextAt t0 0 c = -1
  · have hr : rootStep (t, q) c = (setNext t 0 c 0, q) := by
      simp only [rootStep, e, hu]
      simp
    rw [hr]
    refine ⟨qInv_skip t0 word q done 0 c hQ hu, ?_⟩
    exact dInv_setNext t0 word pats t q done 0 c 0 hQ hD hc
      (isLsuf_root_loop t0 word hT c
        (trieRep_no_node t0 word hT 0 c (le_refl _) (by omega) hc hu))
  · have hr : rootStep (t, q) c = (setLink t (nextAt t0 0 c) 0, q ++ [nextAt t0 0 c]) := by
      simp only [rootStep, e]
      simp [hu]
    rw [hr]
    obtain ⟨u0, u1, huw⟩ := hT.edge 0 c (le_refl _) (by omega) hc hu
    have u1' : nextAt t0 0 c < t.length := by rw [hD.len]; exact u1
    have hQ' := qInv_push t0 word hT q done 0 c hQ hc hu
    have hnew : ¬ (nextAt t0 0 c ∈ done ∨ nextAt t0 0 c = 0 ∨ nextAt t0 0 c ∈ q) := by
      rintro (h | h | h)
      · exact (hQ'.qValid _ (by simp)).2.2 h
      · omega
      · have := hQ'.qNodup
        rw [List.nodup_append] at this
        exact this.2.2 h (by simp)
    have hs := link_modifyNode_setLink t (nextAt t0 0 c) 0 (by omega) u1'
    have hfail : IsFail t0 word (nextAt t0 0 c) 0 :=
      isFail_root_child t0 word hT c _ (by rw [huw, hT.root]; rfl)
    dsimp only
    refine ⟨hQ', ?_⟩
    apply dInv_push t0 word pats hT t _ q done 0 c hQ hD hc hu
    · exact length_modifyNode t _ _
    · intro n n0 hn
      exact nodeAt_modifyNode_ne t _ n _ (by omega) n0 hn
    · rw [hs]
    · rw [hs]; exact hfail
    · rw [hs]
      have ho := hD.outRaw _ (by omega) u1 hnew
      have := outFull_child t0 word pats hX (nextAt t0 0 c) 0 [] u0 u1 hfail (by
        have := outFull_root t0 word pats hX
        rw [out_root_nil t0 word pats hX] at this
        exact this)
      simp only [List.append_nil] at this
      show OutFull word pats (nextAt t0 0 c) (nodeAt t (nextAt t0 0 c)).out
      rw [ho]
      exact this

/-- One iteration of the loop over the children of a dequeued node keeps the invariants. -/
theorem linkStep_inv (t0 : Trie) (word : Int → List Int) (pats : List (Str × Int))
    (hX : Ctx t0 word pats) (t : Trie) (q done : List Int) (v c : Int) (hv : v ≠ 0)
    (hQ : QInv t0 word q done v c) (hD : DInv t0 word pats t q done v c) (hc : InAlph c) :
    QInv t0 word (linkStep v (t, q) c).2 done v (c + 1) ∧
      DInv t0 word pats (linkStep v (t, q) c).1 (linkStep v (t, q) c).2 done v (c + 1) := by
  have hT := hX.rep
  obtain ⟨v0, v1⟩ := hQ.vValid
  have e : nextAt t v c = nextAt t0 v c := hD.nextHi c hc (le_refl _)
  have hj := hD.linkOk v (Or.inr (Or.inl rfl))
  have hjl := (hj.2.2.2 hv).2.1
  have hjd : (nodeAt t v).link ∈ done :=
    qInv_lowDone t0 word hT q done v c hQ _ _ rfl hj.1 hj.2.1 hjl
  have hg := hD.nextDone _ hjd c hc
  by_cases hu : nextAt t0 v c = -1
  · have hr : linkStep v (t, q) c =
        (setNext t v c (nextAt t (nodeAt t v).link c), q) := by
      simp only [linkStep, e, hu]
      simp
    rw [hr]
    refine ⟨qInv_skip t0 word q done v c hQ hu, ?_⟩
    exact dInv_setNext t0 word pats t q done v c _ hQ hD hc
      (isLsuf_via_fail t0 word hT v _ c _ hv hj hg
        (trieRep_no_node t0 word hT v c v0 v1 hc hu))
  · obtain ⟨u0, u1, huw⟩ := hT.edge v c v0 v1 hc hu
    have u1' : nextAt t0 v c < t.length := by rw [hD.len]; exact u1
    have hQ' := qInv_push t0 word hT q done v c hQ hc hu
    have hnew : ¬ (nextAt t0 v c ∈ done ∨ nextAt t0 v c = v ∨ nextAt t0 v c ∈ q) := by
      rintro (h | h | h)
      · exact (hQ'.qValid _ (by simp)).2.2 h
      · exact hQ'.vFresh.2 (List.mem_append_right _ (List.mem_singleton.2 h.symm))
      · have := hQ'.qNodup
        rw [List.nodup_append] at this
        exact this.2.2 h (by simp)
    have hfail : IsFail t0 word (nextAt t0 v c) (nextAt t (nodeAt t v).link c) :=
      isFail_child t0 word hT v _ c _ _ hv hj hg huw
    have hgl := (hfail.2.2.2 (by omega)).2.1
    have hgu : nextAt t (nodeAt t v).link c ≠ nextAt t0 v c := by
      intro h
      rw [h] at hgl
      omega
    have hs := link_modifyNode_setLink t (nextAt t0 v c)
      (nextAt t (nodeAt t v).link c) (by omega) u1'
    have hl1 : (setLink t (nextAt t0 v c) (nextAt t (nodeAt t v).link c)).length =
        t.length := length_modifyNode t _ _
    have hf1 : ∀ n : Int, 0 ≤ n → n ≠ nextAt t0 v c →
        nodeAt (setLink t (nextAt t0 v c) (nextAt t (nodeAt t v).link c)) n = nodeAt t n :=
      fun n n0 hn => nodeAt_modifyNode_ne t _ n _ (by omega) n0 hn
    have hr : linkStep v (t, q) c =
        ((nodeAt t (nextAt t (nodeAt t v).link c)).out.foldl
          (fun t pid => pushOut t (nextAt t0 v c) pid)
          (setLink t (nextAt t0 v c) (nextAt t (nodeAt t v).link c)),
         q ++ [nextAt t0 v c]) := by
      simp only [linkStep, e]
      rw [if_pos hu]
      simp only [hs, hf1 _ hfail.1 hgu]
    rw [hr]
    dsimp only
    obtain ⟨p1, p2, p3, p4, p5⟩ := pushOuts_on (nextAt t0 v c)
      (nodeAt t (nextAt t (nodeAt t v).link c)).out
      (setLink t (nextAt t0 v c) (nextAt t (nodeAt t v).link c)) (by omega)
      (by rw [hl1]; exact u1')
    refine ⟨hQ', ?_⟩
    apply dInv_push t0 word pats hT t _ q done v c hQ hD hc hu
    · rw [p1, hl1]
    · intro n n0 hn
      rw [p2 n n0 hn, hf1 n n0 hn]
    · rw [p3, hs]
    · rw [p4, hs]; exact hfail
    · rw [p5, hs]
      have ho := hD.outRaw _ (by omega) u1 hnew
      show OutFull word pats (nextAt t0 v c)
        ((nodeAt t (nextAt t0 v c)).out ++ (nodeAt t (nextAt t (nodeAt t v).link c)).out)
      rw [ho]
      apply outFull_child t0 word pats hX _ _ _ u0 u1 hfail
      apply hD.outOk
      have hle : (word (nextAt t (nodeAt t v).link c)).length ≤ (word v).length := by
        rw [huw] at hgl
        simp only [List.length_append, List.length_singleton] at hgl
        omega
      exact qInv_leSeen t0 word hT q done v c hQ _ hfail.1 hfail.2.1 hle

theorem intRange_foldl_inv {σ : Type} (f : σ → Int → σ) (P : Int → σ → Prop) (n : Nat)
    (init : σ) (h0 : P 0 init)
    (hstep : ∀ (c : Int) (st : σ), 0 ≤ c → c < n → P c st → P (c + 1) (f st c)) :
    P n ((intRange 0 ((n : Int) - 1)).foldl f init) := by
  unfold intRange
  have e : ((n : Int) - 1 + 1 - 0).toNat = n := by omega
  rw [e]
  clear e
  induction n with
  | zero => simpa using h0
  | succ k ih =>
    rw [List.range_succ, List.map_append, List.foldl_append]
    simp only [List.map_cons, List.map_nil, List.foldl_cons, List.foldl_nil, zero_add]
    have := ih (fun c st c0 c1 hP => hstep c st c0 (by push_cast; omega) hP)
    have h2 := hstep (k : Int) _ (by omega) (by push_cast; omega) this
    simpa using h2

theorem alph_range : intRange 0 (ALPH - 1) = intRange 0 (((95 : Nat) : Int) - 1) := rfl

theorem rootLoop_inv (t0 : Trie) (word : Int → List Int) (pats : List (Str × Int))
    (hX : Ctx t0 word pats) (t : Trie) (hQ : QInv t0 word [] [] 0 0)
    (hD : DInv t0 word pats t [] [] 0 0) :
    QInv t0 word ((intRange 0 (ALPH - 1)).foldl rootStep (t, [])).2 [] 0 95 ∧
      DInv t0 word pats ((intRange 0 (ALPH - 1)).foldl rootStep (t, [])).1
        ((intRange 0 (ALPH - 1)).foldl rootStep (t, [])).2 [] 0 95 := by
  rw [alph_range]
  exact intRange_foldl_inv rootStep
    (fun c st => QInv t0 word st.2 [] 0 c ∧ DInv t0 word pats st.1 st.2 [] 0 c) 95 (t, [])
    ⟨hQ, hD⟩ (fun c st c0 c1 hP =>
      rootStep_inv t0 word pats hX st.1 st.2 [] c hP.1 hP.2 ⟨c0, by omega⟩)

theorem linkInner_inv (t0 : Trie) (word : Int → List Int) (pats : List (Str × Int))
    (hX : Ctx t0 word pats) (t : Trie) (q done : List Int) (v : Int) (hv : v ≠ 0)
    (hQ : QInv t0 word q done v 0) (hD : DInv t0 word pats t q done v 0) :
    QInv t0 word ((intRange 0 (ALPH - 1)).foldl (linkStep v) (t, q)).2 done v 95 ∧
      DInv t0 word pats ((intRange 0 (ALPH - 1)).foldl (linkStep v) (t, q)).1
        ((intRange 0 (ALPH - 1)).foldl (linkStep v) (t, q)).2 done v 95 := by
  rw [alph_range]
  exact intRange_foldl_inv (linkStep v)
    (fun c st => QInv t0 word st.2 done v c ∧ DInv t0 word pats st.1 st.2 done v c) 95 (t, q)
    ⟨hQ, hD⟩ (fun c st c0 c1 hP =>
      linkStep_inv t0 word pats hX st.1 st.2 done v c hv hP.1 hP.2 ⟨c0, by omega⟩)

theorem dInv_init (t0 : Trie) (word : Int → List Int) (pats : List (Str × Int))
    (hX : Ctx t0 word pats) : DInv t0 word pats (setLink t0 0 0) [] [] 0 0 := by
  have hT := hX.rep
  have hpos := hT.pos
  have hs := link_modifyNode_setLink t0 0 0 (le_refl _) (by omega)
  have hf : ∀ n : Int, 0 ≤ n → n ≠ 0 → nodeAt (setLink t0 0 0) n = nodeAt t0 n :=
    fun n n0 hn => nodeAt_modifyNode_ne t0 0 n _ (le_refl _) n0 hn
  constructor
  · exact length_modifyNode t0 _ _
  · intro n hn; simp at hn
  · intro c' hc hlt; unfold InAlph at hc; omega
  · intro c' _ _
    unfold nextAt
    rw [hs]
  · rw [hs]; exact hT.nextLen 0 (le_refl _) (by omega)
  · intro n n0 _ _ hn
    rw [hf n n0 hn]
  · intro n hn
    have : n = 0 := by simpa using hn
    subst this
    rw [hs]
    show IsFail t0 word 0 0
    exact ⟨le_refl _, by omega, fun _ => rfl, fun h => absurd rfl h⟩
  · intro n hn
    have : n = 0 := by simpa using hn
    subst this
    rw [hs]
    exact outFull_root t0 word pats hX
  · intro n n0 _ hn
    have : n ≠ 0 := by simpa using hn
    rw [hf n n0 this]

theorem dInv_advance (t0 : Trie) (word : Int → List Int) (pats : List (Str × Int))
    (hT : TrieRep t0 word) (t : Trie) (rest done : List Int) (v v' c : Int) (hc : 95 ≤ c)
    (hQ : QInv t0 word (v' :: rest) done v c)
    (hD : DInv t0 word pats t (v' :: rest) done v c) :
    DInv t0 word pats t rest (v :: done) v' 0 := by
  obtain ⟨w0, w1, w2⟩ := hQ.qValid v' (List.mem_cons_self _ _)
  have hvv : v' ≠ v := by
    intro e
    exact hQ.vFresh.2 (by rw [← e]; exact List.mem_cons_self _ _)
  have hraw := hD.nextRaw v' (by omega) w1 w2 hvv
  have hmem : ∀ n : Int, (n ∈ v :: done ∨ n = v' ∨ n ∈ rest) ↔
      (n ∈ done ∨ n = v ∨ n ∈ v' :: rest) := by
    intro n
    simp only [List.mem_cons]
    tauto
  constructor
  · exact hD.len
  · intro n hn c' hcc
    rcases List.mem_cons.1 hn with g | g
    · subst g
      exact hD.nextLo c' hcc (by unfold InAlph at hcc; omega)
    · exact hD.nextDone n g c' hcc
  · intro c' hcc hlt; unfold InAlph at hcc; omega
  · intro c' _ _
    unfold nextAt
    rw [hraw]
  · rw [hraw]; exact hT.nextLen v' (by omega) w1
  · intro n n0 n1 hnd hnv
    simp only [List.mem_cons, not_or] at hnd
    exact hD.nextRaw n n0 n1 hnd.2 hnd.1
  · intro n hn
    exact hD.linkOk n ((hmem n).1 hn)
  · intro n hn
    exact hD.outOk n ((hmem n).1 hn)
  · intro n n0 n1 hn
    exact hD.outRaw n n0 n1 (fun h => hn ((hmem n).2 h))

theorem linksOk_of_empty (t0 : Trie) (word : Int → List Int) (pats : List (Str × Int))
    (hT : TrieRep t0 word) (t : Trie) (done : List Int) (v : Int)
    (hQ : QInv t0 word [] done v 95) (hD : DInv t0 word pats t [] done v 95) :
    LinksOk t0 word pats t := by
  refine ⟨hD.len, ?_⟩
  intro n n0 n1
  rcases qInv_final t0 word hT done v 95 (le_refl _) hQ _ n rfl n0 n1 with g | g
  · exact ⟨fun c hc => hD.nextDone n g c hc, hD.outOk n (Or.inl g)⟩
  · subst g
    exact ⟨fun c hc => hD.nextLo c hc (by unfold InAlph at hc; omega),
      hD.outOk n (Or.inr (Or.inl rfl))⟩

theorem linkLoop_cons (fuel : Nat) (t : Trie) (v : Int) (rest : List Int) :
    linkLoop (fuel + 1) (t, v :: rest) =
      linkLoop fuel ((intRange 0 (ALPH - 1)).foldl (linkStep v) (t, rest)) := rfl

/-- The `while` loop of `build_links` ends within the fuel and leaves the automaton. -/
theorem linkLoop_inv (t0 : Trie) (word : Int → List Int) (pats : List (Str × Int))
    (hX : Ctx t0 word pats) (fuel : Nat) :
    ∀ (t : Trie) (q done : List Int) (v : Int), QInv t0 word q done v 95 →
      DInv t0 word pats t q done v 95 → t0.length ≤ fuel + done.length + 1 →
      LinksOk t0 word pats (linkLoop fuel (t, q)) := by
  induction fuel with
  | zero =>
    intro t q done v hQ hD hf
    have hcount := qInv_count t0 word q done v 95 hQ
    have hq : q = [] := List.length_eq_zero.1 (by omega)
    subst hq
    exact linksOk_of_empty t0 word pats hX.rep t done v hQ hD
  | succ fuel ih =>
    intro t q done v hQ hD hf
    cases q with
    | nil => exact linksOk_of_empty t0 word pats hX.rep t done v hQ hD
    | cons v' rest =>
      have hQ1 := qInv_advance t0 word rest done v v' 95 (le_refl _) hQ
      have hD1 := dInv_advance t0 word pats hX.rep t rest done v v' 95 (le_refl _) hQ hD
      have hv' : v' ≠ 0 := by
        have := (hQ.qValid v' (List.mem_cons_self _ _)).1
        omega
      obtain ⟨hQ2, hD2⟩ := linkInner_inv t0 word pats hX t rest (v :: done) v' hv' hQ1 hD1
      rw [linkLoop_cons]
      generalize (intRange 0 (ALPH - 1)).foldl (linkStep v') (t, rest) = st at hQ2 hD2 ⊢
      exact ih st.1 st.2 (v :: done) v' hQ2 hD2 (by simp only [List.length_cons]; omega)

/-- The method `build_links` turns the trie of the inserts into the automaton. -/
theorem build_links_spec (t0 : Trie) (word : Int → List Int) (pats : List (Str × Int))
    (hX : Ctx t0 word pats) : LinksOk t0 word pats (build_links t0) := by
  obtain ⟨hQ, hD⟩ := rootLoop_inv t0 word pats hX (setLink t0 0 0)
    (qInv_init t0 word hX.rep) (dInv_init t0 word pats hX)
  unfold build_links
  generalize (intRange 0 (ALPH - 1)).foldl rootStep (setLink t0 0 0, []) = st at hQ hD ⊢
  exact linkLoop_inv t0 word pats hX t0.length st.1 st.2 [] 0 hQ hD (by simp)

theorem idOf_cases (c : Byte) :
    (Printable c ∧ 0 ≤ idOf c ∧ idOf c < 95 ∧ idOf c = ((norm_char c).val : Int) - 32) ∨
      (¬ Printable c ∧ idOf c = -1) := by
  have hv := norm_char_val c
  unfold Printable idOf ch_id CH_L CH_R
  split_ifs at hv ⊢ <;> omega

theorem inAlph_idOf (c : Byte) : InAlph (idOf c) ↔ Printable c := by
  unfold InAlph
  rcases idOf_cases c with ⟨h1, h2, h3, _⟩ | ⟨h1, h2⟩
  · exact ⟨fun _ => h1, fun _ => ⟨h2, h3⟩⟩
  · constructor
    · intro h; omega
    · intro h; exact absurd h h1

/-- A printable pattern byte matches a text byte exactly when it admits the id of the
text byte. -/
theorem byteMatches_iff (p c : Byte) (hp : Printable p) :
    byteMatches p c ↔ SymMatches p (idOf c) := by
  have hvp := norm_char_val p
  have hvc := norm_char_val c
  have hic := idOf_cases c
  have hip := idOf_cases p
  have hidp : ch_id (norm_char p) = idOf p := rfl
  unfold byteMatches SymMatches InAlph
  rw [hidp]
  unfold Printable at hic hip hp
  have hpl := p.isLt
  have hcl := c.isLt
  by_cases hq : p.val = 63
  · rw [if_pos hq]
    split_ifs at hvp hvc <;> omega
  · rw [if_neg hq]
    rw [← Fin.val_inj]
    split_ifs at hvp hvc <;> omega

theorem forall2_of_getElem {α β : Type} (R : α → β → Prop) (l1 : List α) (l2 : List β)
    (hlen : l1.length = l2.length)
    (h : ∀ (j : Nat) (a : α) (b : β), l1[j]? = some a → l2[j]? = some b → R a b) :
    List.Forall₂ R l1 l2 := by
  rw [List.forall₂_iff_get]
  refine ⟨hlen, ?_⟩
  intro i h1 h2
  exact h i _ _ (by simp [List.getElem?_eq_getElem h1]) (by simp [List.getElem?_eq_getElem h2])

theorem getElem_of_forall2 {α β : Type} (R : α → β → Prop) (l1 : List α) (l2 : List β)
    (hf : List.Forall₂ R l1 l2) (j : Nat) (a : α) (b : β) (ha : l1[j]? = some a)
    (hb : l2[j]? = some b) : R a b := by
  rw [List.forall₂_iff_get] at hf
  obtain ⟨h1, e1⟩ := List.getElem?_eq_some.1 ha
  obtain ⟨h2, e2⟩ := List.getElem?_eq_some.1 hb
  have := hf.2 j h1 h2
  simp only [List.get_eq_getElem] at this
  rw [e1, e2] at this
  exact this

theorem runIds_spec (text : Str) : ∀ k : Nat,
    (runIds text k).length ≤ k ∧
    (∀ j : Nat, j < (runIds text k).length →
      (runIds text k)[j]? =
        some (idOf (charAt text ((k : Int) - (runIds text k).length + j))) ∧
      Printable (charAt text ((k : Int) - (runIds text k).length + j))) ∧
    ((runIds text k).length < k →
      ¬ Printable (charAt text ((k : Int) - (runIds text k).length - 1))) := by
  intro k
  induction k with
  | zero => simp [runIds]
  | succ k ih =>
    obtain ⟨ha, hb, hc⟩ := ih
    by_cases hid : idOf (charAt text k) = -1
    · have e : runIds text (k + 1) = [] := by simp [runIds, hid]
      rw [e]
      refine ⟨by simp, by simp, ?_⟩
      intro _
      have e2 : (((k + 1 : Nat) : Int) - (([] : List Int).length : Int) - 1) = (k : Int) := by
        simp
      rw [e2]
      rcases idOf_cases (charAt text k) with ⟨_, h2, _⟩ | ⟨h1, _⟩
      · omega
      · exact h1
    · have e : runIds text (k + 1) = runIds text k ++ [idOf (charAt text k)] := by
        simp [runIds, hid]
      rw [e]
      have hpr : Printable (charAt text k) := by
        rcases idOf_cases (charAt text k) with ⟨h1, _⟩ | ⟨_, h2⟩
        · exact h1
        · exact absurd h2 hid
      simp only [List.length_append, List.length_singleton]
      refine ⟨by omega, ?_, ?_⟩
      · intro j hj
        by_cases hjr : j < (runIds text k).length
        · have e3 : (((k + 1 : Nat) : Int) - (((runIds text k).length + 1 : Nat) : Int) + j) =
              (k : Int) - (runIds text k).length + j := by push_cast; omega
          rw [e3, List.getElem?_append_left hjr]
          exact hb j hjr
        · have hj' : j = (runIds text k).length := by omega
          have e3 : (((k + 1 : Nat) : Int) - (((runIds text k).length + 1 : Nat) : Int) + j) =
              (k : Int) := by push_cast; omega
          rw [e3]
          refine ⟨?_, hpr⟩
          rw [List.getElem?_append_right (by omega)]
          simp [hj']
      · intro hlt
        have e3 : (((k + 1 : Nat) : Int) - (((runIds text k).length + 1 : Nat) : Int) - 1) =
            (k : Int) - (runIds text k).length - 1 := by push_cast; omega
        rw [e3]
        exact hc (by omega)

/-- A window ending at `i` matches a printable pattern exactly when an expansion of the
pattern is a suffix of the run of printable characters ending at `i`. -/
theorem run_matches (text pat : Str) (i : Int) (h0 : 0 ≤ i) (h1 : i < text.length)
    (hpr : ∀ c ∈ pat, Printable c) :
    MatchesAt pat text i ↔ ∃ s, s <:+ runIds text (i.toNat + 1) ∧ WordMatches pat s := by
  obtain ⟨ra, rb, rc⟩ := runIds_spec text (i.toNat + 1)
  have hk : (((i.toNat + 1 : Nat) : Int)) = i + 1 := by push_cast; omega
  rw [hk] at rb rc
  have hpat : ∀ j : Nat, j < pat.length →
      pat[j]? = some (pat.getD j 0) ∧ Printable (pat.getD j 0) := by
    intro j hj
    have e : pat.getD j 0 = pat[j] := by
      simp [List.getD_eq_getElem?_getD, List.getElem?_eq_getElem hj]
    rw [e]
    exact ⟨List.getElem?_eq_getElem hj, hpr _ (List.getElem_mem hj)⟩
  constructor
  · rintro ⟨m0, _, hm⟩
    have hwin : ∀ j : Nat, j < pat.length →
        Printable (charAt text (i - pat.length + 1 + j)) := by
      intro j hj
      have := ((byteMatches_iff _ _ (hpat j hj).2).1 (hm j hj)).1
      exact (inAlph_idOf _).1 this
    have hL : pat.length ≤ (runIds text (i.toNat + 1)).length := by
      by_contra hcon
      have hn := rc (by omega)
      have hw := hwin (pat.length - 1 - (runIds text (i.toNat + 1)).length) (by omega)
      have e : i - (pat.length : Int) + 1 +
          ((pat.length - 1 - (runIds text (i.toNat + 1)).length : Nat) : Int) =
          i + 1 - ((runIds text (i.toNat + 1)).length : Int) - 1 := by omega
      rw [e] at hw
      exact hn hw
    refine ⟨(runIds text (i.toNat + 1)).drop
      ((runIds text (i.toNat + 1)).length - pat.length), List.drop_suffix _ _, ?_⟩
    apply forall2_of_getElem
    · rw [List.length_drop]; omega
    · intro j a b hja hjb
      have hj : j < pat.length := (List.getElem?_eq_some.1 hja).1
      have ea : a = pat.getD j 0 := by
        have := (hpat j hj).1
        rw [hja] at this
        exact Option.some.inj this
      rw [List.getElem?_drop] at hjb
      have hr := (rb ((runIds text (i.toNat + 1)).length - pat.length + j) (by omega)).1
      rw [hjb] at hr
      have eb := Option.some.inj hr
      have e : i + 1 - ((runIds text (i.toNat + 1)).length : Int) +
          (((runIds text (i.toNat + 1)).length - pat.length + j : Nat) : Int) =
          i - (pat.length : Int) + 1 + j := by omega
      rw [e] at eb
      rw [ea, eb]
      exact (byteMatches_iff _ _ (hpat j hj).2).1 (hm j hj)
  · rintro ⟨s, hs, hsm⟩
    have hlen := wordMatches_length _ _ hsm
    have hsl := hs.length_le
    have hsd := List.suffix_iff_eq_drop.1 hs
    refine ⟨by omega, h1, ?_⟩
    intro j hj
    apply (byteMatches_iff _ _ (hpat j hj).2).2
    have hr := (rb ((runIds text (i.toNat + 1)).length - s.length + j) (by omega)).1
    have e : i + 1 - ((runIds text (i.toNat + 1)).length : Int) +
        (((runIds text (i.toNat + 1)).length - s.length + j : Nat) : Int) =
        i - (pat.length : Int) + 1 + j := by omega
    rw [e] at hr
    have hsj : s[j]? = some (idOf (charAt text (i - (pat.length : Int) + 1 + j))) := by
      rw [hsd, List.getElem?_drop]
      exact hr
    exact getElem_of_forall2 _ _ _ hsm j _ _ (hpat j hj).1 hsj

theorem pushes_eq (i : Int) (l : List Int) :
    ∀ res : List (Int × Int),
      l.foldl (fun res pid => res ++ [(i, pid)]) res = res ++ l.map (fun pid => (i, pid)) := by
  induction l with
  | nil => intro res; simp
  | cons x xs ih =>
    intro res
    rw [List.foldl_cons, ih]
    simp

/-- Expansions of patterns are suffixes of the run exactly when they are suffixes of the
word of the state. -/
theorem isLsuf_suffix_iff (t0 : Trie) (word : Int → List Int) (pats : List (Str × Int))
    (hC : CompleteFor t0 word pats) (x : List Int) (m : Int) (hm : IsLsuf t0 word x m)
    (pat : Str) (k : Int) (hp : (pat, k) ∈ pats) (s : List Int) (hs : WordMatches pat s) :
    s <:+ word m ↔ s <:+ x := by
  obtain ⟨_, _, h3, h4⟩ := hm
  constructor
  · intro h; exact h.trans h3
  · intro h
    obtain ⟨n, n0, n1, hn⟩ := hC pat k hp s hs
    have := h4 n n0 n1 (by rw [hn]; exact h)
    rw [hn] at this
    exact List.suffix_of_suffix_length_le h h3 this

theorem searchStep_inv (t0 : Trie) (word : Int → List Int) (pats : List (Str × Int))
    (hX : Ctx t0 word pats) (t : Trie) (hL : LinksOk t0 word pats t) (text : Str)
    (hpr : ∀ p k, (p, k) ∈ pats → ∀ c ∈ p, Printable c) (i : Int) (h0 : 0 ≤ i)
    (h1 : i < text.length) (st : Int × List (Int × Int))
    (hI : SearchInv t0 word pats text i st) :
    SearchInv t0 word pats text (i + 1) (searchStep t text st i) := by
  obtain ⟨hv, hmem, hnd⟩ := hI
  have hk : (i + 1).toNat = i.toNat + 1 := by omega
  have hi : ((i.toNat : Nat) : Int) = i := by omega
  have hrun : runIds text (i.toNat + 1) =
      if idOf (charAt text i) = -1 then []
      else runIds text i.toNat ++ [idOf (charAt text i)] := by
    simp only [runIds, hi]
  have hrep : ∀ k : Int, (∃ pat, (pat, k) ∈ pats ∧ MatchesAt pat text i) ↔
      ∃ pat s, (pat, k) ∈ pats ∧ s <:+ runIds text (i.toNat + 1) ∧ WordMatches pat s := by
    intro k
    constructor
    · rintro ⟨pat, hp, hm⟩
      obtain ⟨s, hs, hsm⟩ := (run_matches text pat i h0 h1 (hpr pat k hp)).1 hm
      exact ⟨pat, s, hp, hs, hsm⟩
    · rintro ⟨pat, s, hp, hs, hsm⟩
      exact ⟨pat, hp, (run_matches text pat i h0 h1 (hpr pat k hp)).2 ⟨s, hs, hsm⟩⟩
  have hidc : ch_id (norm_char (charAt text i)) = idOf (charAt text i) := rfl
  unfold SearchInv
  rw [hk]
  by_cases hid : idOf (charAt text i) = -1
  · have hs : searchStep t text st i = (0, st.2) := by
      simp only [searchStep, hidc, hid]
      simp
    rw [hs, hrun, if_pos hid] at *
    refine ⟨⟨le_refl _, by have := hX.rep.pos; omega,
      by show word 0 <:+ _; rw [hX.rep.root], ?_⟩, ?_, hnd⟩
    · intro m' _ _ hm
      have := hm.length_le
      simp only [List.length_nil] at this
      omega
    · intro j k
      rw [hmem j k]
      constructor
      · rintro ⟨a, b, c⟩
        exact ⟨a, by omega, c⟩
      · rintro ⟨a, b, c⟩
        refine ⟨a, ?_, c⟩
        by_contra hcon
        have hji : j = i := by omega
        subst hji
        obtain ⟨pat, s, hp, hs, hsm⟩ := (hrep k).1 c
        have e : s = [] := List.eq_nil_of_suffix_nil hs
        subst e
        have := wordMatches_length _ _ hsm
        exact hX.nonempty pat k hp (List.length_eq_zero.1 (by simpa using this))
  · have hs : searchStep t text st i =
        (nextAt t st.1 (idOf (charAt text i)),
          st.2 ++ (nodeAt t (nextAt t st.1 (idOf (charAt text i)))).out.map
            (fun pid => (i, pid))) := by
      simp only [searchStep, hidc, pushes_eq]
      rw [if_neg hid]
    have hal : InAlph (idOf (charAt text i)) := by
      rcases idOf_cases (charAt text i) with ⟨_, a, b, _⟩ | ⟨_, a⟩
      · exact ⟨a, b⟩
      · exact absurd a hid
    rw [hs, hrun, if_neg hid] at *
    have hg := (hL.2 st.1 hv.1 hv.2.1).1 _ hal
    have hv' := isLsuf_step t0 word hX.rep _ st.1 _ _ hv hg
    obtain ⟨o1, o2⟩ := (hL.2 _ hg.1 hg.2.1).2
    have hout : ∀ k : Int, k ∈ (nodeAt t (nextAt t st.1 (idOf (charAt text i)))).out ↔
        ∃ pat, (pat, k) ∈ pats ∧ MatchesAt pat text i := by
      intro k
      rw [o2 k, hrep k]
      constructor
      · rintro ⟨pat, s, hp, hs, hsm⟩
        exact ⟨pat, s, hp, (isLsuf_suffix_iff t0 word pats hX.compl _ _ hv' pat k hp s hsm).1 hs,
          hsm⟩
      · rintro ⟨pat, s, hp, hs, hsm⟩
        exact ⟨pat, s, hp, (isLsuf_suffix_iff t0 word pats hX.compl _ _ hv' pat k hp s hsm).2 hs,
          hsm⟩
    refine ⟨hv', ?_, ?_⟩
    · intro j k
      simp only [List.mem_append, List.mem_map, Prod.mk.injEq, hmem j k]
      constructor
      · rintro (⟨a, b, c⟩ | ⟨pid, hpid, rfl, rfl⟩)
        · exact ⟨a, by omega, c⟩
        · exact ⟨h0, by omega, (hout _).1 hpid⟩
      · rintro ⟨a, b, c⟩
        by_cases hji : j = i
        · subst hji
          exact Or.inr ⟨k, (hout k).2 c, rfl, rfl⟩
        · exact Or.inl ⟨a, by omega, c⟩
    · refine List.nodup_append.2 ⟨hnd, ?_, ?_⟩
      · exact List.Nodup.map (fun a b hab => by simpa using hab) o1
      · intro x hx1 hx2
        obtain ⟨pid, _, rfl⟩ := List.mem_map.1 hx2
        have := ((hmem i pid).1 hx1).2.1
        omega

/-- The pairs returned by `search_all` on the automaton are exactly the occurrences. -/
theorem search_all_spec (t0 : Trie) (word : Int → List Int) (pats : List (Str × Int))
    (hX : Ctx t0 word pats) (t : Trie) (hL : LinksOk t0 word pats t) (text : Str)
    (hpr : ∀ p k, (p, k) ∈ pats → ∀ c ∈ p, Printable c) :
    (∀ j k : Int, (j, k) ∈ search_all t text ↔ ∃ pat, (pat, k) ∈ pats ∧ MatchesAt pat text j) ∧
      (search_all t text).Nodup := by
  have hinit : SearchInv t0 word pats text 0 (0, []) := by
    refine ⟨⟨le_refl _, by have := hX.rep.pos; omega,
      by show word 0 <:+ _; rw [hX.rep.root]; exact List.nil_suffix, ?_⟩, ?_, by simp⟩
    · intro m' _ _ hm
      have := hm.length_le
      simp only [Int.toNat_zero, runIds, List.length_nil] at this
      omega
    · intro j k
      simp only [List.not_mem_nil, false_iff, not_and]
      intro a b
      omega
  have := intRange_foldl_inv (searchStep t text) (SearchInv t0 word pats text) text.length
    (0, []) hinit (fun c st c0 c1 hP =>
      searchStep_inv t0 word pats hX t hL text hpr c c0 c1 st hP)
  obtain ⟨_, hmem, hnd⟩ := this
  refine ⟨?_, hnd⟩
  intro j k
  unfold search_all
  rw [hmem j k]
  constructor
  · rintro ⟨_, _, c⟩
    exact c
  · rintro ⟨pat, hp, hm⟩
    have hne := hX.nonempty pat k hp
    have hlen : 0 < pat.length := List.length_pos.2 hne
    obtain ⟨m0, m1, _⟩ := hm
    exact ⟨by omega, m1, pat, hp, ⟨m0, m1, by assumption⟩⟩

theorem ctx_of_inserts (ps : List Str) (hps : ∀ p ∈ ps, p ≠ [] ∧ ∀ c ∈ p, Printable c) :
    ∃ word : Int → List Int, Ctx (insertAll Aho.init ps 0) word (indexed ps 0) := by
  obtain ⟨word, hT, hO, hC⟩ := insertAll_init_spec ps (fun p hp => (hps p hp).2)
  refine ⟨word, hT, hO, hC, ?_, ?_⟩
  · intro p q k hp hq
    rw [mem_indexed] at hp hq
    have := hp.2.symm.trans hq.2
    exact Option.some.inj this
  · intro p k hp
    rw [mem_indexed] at hp
    obtain ⟨_, e⟩ := List.getElem?_eq_some.1 hp.2
    rw [← e]
    exact (hps _ (List.getElem_mem _)).1

/-- C13: for patterns `p_0 .. p_{m-1}` that are non-empty and consist of printable ASCII,
`search_all` on the automaton built by the inserts and `build_links` returns the pair
`(i, k)` exactly when the window of the text that ends at `i` exists and matches `p_k`
position by position (letters up to case, `?` matching any printable byte), and it
returns no pair twice. -/
theorem search_all_exact (pats : List Str) (text : Str)
    (hpats : ∀ p ∈ pats, p ≠ [] ∧ ∀ c ∈ p, Printable c) :
    (∀ i k : Int, (i, k) ∈ search_all (automaton pats) text ↔
        0 ≤ k ∧ k < pats.length ∧ MatchesAt (pats.getD k.toNat []) text i) ∧
      (search_all (automaton pats) text).Nodup := by
  obtain ⟨word, hX⟩ := ctx_of_inserts pats hpats
  have hL := build_links_spec _ word _ hX
  have hpr : ∀ p k, (p, k) ∈ indexed pats 0 → ∀ c ∈ p, Printable c := by
    intro p k hp
    rw [mem_indexed] at hp
    obtain ⟨_, e⟩ := List.getElem?_eq_some.1 hp.2
    rw [← e]
    exact (hpats _ (List.getElem_mem _)).2
  obtain ⟨h1, h2⟩ := search_all_spec _ word _ hX (automaton pats) hL text hpr
  refine ⟨?_, h2⟩
  intro i k
  rw [h1 i k]
  constructor
  · rintro ⟨pat, hp, hm⟩
    rw [mem_indexed] at hp
    obtain ⟨hk0, hk⟩ := hp
    simp only [sub_zero] at hk
    obtain ⟨hlt, e⟩ := List.getElem?_eq_some.1 hk
    refine ⟨hk0, by omega, ?_⟩
    rw [List.getD_eq_getElem?_getD, hk]
    exact hm
  · rintro ⟨hk0, hk1, hm⟩
    have hlt : k.toNat < pats.length := by omega
    refine ⟨pats.getD k.toNat [], ?_, hm⟩
    rw [mem_indexed]
    refine ⟨hk0, ?_⟩
    simp only [sub_zero]
    rw [List.getD_eq_getElem?_getD, List.getElem?_eq_getElem hlt]
    rfl

theorem search_all_exact_witness :
    (∀ p ∈ ([[97, 63], [66]] : List Str), p ≠ [] ∧ ∀ c ∈ p, Printable c) ∧
    ((2, 0) ∈ search_all (automaton [[97, 63], [66]]) [120, 65, 98, 97] ∧
      (2, 1) ∈ search_all (automaton [[97, 63], [66]]) [120, 65, 98, 97] ∧
      (1, 1) ∉ search_all (automaton [[97, 63], [66]]) [120, 65, 98, 97]) ∧
    ((∀ i k : Int, (i, k) ∈ search_all (automaton [[97, 63], [66]]) [120, 65, 98, 97] ↔
        0 ≤ k ∧ k < ([[97, 63], [66]] : List Str).length ∧
          MatchesAt (([[97, 63], [66]] : List Str).getD k.toNat []) [120, 65, 98, 97] i) ∧
      (search_all (automaton [[97, 63], [66]]) [120, 65, 98, 97]).Nodup) :=
  ⟨by
    intro p hp
    simp only [List.mem_cons, List.mem_singleton, List.not_mem_nil, or_false] at hp
    rcases hp with rfl | rfl <;> (simp [Printable]; decide),
   ⟨((search_all_exact [[97, 63], [66]] [120, 65, 98, 97] (by
      intro p hp
      simp only [List.mem_cons, List.mem_singleton, List.not_mem_nil, or_false] at hp
      rcases hp with rfl | rfl <;> (simp [Printable]; decide))).1 2 0).2
      ⟨by decide, by decide, by decide, by decide, by
        intro r hr
        have hr2 : r = 0 ∨ r = 1 := by
          simp only [List.getD_cons_zero, Int.toNat_zero, List.length_cons, List.length_nil] at hr
          omega
        rcases hr2 with rfl | rfl <;> (unfold byteMatches; decide)⟩,
    ((search_all_exact [[97, 63], [66]] [120, 65, 98, 97] (by
      intro p hp
      simp only [List.mem_cons, List.mem_singleton, List.not_mem_nil, or_false] at hp
      rcases hp with rfl | rfl <;> (simp [Printable]; decide))).1 2 1).2
      ⟨by decide, by decide, by decide, by decide, by
        intro r hr
        have hr2 : r = 0 := by
          have : (([[97, 63], [66]] : List Str).getD (1 : Int).toNat []).length = 1 := rfl
          omega
        subst hr2
        unfold byteMatches
        decide⟩,
    fun hmem => by
      have h := ((search_all_exact [[97, 63], [66]] [120, 65, 98, 97] (by
        intro p hp
        simp only [List.mem_cons, List.mem_singleton, List.not_mem_nil, or_false] at hp
        rcases hp with rfl | rfl <;> (simp [Printable]; decide))).1 1 1).1 hmem
      have hb := h.2.2.2.2 0 (by decide)
      unfold byteMatches at hb
      revert hb
      decide⟩,
   search_all_exact [[97, 63], [66]] [120, 65, 98, 97] (by
    intro p hp
    simp only [List.mem_cons, List.mem_singleton, List.not_mem_nil, or_false] at hp
    rcases hp with rfl | rfl <;> (simp [Printable]; decide))⟩

theorem i64_of_bounds (x : Int) (h0 : -9223372036854775808 ≤ x)
    (h1 : x ≤ 9223372036854775807) : i64 x = some x := by
  unfold i64
  rw [if_pos ⟨h0, h1⟩]

theorem vecAt_bound (v : List Int) (M : Int) (hM : 0 < M) (h : ∀ x ∈ v, 0 ≤ x ∧ x < M)
    (i : Int) : 0 ≤ vecAt v i ∧ vecAt v i < M := by
  unfold vecAt
  split
  · rw [List.getD_eq_getElem?_getD]
    rcases hx : v[i.toNat]? with _ | x
    · exact ⟨le_refl _, hM⟩
    · obtain ⟨hlt, e⟩ := List.getElem?_eq_some.1 hx
      rw [← e]
      exact h _ (List.getElem_mem hlt)
  · exact ⟨le_refl _, hM⟩

theorem set_bound (v : List Int) (M : Int) (h : ∀ x ∈ v, 0 ≤ x ∧ x < M) (k : Nat) (y : Int)
    (hy : 0 ≤ y ∧ y < M) : ∀ x ∈ v.set k y, 0 ≤ x ∧ x < M := by
  intro x hx
  rcases List.mem_or_eq_of_mem_set hx with g | g
  · exact h x g
  · rw [g]; exact hy

theorem tmod_bound (a M : Int) (ha : 0 ≤ a) (hM : 0 < M) :
    0 ≤ Int.tmod a M ∧ Int.tmod a M < M := by
  rw [Int.tmod_eq_emod ha (by omega)]
  exact ⟨Int.emod_nonneg _ (by omega), Int.emod_lt_of_pos _ hM⟩

theorem tableOk_init (n : Nat) : TableOk (buildInit n) := by
  have hz : ∀ (M : Int), 0 < M → ∀ x ∈ List.replicate (n + 1) (0 : Int), 0 ≤ x ∧ x < M := by
    intro M hM x hx
    rw [List.eq_of_mem_replicate hx]
    exact ⟨le_refl _, hM⟩
  refine ⟨hz MOD1 (by decide), hz MOD2 (by decide), ?_, ?_⟩
  · exact set_bound _ MOD1 (hz MOD1 (by decide)) 0 1 (by decide)
  · exact set_bound _ MOD2 (hz MOD2 (by decide)) 0 1 (by decide)

/-- On a table of residues one iteration of `build` overflows nowhere and stores
residues. -/
theorem buildStepChecked_eq (s : Str) (T : RollingHash) (i : Nat) (hT : TableOk T) :
    buildStepChecked s T i = some (buildStep s T i) ∧ TableOk (buildStep s T i) := by
  obtain ⟨k1, k2, k3, k4⟩ := hT
  obtain ⟨a0, a1⟩ := vecAt_bound T.h1 MOD1 (by decide) k1 i
  obtain ⟨b0, b1'⟩ := vecAt_bound T.h2 MOD2 (by decide) k2 i
  obtain ⟨c0, c1⟩ := vecAt_bound T.p1 MOD1 (by decide) k3 i
  obtain ⟨d0, d1⟩ := vecAt_bound T.p2 MOD2 (by decide) k4 i
  have hc : ((charAt s (i : Int)).val : Int) < 256 := by
    have := (charAt s (i : Int)).isLt
    omega
  have hc0 : (0 : Int) ≤ ((charAt s (i : Int)).val : Int) := by omega
  simp only [ MOD1, MOD2] at a1 b1' c1 d1
  constructor
  · unfold buildStepChecked
    rw [b1_eq, b2_eq]
    rw [i64_of_bounds _ (by omega) (by omega)]
    simp only [Option.some_bind]
    rw [i64_of_bounds _ (by omega) (by omega)]
    simp only [Option.some_bind]
    rw [i64_of_bounds _ (by omega) (by omega)]
    simp only [Option.some_bind]
    rw [i64_of_bounds _ (by omega) (by omega)]
    simp only [Option.some_bind]
    rw [i64_of_bounds _ (by omega) (by omega)]
    simp only [Option.some_bind]
    rw [i64_of_bounds _ (by omega) (by omega)]
    simp only [Option.some_bind]
    rw [i64_of_bounds _ (by omega) (by omega)]
    simp only [Option.some_bind]
    rw [i64_of_bounds _ (by omega) (by omega)]
    simp only [Option.some_bind]
    unfold buildStep
    rw [b1_eq, b2_eq]
  · unfold buildStep
    rw [b1_eq, b2_eq]
    refine ⟨set_bound _ _ k1 _ _ (tmod_bound _ _ (by omega) (by decide)),
      set_bound _ _ k2 _ _ (tmod_bound _ _ (by omega) (by decide)),
      set_bound _ _ k3 _ _ (tmod_bound _ _ (by omega) (by decide)),
      set_bound _ _ k4 _ _ (tmod_bound _ _ (by omega) (by decide))⟩

theorem foldlM_inv_some {α β : Type} (fS : β → α → Option β) (f : β → α → β)
    (P : β → Prop) (l : List α) :
    ∀ init : β, P init → (∀ b a, a ∈ l → P b → fS b a = some (f b a) ∧ P (f b a)) →
      l.foldlM fS init = some (l.foldl f init) ∧ P (l.foldl f init) := by
  induction l with
  | nil => intro init h0 _; exact ⟨rfl, h0⟩
  | cons x xs ih =>
    intro init h0 hs
    obtain ⟨e, hp⟩ := hs init x (List.mem_cons_self _ _) h0
    rw [List.foldlM_cons, e, List.foldl_cons]
    simp only [Option.bind_eq_bind, Option.some_bind]
    exact ih _ hp (fun b a ha hb => hs b a (List.mem_cons_of_mem _ ha) hb)

theorem buildChecked_eq (s : Str) : buildChecked s = some (build s) ∧ TableOk (build s) :=
  foldlM_inv_some (buildStepChecked s) (buildStep s) TableOk (List.range s.length)
    (buildInit s.length) (tableOk_init _)
    (fun b a _ hb => buildStepChecked_eq s b a hb)

theorem getHashChecked_eq (T : RollingHash) (l r : Int) (hT : TableOk T) :
    getHashChecked T l r = some (getHash T l r) := by
  obtain ⟨k1, k2, k3, k4⟩ := hT
  unfold getHashChecked getHash
  by_cases hlr : l > r
  · rw [if_pos hlr, if_pos hlr]
  · rw [if_neg hlr, if_neg hlr]
    simp only []
    generalize (if l < 0 then 0 else l) = l'
    generalize (if r + 1 > (T.h1.length : Int) - 1 then (T.h1.length : Int) - 2 else r) = r'
    obtain ⟨a0, a1⟩ := vecAt_bound T.h1 MOD1 (by decide) k1 l'
    obtain ⟨b0, b1'⟩ := vecAt_bound T.p1 MOD1 (by decide) k3 (r' - l' + 1)
    obtain ⟨c0, c1⟩ := vecAt_bound T.h1 MOD1 (by decide) k1 (r' + 1)
    obtain ⟨d0, d1⟩ := vecAt_bound T.h2 MOD2 (by decide) k2 l'
    obtain ⟨e0, e1⟩ := vecAt_bound T.p2 MOD2 (by decide) k4 (r' - l' + 1)
    obtain ⟨f0, f1⟩ := vecAt_bound T.h2 MOD2 (by decide) k2 (r' + 1)
    have hm1 := Int.mul_nonneg a0 b0
    have hm2 := Int.mul_nonneg d0 e0
    obtain ⟨y10, y11⟩ := tmod_bound _ MOD1 hm1 (by decide)
    obtain ⟨y20, y21⟩ := tmod_bound _ MOD2 hm2 (by decide)
    simp only [ MOD1, MOD2] at a1 b1' c1 d1 e1 f1 y11 y21 y10 y20 ⊢
    have hp1 : vecAt T.h1 l' * vecAt T.p1 (r' - l' + 1) ≤ 1000000006 * 1000000006 :=
      Int.mul_le_mul (by omega) (by omega) b0 (by omega)
    have hp2 : vecAt T.h2 l' * vecAt T.p2 (r' - l' + 1) ≤ 1000000008 * 1000000008 :=
      Int.mul_le_mul (by omega) (by omega) e0 (by omega)
    rw [i64_of_bounds _ (by omega) (by omega)]
    simp only [Option.some_bind]
    rw [i64_of_bounds _ (by omega) (by omega)]
    simp only [Option.some_bind]
    rw [i64_of_bounds _ (by omega) (by omega)]
    simp only [Option.some_bind]
    rw [i64_of_bounds _ (by omega) (by omega)]
    simp only [Option.some_bind]
    rw [i64_of_bounds _ (by omega) (by omega)]
    simp only [Option.some_bind]
    rw [i64_of_bounds _ (by omega) (by omega)]
    simp only [Option.some_bind]

/-- C21: for every byte slice `s`, all entries of `h1`, `p1` (of `h2`, `p2`) made by
`build` are residues of `MOD1` (of `MOD2`); both components of every in-range query
`getHash (l, r)` are residues; and `build` and every `getHash` on the built table run
without a `long long` value leaving the signed 64-bit range, so the entries are the exact
integer prefix polynomials and powers reduced modulo the primes. -/
theorem fingerprint_numeric_semantics (s : Str) :
    ((∀ x ∈ (build s).h1, 0 ≤ x ∧ x < 1000000007) ∧
      (∀ x ∈ (build s).p1, 0 ≤ x ∧ x < 1000000007) ∧
      (∀ x ∈ (build s).h2, 0 ≤ x ∧ x < 1000000009) ∧
      (∀ x ∈ (build s).p2, 0 ≤ x ∧ x < 1000000009)) ∧
    (∀ l r : Int, 0 ≤ l → l ≤ r → r < s.length →
      (0 ≤ (getHash (build s) l r).1 ∧ (getHash (build s) l r).1 < 1000000007) ∧
      (0 ≤ (getHash (build s) l r).2 ∧ (getHash (build s) l r).2 < 1000000009)) ∧
    buildChecked s = some (build s) ∧
    (∀ l r : Int, 0 ≤ l → l ≤ r → r < s.length →
      getHashChecked (build s) l r = some (getHash (build s) l r)) ∧
    (∀ i : Nat, i ≤ s.length →
      (build s).h1[i]? = some (polySum 911382323 (s.take i) % 1000000007) ∧
      (build s).h2[i]? = some (polySum 972663749 (s.take i) % 1000000009) ∧
      (build s).p1[i]? = some (911382323 ^ i % 1000000007) ∧
      (build s).p2[i]? = some (972663749 ^ i % 1000000009)) := by
  obtain ⟨hc, k1, k2, k3, k4⟩ := buildChecked_eq s
  refine ⟨⟨k1, k3, k2, k4⟩, ?_, hc,
    fun l r _ _ _ => getHashChecked_eq _ l r ⟨k1, k2, k3, k4⟩, ?_⟩
  · intro l r h0 h1 h2
    rw [getHash_build s l r h0 h1 h2]
    exact ⟨⟨Int.emod_nonneg _ (by decide), Int.emod_lt_of_pos _ (by decide)⟩,
      ⟨Int.emod_nonneg _ (by decide), Int.emod_lt_of_pos _ (by decide)⟩⟩
  · intro i hi
    have := (build_spec s).2 i hi
    rw [b1_eq, b2_eq] at this
    exact this

theorem lcsDepth_leaf (aL aR bL bR : Int)
    (h : aR - aL + 1 ≤ 120 ∨ bR - bL + 1 ≤ 120) : lcsDepth aL aR bL bR = 0 := by
  rw [lcsDepth]
  simp only [BRUTE_THRESHOLD]
  split_ifs <;> rfl

theorem lcsDepth_split (aL aR bL bR : Int) (h1 : 120 < aR - aL + 1)
    (h2 : 120 < bR - bL + 1) :
    lcsDepth aL aR bL bR =
      1 + max (lcsDepth aL ((aL + aR) / 2) bL ((bL + bR) / 2))
        (lcsDepth ((aL + aR) / 2 + 1) aR ((bL + bR) / 2 + 1) bR) := by
  rw [lcsDepth]
  have h0 : ¬ (aR - aL + 1 ≤ 0 ∨ bR - bL + 1 ≤ 0) := by omega
  have h3 : ¬ (aR - aL + 1 ≤ 120 ∨ bR - bL + 1 ≤ 120) := by omega
  simp only [BRUTE_THRESHOLD, if_neg h0, if_neg h3]

/-- A stack of `fuel` frames suffices exactly when `fuel` exceeds the depth. -/
theorem lcs_bounded_spec (fuel : Nat) :
    ∀ (A : Str) (aL aR : Int) (B : Str) (bL bR : Int),
      lcs_divide_conquer_bounded fuel A aL aR B bL bR =
        if lcsDepth aL aR bL bR < fuel then some (lcs_divide_conquer A aL aR B bL bR)
        else none := by
  induction fuel with
  | zero =>
    intro A aL aR B bL bR
    simp [lcs_divide_conquer_bounded]
  | succ fuel ih =>
    intro A aL aR B bL bR
    by_cases h0 : aR - aL + 1 ≤ 0 ∨ bR - bL + 1 ≤ 0
    · have hd := lcsDepth_leaf aL aR bL bR (by omega)
      rw [hd, if_pos (by omega), lcs_invalid A aL aR B bL bR h0]
      simp only [lcs_divide_conquer_bounded, if_pos h0]
    · by_cases h1 : aR - aL + 1 ≤ 120 ∨ bR - bL + 1 ≤ 120
      · have hd := lcsDepth_leaf aL aR bL bR h1
        rw [hd, if_pos (by omega), lcs_base A aL aR B bL bR h0 h1]
        simp only [lcs_divide_conquer_bounded, BRUTE_THRESHOLD, if_neg h0, if_pos h1]
      · have hd := lcsDepth_split aL aR bL bR (by omega) (by omega)
        rw [hd, lcs_split A aL aR B bL bR (by omega) (by omega)]
        simp only [lcs_divide_conquer_bounded, BRUTE_THRESHOLD, if_neg h0, if_neg h1]
        rw [ih, ih]
        by_cases hl : lcsDepth aL ((aL + aR) / 2) bL ((bL + bR) / 2) < fuel
        · by_cases hr : lcsDepth ((aL + aR) / 2 + 1) aR ((bL + bR) / 2 + 1) bR < fuel
          · have hd' : 1 + max (lcsDepth aL ((aL + aR) / 2) bL ((bL + bR) / 2))
                (lcsDepth ((aL + aR) / 2 + 1) aR ((bL + bR) / 2 + 1) bR) < fuel + 1 := by
              omega
            rw [if_pos hl, if_pos hr, if_pos hd']
            rfl
          · have hd' : ¬ (1 + max (lcsDepth aL ((aL + aR) / 2) bL ((bL + bR) / 2))
                (lcsDepth ((aL + aR) / 2 + 1) aR ((bL + bR) / 2 + 1) bR) < fuel + 1) := by
              omega
            rw [if_pos hl, if_neg hr, if_neg hd']
            rfl
        · have hd' : ¬ (1 + max (lcsDepth aL ((aL + aR) / 2) bL ((bL + bR) / 2))
              (lcsDepth ((aL + aR) / 2 + 1) aR ((bL + bR) / 2 + 1) bR) < fuel + 1) := by
            omega
          rw [if_neg hl, if_neg hd']
          rfl

/-- Each level of the recursion halves both ranges, which are longer than 120. -/
theorem lcsDepth_pow (n : Nat) :
    ∀ (aL aR bL bR : Int), (aR - aL + 1).toNat ≤ n →
      lcsDepth aL aR bL bR = 0 ∨
        ((2 : Int) ^ lcsDepth aL aR bL bR * 60 ≤ aR - aL ∧
          (2 : Int) ^ lcsDepth aL aR bL bR * 60 ≤ bR - bL) := by
  induction n with
  | zero =>
    intro aL aR bL bR hn
    exact Or.inl (lcsDepth_leaf aL aR bL bR (by omega))
  | succ n ih =>
    intro aL aR bL bR hn
    by_cases h1 : aR - aL + 1 ≤ 120 ∨ bR - bL + 1 ≤ 120
    · exact Or.inl (lcsDepth_leaf aL aR bL bR h1)
    · right
      rw [lcsDepth_split aL aR bL bR (by omega) (by omega)]
      rcases max_choice (lcsDepth aL ((aL + aR) / 2) bL ((bL + bR) / 2))
        (lcsDepth ((aL + aR) / 2 + 1) aR ((bL + bR) / 2 + 1) bR) with e | e
      · rw [e]
        rcases ih aL ((aL + aR) / 2) bL ((bL + bR) / 2) (by omega) with g | ⟨g1, g2⟩
        · rw [g]
          constructor <;> norm_num <;> omega
        · rw [add_comm 1, pow_succ]
          constructor <;> omega
      · rw [e]
        rcases ih ((aL + aR) / 2 + 1) aR ((bL + bR) / 2 + 1) bR (by omega) with g | ⟨g1, g2⟩
        · rw [g]
          constructor <;> norm_num <;> omega
        · rw [add_comm 1, pow_succ]
          constructor <;> omega

theorem lcsDepth_le_log (aL aR bL bR : Int) :
    lcsDepth aL aR bL bR ≤ Nat.log 2 (min (aR - aL + 1) (bR - bL + 1)).toNat := by
  rcases lcsDepth_pow _ aL aR bL bR (le_refl _) with g | ⟨g1, g2⟩
  · rw [g]; exact Nat.zero_le _
  · apply Nat.le_log_of_pow_le (by decide)
    have hp : (0 : Int) < (2 : Int) ^ lcsDepth aL aR bL bR := by positivity
    have : ((2 ^ lcsDepth aL aR bL bR : Nat) : Int) ≤ min (aR - aL + 1) (bR - bL + 1) := by
      push_cast
      omega
    omega

/-- C22: in the Split state (both lengths above 120) the two recursive calls of
`lcs_divide_conquer` get the non-empty ranges of lengths `ceil(la/2)`, `ceil(lb/2)` and
`floor(la/2)`, `floor(lb/2)`, all shorter than the parent's; the function returns on
every input on a call stack as deep as `lcsDepth + 1` frames and no less; and the depth is
at most `log2` of the shorter range, hence of `min(|A|, |B|)` for ranges inside the
strings and for the call made by `longestCommonSubstring`. -/
theorem lcs_recursion_well_founded (A B : Str) (aL aR bL bR : Int) :
    (BRUTE_THRESHOLD < aR - aL + 1 → BRUTE_THRESHOLD < bR - bL + 1 →
      ((aL + aR) / 2 - aL + 1 = (aR - aL + 1 + 1) / 2 ∧
        (bL + bR) / 2 - bL + 1 = (bR - bL + 1 + 1) / 2 ∧
        aR - ((aL + aR) / 2 + 1) + 1 = (aR - aL + 1) / 2 ∧
        bR - ((bL + bR) / 2 + 1) + 1 = (bR - bL + 1) / 2) ∧
      (0 < (aL + aR) / 2 - aL + 1 ∧ 0 < (bL + bR) / 2 - bL + 1 ∧
        0 < aR - ((aL + aR) / 2 + 1) + 1 ∧ 0 < bR - ((bL + bR) / 2 + 1) + 1) ∧
      ((aL + aR) / 2 - aL + 1 < aR - aL + 1 ∧ (bL + bR) / 2 - bL + 1 < bR - bL + 1 ∧
        aR - ((aL + aR) / 2 + 1) + 1 < aR - aL + 1 ∧
        bR - ((bL + bR) / 2 + 1) + 1 < bR - bL + 1) ∧
      lcsDepth aL aR bL bR =
        1 + max (lcsDepth aL ((aL + aR) / 2) bL ((bL + bR) / 2))
          (lcsDepth ((aL + aR) / 2 + 1) aR ((bL + bR) / 2 + 1) bR)) ∧
    (∀ fuel : Nat, lcs_divide_conquer_bounded fuel A aL aR B bL bR =
      if lcsDepth aL aR bL bR < fuel then some (lcs_divide_conquer A aL aR B bL bR)
      else none) ∧
    lcsDepth aL aR bL bR ≤ Nat.log 2 (min (aR - aL + 1) (bR - bL + 1)).toNat ∧
    (0 ≤ aL → aR < A.length → 0 ≤ bL → bR < B.length →
      lcsDepth aL aR bL bR ≤ Nat.log 2 (min A.length B.length)) ∧
    lcsDepth 0 ((A.length : Int) - 1) 0 ((B.length : Int) - 1) ≤
      Nat.log 2 (min A.length B.length) := by
  refine ⟨?_, fun fuel => lcs_bounded_spec fuel A aL aR B bL bR,
    lcsDepth_le_log aL aR bL bR, ?_, ?_⟩
  · intro h1 h2
    simp only [BRUTE_THRESHOLD] at h1 h2
    refine ⟨by omega, by omega, by omega, lcsDepth_split aL aR bL bR h1 h2⟩
  · intro h1 h2 h3 h4
    refine (lcsDepth_le_log aL aR bL bR).trans (Nat.log_mono_right ?_)
    omega
  · refine (lcsDepth_le_log _ _ _ _).trans (Nat.log_mono_right ?_)
    omega

theorem suf_zero (w pattern : Str) (i : Int) (hi : 0 ≤ i) : Suf w pattern 0 i :=
  ⟨le_refl _, hi, fun x h0 h1 => by omega⟩

theorem suf_extend (w pattern : Str) (k i : Int) (h : Suf w pattern k i)
    (he : charAt w i = charAt pattern k) : Suf w pattern (k + 1) (i + 1) := by
  obtain ⟨h0, h1, h2⟩ := h
  refine ⟨by omega, by omega, ?_⟩
  intro x x0 x1
  by_cases hx : x = k
  · subst hx
    have e : i + 1 - (x + 1) + x = i := by omega
    rw [e]; exact he
  · have e : i + 1 - (k + 1) + x = i - k + x := by omega
    rw [e]
    exact h2 x x0 (by omega)

theorem suf_shrink (w pattern : Str) (k i : Int) (h : Suf w pattern k (i + 1)) (hk : 0 < k) :
    Suf w pattern (k - 1) i ∧ charAt w i = charAt pattern (k - 1) := by
  obtain ⟨h0, h1, h2⟩ := h
  refine ⟨⟨by omega, by omega, ?_⟩, ?_⟩
  · intro x x0 x1
    have := h2 x x0 (by omega)
    have e : i + 1 - k + x = i - (k - 1) + x := by omega
    rw [e] at this
    exact this
  · have := h2 (k - 1) (by omega) (by omega)
    have e : i + 1 - k + (k - 1) = i := by omega
    rw [e] at this
    exact this

/-- A border of a matched prefix is matched as well. -/
theorem suf_trans (w pattern : Str) (b q i : Int) (h : Suf w pattern q i)
    (hb : Suf pattern pattern b q) : Suf w pattern b i := by
  obtain ⟨h0, h1, h2⟩ := h
  obtain ⟨b0, b1, b2⟩ := hb
  refine ⟨b0, by omega, ?_⟩
  intro x x0 x1
  have e1 := h2 (q - b + x) (by omega) (by omega)
  have e2 := b2 x x0 x1
  have e : i - q + (q - b + x) = i - b + x := by omega
  rw [e] at e1
  rw [e1, e2]

/-- Of two matched prefixes that end at the same position the shorter is a border of the
longer. -/
theorem suf_border (w pattern : Str) (k q i : Int) (hk : Suf w pattern k i)
    (hq : Suf w pattern q i) (hkq : k ≤ q) : Suf pattern pattern k q := by
  obtain ⟨k0, k1, k2⟩ := hk
  obtain ⟨q0, q1, q2⟩ := hq
  refine ⟨k0, hkq, ?_⟩
  intro x x0 x1
  have e1 := q2 (q - k + x) (by omega) (by omega)
  have e2 := k2 x x0 x1
  have e : i - q + (q - k + x) = i - k + x := by omega
  rw [e] at e1
  rw [← e1, e2]

/-- After a matching byte no longer prefix ends at the next position. -/
theorem noExt_match (w pattern : Str) (lim i j : Int) (hj : 0 ≤ j)
    (hN : NoExt w pattern lim i j) (k : Int) (hk : j + 1 < k) (hl : k - 1 < lim) :
    ¬ Suf w pattern k (i + 1) := by
  intro h
  obtain ⟨h1, h2⟩ := suf_shrink w pattern k i h (by omega)
  exact hN (k - 1) (by omega) hl h1 h2

/-- After a mismatch the longest border takes over. -/
theorem noExt_fail (w pattern : Str) (lim i j b : Int) (hS : Suf w pattern j i)
    (hN : NoExt w pattern lim i j) (hne : charAt w i ≠ charAt pattern j)
    (hb : IsLps pattern j b) : Suf w pattern b i ∧ NoExt w pattern lim i b := by
  obtain ⟨hb1, hb2, hb3⟩ := hb
  refine ⟨suf_trans w pattern b j i hS hb1, ?_⟩
  intro k hk hl hSk
  rcases lt_trichotomy k j with g | g | g
  · have := hb3 k (suf_border w pattern k j i hSk hS (by omega)) g
    omega
  · rw [g]; exact hne
  · exact hN k g hl hSk

/-- After a mismatch at the first byte of the pattern no prefix ends at the next
position. -/
theorem noExt_zero (w pattern : Str) (lim i : Int) (hN : NoExt w pattern lim i 0)
    (hne : charAt w i ≠ charAt pattern 0) (k : Int) (hk : 0 < k) (hl : k - 1 < lim) :
    ¬ Suf w pattern k (i + 1) := by
  intro h
  obtain ⟨h1, h2⟩ := suf_shrink w pattern k i h hk
  by_cases hk1 : k = 1
  · subst hk1
    exact hne h2
  · exact hN (k - 1) (by omega) hl h1 h2

theorem vecAt_set_same (l : List Int) (i x : Int) (h0 : 0 ≤ i) (h1 : i < l.length) :
    vecAt (l.set i.toNat x) i = x := by
  unfold vecAt
  rw [if_pos h0, List.getD_eq_getElem?_getD, List.getElem?_set_self (by omega)]
  rfl

theorem vecAt_set_ne (l : List Int) (i j x : Int) (h0 : 0 ≤ i) (hne : j ≠ i) :
    vecAt (l.set i.toNat x) j = vecAt l j := by
  unfold vecAt
  split
  · rw [List.getD_eq_getElem?_getD, List.getD_eq_getElem?_getD,
      List.getElem?_set_ne (by omega)]
  · rfl

theorem lpsLoop_spec (pattern : Str) (fuel : Nat) :
    ∀ (lps : List Int) (len i : Int), LpsInv pattern (lps, len, i) →
      (2 * ((pattern.length : Int) - i) + len).toNat ≤ fuel →
      LpsOk pattern (lpsLoop pattern pattern.length fuel (lps, len, i)) := by
  induction fuel with
  | zero =>
    intro lps len i hI hf
    obtain ⟨h1, h2, h3, h4, h5, h6, h7⟩ := hI
    simp only at h1 h2 h3 h4 h5 h6 h7
    have := h6.1
    have hi : i = pattern.length := by omega
    refine ⟨h1, ?_⟩
    intro q q0 q1
    exact h5 q q0 (by omega)
  | succ fuel ih =>
    intro lps len i hI hf
    obtain ⟨h1, h2, h3, h4, h5, h6, h7⟩ := hI
    simp only at h1 h2 h3 h4 h5 h6 h7
    have hlen0 := h6.1
    by_cases hi : i < pattern.length
    · by_cases hm : charAt pattern i = charAt pattern len
      · have e : lpsLoop pattern pattern.length (fuel + 1) (lps, len, i) =
            lpsLoop pattern pattern.length fuel (lps.set i.toNat (len + 1), len + 1, i + 1) := by
          simp only [lpsLoop, if_pos hi, if_pos hm]
        rw [e]
        apply ih _ _ _ _ (by omega)
        have hne : ∀ k : Int, len + 1 < k → k - 1 < i → ¬ Suf pattern pattern k (i + 1) :=
          fun k hk hl => noExt_match pattern pattern i i len hlen0 h7 k hk hl
        refine ⟨by simp [h1], by simp only; omega, by simp only; omega, by simp only; omega,
          ?_, suf_extend pattern pattern len i h6 hm, ?_⟩
        · intro q q0 q1
          simp only at q1 ⊢
          by_cases hq : q = i + 1
          · subst hq
            have e2 : i + 1 - 1 = i := by omega
            rw [e2, vecAt_set_same lps i _ (by omega) (by omega)]
            refine ⟨suf_extend pattern pattern len i h6 hm, by omega, ?_⟩
            intro b' hb' hlt
            by_contra hcon
            exact hne b' (by omega) (by omega) hb'
          · rw [vecAt_set_ne lps i (q - 1) _ (by omega) (by omega)]
            exact h5 q q0 (by omega)
        · intro k hk hl hS
          exact absurd hS (hne k hk (by simp only at hl; omega))
      · by_cases hl : len ≠ 0
        · have e : lpsLoop pattern pattern.length (fuel + 1) (lps, len, i) =
              lpsLoop pattern pattern.length fuel (lps, vecAt lps (len - 1), i) := by
            simp only [lpsLoop, if_pos hi, if_neg hm, if_pos hl]
          rw [e]
          have hb := h5 len (by omega) (by omega)
          obtain ⟨g1, g2⟩ := noExt_fail pattern pattern i i len _ h6 h7 hm hb
          have hb0 := g1.1
          have hb1 := hb.2.1
          apply ih _ _ _ _ (by omega)
          exact ⟨h1, h2, h3, by simp only; omega, h5, g1, g2⟩
        · have hl0 : len = 0 := by
            by_contra hcon
            exact hl hcon
          subst hl0
          have e : lpsLoop pattern pattern.length (fuel + 1) (lps, 0, i) =
              lpsLoop pattern pattern.length fuel (lps.set i.toNat 0, 0, i + 1) := by
            simp only [lpsLoop, if_pos hi, if_neg hm]
            simp
          rw [e]
          apply ih _ _ _ _ (by omega)
          have hne : ∀ k : Int, 0 < k → k - 1 < i → ¬ Suf pattern pattern k (i + 1) :=
            fun k hk hl => noExt_zero pattern pattern i i h7 hm k hk hl
          refine ⟨by simp [h1], by simp only; omega, by simp only; omega, by simp only; omega,
            ?_, suf_zero pattern pattern (i + 1) (by omega), ?_⟩
          · intro q q0 q1
            simp only at q1 ⊢
            by_cases hq : q = i + 1
            · subst hq
              have e2 : i + 1 - 1 = i := by omega
              rw [e2, vecAt_set_same lps i _ (by omega) (by omega)]
              refine ⟨suf_zero pattern pattern (i + 1) (by omega), by omega, ?_⟩
              intro b' hb' hlt
              by_contra hcon
              exact hne b' (by omega) (by omega) hb'
            · rw [vecAt_set_ne lps i (q - 1) _ (by omega) (by omega)]
              exact h5 q q0 (by omega)
          · intro k hk hl hS
            exact absurd hS (hne k hk (by simp only at hl; omega))
    · have e : lpsLoop pattern pattern.length (fuel + 1) (lps, len, i) = lps := by
        simp only [lpsLoop, if_neg hi]
      rw [e]
      refine ⟨h1, ?_⟩
      intro q q0 q1
      exact h5 q q0 (by omega)

/-- The table of `computeLPS` holds, for each `q`, the longest proper border of
`pattern[0..q)`. -/
theorem computeLPS_spec (pattern : Str) (hm : pattern ≠ []) :
    LpsOk pattern (computeLPS pattern) := by
  have hpos : 0 < pattern.length := List.length_pos.2 hm
  unfold computeLPS
  apply lpsLoop_spec pattern _ _ _ _ _ (by omega)
  refine ⟨by simp, le_refl _, by simp only; omega, by simp only; omega, ?_,
    suf_zero pattern pattern 1 (by omega), ?_⟩
  · intro q q0 q1
    simp only at q1
    have hq : q = 1 := by omega
    subst hq
    have e : vecAt (List.replicate pattern.length (0 : Int)) (1 - 1) = 0 := by
      unfold vecAt
      simp [List.getD_eq_getElem?_getD, List.getElem?_replicate, hpos]
    rw [e]
    refine ⟨suf_zero pattern pattern 1 (by omega), by omega, ?_⟩
    intro b' hb' hlt
    omega
  · intro k hk hl _
    simp only at hk hl
    omega

theorem intRange_succ (lo hi : Int) (h : lo ≤ hi + 1) :
    intRange lo (hi + 1) = intRange lo hi ++ [hi + 1] := by
  unfold intRange
  have e : (hi + 1 + 1 - lo).toNat = (hi + 1 - lo).toNat + 1 := by omega
  rw [e, List.range_succ, List.map_append]
  simp only [List.map_cons, List.map_nil, List.append_cancel_left_eq, List.cons.injEq,
    and_true]
  omega

theorem substr_full (p : Str) : substr p 0 p.length = p := by
  simp [substr]

/-- An occurrence at `s` is a full match of the pattern that ends before `s + m`. -/
theorem occurs_iff_suf (text pattern : Str) (s : Int) (h0 : 0 ≤ s)
    (h1 : s + pattern.length ≤ text.length) :
    substr text s pattern.length = pattern ↔
      Suf text pattern pattern.length (s + pattern.length) := by
  constructor
  · intro h
    refine ⟨by omega, by omega, ?_⟩
    intro x x0 x1
    have h' : substr text s pattern.length = substr pattern 0 pattern.length := by
      rw [substr_full]; exact h
    have := bytes_of_substr_eq text pattern s 0 pattern.length h0 (le_refl _) h1 (by omega)
      h' x.toNat (by omega)
    have e1 : s + ((x.toNat : Nat) : Int) = s + pattern.length - pattern.length + x := by
      omega
    have e2 : (0 : Int) + ((x.toNat : Nat) : Int) = x := by omega
    rw [e1, e2] at this
    exact this
  · rintro ⟨_, _, h⟩
    have := substr_eq_of_bytes text pattern s 0 pattern.length h0 (le_refl _) h1 (by omega)
      (by
        intro k hk
        have := h k (by omega) hk
        have e1 : s + (pattern.length : Int) - pattern.length + k = s + k := by omega
        rw [e1] at this
        rw [this]
        congr 1
        omega)
    rw [substr_full] at this
    exact this

/-- The list of the occurrences grows by the index of a full match that ends at the new
position, and by nothing otherwise. -/
theorem occList_step (text pattern : Str) (i : Int) (hm : pattern ≠ []) (_h0 : 0 ≤ i)
    (h1 : i + 1 ≤ text.length) :
    (Suf text pattern pattern.length (i + 1) →
      occList text pattern (i + 1 - pattern.length) =
        occList text pattern (i - pattern.length) ++ [i + 1 - pattern.length]) ∧
    (¬ Suf text pattern pattern.length (i + 1) →
      occList text pattern (i + 1 - pattern.length) =
        occList text pattern (i - pattern.length)) := by
  have hpos : 0 < pattern.length := List.length_pos.2 hm
  unfold occList
  by_cases hlt : i + 1 - (pattern.length : Int) < 0
  · rw [intRange_empty 0 _ hlt, intRange_empty 0 (i - (pattern.length : Int)) (by omega)]
    refine ⟨?_, fun _ => rfl⟩
    rintro ⟨_, h, _⟩
    omega
  · have e : i + 1 - (pattern.length : Int) = (i - pattern.length) + 1 := by omega
    have hs := occurs_iff_suf text pattern (i + 1 - pattern.length) (by omega) (by omega)
    have e2 : i + 1 - (pattern.length : Int) + pattern.length = i + 1 := by omega
    rw [e2] at hs
    rw [e, intRange_succ 0 _ (by omega), List.filter_append, ← e]
    constructor
    · intro hS
      simp [hs.2 hS]
    · intro hS
      have : ¬ substr text (i + 1 - pattern.length) pattern.length = pattern :=
        fun h => hS (hs.1 h)
      simp [this]

theorem kmpLoop_spec (text pattern : Str) (hm : pattern ≠ []) (lps : List Int)
    (hL : LpsOk pattern lps) (fuel : Nat) :
    ∀ (i j : Int) (res : List Int) (found : Bool), KmpInv text pattern (i, j, res, found) →
      (2 * ((text.length : Int) - i) + j).toNat ≤ fuel →
      (kmpLoop text pattern lps text.length pattern.length fuel (i, j, res, found)).1 =
          occList text pattern ((text.length : Int) - pattern.length) ∧
        ((kmpLoop text pattern lps text.length pattern.length fuel (i, j, res, found)).2 = true ↔
          occList text pattern ((text.length : Int) - pattern.length) ≠ []) := by
  have hpos : 0 < pattern.length := List.length_pos.2 hm
  induction fuel with
  | zero =>
    intro i j res found hI hf
    obtain ⟨h1, h2, h3, h4, h5, h6⟩ := hI
    simp only at h1 h2 h3 h4 h5 h6
    have := h3.1
    have hi : i = text.length := by omega
    subst hi
    simp only [kmpLoop]
    exact ⟨h5, by rw [h6, h5]⟩
  | succ fuel ih =>
    intro i j res found hI hf
    obtain ⟨h1, h2, h3, h4, h5, h6⟩ := hI
    simp only at h1 h2 h3 h4 h5 h6
    have hj0 := h3.1
    have hji := h3.2.1
    by_cases hi : i < text.length
    · by_cases hc : charAt text i = charAt pattern j
      · have hS1 := suf_extend text pattern j i h3 hc
        have hne : ∀ k : Int, j + 1 < k → k - 1 < pattern.length →
            ¬ Suf text pattern k (i + 1) :=
          fun k hk hl => noExt_match text pattern pattern.length i j hj0 h4 k hk hl
        have hN1 : NoExt text pattern pattern.length (i + 1) (j + 1) :=
          fun k hk hl hS => absurd hS (hne k hk (by omega))
        have hstep := occList_step text pattern i hm (by omega) (by omega)
        by_cases hfull : j + 1 = pattern.length
        · have e : kmpLoop text pattern lps text.length pattern.length (fuel + 1)
              (i, j, res, found) =
              kmpLoop text pattern lps text.length pattern.length fuel
                (i + 1, vecAt lps (j + 1 - 1), res ++ [i + 1 - (j + 1)], true) := by
            simp only [kmpLoop, if_pos hi, if_pos hc, if_pos hfull]
          rw [e]
          have hb := hL.2 (j + 1) (by omega) (by omega)
          have hb0 := hb.1.1
          have hb1 := hb.2.1
          rw [hfull] at hS1
          apply ih _ _ _ _ _ (by omega)
          refine ⟨by simp only; omega, by simp only; omega, ?_, ?_, ?_, ?_⟩
          · exact suf_trans text pattern _ _ _ hS1 (by rw [← hfull]; exact hb.1)
          · intro k hk hl hSk
            exfalso
            have hbd := suf_border text pattern k pattern.length (i + 1) hSk hS1 (by omega)
            rw [← hfull] at hbd
            have := hb.2.2 k hbd (by omega)
            simp only at hk
            omega
          · simp only
            rw [hstep.1 hS1, ← h5, hfull]
          · simp
        · have hnf : ¬ Suf text pattern pattern.length (i + 1) :=
            hne pattern.length (by omega) (by omega)
          have hstep := hstep.2 hnf
          rw [← h5] at hstep
          by_cases hd : i + 1 < text.length ∧ charAt text (i + 1) ≠ charAt pattern (j + 1)
          · have e : kmpLoop text pattern lps text.length pattern.length (fuel + 1)
                (i, j, res, found) =
                kmpLoop text pattern lps text.length pattern.length fuel
                  (i + 1, vecAt lps (j + 1 - 1), res, found) := by
              simp only [kmpLoop, if_pos hi, if_pos hc, if_neg hfull, if_pos hd]
              rw [if_pos (by omega)]
            rw [e]
            have hb := hL.2 (j + 1) (by omega) (by omega)
            obtain ⟨g1, g2⟩ := noExt_fail text pattern pattern.length (i + 1) (j + 1) _
              hS1 hN1 hd.2 hb
            have hb0 := g1.1
            have hb1 := hb.2.1
            apply ih _ _ _ _ _ (by omega)
            exact ⟨by simp only; omega, by simp only; omega, g1, g2, hstep.symm, h6⟩
          · have e : kmpLoop text pattern lps text.length pattern.length (fuel + 1)
                (i, j, res, found) =
                kmpLoop text pattern lps text.length pattern.length fuel
                  (i + 1, j + 1, res, found) := by
              simp only [kmpLoop, if_pos hi, if_pos hc, if_neg hfull, if_neg hd]
            rw [e]
            apply ih _ _ _ _ _ (by omega)
            exact ⟨by simp only; omega, by simp only; omega, hS1, hN1, hstep.symm, h6⟩
      · have hjm : ¬ j = pattern.length := by omega
        have hd : i < text.length ∧ charAt text i ≠ charAt pattern j := ⟨hi, hc⟩
        by_cases hj : j ≠ 0
        · have e : kmpLoop text pattern lps text.length pattern.length (fuel + 1)
              (i, j, res, found) =
              kmpLoop text pattern lps text.length pattern.length fuel
                (i, vecAt lps (j - 1), res, found) := by
            simp only [kmpLoop, if_pos hi, if_neg hc, if_neg hjm, if_pos hd, if_pos hj]
          rw [e]
          have hb := hL.2 j (by omega) (by omega)
          obtain ⟨g1, g2⟩ := noExt_fail text pattern pattern.length i j _ h3 h4 hc hb
          have hb0 := g1.1
          have hb1 := hb.2.1
          apply ih _ _ _ _ _ (by omega)
          exact ⟨h1, by simp only; omega, g1, g2, h5, h6⟩
        · have hj0' : j = 0 := by
            by_contra hcon
            exact hj hcon
          subst hj0'
          have e : kmpLoop text pattern lps text.length pattern.length (fuel + 1)
              (i, 0, res, found) =
              kmpLoop text pattern lps text.length pattern.length fuel
                (i + 1, 0, res, found) := by
            simp only [kmpLoop, if_pos hi, if_neg hc, if_neg hjm, if_pos hd]
            simp
          rw [e]
          have hne : ∀ k : Int, 0 < k → k - 1 < pattern.length →
              ¬ Suf text pattern k (i + 1) :=
            fun k hk hl => noExt_zero text pattern pattern.length i h4 hc k hk hl
          have hstep := (occList_step text pattern i hm (by omega) (by omega)).2
            (hne pattern.length (by omega) (by omega))
          rw [← h5] at hstep
          apply ih _ _ _ _ _ (by omega)
          refine ⟨by simp only; omega, by simp only; omega,
            suf_zero text pattern (i + 1) (by omega), ?_, hstep.symm, h6⟩
          intro k hk hl hS
          exact absurd hS (hne k hk (by omega))
    · have e : kmpLoop text pattern lps text.length pattern.length (fuel + 1)
          (i, j, res, found) = (res, found) := by
        simp only [kmpLoop, if_neg hi]
      rw [e]
      have hi' : i = text.length := by omega
      subst hi'
      exact ⟨h5, by simp only; rw [h6, h5]⟩

/-- The function `KMPsearch` prints the occurrences in ascending order. -/
theorem KMPsearch_spec (text pattern : Str) (hm : pattern ≠ []) :
    (KMPsearch text pattern).1 = occList text pattern ((text.length : Int) - pattern.length) ∧
    ((KMPsearch text pattern).2 = true ↔
      occList text pattern ((text.length : Int) - pattern.length) ≠ []) := by
  have hpos : 0 < pattern.length := List.length_pos.2 hm
  unfold KMPsearch
  apply kmpLoop_spec text pattern hm _ (computeLPS_spec pattern hm) _ 0 0 [] false _
    (by omega)
  refine ⟨by simp, by simp only; omega, suf_zero text pattern 0 (le_refl _), ?_, ?_, by simp⟩
  · intro k hk _ hS
    have := hS.2.1
    simp only at hk
    omega
  · simp only
    unfold occList
    rw [intRange_empty _ _ (by omega)]
    rfl

theorem naiveInner_spec (text pattern : Str) (i m : Int) (fuel : Nat) :
    ∀ j : Int,
      j ≤ naiveInner text pattern i m fuel j ∧
      naiveInner text pattern i m fuel j ≤ j + fuel ∧
      (∀ x : Int, j ≤ x → x < naiveInner text pattern i m fuel j →
        x < m ∧ charAt text (i + x) = charAt pattern x) ∧
      (naiveInner text pattern i m fuel j < j + fuel →
        ¬ (naiveInner text pattern i m fuel j < m ∧
          charAt text (i + naiveInner text pattern i m fuel j) =
            charAt pattern (naiveInner text pattern i m fuel j))) := by
  induction fuel with
  | zero =>
    intro j
    simp only [naiveInner]
    refine ⟨le_refl _, by simp, ?_, by simp⟩
    intro x h1 h2
    omega
  | succ fuel ih =>
    intro j
    by_cases hc : j < m ∧ charAt text (i + j) = charAt pattern j
    · have e : naiveInner text pattern i m (fuel + 1) j =
          naiveInner text pattern i m fuel (j + 1) := by
        simp only [naiveInner, if_pos hc]
      rw [e]
      obtain ⟨a, b, c, d⟩ := ih (j + 1)
      refine ⟨by omega, by push_cast; omega, ?_, ?_⟩
      · intro x h1 h2
        by_cases hx : x = j
        · subst hx; exact hc
        · exact c x (by omega) h2
      · intro hlt
        exact d (by push_cast at hlt; omega)
    · have e : naiveInner text pattern i m (fuel + 1) j = j := by
        simp only [naiveInner, if_neg hc]
      rw [e]
      refine ⟨le_refl _, by omega, ?_, fun _ => hc⟩
      intro x h1 h2
      omega

/-- The inner loop of `naiveSearch` ends with `j = m` exactly at an occurrence. -/
theorem naiveInner_full (text pattern : Str) (i : Int) (h0 : 0 ≤ i)
    (h1 : i + pattern.length ≤ text.length) :
    naiveInner text pattern i pattern.length pattern.length 0 = pattern.length ↔
      substr text i pattern.length = pattern := by
  obtain ⟨a, b, c, d⟩ := naiveInner_spec text pattern i pattern.length pattern.length 0
  constructor
  · intro h
    rw [h] at c
    have := substr_eq_of_bytes text pattern i 0 pattern.length h0 (le_refl _) h1 (by omega)
      (by
        intro k hk
        have := (c k (by omega) hk).2
        rw [this]
        congr 1
        omega)
    rw [substr_full] at this
    exact this
  · intro h
    by_contra hne
    have hlt : naiveInner text pattern i pattern.length pattern.length 0 <
        (pattern.length : Int) := by omega
    apply d (by omega)
    refine ⟨hlt, ?_⟩
    have h' : substr text i pattern.length = substr pattern 0 pattern.length := by
      rw [substr_full]; exact h
    have := bytes_of_substr_eq text pattern i 0 pattern.length h0 (le_refl _) h1 (by omega)
      h' (naiveInner text pattern i pattern.length pattern.length 0).toNat (by omega)
    have e1 : (((naiveInner text pattern i pattern.length pattern.length 0).toNat : Nat) : Int)
        = naiveInner text pattern i pattern.length pattern.length 0 := by omega
    rw [e1] at this
    rw [this]
    congr 1
    omega

theorem naiveFold_spec (text pattern : Str) (l : List Int) :
    ∀ st : List Int × Bool,
      (∀ i ∈ l, 0 ≤ i ∧ i + pattern.length ≤ text.length) →
      (l.foldl (naiveStep text pattern) st).1 =
          st.1 ++ l.filter (fun s => decide (substr text s pattern.length = pattern)) ∧
        ((l.foldl (naiveStep text pattern) st).2 = true ↔
          (st.2 = true ∨
            l.filter (fun s => decide (substr text s pattern.length = pattern)) ≠ [])) := by
  induction l with
  | nil => intro st _; simp
  | cons x xs ih =>
    intro st hl
    obtain ⟨x0, x1⟩ := hl x (List.mem_cons_self _ _)
    have hfull := naiveInner_full text pattern x x0 x1
    obtain ⟨g1, g2⟩ := ih (naiveStep text pattern st x)
      (fun i hi => hl i (List.mem_cons_of_mem _ hi))
    rw [List.foldl_cons, g1, g2]
    by_cases hocc : substr text x pattern.length = pattern
    · have e : naiveStep text pattern st x = (st.1 ++ [x], true) := by
        simp only [naiveStep, if_pos (hfull.2 hocc)]
      rw [e]
      simp [hocc]
    · have e : naiveStep text pattern st x = st := by
        simp only [naiveStep, if_neg (fun h => hocc (hfull.1 h))]
      rw [e]
      simp [hocc]

/-- The function `naiveSearch` prints the occurrences in ascending order. -/
theorem naiveSearch_spec (text pattern : Str) :
    (naiveSearch text pattern).1 =
        occList text pattern ((text.length : Int) - pattern.length) ∧
    ((naiveSearch text pattern).2 = true ↔
      occList text pattern ((text.length : Int) - pattern.length) ≠ []) := by
  obtain ⟨g1, g2⟩ := naiveFold_spec text pattern
    (intRange 0 ((text.length : Int) - pattern.length)) ([], false)
    (by
      intro i hi
      rw [mem_intRange] at hi
      omega)
  unfold naiveSearch occList
  simp only [List.nil_append] at g1
  refine ⟨g1, ?_⟩
  rw [g2]
  simp

theorem mem_occList (text pattern : Str) (i : Int) :
    i ∈ occList text pattern ((text.length : Int) - pattern.length) ↔
      OccursAt text pattern i := by
  unfold occList OccursAt
  rw [List.mem_filter, mem_intRange]
  simp only [decide_eq_true_eq]
  constructor
  · rintro ⟨⟨a, b⟩, c⟩
    exact ⟨a, by omega, c⟩
  · rintro ⟨a, b, c⟩
    exact ⟨⟨a, by omega⟩, c⟩

/-- C23: for every text and every non-empty pattern `KMPsearch` prints the same indices in
the same order as `naiveSearch` and ends with the same `found`; the indices are, in
ascending order, exactly the `i` with `0 ≤ i ≤ n - m` and `text[i .. i+m) = pattern`;
`Pattern not found` is printed exactly when there is no such `i`; and entry `q - 1` of
`computeLPS` is the length of the longest proper prefix of `pattern[0 .. q)` that is also
its suffix. -/
theorem KMPsearch_eq_naiveSearch (text pattern : Str) (hm : pattern ≠ []) :
    KMPsearch text pattern = naiveSearch text pattern ∧
    (naiveSearch text pattern).1 =
      (intRange 0 ((text.length : Int) - pattern.length)).filter
        (fun i => decide (substr text i pattern.length = pattern)) ∧
    (∀ i : Int, i ∈ (KMPsearch text pattern).1 ↔
      0 ≤ i ∧ i + pattern.length ≤ text.length ∧ substr text i pattern.length = pattern) ∧
    (KMPsearch text pattern).1.Pairwise (· < ·) ∧
    ((KMPsearch text pattern).2 = false ↔
      ¬ ∃ i : Int, 0 ≤ i ∧ i + pattern.length ≤ text.length ∧
        substr text i pattern.length = pattern) ∧
    (∀ q : Int, 1 ≤ q → q ≤ pattern.length →
      IsLps pattern q (vecAt (computeLPS pattern) (q - 1))) := by
  obtain ⟨k1, k2⟩ := KMPsearch_spec text pattern hm
  obtain ⟨n1, n2⟩ := naiveSearch_spec text pattern
  refine ⟨?_, n1, ?_, ?_, ?_, (computeLPS_spec pattern hm).2⟩
  · apply Prod.ext
    · rw [k1, n1]
    · rw [Bool.eq_iff_iff, k2, n2]
  · intro i
    rw [k1]
    exact mem_occList text pattern i
  · rw [k1]
    exact (intRange_pairwise 0 _).sublist (List.filter_sublist _)
  · rw [← Bool.not_eq_true, k2, not_not]
    constructor
    · intro h
      rintro ⟨i, hi⟩
      have := (mem_occList text pattern i).2 hi
      rw [h] at this
      simp at this
    · intro h
      apply List.eq_nil_iff_forall_not_mem.2
      intro i hi
      exact h ⟨i, (mem_occList text pattern i).1 hi⟩

theorem KMPsearch_eq_naiveSearch_witness :
    ([97, 98] : Str) ≠ [] ∧
      KMPsearch [97, 98, 97, 98, 99] [97, 98] = naiveSearch [97, 98, 97, 98, 99] [97, 98] :=
  ⟨by decide, (KMPsearch_eq_naiveSearch [97, 98, 97, 98, 99] [97, 98] (by decide)).1⟩

theorem tmod101 (a : Int) :
    Int.tmod a 101 ≡ a [ZMOD 101] ∧ -101 < Int.tmod a 101 ∧ Int.tmod a 101 < 101 ∧
      (0 ≤ a → 0 ≤ Int.tmod a 101) := by
  have hd := Int.tmod_def a 101
  refine ⟨?_, ?_, Int.tmod_lt_of_pos a (by decide), fun h => Int.tmod_nonneg _ h⟩
  · unfold Int.ModEq
    rw [hd]
    omega
  · by_cases ha : 0 ≤ a
    · have := Int.tmod_nonneg 101 ha
      omega
    · have h1 : a.tdiv 101 = -((-a).tdiv 101) := by
        rw [← Int.neg_tdiv, neg_neg]
      have h2 : (-a).tdiv 101 = (-a) / 101 := Int.tdiv_eq_ediv (by omega) (by decide)
      rw [hd, h1, h2]
      omega

theorem charInt_bounds (sc : Bool) (b : Byte) : -128 ≤ charInt sc b ∧ charInt sc b ≤ 255 := by
  have := b.isLt
  unfold charInt
  split <;> omega

theorem rkSum_snoc (sc : Bool) (l : Str) (c : Byte) :
    rkSum sc (l ++ [c]) = 256 * rkSum sc l + charInt sc c := by
  simp [rkSum, List.foldl_append]

theorem rkHash_snoc (sc : Bool) (l : Str) (c : Byte) :
    rkHash sc (l ++ [c]) = Int.tmod (256 * rkHash sc l + charInt sc c) 101 := by
  simp [rkHash, List.foldl_append]

theorem rkSum_cons (sc : Bool) (c : Byte) (l : Str) :
    rkSum sc (c :: l) = charInt sc c * 256 ^ l.length + rkSum sc l := by
  induction l using List.reverseRecOn with
  | nil => simp [rkSum]
  | append_singleton l x ih =>
    rw [← List.cons_append, rkSum_snoc, ih, rkSum_snoc]
    simp only [List.length_append, List.length_singleton, pow_succ]
    ring

theorem rkHash_modEq (sc : Bool) (l : Str) : rkHash sc l ≡ rkSum sc l [ZMOD 101] := by
  induction l using List.reverseRecOn with
  | nil => rfl
  | append_singleton l x ih =>
    rw [rkSum_snoc, rkHash_snoc]
    exact (tmod101 _).1.trans ((ih.mul_left 256).add_right _)

theorem rkHash_bounds (sc : Bool) (l : Str) : -101 < rkHash sc l ∧ rkHash sc l < 101 := by
  induction l using List.reverseRecOn with
  | nil => simp [rkHash]
  | append_singleton l x _ =>
    rw [rkHash_snoc]
    exact ⟨(tmod101 _).2.1, (tmod101 _).2.2.1⟩

theorem rkHash_nonneg (sc : Bool) (l : Str) (h : ∀ b ∈ l, 0 ≤ charInt sc b) :
    0 ≤ rkHash sc l := by
  induction l using List.reverseRecOn with
  | nil => simp [rkHash]
  | append_singleton l x ih =>
    rw [rkHash_snoc]
    have h1 := ih (fun b hb => h b (List.mem_append_left _ hb))
    have h2 := h x (List.mem_append_right _ (List.mem_singleton_self _))
    exact (tmod101 _).2.2.2 (by omega)

/-- The factor `h` of `rabinKarpSearch` is `256^(m-1)` modulo `101`. -/
theorem rkH_modEq (m : Nat) (hm : 1 ≤ m) : rkH m ≡ 256 ^ (m - 1) [ZMOD 101] := by
  unfold rkH
  have e : ((m : Int) - 2) = (((m - 1 : Nat) : Int) - 1) := by omega
  rw [e]
  have := intRange_foldl_inv (fun (h : Int) (_ : Int) => Int.tmod (h * 256) 101)
    (fun c st => st ≡ 256 ^ c.toNat [ZMOD 101]) (m - 1) 1 (by simp)
    (fun c st c0 _ hP => by
      have e2 : (c + 1).toNat = c.toNat + 1 := by omega
      show Int.tmod (st * 256) 101 ≡ 256 ^ (c + 1).toNat [ZMOD 101]
      rw [e2, pow_succ]
      exact (tmod101 _).1.trans (hP.mul_right 256))
  simpa using this

theorem intRange_foldlM_inv {σ : Type} (f : σ → Int → Option σ) (P : Int → σ → Prop)
    (n : Nat) (init : σ) (h0 : P 0 init)
    (hstep : ∀ (c : Int) (st : σ), 0 ≤ c → c < n → P c st →
      ∃ st', f st c = some st' ∧ P (c + 1) st') :
    ∃ st', (intRange 0 ((n : Int) - 1)).foldlM f init = some st' ∧ P n st' := by
  unfold intRange
  have e : ((n : Int) - 1 + 1 - 0).toNat = n := by omega
  rw [e]
  clear e
  induction n with
  | zero => exact ⟨init, rfl, by simpa using h0⟩
  | succ k ih =>
    obtain ⟨st1, e1, p1⟩ := ih (fun c st c0 c1 hP => hstep c st c0 (by push_cast; omega) hP)
    obtain ⟨st2, e2, p2⟩ := hstep (k : Int) st1 (by omega) (by push_cast; omega) p1
    refine ⟨st2, ?_, by simpa using p2⟩
    rw [List.range_succ, List.map_append, List.foldlM_append, e1]
    simp only [List.map_cons, List.map_nil, zero_add, Option.bind_eq_bind, Option.some_bind,
      List.foldlM_cons, List.foldlM_nil]
    rw [e2]
    rfl

theorem readAt_inBounds (s : Str) (i : Int) (h0 : 0 ≤ i) (h1 : i < s.length) :
    readAt s i = some (charAt s i) := by
  unfold readAt
  rw [if_pos ⟨h0, le_of_lt h1⟩]

theorem readAt_upTo (s : Str) (i : Int) (h0 : 0 ≤ i) (h1 : i ≤ s.length) :
    readAt s i = some (charAt s i) := by
  unfold readAt
  rw [if_pos ⟨h0, h1⟩]

theorem take_succ_charAt (s : Str) (c : Int) (h0 : 0 ≤ c) (h1 : c < s.length) :
    s.take (c + 1).toNat = s.take c.toNat ++ [charAt s c] := by
  have e : (c + 1).toNat = c.toNat + 1 := by omega
  rw [e, List.take_succ, charAt_of_inBounds s c h0 h1]
  rfl

/-- The first loop over the bytes computes the hash of the pattern and of the first
window without leaving the bounds when the pattern is not longer than the text. -/
theorem rkInit_spec (sc : Bool) (text pattern : Str) (hmn : pattern.length ≤ text.length) :
    (intRange 0 ((pattern.length : Int) - 1)).foldlM (rkInit sc text pattern) (0, 0) =
      some (rkHash sc pattern, rkHash sc (substr text 0 pattern.length)) := by
  obtain ⟨st, e, hP⟩ := intRange_foldlM_inv (rkInit sc text pattern)
    (fun c st => st = (rkHash sc (pattern.take c.toNat), rkHash sc (text.take c.toNat)))
    pattern.length (0, 0) (by simp [rkHash])
    (fun c st c0 c1 hP => by
      refine ⟨_, ?_, rfl⟩
      unfold rkInit
      rw [readAt_inBounds pattern c c0 c1, readAt_inBounds text c c0 (by omega)]
      simp only [Option.some_bind]
      rw [take_succ_charAt pattern c c0 c1, take_succ_charAt text c c0 (by omega),
        rkHash_snoc, rkHash_snoc, hP])
  rw [e, hP]
  simp [substr]

theorem substr_head (s : Str) (i m : Int) (h0 : 0 ≤ i) (hm : 1 ≤ m) (h1 : i < s.length) :
    substr s i m = charAt s i :: substr s (i + 1) (m - 1) := by
  unfold substr
  have hlt : i.toNat < s.length := by omega
  have e1 : m.toNat = (m - 1).toNat + 1 := by omega
  have e2 : (i + 1).toNat = i.toNat + 1 := by omega
  have hc : charAt s i = s[i.toNat] := by
    have := charAt_of_inBounds s i h0 h1
    rw [List.getElem?_eq_getElem hlt] at this
    exact (Option.some.inj this).symm
  rw [List.drop_eq_getElem_cons hlt, e1, List.take_succ_cons, e2, hc]

theorem substr_last (s : Str) (i m : Int) (h0 : 0 ≤ i) (hm : 0 ≤ m)
    (h1 : i + m < s.length) :
    substr s i (m + 1) = substr s i m ++ [charAt s (i + m)] := by
  unfold substr
  have e1 : (m + 1).toNat = m.toNat + 1 := by omega
  rw [e1, List.take_succ, List.getElem?_drop]
  have e2 : i.toNat + m.toNat = (i + m).toNat := by omega
  rw [e2, charAt_of_inBounds s (i + m) (by omega) h1]
  rfl

/-- The exact hash of the next window from the hash of the current one. -/
theorem rkSum_shift (sc : Bool) (text : Str) (i m : Int) (h0 : 0 ≤ i) (hm : 1 ≤ m)
    (h1 : i + m < text.length) :
    rkSum sc (substr text (i + 1) m) =
      256 * (rkSum sc (substr text i m) - charInt sc (charAt text i) * 256 ^ (m - 1).toNat) +
        charInt sc (charAt text (i + m)) := by
  have e1 := substr_head text i m h0 hm (by omega)
  have e2 := substr_last text (i + 1) (m - 1) (by omega) (by omega) (by omega)
  have e3 : m - 1 + 1 = m := by omega
  have e4 : i + 1 + (m - 1) = i + m := by omega
  rw [e3, e4] at e2
  have hl : ((substr text (i + 1) (m - 1)).length : Int) = m - 1 :=
    length_substr text (i + 1) (m - 1) (by omega) (by omega) (by omega)
  have hl' : (substr text (i + 1) (m - 1)).length = (m - 1).toNat := by omega
  rw [e1, e2, rkSum_snoc, rkSum_cons, hl']
  ring

/-- The verification loop compares the window with the pattern byte by byte and stays in
bounds. -/
theorem rkVerify_spec (text pattern : Str) (i : Int) (js : List Int)
    (hb : ∀ j ∈ js, 0 ≤ j ∧ j < pattern.length ∧ 0 ≤ i + j ∧ i + j < text.length) :
    ∃ r : Bool, rkVerify text pattern i js = some r ∧
      (r = true ↔ ∀ j ∈ js, charAt text (i + j) = charAt pattern j) := by
  induction js with
  | nil => exact ⟨true, rfl, by simp⟩
  | cons j js ih =>
    obtain ⟨j0, j1, j2, j3⟩ := hb j (List.mem_cons_self _ _)
    obtain ⟨r, hr, hrs⟩ := ih (fun x hx => hb x (List.mem_cons_of_mem _ hx))
    by_cases hc : charAt text (i + j) = charAt pattern j
    · refine ⟨r, ?_, ?_⟩
      · simp only [rkVerify, readAt_inBounds text (i + j) j2 j3,
          readAt_inBounds pattern j j0 j1, Option.some_bind]
        rw [if_neg (not_not.2 hc)]
        exact hr
      · rw [hrs]
        simp [hc]
    · refine ⟨false, ?_, ?_⟩
      · simp only [rkVerify, readAt_inBounds text (i + j) j2 j3,
          readAt_inBounds pattern j j0 j1, Option.some_bind]
        rw [if_pos hc]
      · simp [hc]

theorem rkVerify_window (text pattern : Str) (i : Int) (h0 : 0 ≤ i)
    (h1 : i + pattern.length ≤ text.length) :
    ∃ r : Bool, rkVerify text pattern i (intRange 0 ((pattern.length : Int) - 1)) = some r ∧
      (r = true ↔ substr text i pattern.length = pattern) := by
  obtain ⟨r, hr, hrs⟩ := rkVerify_spec text pattern i (intRange 0 ((pattern.length : Int) - 1))
    (by
      intro j hj
      rw [mem_intRange] at hj
      omega)
  refine ⟨r, hr, ?_⟩
  rw [hrs, occurs_iff_suf text pattern i h0 h1]
  constructor
  · intro h
    refine ⟨by omega, by omega, ?_⟩
    intro x x0 x1
    have := h x ((mem_intRange _ _ _).2 ⟨x0, by omega⟩)
    have e : i + (pattern.length : Int) - pattern.length + x = i + x := by omega
    rw [e]
    exact this
  · rintro ⟨_, _, h⟩ j hj
    rw [mem_intRange] at hj
    have := h j hj.1 (by omega)
    have e : i + (pattern.length : Int) - pattern.length + j = i + j := by omega
    rw [e] at this
    exact this

theorem foldlM_none {σ α : Type} (f : σ → α → Option σ) (l : List α) (x : α) (hx : x ∈ l)
    (hf : ∀ st, f st x = none) : ∀ init : σ, l.foldlM f init = none := by
  induction l with
  | nil => simp at hx
  | cons y ys ih =>
    intro init
    rw [List.foldlM_cons]
    rcases List.mem_cons.1 hx with g | g
    · subst g
      rw [hf init]
      rfl
    · rcases hfy : f init y with _ | st
      · rfl
      · exact ih g st

/-- A pattern at least two bytes longer than the text makes the hashing loop read `text`
past its terminator. -/
theorem rabinKarp_reads_past_text (sc : Bool) (text pattern : Str)
    (h : text.length + 1 < pattern.length) : rabinKarpSearch sc text pattern = none := by
  unfold rabinKarpSearch
  simp only []
  rw [foldlM_none (rkInit sc text pattern) _ ((text.length : Int) + 1)
    ((mem_intRange _ _ _).2 ⟨by omega, by omega⟩) (by
      intro st
      unfold rkInit readAt
      rw [if_pos ⟨by omega, by omega⟩, if_neg (by omega)]
      rfl)]
  rfl

/-- A pattern one byte longer than the text makes the hashing loop read the terminator of
`text`; the main loop is not entered and nothing is printed, as in `naiveSearch`. -/
theorem rabinKarp_one_longer (sc : Bool) (text pattern : Str)
    (h : pattern.length = text.length + 1) :
    rabinKarpSearch sc text pattern = some ([], false) ∧
      naiveSearch text pattern = ([], false) := by
  obtain ⟨pt, e, _⟩ := intRange_foldlM_inv (rkInit sc text pattern) (fun _ _ => True)
    pattern.length (0, 0) trivial
    (fun c st c0 c1 _ => by
      unfold rkInit
      rw [readAt_inBounds pattern c c0 c1, readAt_upTo text c c0 (by omega)]
      exact ⟨_, rfl, trivial⟩)
  have hr : intRange 0 ((text.length : Int) - pattern.length) = [] :=
    intRange_empty 0 _ (by omega)
  constructor
  · unfold rabinKarpSearch
    simp only []
    rw [e, hr]
    rfl
  · unfold naiveSearch
    simp only []
    rw [hr]
    rfl

/-- Where the window equals the pattern the rolling value equals the pattern hash, if no
byte of the pattern is negative as a `char`. -/
theorem tInv_eq (sc : Bool) (text pattern : Str) (hnn : ∀ b ∈ pattern, 0 ≤ charInt sc b)
    (c t : Int) (c0 : 0 ≤ c) (hT : TInv sc text pattern c t)
    (hocc : substr text c pattern.length = pattern) : rkHash sc pattern = t := by
  obtain ⟨h1, h2, h3⟩ := hT
  by_cases hc : c = 0
  · subst hc
    rw [h2 rfl, hocc]
  · have hp0 := rkHash_nonneg sc pattern hnn
    have hp1 := (rkHash_bounds sc pattern).2
    obtain ⟨t0, t1⟩ := h3 (by omega)
    rw [hocc] at h1
    have := (rkHash_modEq sc pattern).trans h1.symm
    unfold Int.ModEq at this
    omega

/-- One iteration of the main loop of `rabinKarpSearch` on an in-bounds window: it prints
the index exactly at an occurrence and rolls the hash to the next window. -/
theorem rkStep_spec (sc : Bool) (text pattern : Str) (hm : pattern ≠ [])
    (hnn : ∀ b ∈ pattern, 0 ≤ charInt sc b) (c : Int) (c0 : 0 ≤ c)
    (c1 : c ≤ (text.length : Int) - pattern.length) (t : Int) (res : List Int)
    (found : Bool) (hT : TInv sc text pattern c t) :
    ∃ t' : Int,
      rkStep sc text pattern text.length pattern.length (rkHash sc pattern)
          (rkH pattern.length) (t, res, found) c =
        some (t', if substr text c pattern.length = pattern then (res ++ [c], true)
          else (res, found)) ∧
      (c + 1 ≤ (text.length : Int) - pattern.length → TInv sc text pattern (c + 1) t') := by
  have hpos : 0 < pattern.length := List.length_pos.2 hm
  have hout : (if rkHash sc pattern = t then
        (rkVerify text pattern c (intRange 0 ((pattern.length : Int) - 1))).bind fun mt =>
          if mt = true then some (res ++ [c], true) else some (res, found)
      else some (res, found)) =
      some (if substr text c pattern.length = pattern then (res ++ [c], true)
        else (res, found)) := by
    by_cases hpt : rkHash sc pattern = t
    · rw [if_pos hpt]
      obtain ⟨r, hr, hrs⟩ := rkVerify_window text pattern c c0 (by omega)
      rw [hr]
      simp only [Option.some_bind]
      by_cases hocc : substr text c pattern.length = pattern
      · rw [if_pos (hrs.2 hocc), if_pos hocc]
      · rw [if_neg (fun h => hocc (hrs.1 h)), if_neg hocc]
    · rw [if_neg hpt, if_neg (fun h => hpt (tInv_eq sc text pattern hnn c t c0 hT h))]
  unfold rkStep
  simp only []
  rw [hout]
  simp only [Option.some_bind]
  by_cases hlt : c < (text.length : Int) - pattern.length
  · rw [if_pos hlt, readAt_inBounds text c c0 (by omega),
      readAt_inBounds text (c + pattern.length) (by omega) (by omega)]
    simp only [Option.some_bind]
    refine ⟨_, rfl, ?_⟩
    intro _
    have hx := tmod101 (256 * (t - charInt sc (charAt text c) * rkH pattern.length) +
      charInt sc (charAt text (c + pattern.length)))
    have hh := rkH_modEq pattern.length (by omega)
    have hsh := rkSum_shift sc text c pattern.length c0 (by omega) (by omega)
    have he : ((pattern.length : Int) - 1).toNat = pattern.length - 1 := by omega
    rw [he] at hsh
    have hcong : 256 * (t - charInt sc (charAt text c) * rkH pattern.length) +
        charInt sc (charAt text (c + pattern.length)) ≡
        rkSum sc (substr text (c + 1) pattern.length) [ZMOD 101] := by
      rw [hsh]
      exact ((hT.1.sub (hh.mul_left _)).mul_left 256).add_right _
    refine ⟨?_, by intro h; omega, ?_⟩
    · refine Int.ModEq.trans ?_ (hx.1.trans hcong)
      unfold Int.ModEq
      split <;> omega
    · intro _
      have := hx.2.1
      have := hx.2.2.1
      split <;> omega
  · rw [if_neg hlt]
    exact ⟨t, rfl, fun h => by omega⟩

/-- For a non-empty pattern that is not longer than the text and has no byte that is
negative as a `char`, `rabinKarpSearch` stays in bounds and prints what `naiveSearch`
prints. -/
theorem rabinKarp_eq_naive (sc : Bool) (text pattern : Str) (hm : pattern ≠ [])
    (hmn : pattern.length ≤ text.length) (hnn : ∀ b ∈ pattern, 0 ≤ charInt sc b) :
    rabinKarpSearch sc text pattern = some (naiveSearch text pattern) := by
  have hpos : 0 < pattern.length := List.length_pos.2 hm
  have hN : (text.length : Int) - pattern.length =
      (((text.length - pattern.length + 1 : Nat) : Int) - 1) := by omega
  obtain ⟨st, e, hP1, hP2, _⟩ := intRange_foldlM_inv
    (rkStep sc text pattern text.length pattern.length (rkHash sc pattern)
      (rkH pattern.length))
    (fun c st => st.2.1 = occList text pattern (c - 1) ∧ (st.2.2 = true ↔ st.2.1 ≠ []) ∧
      (c ≤ (text.length : Int) - pattern.length → TInv sc text pattern c st.1))
    (text.length - pattern.length + 1)
    (rkHash sc (substr text 0 pattern.length), [], false)
    (by
      refine ⟨?_, by simp, ?_⟩
      · simp only [occList]
        rw [intRange_empty 0 _ (by omega)]
        rfl
      · intro _
        exact ⟨rkHash_modEq sc _, fun _ => rfl, fun h => by omega⟩)
    (fun c st c0 c1 hP => by
      obtain ⟨p1, p2, p3⟩ := hP
      have c1' : c ≤ (text.length : Int) - pattern.length := by omega
      obtain ⟨t', e1, e2⟩ := rkStep_spec sc text pattern hm hnn c c0 c1' st.1 st.2.1 st.2.2
        (p3 c1')
      refine ⟨_, e1, ?_, ?_, e2⟩
      · have hr : intRange 0 (c + 1 - 1) = intRange 0 (c - 1) ++ [c] := by
          have := intRange_succ 0 (c - 1) (by omega)
          have e3 : c - 1 + 1 = c := by omega
          rw [e3] at this
          have e4 : c + 1 - 1 = c := by omega
          rw [e4]
          exact this
        simp only [occList] at p1 ⊢
        rw [hr, List.filter_append, ← p1]
        by_cases hocc : substr text c pattern.length = pattern
        · simp [hocc]
        · simp [hocc]
      · by_cases hocc : substr text c pattern.length = pattern
        · simp [hocc]
        · simp only [if_neg hocc]
          exact p2)
  obtain ⟨n1, n2⟩ := naiveSearch_spec text pattern
  unfold rabinKarpSearch
  simp only []
  rw [rkInit_spec sc text pattern hmn]
  simp only [Option.some_bind]
  rw [hN, e]
  simp only [Option.map_some']
  congr 1
  apply Prod.ext
  · rw [n1, hP1]
    congr 1
    push_cast
    omega
  · rw [Bool.eq_iff_iff, n2, hP2, hP1]
    have e5 : ((text.length - pattern.length + 1 : Nat) : Int) - 1 =
        (text.length : Int) - pattern.length := by omega
    rw [e5]

/-- C24: `rabinKarpSearch` does not agree with `naiveSearch` on every input.  Where plain
`char` is signed, the text `a\xFF` and the pattern `\xFF` give no index although the
pattern occurs at index 1 (the pattern hash `p` is `-1`, the rolled `t` is normalised to
`100`); a pattern at least two bytes longer than the text makes the hashing loop read
`text` past its terminator, as for the empty text and the pattern `ab`.  A pattern one
byte longer than the text reads the terminator only and nothing is printed, as in
`naiveSearch`.  For a non-empty pattern that is not longer than the text and has no byte
that is negative as a `char`, it stays in bounds and prints what `naiveSearch` prints. -/
theorem rabinKarp_diverges_from_naive :
    (rabinKarpSearch true [97, 255] [255] = some ([], false) ∧
      naiveSearch [97, 255] [255] = ([1], true)) ∧
    ((∀ sc : Bool, rabinKarpSearch sc [] [97, 98] = none) ∧
      ∀ (sc : Bool) (text pattern : Str), text.length + 1 < pattern.length →
        rabinKarpSearch sc text pattern = none) ∧
    (∀ (sc : Bool) (text pattern : Str), pattern.length = text.length + 1 →
      rabinKarpSearch sc text pattern = some (naiveSearch text pattern)) ∧
    (∀ (sc : Bool) (text pattern : Str), pattern ≠ [] → pattern.length ≤ text.length →
      (∀ b ∈ pattern, 0 ≤ charInt sc b) →
      rabinKarpSearch sc text pattern = some (naiveSearch text pattern)) :=
  ⟨⟨by decide, by decide⟩,
    ⟨fun sc => rabinKarp_reads_past_text sc [] [97, 98] (by decide),
      rabinKarp_reads_past_text⟩,
    fun sc text pattern h => by
      rw [(rabinKarp_one_longer sc text pattern h).1,
        (rabinKarp_one_longer sc text pattern h).2],
    rabinKarp_eq_naive⟩

end StringMatching
